import Mathlib

/-!
# pthrlib: verification development

Shallow embedding of the cooperative-threading core of pthrlib
(`pthr_reactor.c`, `pthr_wait_queue.c`, `pthr_mutex.c`, `pthr_rwlock.c`,
`pthr_pseudothread.c`, `pthr_stack.c`) and of the string functions and the
request reader of `pthr_cgi.c`, and theorems about them.

Conventions of the embedding

* A pseudothread (`struct pseudothread *`) is identified by a natural
  number; the null pointer is `none` of an `Option`.
* A heap object that the C code compares by address (`struct
  reactor_prepoll`, `struct reactor_timer`, a pool) carries an `addr`
  field; the allocator hands out fresh addresses from a counter.
* `abort ()`, a failing `assert` and undefined behaviour are the `none`
  result of an `Option`, or a status of their own where the state reached
  is to be kept.
* The kernel (`poll`, `gettimeofday`, the system calls behind the
  wrappers) and user callbacks are parameters of the definitions.
* The pool library (`pool.h`), the vector and the hash library belong to
  c2lib, not to this repository.  A vector is a `List`, a hash is an
  association list with at most one entry per key, and a pool is a record
  holding the clean-up functions registered on it; `delete_pool` runs
  them.
-/

/-! ## Part 1: definitions -/

/-- Identity of a pseudothread (a non-null `pseudothread` pointer). -/
abbrev pseudothread := Nat

/-- Identity of a pool (a non-null `pool` pointer). -/
abbrev pool := Nat

/-- Pool of a pseudothread, `pth_get_pool`.  Pool identities below are
drawn from a separate counter, so any fixed assignment will do. -/
def pth_get_pool (pth : pseudothread) : pool := pth

/-- One live subpool: its identity, its parent and the clean-up functions
registered on it by `pool_register_cleanup_fn`, oldest first. -/
structure pool_rec (α : Type) where
  addr : pool
  parent : pool
  cleanup_fns : List α
deriving DecidableEq, Repr

/-- Live subpools known to a module together with the allocator counter. -/
structure pool_table (α : Type) where
  live : List (pool_rec α)
  next : Nat
deriving DecidableEq, Repr

/-- Creation of a subpool of `parent`, `new_subpool`: a fresh pool with no
clean-up function. -/
def new_subpool {α : Type} (t : pool_table α) (parent : pool) : pool_table α × pool :=
  ({ live := { addr := t.next, parent := parent, cleanup_fns := [] } :: t.live,
     next := t.next + 1 }, t.next)

/-- Registration of a clean-up function on a pool,
`pool_register_cleanup_fn`. -/
def pool_register_cleanup_fn {α : Type} (t : pool_table α) (p : pool) (fn : α) :
    pool_table α :=
  { t with live := t.live.map (fun r =>
      if r.addr = p then { r with cleanup_fns := r.cleanup_fns ++ [fn] } else r) }

/-- Record of a live pool, if any. -/
def pool_lookup {α : Type} (t : pool_table α) (p : pool) : Option (pool_rec α) :=
  t.live.find? (fun r => r.addr = p)

/-- Removal of a pool from the live table, the bookkeeping half of
`delete_pool`. -/
def pool_remove {α : Type} (t : pool_table α) (p : pool) : pool_table α :=
  { t with live := t.live.filter (fun r => r.addr ≠ p) }

namespace pthr_reactor

/-- Callback and data of a prepoll handler.  `do_wake_up` is the handler
of `pthr_wait_queue.c` with the private vector of its `wake_up_info`;
every other callback is user code, named by two numbers. -/
inductive prepoll_fn where
  | do_wake_up (sleepers : List pseudothread)
  | user (fn data : Nat)
deriving DecidableEq, Repr

/-- The C `struct reactor_prepoll`; the `next` pointer is the structure
of the list, and the pool is represented by the handler itself because
`remove_prepoll` is the only clean-up function on it. -/
structure reactor_prepoll where
  addr : Nat
  fn : prepoll_fn
  fired : Int
deriving DecidableEq, Repr

/-- Prepoll part of the reactor: the list starting at `head_prepoll`, the
allocator counter, and `uninit a`, the content found in the `fired`
field of the object allocated at address `a` (`pmalloc` does not clear
memory and `reactor_register_prepoll` does not assign the field). -/
structure reactor where
  head_prepoll : List reactor_prepoll
  next_addr : Nat
  uninit : Nat → Int

/-- Registration of a prepoll handler, `reactor_register_prepoll`: the
new handler becomes the head of the list; `fired` is left as allocated. -/
def reactor_register_prepoll (r : reactor) (fn : prepoll_fn) : reactor × Nat :=
  ({ r with
      head_prepoll :=
        { addr := r.next_addr, fn := fn, fired := r.uninit r.next_addr } :: r.head_prepoll,
      next_addr := r.next_addr + 1 }, r.next_addr)

/-- Unlinking of a handler, `remove_prepoll`; `none` when the handler is
not in the list (`assert (this == handle)` fails). -/
def remove_prepoll (r : reactor) (handle : Nat) : Option reactor :=
  if r.head_prepoll.any (fun p => p.addr = handle) then
    some { r with head_prepoll := r.head_prepoll.filter (fun p => p.addr ≠ handle) }
  else none

/-- Unregistration, `reactor_unregister_prepoll`: deleting the pool of
the handler runs `remove_prepoll`. -/
def reactor_unregister_prepoll (r : reactor) (handle : Nat) : Option reactor :=
  remove_prepoll r handle

end pthr_reactor

namespace pthr_wait_queue

open pthr_reactor

/-- The C `struct wait_queue`. -/
structure wait_queue where
  sleepers : List pseudothread
deriving DecidableEq, Repr

/-- Creation of an empty wait queue, `new_wait_queue`. -/
def new_wait_queue : wait_queue := { sleepers := [] }

/-- Number of sleepers, `wq_nr_sleepers`. -/
def wq_nr_sleepers (wq : wait_queue) : Nat := wq.sleepers.length

/-- First statement of `wq_sleep_on`: the current pseudothread is pushed
at the back of the sleepers; the context switch that follows suspends
it. -/
def wq_sleep_on (wq : wait_queue) (current_pth : pseudothread) : wait_queue :=
  { sleepers := wq.sleepers ++ [current_pth] }

/-- The loop `while (n > 0)` of `wake_up`, moving the front of the
sleepers to the private vector `v`; popping from an empty vector is
undefined behaviour. -/
def pop_loop : Nat → List pseudothread → List pseudothread →
    Option (List pseudothread × List pseudothread)
  | 0, sleepers, v => some (sleepers, v)
  | _ + 1, [], _ => none
  | n + 1, pth :: sleepers, v => pop_loop n sleepers (v ++ [pth])

/-- The static `wake_up (wq, n)`: nothing happens on an empty queue;
otherwise the whole queue (`n = -1`) or its first `n` sleepers are moved
to a private vector and a `do_wake_up` prepoll handler is registered for
them. -/
def wake_up (wq : wait_queue) (n : Int) (r : reactor) : Option (wait_queue × reactor) :=
  if wq.sleepers.length = 0 then some (wq, r)
  else if n = -1 then
    some ({ sleepers := [] }, (reactor_register_prepoll r (.do_wake_up wq.sleepers)).1)
  else
    match pop_loop n.toNat wq.sleepers [] with
    | none => none
    | some (rest, v) =>
      some ({ sleepers := rest }, (reactor_register_prepoll r (.do_wake_up v)).1)

/-- Wake-up of every sleeper, `wq_wake_up`. -/
def wq_wake_up (wq : wait_queue) (r : reactor) : Option (wait_queue × reactor) :=
  wake_up wq (-1) r

/-- Wake-up of the head sleeper, `wq_wake_up_one`; aborts on an empty
queue. -/
def wq_wake_up_one (wq : wait_queue) (r : reactor) : Option (wait_queue × reactor) :=
  if wq.sleepers.length < 1 then none else wake_up wq 1 r

end pthr_wait_queue

namespace pthr_reactor

open pthr_wait_queue

/-- What an observer sees of a run: the reactor calling the callback of a
prepoll handler, the unregistration of a prepoll handler, and the switch
into a pseudothread by `_pth_switch_calling_to_thread_context`. -/
inductive event where
  | ran (addr : Nat)
  | unregistered (addr : Nat)
  | resumed (pth : pseudothread)
deriving DecidableEq, Repr

/-- Calls that user code (a prepoll callback, or a pseudothread between
two suspensions) makes on the reactor and on the wait queue. -/
inductive action where
  | register_prepoll (fn data : Nat)
  | unregister_prepoll (handle : Nat)
  | wq_sleep_on
  | wq_wake_up
  | wq_wake_up_one
deriving DecidableEq, Repr

/-- One wait queue, the prepoll part of the reactor, and the events so
far. -/
structure world where
  wq : wait_queue
  r : reactor
  trace : List event

/-- User code: what the callback `fn (data)` does when the reactor calls
it, and what a pseudothread does from the moment it is resumed until it
suspends again or exits.  Both may depend on everything that happened
before. -/
structure program where
  callback : Nat → Nat → world → List action
  thread : pseudothread → world → List action

/-- Call of `reactor_unregister_prepoll` in a world. -/
def unregister_in (w : world) (handle : Nat) : Option world :=
  match reactor_unregister_prepoll w.r handle with
  | none => none
  | some r => some { w with r := r, trace := w.trace ++ [event.unregistered handle] }

/-- Execution of the calls of user code, in order.  `current_pth` is the
pseudothread that runs, or `none` in a callback called from the reactor,
where sleeping is impossible.  `wq_sleep_on` suspends the pseudothread, so
nothing after it is executed. -/
def exec (current_pth : Option pseudothread) : List action → world → Option world
  | [], w => some w
  | action.register_prepoll fn data :: rest, w =>
    exec current_pth rest
      { w with r := (reactor_register_prepoll w.r (prepoll_fn.user fn data)).1 }
  | action.unregister_prepoll handle :: rest, w =>
    match unregister_in w handle with
    | none => none
    | some w1 => exec current_pth rest w1
  | action.wq_sleep_on :: _, w =>
    match current_pth with
    | none => none
    | some pth => some { w with wq := wq_sleep_on w.wq pth }
  | action.wq_wake_up :: rest, w =>
    match wq_wake_up w.wq w.r with
    | none => none
    | some (wq, r) => exec current_pth rest { w with wq := wq, r := r }
  | action.wq_wake_up_one :: rest, w =>
    match wq_wake_up_one w.wq w.r with
    | none => none
    | some (wq, r) => exec current_pth rest { w with wq := wq, r := r }

/-- The loop of `do_wake_up`: each pseudothread of the private vector is
switched into, and runs until it suspends or exits. -/
def do_wake_up_loop (prog : program) : List pseudothread → world → Option world
  | [], w => some w
  | pth :: rest, w =>
    let w1 : world := { w with trace := w.trace ++ [event.resumed pth] }
    match exec (some pth) (prog.thread pth w1) w1 with
    | none => none
    | some w2 => do_wake_up_loop prog rest w2

/-- The prepoll handler `do_wake_up` of `pthr_wait_queue.c`: the loop,
then the unregistration of the handler itself. -/
def do_wake_up (prog : program) (sleepers : List pseudothread) (handler : Nat) (w : world) :
    Option world :=
  match do_wake_up_loop prog sleepers w with
  | none => none
  | some w1 => unregister_in w1 handler

/-- The call `prepoll->fn (prepoll->data)`. -/
def run_callback (prog : program) (p : reactor_prepoll) (w : world) : Option world :=
  match p.fn with
  | prepoll_fn.do_wake_up sleepers => do_wake_up prog sleepers p.addr w
  | prepoll_fn.user fn data => exec none (prog.callback fn data w) w

/-- First loop over the prepoll handlers in `reactor_invoke`: every
`fired` flag is cleared. -/
def clear_fired (l : List reactor_prepoll) : List reactor_prepoll :=
  l.map (fun p => { p with fired := 0 })

/-- The search loop after the label `prepoll_again`: the first handler
whose `fired` flag is zero. -/
def first_unfired (l : List reactor_prepoll) : Option reactor_prepoll :=
  l.find? (fun p => p.fired = 0)

/-- The assignment `prepoll->fired = 1` on the handler at an address. -/
def mark_fired (l : List reactor_prepoll) (addr : Nat) : List reactor_prepoll :=
  l.map (fun p => if p.addr = addr then { p with fired := 1 } else p)

/-- Result of a loop that may not end: a final state, an abort of the
process, or the exhaustion of the step budget of the model. -/
inductive outcome (α : Type) where
  | done (a : α)
  | aborted
  | out_of_fuel

/-- The loop `prepoll_again: ... goto prepoll_again` of `reactor_invoke`,
with a budget on the number of callbacks called. -/
def prepoll_again (prog : program) : Nat → world → outcome world
  | 0, _ => outcome.out_of_fuel
  | fuel + 1, w =>
    match first_unfired w.r.head_prepoll with
    | none => outcome.done w
    | some p =>
      let w1 : world :=
        { w with r := { w.r with head_prepoll := mark_fired w.r.head_prepoll p.addr },
                 trace := w.trace ++ [event.ran p.addr] }
      match run_callback prog p w1 with
      | none => outcome.aborted
      | some w2 => prepoll_again prog fuel w2

/-- The prepoll step of `reactor_invoke`: the flags are cleared, then the
handlers are run. -/
def reactor_invoke_prepolls (prog : program) (fuel : Nat) (w : world) : outcome world :=
  prepoll_again prog fuel
    { w with r := { w.r with head_prepoll := clear_fired w.r.head_prepoll } }

end pthr_reactor

namespace pthr_reactor

/-- Pseudothreads switched into, in order, according to a list of
events. -/
def resumed_of : List event → List pseudothread
  | [] => []
  | event.resumed pth :: rest => pth :: resumed_of rest
  | _ :: rest => resumed_of rest

/-- Addresses of the prepoll list are distinct and were handed out by the
allocator. -/
structure wf_reactor (r : reactor) : Prop where
  lt : ∀ p ∈ r.head_prepoll, p.addr < r.next_addr
  nodup : (r.head_prepoll.map (fun p => p.addr)).Nodup

/-- A property of worlds that survives each elementary change made during
the prepoll step: a registration, a successful unregistration, a switch
into a pseudothread, a change of the wait queue, and the reactor marking
an unfired handler and calling it. -/
structure stable (I : world → Prop) : Prop where
  register : ∀ (w : world) (fn : prepoll_fn), I w →
    I { w with r := (reactor_register_prepoll w.r fn).1 }
  unregister : ∀ (w w1 : world) (b : Nat), I w → unregister_in w b = some w1 → I w1
  resumed : ∀ (w : world) (pth : pseudothread), I w →
    I { w with trace := w.trace ++ [event.resumed pth] }
  wq : ∀ (w : world) (q : pthr_wait_queue.wait_queue), I w → I { w with wq := q }
  ran : ∀ (w : world) (p : reactor_prepoll), I w → p ∈ w.r.head_prepoll → p.fired = 0 →
    I { w with r := { w.r with head_prepoll := mark_fired w.r.head_prepoll p.addr },
               trace := w.trace ++ [event.ran p.addr] }

/-- Facts about an address that hold throughout the prepoll step: the
list is well formed, an unregistered handler is out of the list for good,
and no call of it follows its unregistration. -/
structure scan_inv (a : Nat) (w : world) : Prop where
  wf : wf_reactor w.r
  gone : event.unregistered a ∈ w.trace →
    a < w.r.next_addr ∧ ∀ p ∈ w.r.head_prepoll, p.addr ≠ a
  after : ∀ pre post, w.trace = pre ++ event.unregistered a :: post → event.ran a ∉ post

/-- Facts about a handler that was registered when the prepoll step
started: it leaves the list only by unregistration, its flag is zero
exactly as long as it has not been called, and it is called at most
once. -/
structure handler_inv (a : Nat) (w : world) : Prop where
  lt : a < w.r.next_addr
  here : (∀ p ∈ w.r.head_prepoll, p.addr ≠ a) → event.unregistered a ∈ w.trace
  flag : ∀ p ∈ w.r.head_prepoll, p.addr = a → (p.fired = 0 ↔ w.trace.count (event.ran a) = 0)
  once : w.trace.count (event.ran a) ≤ 1

end pthr_reactor

namespace pthr_reactor

/-- Number of handlers of a list whose `fired` flag is zero. -/
def unfired_count (l : List reactor_prepoll) : Nat :=
  (l.filter (fun p => p.fired = 0)).length

/-- The loop came to its end. -/
def outcome.is_done {α : Type} : outcome α → Bool
  | outcome.done _ => true
  | _ => false

/-- The world the loop `prepoll_again` has reached after at most `k`
calls of callbacks: the loop stops there when no unfired handler is left,
and also, with the handler marked, when the callback aborts. -/
def prepoll_upto (prog : program) : Nat → world → world
  | 0, w => w
  | k + 1, w =>
    match first_unfired w.r.head_prepoll with
    | none => w
    | some p =>
      let w1 : world :=
        { w with r := { w.r with head_prepoll := mark_fired w.r.head_prepoll p.addr },
                 trace := w.trace ++ [event.ran p.addr] }
      match run_callback prog p w1 with
      | none => w1
      | some w2 => prepoll_upto prog k w2

/-- The world at the label `prepoll_again`, after the flags have been
cleared. -/
def cleared (w : world) : world :=
  { w with r := { w.r with head_prepoll := clear_fired w.r.head_prepoll } }

/-- A bound on the calls of callbacks still to come: the allocator counter
exceeds the number of unfired handlers by at least `d`. -/
def room (d : Nat) (w : world) : Prop :=
  d + unfired_count w.r.head_prepoll ≤ w.r.next_addr

/-- User code in which callback 1 registers a handler with callback 1
again and every other callback does nothing. -/
def prog_spawn : program :=
  { callback := fun fn _ _ => if fn = 1 then [action.register_prepoll 1 0] else [],
    thread := fun _ _ => [] }

/-- What the scan keeps in a run of `prog_spawn`: the head of the list is
an unfired handler with callback 1 at another address than 0, fresh memory
reads zero, and the handler at address 0 has been neither called nor
unregistered. -/
def spawning (w : world) : Prop :=
  (∃ h rest, w.r.head_prepoll = h :: rest ∧ h.fn = prepoll_fn.user 1 0 ∧ h.fired = 0 ∧
    h.addr ≠ 0) ∧
  w.r.uninit = (fun _ => 0) ∧ 0 < w.r.next_addr ∧ event.ran 0 ∉ w.trace ∧
  event.unregistered 0 ∉ w.trace

/-- User code that registers nothing and wakes nobody: every call of a
callback is an unregistration. -/
def only_unregisters (prog : program) : Prop :=
  ∀ fn data w, ∀ act ∈ prog.callback fn data w, ∃ h, act = action.unregister_prepoll h

/-- All handlers of a list are user callbacks. -/
def all_user (l : List reactor_prepoll) : Prop :=
  ∀ q ∈ l, ∃ fn data, q.fn = prepoll_fn.user fn data

end pthr_reactor

namespace pthr_reactor

/-- Scenario S5 of the specification, user code: callback 0 (handler A)
unregisters the handler at address `b` and registers callback 2 (handler
C); the callbacks 1 (handler B) and 2 do nothing. -/
def prog_S5 (b : Nat) : program :=
  { callback := fun fn _ _ =>
      if fn = 0 then [action.unregister_prepoll b, action.register_prepoll 2 0] else [],
    thread := fun _ _ => [] }

/-- Scenario S5 of the specification, initial world: on a reactor without
prepoll handlers, A (callback 0) is registered, then B (callback 1). -/
def world_S5 (next_addr : Nat) (uninit : Nat → Int) : world :=
  { wq := { sleepers := [] },
    r := (reactor_register_prepoll
           (reactor_register_prepoll
             { head_prepoll := [], next_addr := next_addr, uninit := uninit }
             (prepoll_fn.user 0 0)).1
           (prepoll_fn.user 1 0)).1,
    trace := [] }

/-- User code in which pseudothread 1 goes back to sleep on the wait
queue as soon as it is resumed, and every other pseudothread does
nothing. -/
def prog_sleeper : program :=
  { callback := fun _ _ _ => [],
    thread := fun pth _ => if pth = 1 then [action.wq_sleep_on] else [] }

end pthr_reactor

namespace pthr_reactor

/-- Number of values of an `unsigned long long`. -/
def ULL : Nat := 2 ^ 64

/-- Subtraction of two `unsigned long long` values. -/
def usub (a b : Nat) : Nat := (a + ULL - b) % ULL

/-- Addition of two `unsigned long long` values. -/
def uadd (a b : Nat) : Nat := (a + b) % ULL

/-- The C `struct reactor_timer`; `prev` and `next` are the structure of
the list, and the pool is represented by the timer itself because
`remove_timer` is the only clean-up function on it. -/
structure reactor_timer where
  addr : Nat
  delta : Nat
  fn : Nat
  data : Nat
deriving DecidableEq, Repr

/-- Timer part of the reactor: the delta queue starting at `head_timer`,
the clock `reactor_time` and the allocator counter. -/
structure timers where
  head_timer : List reactor_timer
  reactor_time : Nat
  next_addr : Nat
deriving DecidableEq, Repr

/-- The sum `reactor_time + timeout` of `reactor_set_timer`: the `int` is
converted to `unsigned long long` and the addition wraps. -/
def trigger_time (reactor_time : Nat) (timeout : Int) : Nat :=
  (((reactor_time : Int) + timeout) % (ULL : Int)).toNat

/-- The search loop of `reactor_set_timer` on a non-empty queue:
`this_time` accumulates the deltas; the timer is linked before the first
element whose time is not before the trigger time, and that element keeps
the remaining difference; otherwise the timer is linked at the end. -/
def insert_loop (timer : reactor_timer) (trigger : Nat) :
    Nat → List reactor_timer → List reactor_timer
  | this_time, [] => [{ timer with delta := usub trigger this_time }]
  | this_time0, p :: rest =>
    let this_time := uadd this_time0 p.delta
    if this_time ≥ trigger then
      { timer with delta := usub trigger (usub this_time p.delta) } ::
        { p with delta := usub this_time trigger } :: rest
    else p :: insert_loop timer trigger this_time rest

/-- Setting of a timer, `reactor_set_timer`. -/
def reactor_set_timer (t : timers) (timeout : Int) (fn data : Nat) : timers × Nat :=
  let timer : reactor_timer := { addr := t.next_addr, delta := 0, fn := fn, data := data }
  let trigger := trigger_time t.reactor_time timeout
  if t.head_timer = [] then
    ({ t with head_timer := [{ timer with delta := trigger }],
              next_addr := t.next_addr + 1 }, t.next_addr)
  else
    ({ t with head_timer := insert_loop timer trigger 0 t.head_timer,
              next_addr := t.next_addr + 1 }, t.next_addr)

/-- Unlinking of the timer at an address, `remove_timer`: its delta is
added to the delta of its successor, if any. -/
def remove_timer (addr : Nat) : List reactor_timer → List reactor_timer
  | [] => []
  | p :: rest =>
    if p.addr = addr then
      match rest with
      | [] => []
      | n :: rest1 => { n with delta := uadd n.delta p.delta } :: rest1
    else p :: remove_timer addr rest

/-- Cancellation, `reactor_unset_timer_early`: deleting the pool of the
timer runs `remove_timer`; the pool of a timer that is no longer queued
has been deleted already, and deleting it again is undefined behaviour. -/
def reactor_unset_timer_early (t : timers) (addr : Nat) : Option timers :=
  if t.head_timer.any (fun p => p.addr = addr) then
    some { t with head_timer := remove_timer addr t.head_timer }
  else none

/-- Firing of the head timer in `reactor_invoke`: the timer is removed
from the queue, then its callback is called; the result is the queue
after the removal and the timer whose callback is called. -/
def fire_head (t : timers) : Option (timers × reactor_timer) :=
  match t.head_timer with
  | [] => none
  | timer :: _ =>
    match reactor_unset_timer_early t timer.addr with
    | none => none
    | some t1 => some (t1, timer)

/-- Calls on the timer queue: setting a timer, cancelling one (early or
by deletion of its pool), the reactor firing the head timer, and the
clock refresh after the kernel poll. -/
inductive timer_op where
  | set (timeout : Int) (fn data : Nat)
  | cancel (addr : Nat)
  | fire
  | clock (now : Nat)
deriving DecidableEq, Repr

/-- What happened to timers: a timer was set at an address when the clock
read `now`, with a timeout; a timer fired; a timer was cancelled. -/
inductive timer_event where
  | set (addr : Nat) (now : Nat) (timeout : Int)
  | fired (addr : Nat)
  | cancelled (addr : Nat)
deriving DecidableEq, Repr

/-- One call on the timer queue, with the history of events, most recent
first. -/
def timer_step (t : timers) (log : List timer_event) :
    timer_op → Option (timers × List timer_event)
  | timer_op.set timeout fn data =>
    some ((reactor_set_timer t timeout fn data).1,
      timer_event.set t.next_addr t.reactor_time timeout :: log)
  | timer_op.cancel addr =>
    match reactor_unset_timer_early t addr with
    | none => none
    | some t1 => some (t1, timer_event.cancelled addr :: log)
  | timer_op.fire =>
    match fire_head t with
    | none => none
    | some (t1, timer) => some (t1, timer_event.fired timer.addr :: log)
  | timer_op.clock now => some ({ t with reactor_time := now % ULL }, log)

/-- A sequence of calls on the timer queue, from left to right. -/
def run_timers (t : timers) (log : List timer_event) :
    List timer_op → Option (timers × List timer_event)
  | [] => some (t, log)
  | o :: os =>
    match timer_step t log o with
    | none => none
    | some (t1, log1) => run_timers t1 log1 os

/-- Expiry of the timer at an address according to the history: the
clock at its registration plus its timeout, as an `unsigned long long`. -/
def expiry_of : List timer_event → Nat → Nat
  | [], _ => 0
  | timer_event.set b now timeout :: rest, a =>
    if b = a then trigger_time now timeout else expiry_of rest a
  | _ :: rest, a => expiry_of rest a

/-- The timer at an address was set at some moment of the history. -/
def was_set (log : List timer_event) (a : Nat) : Prop :=
  ∃ now timeout, timer_event.set a now timeout ∈ log

/-- Absolute expiries read off a delta queue: the running sums of the
deltas. -/
def abs_expiries : Nat → List reactor_timer → List Nat
  | _, [] => []
  | prev, p :: rest => (prev + p.delta) :: abs_expiries (prev + p.delta) rest

/-- A delta queue that represents the expiries `exp` after a predecessor
expiring at `prev`: expiries do not decrease along the queue and each
delta is the expiry of its timer minus the expiry of its predecessor (the
head of the whole queue has the predecessor 0, so its delta is its
expiry). -/
def delta_chain (exp : Nat → Nat) : Nat → List reactor_timer → Prop
  | _, [] => True
  | prev, p :: rest =>
    prev ≤ exp p.addr ∧ p.delta = exp p.addr - prev ∧ delta_chain exp (exp p.addr) rest

end pthr_reactor

namespace pthr_reactor

/-- Consistency of the timer queue with the history: addresses are
distinct and were handed out by the allocator, the queued timers are the
ones set and neither fired nor cancelled, the queue is a delta queue for
the expiries of the history, and no timer fired after its
cancellation. -/
structure timer_inv (t : timers) (log : List timer_event) : Prop where
  lt : ∀ p ∈ t.head_timer, p.addr < t.next_addr
  log_lt : ∀ a, (was_set log a ∨ timer_event.fired a ∈ log ∨ timer_event.cancelled a ∈ log) →
    a < t.next_addr
  nodup : (t.head_timer.map (fun p => p.addr)).Nodup
  mem : ∀ a, a ∈ t.head_timer.map (fun p => p.addr) ↔
    (was_set log a ∧ timer_event.fired a ∉ log ∧ timer_event.cancelled a ∉ log)
  chain : delta_chain (expiry_of log) 0 t.head_timer
  never : ∀ a pre post, log = pre ++ timer_event.cancelled a :: post →
    timer_event.fired a ∉ pre

end pthr_reactor

namespace pthr_reactor

/-- Facts about an address that was handed out earlier and is not in the
prepoll list, that is, about a handler unregistered earlier: it stays out
of the list and is never called. -/
structure dead_inv (a : Nat) (w : world) : Prop where
  lt : a < w.r.next_addr
  out : ∀ p ∈ w.r.head_prepoll, p.addr ≠ a
  never : event.ran a ∉ w.trace

end pthr_reactor

namespace pthr_mutex

open pthr_reactor pthr_wait_queue

/-- Clean-up functions that `pthr_mutex.c` registers on a subpool. -/
inductive cleanup where
  | _do_release
deriving DecidableEq, Repr

/-- The C `struct mutex`. -/
structure mutex where
  pth : Option pseudothread
  wq : wait_queue
  pool : Option pool
deriving DecidableEq, Repr

/-- A mutex together with the global state its functions touch: the pool
table and the reactor. -/
structure state where
  m : mutex
  subpools : pool_table cleanup
  r : reactor

/-- Creation of a mutex, `new_mutex`. -/
def new_mutex (subpools : pool_table cleanup) (r : reactor) : state :=
  { m := { pth := none, wq := new_wait_queue, pool := none }, subpools := subpools, r := r }

/-- Non-blocking acquisition, `mutex_try_enter`. -/
def mutex_try_enter (s : state) (current_pth : pseudothread) : Bool × state :=
  if s.m.pth = none then
    let (t1, pool) := new_subpool s.subpools (pth_get_pool current_pth)
    let t2 := pool_register_cleanup_fn t1 pool cleanup._do_release
    (true, { s with m := { s.m with pth := some current_pth, pool := some pool },
                    subpools := t2 })
  else (false, s)

/-- Outcome of one pass through the loop of a blocking acquisition. -/
inductive enter_result where
  | acquired
  | suspended
deriving DecidableEq, Repr

/-- One pass through the loop of `mutex_enter`: either the lock is
acquired and the function returns, or the pseudothread goes to sleep on
the queue of the mutex; it runs the loop again when it is resumed. -/
def mutex_enter (s : state) (current_pth : pseudothread) : enter_result × state :=
  match mutex_try_enter s current_pth with
  | (true, s1) => (.acquired, s1)
  | (false, s1) => (.suspended, { s1 with m := { s1.m with wq := wq_sleep_on s1.m.wq current_pth } })

/-- First two assignments of the static `_do_release`: the holder and the
recorded subpool are cleared. -/
def clear_holder (s : state) : state :=
  { s with m := { s.m with pth := none, pool := none } }

/-- Last statement of `_do_release`: one sleeper is woken when there is
any. -/
def wake_waiter (s : state) : Option state :=
  if wq_nr_sleepers s.m.wq > 0 then
    match wq_wake_up_one s.m.wq s.r with
    | none => none
    | some (wq, r) => some { s with m := { s.m with wq := wq }, r := r }
  else some s

/-- The static `_do_release` of `pthr_mutex.c`. -/
def _do_release (s : state) : Option state :=
  wake_waiter (clear_holder s)

/-- Run of a clean-up function of this module. -/
def run_cleanup (s : state) : cleanup → Option state
  | ._do_release => _do_release s

/-- Deletion of a live pool, `delete_pool`: the pool leaves the table and
its clean-up functions run; deleting a pool that is not live is undefined
behaviour. -/
def delete_pool (s : state) (p : pool) : Option state :=
  match pool_lookup s.subpools p with
  | none => none
  | some rec =>
    rec.cleanup_fns.foldlM run_cleanup { s with subpools := pool_remove s.subpools p }

/-- Release, `mutex_leave`: the assertion on the holder, then the
deletion of the recorded subpool. -/
def mutex_leave (s : state) (current_pth : pseudothread) : Option state :=
  if s.m.pth = some current_pth then
    match s.m.pool with
    | none => none
    | some p => delete_pool s p
  else none

end pthr_mutex

namespace pthr_mutex

/-- Exit of a pseudothread as far as the mutex is concerned: the pool of
the pseudothread is deleted, and with it every live subpool of it. -/
def pth_exit_release (s : state) (pth : pseudothread) : Option state :=
  (s.subpools.live.filter (fun rec => rec.parent = pth_get_pool pth)).foldlM
    (fun s1 rec => delete_pool s1 rec.addr) s

/-- Calls that pseudothreads make on one mutex. -/
inductive op where
  | try_enter (pth : pseudothread)
  | enter (pth : pseudothread)
  | leave (pth : pseudothread)
  | exit (pth : pseudothread)
deriving DecidableEq, Repr

/-- One call on the mutex. -/
def step (s : state) : op → Option state
  | op.try_enter f => some (mutex_try_enter s f).2
  | op.enter f => some (mutex_enter s f).2
  | op.leave f => mutex_leave s f
  | op.exit f => pth_exit_release s f

/-- A sequence of calls on the mutex, from left to right. -/
def run (s : state) : List op → Option state
  | [] => some s
  | o :: os =>
    match step s o with
    | none => none
    | some s1 => run s1 os

/-- Consistency of a mutex with the pool table: a free mutex records no
subpool and has none live; a held mutex records its one live subpool, a
subpool of the pool of the holder with the release callback as its only
clean-up function. -/
structure mutex_inv (s : state) : Prop where
  free : s.m.pth = none → s.m.pool = none ∧ s.subpools.live = []
  held : ∀ f, s.m.pth = some f → ∃ p, s.m.pool = some p ∧
    s.subpools.live =
      [{ addr := p, parent := pth_get_pool f, cleanup_fns := [cleanup._do_release] }]

end pthr_mutex

namespace pthr_rwlock

open pthr_reactor pthr_wait_queue

/-- Insertion into a c2lib hash, `hash_insert`: the value of an existing
key is replaced. -/
def hash_insert (h : List (pseudothread × pool)) (k : pseudothread) (v : pool) :
    List (pseudothread × pool) :=
  (k, v) :: h.filter (fun e => e.1 ≠ k)

/-- Look-up in a c2lib hash, `hash_get`. -/
def hash_get (h : List (pseudothread × pool)) (k : pseudothread) : Option pool :=
  (h.find? (fun e => e.1 = k)).map (fun e => e.2)

/-- Removal from a c2lib hash, `hash_erase`: the flag tells whether the
key was present. -/
def hash_erase (h : List (pseudothread × pool)) (k : pseudothread) :
    Bool × List (pseudothread × pool) :=
  (h.any (fun e => e.1 = k), h.filter (fun e => e.1 ≠ k))

/-- The C `struct cleanup_data`; the lock is the one of the state. -/
structure cleanup_data where
  pth : pseudothread
deriving DecidableEq, Repr

/-- Clean-up functions that `pthr_rwlock.c` registers on a subpool. -/
inductive cleanup where
  | _do_release (data : cleanup_data)
deriving DecidableEq, Repr

/-- The C `struct rwlock`.  The field `n` is an `int` counting the
readers inside; each of them owns a live subpool, which keeps the count
far from the limits of the type, so it is an unbounded integer here. -/
structure rwlock where
  n : Int
  writers_wq : wait_queue
  readers_wq : wait_queue
  pools : List (pseudothread × pool)
  writers_have_priority : Bool
deriving DecidableEq, Repr

/-- A lock together with the global state its functions touch: the pool
table and the reactor. -/
structure state where
  rw : rwlock
  subpools : pool_table cleanup
  r : reactor

/-- Creation of a lock, `new_rwlock`. -/
def new_rwlock (subpools : pool_table cleanup) (r : reactor) : state :=
  { rw := { n := 0, writers_wq := new_wait_queue, readers_wq := new_wait_queue,
            pools := [], writers_have_priority := true },
    subpools := subpools, r := r }

/-- Policy switch, `rwlock_writers_have_priority`. -/
def rwlock_writers_have_priority (s : state) : state :=
  { s with rw := { s.rw with writers_have_priority := true } }

/-- Policy switch, `rwlock_readers_have_priority`. -/
def rwlock_readers_have_priority (s : state) : state :=
  { s with rw := { s.rw with writers_have_priority := false } }

/-- The static `_do_enter`: a subpool of the pool of the current
pseudothread is created, saved in the hash and given the release
callback. -/
def _do_enter (s : state) (current_pth : pseudothread) : state :=
  let (t1, pool) := new_subpool s.subpools (pth_get_pool current_pth)
  let t2 := pool_register_cleanup_fn t1 pool (cleanup._do_release { pth := current_pth })
  { s with rw := { s.rw with pools := hash_insert s.rw.pools current_pth pool },
           subpools := t2 }

/-- Non-blocking acquisition for reading, `rwlock_try_enter_read`. -/
def rwlock_try_enter_read (s : state) (current_pth : pseudothread) : Bool × state :=
  if s.rw.n ≥ 0 ∧
      (s.rw.writers_have_priority = false ∨ wq_nr_sleepers s.rw.writers_wq = 0) then
    let s1 := _do_enter s current_pth
    (true, { s1 with rw := { s1.rw with n := s1.rw.n + 1 } })
  else (false, s)

/-- Non-blocking acquisition for writing, `rwlock_try_enter_write`. -/
def rwlock_try_enter_write (s : state) (current_pth : pseudothread) : Bool × state :=
  if s.rw.n = 0 then
    let s1 := _do_enter s current_pth
    (true, { s1 with rw := { s1.rw with n := -1 } })
  else (false, s)

/-- One pass through the loop of `rwlock_enter_read`: the lock is
acquired, or the pseudothread goes to sleep on the readers queue. -/
def rwlock_enter_read (s : state) (current_pth : pseudothread) : Bool × state :=
  match rwlock_try_enter_read s current_pth with
  | (true, s1) => (true, s1)
  | (false, s1) =>
    (false, { s1 with rw := { s1.rw with readers_wq := wq_sleep_on s1.rw.readers_wq current_pth } })

/-- One pass through the loop of `rwlock_enter_write`: the lock is
acquired, or the pseudothread goes to sleep on the writers queue. -/
def rwlock_enter_write (s : state) (current_pth : pseudothread) : Bool × state :=
  match rwlock_try_enter_write s current_pth with
  | (true, s1) => (true, s1)
  | (false, s1) =>
    (false, { s1 with rw := { s1.rw with writers_wq := wq_sleep_on s1.rw.writers_wq current_pth } })

/-- The call `wq_wake_up_one (rw->writers_wq)`. -/
def wake_one_writer (s : state) : Option state :=
  match wq_wake_up_one s.rw.writers_wq s.r with
  | none => none
  | some (wq, r) => some { s with rw := { s.rw with writers_wq := wq }, r := r }

/-- The call `wq_wake_up_one (rw->readers_wq)`. -/
def wake_one_reader (s : state) : Option state :=
  match wq_wake_up_one s.rw.readers_wq s.r with
  | none => none
  | some (wq, r) => some { s with rw := { s.rw with readers_wq := wq }, r := r }

/-- The static `_do_release` of `pthr_rwlock.c`. -/
def _do_release (s : state) (data : cleanup_data) : Option state :=
  if s.rw.n = 0 then none
  else
    match hash_erase s.rw.pools data.pth with
    | (false, _) => none
    | (true, h) =>
      let s1 : state := { s with rw := { s.rw with pools := h } }
      if s1.rw.n > 0 then
        let s2 : state := { s1 with rw := { s1.rw with n := s1.rw.n - 1 } }
        if s2.rw.n = 0 then
          if wq_nr_sleepers s2.rw.writers_wq > 0 then wake_one_writer s2 else some s2
        else some s2
      else
        let s2 : state := { s1 with rw := { s1.rw with n := 0 } }
        if wq_nr_sleepers s2.rw.writers_wq > 0 then wake_one_writer s2
        else if wq_nr_sleepers s2.rw.readers_wq > 0 then wake_one_reader s2
        else some s2

/-- Run of a clean-up function of this module. -/
def run_cleanup (s : state) : cleanup → Option state
  | ._do_release data => _do_release s data

/-- Deletion of a live pool, `delete_pool`: the pool leaves the table and
its clean-up functions run; deleting a pool that is not live is undefined
behaviour. -/
def delete_pool (s : state) (p : pool) : Option state :=
  match pool_lookup s.subpools p with
  | none => none
  | some rec =>
    rec.cleanup_fns.foldlM run_cleanup { s with subpools := pool_remove s.subpools p }

/-- Release, `rwlock_leave`: aborts when the current pseudothread has no
entry in the hash, otherwise deletes the subpool found there. -/
def rwlock_leave (s : state) (current_pth : pseudothread) : Option state :=
  match hash_get s.rw.pools current_pth with
  | none => none
  | some p => delete_pool s p

/-- Exit of a pseudothread as far as the lock is concerned: the pool of
the pseudothread is deleted, and with it every live subpool of it. -/
def pth_exit_release (s : state) (pth : pseudothread) : Option state :=
  (s.subpools.live.filter (fun rec => rec.parent = pth_get_pool pth)).foldlM
    (fun s1 rec => delete_pool s1 rec.addr) s

/-- Calls that pseudothreads make on one lock. -/
inductive op where
  | try_enter_read (pth : pseudothread)
  | try_enter_write (pth : pseudothread)
  | enter_read (pth : pseudothread)
  | enter_write (pth : pseudothread)
  | leave (pth : pseudothread)
  | exit (pth : pseudothread)
  | writers_have_priority
  | readers_have_priority
deriving DecidableEq, Repr

/-- Kind of access of a pseudothread inside the critical section. -/
inductive access where
  | reader
  | writer
deriving DecidableEq, Repr

/-- One call, together with the bookkeeping of who is inside the
critical section: a pseudothread is inside from the moment an acquisition
returns true to the moment it leaves or exits. -/
def step (s : state) (inside : List (pseudothread × access)) :
    op → Option (state × List (pseudothread × access))
  | .try_enter_read f =>
    let res := rwlock_try_enter_read s f
    some (res.2, if res.1 then (f, access.reader) :: inside else inside)
  | .try_enter_write f =>
    let res := rwlock_try_enter_write s f
    some (res.2, if res.1 then (f, access.writer) :: inside else inside)
  | .enter_read f =>
    let res := rwlock_enter_read s f
    some (res.2, if res.1 then (f, access.reader) :: inside else inside)
  | .enter_write f =>
    let res := rwlock_enter_write s f
    some (res.2, if res.1 then (f, access.writer) :: inside else inside)
  | .leave f =>
    match rwlock_leave s f with
    | none => none
    | some s1 => some (s1, inside.eraseP (fun e => e.1 = f))
  | .exit f =>
    match pth_exit_release s f with
    | none => none
    | some s1 => some (s1, inside.filter (fun e => e.1 ≠ f))
  | .writers_have_priority => some (rwlock_writers_have_priority s, inside)
  | .readers_have_priority => some (rwlock_readers_have_priority s, inside)

/-- A sequence of calls, from left to right. -/
def run (s : state) (inside : List (pseudothread × access)) :
    List op → Option (state × List (pseudothread × access))
  | [] => some (s, inside)
  | o :: os =>
    match step s inside o with
    | none => none
    | some (s1, inside1) => run s1 inside1 os

/-- Pseudothread that tries to acquire the lock in a call, if the call is
an acquisition. -/
def op.acquirer : op → Option pseudothread
  | .try_enter_read f => some f
  | .try_enter_write f => some f
  | .enter_read f => some f
  | .enter_write f => some f
  | _ => none

/-- Whether a call is an acquisition that is granted in a state. -/
def op.granted (s : state) : op → Bool
  | .try_enter_read f => (rwlock_try_enter_read s f).1
  | .try_enter_write f => (rwlock_try_enter_write s f).1
  | .enter_read f => (rwlock_enter_read s f).1
  | .enter_write f => (rwlock_enter_write s f).1
  | _ => false

/-- No call of the sequence grants the lock to a pseudothread that is
recorded as a holder at that moment; a holder may ask again and be
refused. -/
def no_reentry (s : state) (inside : List (pseudothread × access)) : List op → Bool
  | [] => true
  | o :: os =>
    (match o.acquirer with
     | some f => !(s.rw.pools.any (fun e => e.1 = f)) || !(o.granted s)
     | none => true) &&
    (match step s inside o with
     | none => true
     | some (s1, inside1) => no_reentry s1 inside1 os)

end pthr_rwlock

namespace pthr_rwlock

/-- Record that `_do_enter` leaves in the pool table for an entry of the
hash. -/
def entry_rec (e : pseudothread × pool) : pool_rec cleanup :=
  { addr := e.2, parent := pth_get_pool e.1,
    cleanup_fns := [cleanup._do_release { pth := e.1 }] }

/-- Consistency of a lock with the bookkeeping of who is inside the
critical section: the keys of the hash are the pseudothreads inside, each
once; the live subpools are the ones recorded in the hash; and `n` is
-1 with a single writer inside or the number of readers inside. -/
structure lock_inv (s : state) (inside : List (pseudothread × access)) : Prop where
  keys : s.rw.pools.map Prod.fst = inside.map Prod.fst
  nodup : (inside.map Prod.fst).Nodup
  live : s.subpools.live = s.rw.pools.map entry_rec
  fresh : ∀ e ∈ s.rw.pools, e.2 < s.subpools.next
  addrs : (s.rw.pools.map Prod.snd).Nodup
  count : (s.rw.n = -1 ∧ ∃ f, inside = [(f, access.writer)]) ∨
    (0 ≤ s.rw.n ∧ (inside.length : Int) = s.rw.n ∧ ∀ e ∈ inside, e.2 = access.reader)

/-- Consistency of the pool table with the hash, whatever the calls made:
every live subpool carries the release callback of the pseudothread whose
pool is its parent, the live subpools have distinct addresses below the
allocator counter, and the subpool of every entry of the hash is live. -/
structure pools_inv (s : state) : Prop where
  recs : ∀ rec ∈ s.subpools.live,
    rec.cleanup_fns = [cleanup._do_release { pth := rec.parent }]
  fresh : ∀ rec ∈ s.subpools.live, rec.addr < s.subpools.next
  addrs : (s.subpools.live.map (fun rec => rec.addr)).Nodup
  hash_live : ∀ e ∈ s.rw.pools, entry_rec e ∈ s.subpools.live

/-- Consistency of a lock with the bookkeeping of who is inside the
critical section, whatever the calls made: each acquisition inside owns
one live subpool, and `n` is -1 with a single writer inside or the number
of acquisitions inside, all of them for reading. -/
structure inside_inv (s : state) (inside : List (pseudothread × access)) : Prop where
  pools : pools_inv s
  perm : (inside.map Prod.fst).Perm (s.subpools.live.map (fun rec => rec.parent))
  count : (s.rw.n = -1 ∧ ∃ f, inside = [(f, access.writer)]) ∨
    (0 ≤ s.rw.n ∧ (inside.length : Int) = s.rw.n ∧ ∀ e ∈ inside, e.2 = access.reader)

end pthr_rwlock

namespace pthr_reactor

/-! ### File-descriptor handles (`reactor_register`, `reactor_unregister`)

`handles` and `poll_array` are `realloc`ed C arrays.  Each is a `List`
holding the whole allocated block, so `nr_handles_allocated` and
`nr_array_allocated` are the lengths of the lists; `nr_array_used` is the
separate counter of the source.  An index outside the allocated block is
undefined behaviour (`none`). -/

/-- Conversion of an `int` to `short` (the type of `pollfd.events` and
`pollfd.revents`): reduction modulo `2^16` into `[-2^15, 2^15)`. -/
def to_short (x : Int) : Int := (x + 2 ^ 15) % 2 ^ 16 - 2 ^ 15

/-- The type `struct pollfd` of `poll.h`. -/
structure pollfd where
  fd : Int
  events : Int
  revents : Int
deriving DecidableEq, Repr

/-- The type `struct reactor_handle`: `offset` is the index into
`poll_array`, or `-1` when the handle is unused; `fn` and `data` are the
addresses of the callback and of its argument. -/
structure reactor_handle where
  offset : Int
  fn : Nat
  data : Nat
deriving DecidableEq, Repr

/-- The file-descriptor part of the reactor: the statics `handles`,
`poll_array` and `nr_array_used`.  `uninit i` is what `realloc` leaves in
slot `i` of `poll_array` when the slot is first allocated
(`reactor_register` assigns `fd` and `events` of a new entry and leaves
`revents` as it finds it). -/
structure handle_table where
  handles : List reactor_handle
  poll_array : List pollfd
  nr_array_used : Nat
  uninit : Nat → pollfd

/-- The statics before the first registration: both arrays are null, all
counters are zero. -/
def handle_table.init (uninit : Nat → pollfd) : handle_table :=
  { handles := [], poll_array := [], nr_array_used := 0, uninit := uninit }

/-- The counter `nr_handles_allocated`. -/
def handle_table.nr_handles_allocated (t : handle_table) : Nat := t.handles.length

/-- The counter `nr_array_allocated`. -/
def handle_table.nr_array_allocated (t : handle_table) : Nat := t.poll_array.length

/-- The used part of `poll_array`: the entries the kernel is given. -/
def handle_table.used (t : handle_table) : List pollfd :=
  t.poll_array.take t.nr_array_used

/-- First half of `reactor_register`: the first handle whose offset is
`-1`; when there is none the table grows by eight unused handles and the
first of them is taken.  (The `fn` and `data` of a fresh handle are not
initialised by the source; they are written before they are read, and are
`0` here.) -/
def find_handle (handles : List reactor_handle) : List reactor_handle × Nat :=
  match handles.findIdx? (fun x => x.offset == -1) with
  | some i => (handles, i)
  | none => (handles ++ List.replicate 8 { offset := -1, fn := 0, data := 0 }, handles.length)

/-- The search `for (a = 0; a < nr_array_used; ++a)` of
`reactor_register` for an entry to share: `poll_array[a].fd == socket &&
poll_array[a].events == operations`, the `short` field `events` being
compared with the `int` argument. -/
def find_poll_descriptor (t : handle_table) (socket operations : Int) : Option Nat :=
  t.used.findIdx? (fun p => p.fd == socket && p.events == operations)

/-- The step `Allocate space in the array of poll descriptors`: the array
grows by eight slots when it is full. -/
def grow_poll_array (t : handle_table) : List pollfd :=
  if t.nr_array_used ≥ t.poll_array.length then
    t.poll_array ++ (List.range 8).map (fun j => t.uninit (t.poll_array.length + j))
  else t.poll_array

/-- The assignments `poll_array[a].fd = socket; poll_array[a].events =
operations;`, which leave `revents` alone. -/
def set_poll_descriptor (arr : List pollfd) (a : Nat) (socket operations : Int) : List pollfd :=
  match arr[a]? with
  | some e => arr.set a { e with fd := socket, events := to_short operations }
  | none => arr

/-- The function `reactor_register (socket, operations, fn, data)`; the
result is the new state and the handle returned. -/
def reactor_register (t : handle_table) (socket operations : Int) (fn data : Nat) :
    handle_table × Nat :=
  let (handles1, h) := find_handle t.handles
  match find_poll_descriptor t socket operations with
  | some a =>
    ({ t with handles := handles1.set h { offset := a, fn := fn, data := data } }, h)
  | none =>
    let a := t.nr_array_used
    ({ handles := handles1.set h { offset := a, fn := fn, data := data },
       poll_array := set_poll_descriptor (grow_poll_array t) a socket operations,
       nr_array_used := a + 1,
       uninit := t.uninit }, h)

/-- The array after `n` entries read from index `src` on have been stored
from index `dst` on. -/
def copied (arr : List pollfd) (dst src n : Nat) : List pollfd :=
  arr.take dst ++ (arr.drop src).take n ++ arr.drop (dst + n)

/-- The library function `memcpy (&arr[dst], &arr[src], n * sizeof (struct
pollfd))`.  Copying nothing leaves the array alone; otherwise both ranges
must lie in the array and must not overlap, and a call on overlapping
ranges is undefined behaviour (`none`). -/
def memcpy (arr : List pollfd) (dst src n : Nat) : Option (List pollfd) :=
  if n = 0 then some arr
  else if (dst + n ≤ src ∨ src + n ≤ dst) ∧ src + n ≤ arr.length ∧ dst + n ≤ arr.length then
    some (copied arr dst src n)
  else none

/-- The function `reactor_unregister (handle)`.  A handle outside the
allocated table is undefined behaviour; so is an unshared offset that is
not the index of a used entry (the `memcpy` size would be negative).  The
entries above an unshared entry are moved down by `memcpy (&poll_array[a],
&poll_array[a+1], (nr_array_used - a - 1) * sizeof (struct pollfd))`,
whose ranges overlap as soon as two entries or more are moved. -/
def reactor_unregister (t : handle_table) (handle : Nat) : Option handle_table :=
  match t.handles[handle]? with
  | none => none
  | some hd =>
    let a := hd.offset
    let handles1 := t.handles.set handle { hd with offset := -1 }
    if handles1.any (fun x => x.offset == a) then
      some { t with handles := handles1 }
    else if 0 ≤ a ∧ a.toNat < t.nr_array_used ∧ t.nr_array_used ≤ t.poll_array.length then
      match memcpy t.poll_array a.toNat (a.toNat + 1) (t.nr_array_used - a.toNat - 1) with
      | none => none
      | some arr =>
        some { handles := handles1.map (fun x =>
                            if x.offset > a then { x with offset := x.offset - 1 } else x),
               poll_array := arr,
               nr_array_used := t.nr_array_used - 1,
               uninit := t.uninit }
    else none

/-- A call of the handle interface. -/
inductive handle_call where
  | register (socket operations : Int) (fn data : Nat)
  | unregister (handle : Nat)
deriving DecidableEq, Repr

/-- One call of the handle interface. -/
def handle_step (t : handle_table) : handle_call → Option handle_table
  | .register s o fn d => some (reactor_register t s o fn d).1
  | .unregister h => reactor_unregister t h

/-- A sequence of calls of the handle interface. -/
def run_handles (t : handle_table) : List handle_call → Option handle_table
  | [] => some t
  | c :: cs => (handle_step t c).bind (fun t1 => run_handles t1 cs)

/-- The `operations` of every registration of the sequence are values of
the `short` field `events` they are stored in. -/
def events_fit : List handle_call → Prop
  | [] => True
  | .register _ o _ _ :: cs => to_short o = o ∧ events_fit cs
  | .unregister _ :: cs => events_fit cs

/-- The pair `(fd, events)` of a poll entry. -/
def pollfd.key (p : pollfd) : Int × Int := (p.fd, p.events)

/-- Handle `h` is registered: it lies in the table and its offset is not
`-1`. -/
def handle_table.registered (t : handle_table) (h : Nat) : Prop :=
  ∃ hd, t.handles[h]? = some hd ∧ hd.offset ≠ -1

/-- The poll entry handle `h` refers to. -/
def handle_table.entry (t : handle_table) (h : Nat) : Option pollfd :=
  match t.handles[h]? with
  | some hd => if 0 ≤ hd.offset then t.used[hd.offset.toNat]? else none
  | none => none

/-- The invariant of the handle table: the used entries are allocated,
the offset of a handle is `-1` or the index of a used entry, and every
used entry is the entry of some handle. -/
structure handles_inv (t : handle_table) : Prop where
  used_le : t.nr_array_used ≤ t.poll_array.length
  offset : ∀ hd ∈ t.handles, hd.offset = -1 ∨ (0 ≤ hd.offset ∧ hd.offset < t.nr_array_used)
  referenced : ∀ a, a < t.nr_array_used → ∃ hd ∈ t.handles, hd.offset = (a : Int)

/-- The used entries have pairwise distinct pairs `(fd, events)`. -/
def distinct_entries (t : handle_table) : Prop := (t.used.map pollfd.key).Nodup

end pthr_reactor

namespace pthr_reactor

/-- A handle table is reachable when a defined run of calls of
`reactor_register` and `reactor_unregister` leads to it from the initial
statics. -/
def handle_table.reachable (t : handle_table) : Prop :=
  ∃ (u : Nat → pollfd) (cs : List handle_call),
    run_handles (handle_table.init u) cs = some t

/-- A table used in examples: descriptors 3 and 4 are registered for
`POLLIN` (handles 0 and 1), descriptor 3 a second time (handle 2), and
descriptor 5 for `POLLOUT` (handle 3). -/
def example_calls : List handle_call :=
  [.register 3 1 10 100, .register 4 1 11 101, .register 3 1 12 102, .register 5 4 13 103]

/-- A table used in examples: descriptors 3, 4 and 5 are registered for
`POLLIN`, as handles 0, 1 and 2, each with a poll entry of its own. -/
def example_three : handle_table :=
  ((run_handles (handle_table.init (fun _ => { fd := 0, events := 0, revents := 0 }))
      [.register 3 1 10 100, .register 4 1 11 101, .register 5 1 12 102]).getD
    (handle_table.init (fun _ => { fd := 0, events := 0, revents := 0 })))

/-- The table `example_calls` leads to. -/
def example_table : handle_table :=
  ((run_handles (handle_table.init (fun _ => { fd := -7, events := -7, revents := 99 }))
      example_calls).getD (handle_table.init (fun _ => { fd := 0, events := 0, revents := 0 })))

end pthr_reactor

namespace pthr_reactor

/-! ### Readiness dispatch (`reactor_invoke`, the branch `r > 0`) -/

/-- What the kernel's `poll (poll_array, nr_array_used, timeout)` does to
the array: it writes the `revents` of the first `nr_array_used` entries;
`revents a` is the value written to entry `a`. -/
def kernel_poll (t : handle_table) (revents : Nat → Int) : handle_table :=
  { t with poll_array := t.poll_array.mapIdx (fun i p =>
             if i < t.nr_array_used then { p with revents := revents i } else p) }

/-- One call `handles[i].fn (poll_array[a].fd, poll_array[a].revents,
handles[i].data)` made by the dispatch loop. -/
structure dispatch where
  handle : Nat
  fn : Nat
  data : Nat
  socket : Int
  events : Int
deriving DecidableEq, Repr

/-- The loop `for (i = 0; i < nr_handles_allocated; ++i)` of the branch
`r > 0` of `reactor_invoke`, from index `i` on.  `cb t d` is the list of
calls of `reactor_register` and `reactor_unregister` the callback called
as `d` makes in state `t`; the bound `nr_handles_allocated` is read again
after each callback.  `fuel` bounds the number of iterations; an offset
outside the allocated poll array is undefined behaviour. -/
def dispatch_loop (cb : handle_table → dispatch → List handle_call) :
    Nat → Nat → handle_table → List dispatch → outcome (handle_table × List dispatch)
  | 0, _, _, _ => outcome.out_of_fuel
  | fuel + 1, i, t, log =>
    match t.handles[i]? with
    | none => outcome.done (t, log)
    | some hd =>
      if 0 ≤ hd.offset then
        match t.poll_array[hd.offset.toNat]? with
        | none => outcome.aborted
        | some p =>
          if p.revents ≠ 0 then
            match run_handles t (cb t ⟨i, hd.fn, hd.data, p.fd, p.revents⟩) with
            | none => outcome.aborted
            | some t1 =>
              dispatch_loop cb fuel (i + 1) t1 (log ++ [⟨i, hd.fn, hd.data, p.fd, p.revents⟩])
          else dispatch_loop cb fuel (i + 1) t log
      else dispatch_loop cb fuel (i + 1) t log

/-- The part of `reactor_invoke` after `poll` has returned `r` and written
`revents`: the dispatch loop runs when `r > 0`.  The result is the final
table and the callbacks called, in the order of the calls. -/
def poll_dispatch (cb : handle_table → dispatch → List handle_call) (fuel : Nat)
    (t : handle_table) (revents : Nat → Int) (r : Int) :
    outcome (handle_table × List dispatch) :=
  if r > 0 then dispatch_loop cb fuel 0 (kernel_poll t revents) []
  else outcome.done (kernel_poll t revents, [])

/-- The call the dispatch loop makes for handle `i` in state `t`, if it
makes one: the handle is registered and its entry has non-zero
`revents`. -/
def ready_call (t : handle_table) (i : Nat) : Option dispatch :=
  match t.handles[i]? with
  | none => none
  | some hd =>
    if 0 ≤ hd.offset then
      match t.poll_array[hd.offset.toNat]? with
      | none => none
      | some p => if p.revents ≠ 0 then some ⟨i, hd.fn, hd.data, p.fd, p.revents⟩ else none
    else none

end pthr_reactor

namespace pthr_reactor

/-! ### Timers in `reactor_invoke`

The timer part of one call of `reactor_invoke`: the loop that fires the
timers that are due, the calls user code makes on the timer queue from
prepoll handlers, the kernel `poll` with the clock refresh after it, and
the branch `r == 0` that fires the head timer.  User code and the kernel
are parameters.  Every function returns the state it reached together
with a status, so that what happened before undefined behaviour or the
end of the fuel is still recorded. -/

/-- A value of the C type `int`. -/
abbrev c_int := { x : Int // -2 ^ 31 ≤ x ∧ x < 2 ^ 31 }

/-- Conversion of an `unsigned long long` to `int` (the third argument of
`poll`): reduction modulo `2^32` into `[-2^31, 2^31)`. -/
def to_int (x : Nat) : Int := ((x : Int) + 2 ^ 31) % 2 ^ 32 - 2 ^ 31

/-- A call user code makes on the timer queue: `reactor_set_timer (pool,
timeout, fn, data)` or a cancellation of the timer at an address. -/
inductive timer_call where
  | set (timeout : c_int) (fn data : Nat)
  | cancel (addr : Nat)
deriving DecidableEq

/-- The call as a `timer_op`. -/
def timer_call.op : timer_call → timer_op
  | .set timeout fn data => timer_op.set timeout.val fn data
  | .cancel addr => timer_op.cancel addr

/-- One call `fn (data)` of a timer callback by `reactor_invoke`: the
timer, the reading of `reactor_time` at the call, and the addresses of the
timers queued at the call. -/
structure firing where
  timer : reactor_timer
  clock : Nat
  queue : List Nat
deriving DecidableEq, Repr

/-- The timer queue with its history (most recent first) and the callbacks
called so far (in the order of the calls). -/
structure timer_world where
  t : timers
  log : List timer_event
  firings : List firing
deriving DecidableEq, Repr

/-- The third argument of `poll` in `reactor_invoke`: `head_timer ?
head_timer->delta - reactor_time : -1`, the difference of two `unsigned
long long` values converted to `int`. -/
def poll_timeout (t : timers) : Int :=
  match t.head_timer with
  | [] => -1
  | timer :: _ => to_int (usub timer.delta t.reactor_time)

/-- The world before any timer is set, the clock reading `now`. -/
def timer_world.init (now : Nat) : timer_world :=
  { t := { head_timer := [], reactor_time := now, next_addr := 0 }, log := [], firings := [] }

end pthr_reactor

namespace pthr_reactor

/-- The address of the timer of a firing. -/
def firing.addr (f : firing) : Nat := f.timer.addr

end pthr_reactor

namespace pthr_reactor

end pthr_reactor

namespace pthr_pseudothread

open pthr_reactor

/-! ### Blocking wrappers of `pthr_pseudothread.c`

A wrapper runs inside a fiber.  What the fiber does to the outside is
recorded as a trace of effects; what the outside does to the fiber is a
parameter: the results of the system calls, the handles and timers the
reactor hands out, and, for each suspension, the callback by which the
reactor switches back into the fiber.  The callbacks `return_from_...`
write fields of the fiber before they switch into it. -/

/-- The value `EWOULDBLOCK` of `errno.h`. -/
def EWOULDBLOCK : Nat := 11

/-- The value `POLLIN`, which is `REACTOR_READ`. -/
def POLLIN : Int := 1

/-- The value `POLLOUT`, which is `REACTOR_WRITE`. -/
def POLLOUT : Int := 4

/-- The value `POLLERR`. -/
def POLLERR : Int := 8

/-- The value `POLLHUP`. -/
def POLLHUP : Int := 16

/-- The operation `REACTOR_READ`. -/
def REACTOR_READ : Int := POLLIN

/-- The operation `REACTOR_WRITE`. -/
def REACTOR_WRITE : Int := POLLOUT

/-- The callbacks that the wrappers hand to the reactor. -/
inductive callback where
  | return_from_block
  | return_from_sleep
  | return_from_poll
  | return_from_poll_timeout
  | return_from_alarm
deriving DecidableEq, Repr

/-- The system calls behind the wrappers. -/
inductive syscall where
  | read | write | send | sendto | sendmsg | recv | recvfrom | recvmsg
deriving DecidableEq, Repr

/-- The fields of `struct pseudothread` that the callbacks write and the
wrappers read. -/
structure pth_flags where
  alarm_received : Bool
  poll_timeout : Bool
deriving DecidableEq, Repr

/-- What a callback does to the fiber before it switches into it:
`return_from_poll_timeout` sets `poll_timeout`, `return_from_alarm` sets
`alarm_received`, the others only switch. -/
def callback.run : callback → pth_flags → pth_flags
  | .return_from_poll_timeout, p => { p with poll_timeout := true }
  | .return_from_alarm, p => { p with alarm_received := true }
  | _, p => p

/-- What a fiber does to the outside. -/
inductive effect where
  | sys (name : syscall) (r : Int) (errno : Nat)
  | poll (r : Int)
  | register (sock operations : Int) (cb : callback) (handle : Nat)
  | unregister (handle : Nat)
  | set_timer (timeout : Int) (cb : callback) (timer : Nat)
  | unset_timer (timer : Nat)
  | suspend (resumed_by : callback)
  | restore_env
  | exit
deriving DecidableEq, Repr

/-- The outside of a fiber: `sys k` is the value assigned to `int r` and
the `errno` left by the `k`-th system call of the fiber, `poll k` the
result and the `revents` written by its `k`-th `poll (fds, n, 0)`,
`wake k` the callback that ends its `k`-th suspension, `handle k` the
result of its `k`-th `reactor_register` and `timer k` the address returned
by its `k`-th `reactor_set_timer`. -/
structure env where
  sys : Nat → Int × Nat
  poll : Nat → Int × (Nat → Int)
  wake : Nat → callback
  handle : Nat → Nat
  timer : Nat → Nat

/-- A fiber: its fields, how many system calls, polls, suspensions,
registrations and timers it has made, and its trace (in order). -/
structure fiber where
  flags : pth_flags
  nsys : Nat
  npoll : Nat
  nsusp : Nat
  nreg : Nat
  ntimer : Nat
  trace : List effect
deriving DecidableEq, Repr

/-- How a call of a wrapper ends: it returns a value, the fiber exits by
`pth_exit` (a `longjmp` out of the wrapper), the call is undefined
behaviour, or the budget of loop iterations is used up. -/
inductive result (α : Type) where
  | returned (a : α) (s : fiber)
  | exited (s : fiber)
  | crashed (s : fiber)
  | out_of_fuel (s : fiber)
deriving DecidableEq, Repr

/-- The fiber at the end of a call. -/
def result.state {α : Type} : result α → fiber
  | .returned _ s => s
  | .exited s => s
  | .crashed s => s
  | .out_of_fuel s => s

/-- The value returned by a call, if it returned. -/
def result.value {α : Type} : result α → Option α
  | .returned a _ => some a
  | _ => none

/-- The function `block (sock, operations)`: register, switch to the
calling context, and after the switch back unregister, exit if the alarm
was received, restore the environment. -/
def block (e : env) (sock operations : Int) (s : fiber) : result Unit :=
  let handle := e.handle s.nreg
  let cb := e.wake s.nsusp
  let s1 : fiber :=
    { s with flags := cb.run s.flags, nreg := s.nreg + 1, nsusp := s.nsusp + 1,
             trace := s.trace ++ [effect.register sock operations callback.return_from_block handle,
                                  effect.suspend cb, effect.unregister handle] }
  if s1.flags.alarm_received then
    result.exited { s1 with trace := s1.trace ++ [effect.exit] }
  else
    result.returned () { s1 with trace := s1.trace ++ [effect.restore_env] }

/-- The common body of `pth_read`, `pth_write`, `pth_send`, `pth_sendto`,
`pth_sendmsg`, `pth_recv`, `pth_recvfrom` and `pth_recvmsg`:
`again: r = call (s, ...); if (r == -1 && errno == EWOULDBLOCK) { block (s,
operations); goto again; } return r;`, with a budget on the number of
attempts. -/
def again (e : env) (name : syscall) (operations : Int) (sock : Int) :
    Nat → fiber → result Int
  | 0, s => result.out_of_fuel s
  | fuel + 1, s =>
    let r := (e.sys s.nsys).1
    let errno := (e.sys s.nsys).2
    let s1 : fiber := { s with nsys := s.nsys + 1,
                               trace := s.trace ++ [effect.sys name r errno] }
    if r = -1 ∧ errno = EWOULDBLOCK then
      match block e sock operations s1 with
      | result.returned _ s2 => again e name operations sock fuel s2
      | result.exited s2 => result.exited s2
      | result.crashed s2 => result.crashed s2
      | result.out_of_fuel s2 => result.out_of_fuel s2
    else result.returned r s1

/-- The wrapper `pth_read`. -/
def pth_read (e : env) (sock : Int) : Nat → fiber → result Int :=
  again e syscall.read REACTOR_READ sock

/-- The wrapper `pth_write`. -/
def pth_write (e : env) (sock : Int) : Nat → fiber → result Int :=
  again e syscall.write REACTOR_WRITE sock

/-- The wrapper `pth_send`. -/
def pth_send (e : env) (sock : Int) : Nat → fiber → result Int :=
  again e syscall.send REACTOR_WRITE sock

/-- The wrapper `pth_sendto`. -/
def pth_sendto (e : env) (sock : Int) : Nat → fiber → result Int :=
  again e syscall.sendto REACTOR_WRITE sock

/-- The wrapper `pth_sendmsg`. -/
def pth_sendmsg (e : env) (sock : Int) : Nat → fiber → result Int :=
  again e syscall.sendmsg REACTOR_WRITE sock

/-- The wrapper `pth_recv`. -/
def pth_recv (e : env) (sock : Int) : Nat → fiber → result Int :=
  again e syscall.recv REACTOR_READ sock

/-- The wrapper `pth_recvfrom`. -/
def pth_recvfrom (e : env) (sock : Int) : Nat → fiber → result Int :=
  again e syscall.recvfrom REACTOR_READ sock

/-- The wrapper `pth_recvmsg`. -/
def pth_recvmsg (e : env) (sock : Int) : Nat → fiber → result Int :=
  again e syscall.recvmsg REACTOR_READ sock

/-- The wrapper of a system call, and the operation it blocks on. -/
def wrapper : syscall → (env → Int → Nat → fiber → result Int) × Int
  | .read => (pth_read, REACTOR_READ)
  | .write => (pth_write, REACTOR_WRITE)
  | .send => (pth_send, REACTOR_WRITE)
  | .sendto => (pth_sendto, REACTOR_WRITE)
  | .sendmsg => (pth_sendmsg, REACTOR_WRITE)
  | .recv => (pth_recv, REACTOR_READ)
  | .recvfrom => (pth_recvfrom, REACTOR_READ)
  | .recvmsg => (pth_recvmsg, REACTOR_READ)

end pthr_pseudothread

namespace pthr_pseudothread

open pthr_reactor

/-- The function `_sleep (timeout)`: set a timer, switch to the calling
context, and after the switch back either cancel the timer and exit (the
alarm was received) or restore the environment.  Cancelling the timer
after its own callback `return_from_sleep` has run is undefined behaviour:
the reactor deleted the timer when it fired. -/
def _sleep (e : env) (timeout : Int) (s : fiber) : result Unit :=
  let timer := e.timer s.ntimer
  let cb := e.wake s.nsusp
  let s1 : fiber :=
    { s with flags := cb.run s.flags, ntimer := s.ntimer + 1, nsusp := s.nsusp + 1,
             trace := s.trace ++ [effect.set_timer timeout callback.return_from_sleep timer,
                                  effect.suspend cb] }
  if s1.flags.alarm_received then
    if cb = callback.return_from_sleep then result.crashed s1
    else result.exited { s1 with trace := s1.trace ++ [effect.unset_timer timer, effect.exit] }
  else
    result.returned () { s1 with trace := s1.trace ++ [effect.restore_env] }

/-- The handles `handle[i]` of `_poll`: the results of the `n` calls of
`reactor_register`, the first of which is call number `k` of the fiber. -/
def poll_handles (e : env) (k n : Nat) : List Nat :=
  (List.range n).map (fun i => e.handle (k + i))

/-- The loop `for (i = 0; i < n; ++i) handle[i] = reactor_register
(fds[i].fd, fds[i].events, return_from_poll, current_pth);` of `_poll`. -/
def register_all (e : env) (k : Nat) (fds : List pollfd) : List effect :=
  List.zipWith (fun (p : pollfd) h => effect.register p.fd p.events callback.return_from_poll h)
    fds (poll_handles e k fds.length)

/-- The function `_poll (fds, n, timeout)`; `n` is the length of `fds`. -/
def _poll (e : env) (fds : List pollfd) (timeout : Int) (s : fiber) : result Unit :=
  let handles := poll_handles e s.nreg fds.length
  let timer : Option Nat := if timeout ≥ 0 then some (e.timer s.ntimer) else none
  let cb := e.wake s.nsusp
  let flags := cb.run { s.flags with poll_timeout := false }
  let s1 : fiber :=
    { s with flags := flags, nreg := s.nreg + fds.length,
             ntimer := if timeout ≥ 0 then s.ntimer + 1 else s.ntimer,
             nsusp := s.nsusp + 1,
             trace := s.trace ++ register_all e s.nreg fds ++
               (match timer with
                | some t => [effect.set_timer timeout callback.return_from_poll_timeout t]
                | none => []) ++
               [effect.suspend cb] ++ handles.map effect.unregister ++
               (match timer with
                | some t => if !flags.poll_timeout then [effect.unset_timer t] else []
                | none => []) }
  if flags.alarm_received then
    result.exited { s1 with trace := s1.trace ++ [effect.exit] }
  else
    result.returned () { s1 with trace := s1.trace ++ [effect.restore_env] }

/-- The kernel writing `revents` into an array of poll descriptors. -/
def write_revents (fds : List pollfd) (revents : Nat → Int) : List pollfd :=
  fds.mapIdx (fun i p => { p with revents := revents i })

/-- The function `pth_poll (fds, n, timeout)`: `again: r = poll (fds, n,
0); if (r == 0) { _poll (fds, n, timeout); if (current_pth->poll_timeout)
return 0; goto again; } return r;`.  The result is the value returned and
the array as the last `poll` left it. -/
def pth_poll (e : env) (timeout : Int) : Nat → List pollfd → fiber → result (Int × List pollfd)
  | 0, _, s => result.out_of_fuel s
  | fuel + 1, fds, s =>
    let r := (e.poll s.npoll).1
    let fds1 := write_revents fds (e.poll s.npoll).2
    let s1 : fiber := { s with npoll := s.npoll + 1, trace := s.trace ++ [effect.poll r] }
    if r = 0 then
      match _poll e fds1 timeout s1 with
      | result.returned _ s2 =>
        if s2.flags.poll_timeout then result.returned (0, fds1) s2
        else pth_poll e timeout fuel fds1 s2
      | result.exited s2 => result.exited s2
      | result.crashed s2 => result.crashed s2
      | result.out_of_fuel s2 => result.out_of_fuel s2
    else result.returned (r, fds1) s1

/-- The type `fd_set`: a set of descriptors (the bound `FD_SETSIZE` is
left out). -/
abbrev fd_set := Finset Nat

/-- The test `set && FD_ISSET (i, set)` on a pointer that may be null. -/
def isset (i : Nat) : Option fd_set → Bool
  | some set => decide (i ∈ set)
  | none => false

/-- The statement `if (set) FD_ZERO (set);`. -/
def zero_if_set : Option fd_set → Option fd_set
  | some _ => some ∅
  | none => none

/-- The statement `if (revents & bit) FD_SET (fd, set);`: there is no
test of the pointer, and `FD_SET` on a null pointer is undefined
behaviour (`none`). -/
def set_if (revents bit : Int) (fd : Int) (set : Option fd_set) : Option (Option fd_set) :=
  if Int.land revents bit ≠ 0 then
    match set with
    | some x => some (some (insert fd.toNat x))
    | none => none
  else some set

/-- The first loop of `pth_select`: the poll descriptors of the
descriptors below `n` that are in the sets. -/
def select_fds (n : Nat) (readfds writefds exceptfds : Option fd_set) : List pollfd :=
  (List.range n).flatMap (fun i =>
    (if isset i readfds then [{ fd := i, events := POLLIN, revents := 0 }] else []) ++
    (if isset i writefds then [{ fd := i, events := POLLOUT, revents := 0 }] else []) ++
    (if isset i exceptfds then [{ fd := i, events := POLLERR, revents := 0 }] else []))

/-- The three sets of `pth_select`. -/
structure fd_sets where
  readfds : Option fd_set
  writefds : Option fd_set
  exceptfds : Option fd_set
deriving DecidableEq

/-- The last loop of `pth_select`: `if (fds[i].revents & POLLIN) FD_SET
(fds[i].fd, readfds);` and the same for `POLLOUT` and `POLLERR`. -/
def collect : List pollfd → fd_sets → Option fd_sets
  | [], sets => some sets
  | p :: rest, sets =>
    match set_if p.revents POLLIN p.fd sets.readfds with
    | none => none
    | some rd =>
      match set_if p.revents POLLOUT p.fd sets.writefds with
      | none => none
      | some wr =>
        match set_if p.revents POLLERR p.fd sets.exceptfds with
        | none => none
        | some ex => collect rest { readfds := rd, writefds := wr, exceptfds := ex }

/-- The function `pth_select (n, readfds, writefds, exceptfds, timeout)`;
`timeout` is `none` for a null pointer and the pair `(tv_sec, tv_usec)`
otherwise.  The result is the value returned and the three sets as the
call leaves them. -/
def pth_select (e : env) (fuel : Nat) (n : Int) (sets : fd_sets)
    (timeout : Option (Int × Int)) (s : fiber) : result (Int × fd_sets) :=
  let fds := select_fds n.toNat sets.readfds sets.writefds sets.exceptfds
  let tmo : Int := match timeout with
    | some (tv_sec, tv_usec) => tv_sec * 1000 + Int.tdiv tv_usec 1000
    | none => -1
  match pth_poll e tmo fuel fds s with
  | result.returned (r, fds1) s1 =>
    if r = -1 then result.returned (-1, sets) s1
    else
      let zeroed : fd_sets :=
        { readfds := zero_if_set sets.readfds, writefds := zero_if_set sets.writefds,
          exceptfds := zero_if_set sets.exceptfds }
      if r = 0 then result.returned (0, zeroed) s1
      else
        match collect fds1 zeroed with
        | some out => result.returned (r, out) s1
        | none => result.crashed s1
  | result.exited s1 => result.exited s1
  | result.crashed s1 => result.crashed s1
  | result.out_of_fuel s1 => result.out_of_fuel s1

/-- The fiber at the start of its life: `new_pseudothread` allocates it
with `pcalloc`, so the flags are clear. -/
def fiber.init : fiber :=
  { flags := { alarm_received := false, poll_timeout := false },
    nsys := 0, npoll := 0, nsusp := 0, nreg := 0, ntimer := 0, trace := [] }

end pthr_pseudothread

namespace pthr_pseudothread

open pthr_reactor

/-- The trace of `k` rounds of a wrapper in each of which the system call
fails with `EWOULDBLOCK` and `block` returns; the first round uses
registration number `nreg` and suspension number `nsusp` of the fiber. -/
def blocked_rounds (e : env) (name : syscall) (operations sock : Int) :
    Nat → Nat → Nat → List effect
  | 0, _, _ => []
  | k + 1, nreg, nsusp =>
    [effect.sys name (-1) EWOULDBLOCK,
     effect.register sock operations callback.return_from_block (e.handle nreg),
     effect.suspend (e.wake nsusp),
     effect.unregister (e.handle nreg),
     effect.restore_env] ++ blocked_rounds e name operations sock k (nreg + 1) (nsusp + 1)

/-- The handles registered in a trace, in order. -/
def handles_registered (tr : List effect) : List Nat :=
  tr.filterMap (fun x => match x with
    | effect.register _ _ _ h => some h
    | _ => none)

/-- The handles unregistered in a trace, in order. -/
def handles_unregistered (tr : List effect) : List Nat :=
  tr.filterMap (fun x => match x with
    | effect.unregister h => some h
    | _ => none)

/-- The timers set in a trace, in order. -/
def timers_set (tr : List effect) : List Nat :=
  tr.filterMap (fun x => match x with
    | effect.set_timer _ _ t => some t
    | _ => none)

/-- The timers cancelled in a trace, in order. -/
def timers_unset (tr : List effect) : List Nat :=
  tr.filterMap (fun x => match x with
    | effect.unset_timer t => some t
    | _ => none)

/-- The part of the trace of `s1` that was added since `s`. -/
def new_trace (s s1 : fiber) : List effect := s1.trace.drop s.trace.length

/-- An outside in which the first system call fails with `EWOULDBLOCK`
and the second returns 5, `poll` reports one ready descriptor with
`revents = POLLHUP`, and every suspension is ended by the alarm. -/
def example_alarm : env :=
  { sys := (fun k => if k = 0 then (-1, EWOULDBLOCK) else (5, 0)),
    poll := (fun _ => (1, fun _ => POLLHUP)),
    wake := (fun _ => callback.return_from_alarm),
    handle := (fun k => k),
    timer := (fun k => 100 + k) }

/-- An outside in which the first two system calls fail with
`EWOULDBLOCK` and the third returns 5, `poll` reports nothing, and every
suspension is ended by the timer of `_poll`. -/
def example_quiet : env :=
  { sys := (fun k => if k < 2 then (-1, EWOULDBLOCK) else (5, 0)),
    poll := (fun _ => (0, fun _ => 0)),
    wake := (fun _ => callback.return_from_poll_timeout),
    handle := (fun k => k),
    timer := (fun k => 100 + k) }

/-- An outside in which `poll` reports one ready descriptor with
`revents = POLLIN | POLLERR`. -/
def example_error : env :=
  { example_alarm with poll := (fun _ => (1, fun _ => 9)) }

/-- An outside in which every suspension is ended by the timer of
`_sleep`. -/
def example_timer : env :=
  { example_alarm with wake := (fun _ => callback.return_from_sleep) }

/-- A fiber that has received its alarm earlier, as it is while the
clean-up functions of its pool run after the exit. -/
def fiber.alarmed : fiber :=
  { fiber.init with flags := { alarm_received := true, poll_timeout := false } }

end pthr_pseudothread

namespace pthr_cgi

/-! ### `cgi_escape`, `cgi_unescape` and the reading loop of `new_cgi`

A `char` is a signed byte, an `Int` in `[-128, 128)`; a C string is the
list of its characters before the terminating NUL. -/

/-- Conversion of an `int` to `char`: reduction modulo `2^8` into
`[-128, 128)`. -/
def to_char (x : Int) : Int := (x + 128) % 256 - 128

/-- The array `hexdigits` of `cgi_escape`: the string
`0123456789abcdef`. -/
def hexdigits : List Int :=
  [48, 49, 50, 51, 52, 53, 54, 55, 56, 57, 97, 98, 99, 100, 101, 102]

/-- The function `isalnum` in the C locale. -/
def isalnum_C (c : Int) : Bool :=
  (48 ≤ c ∧ c ≤ 57) ∨ (65 ≤ c ∧ c ≤ 90) ∨ (97 ≤ c ∧ c ≤ 122)

/-- What the second loop of `cgi_escape` stores for one character:
alphanumerics, `,` and `-` are copied, a space becomes `+`, and every
other character becomes `%`, `hexdigits [(c >> 4) & 0xf]`, `hexdigits [c &
0xf]`.  `alnum` is `isalnum` of the current locale.  The character is
promoted to `int`: `c >> 4` is the arithmetic shift, the floor of `c / 16`,
and `& 0xf` of a two's-complement value is its residue modulo 16. -/
def escape_char (alnum : Int → Bool) (c : Int) : List Int :=
  if alnum c ∨ c = 44 ∨ c = 45 then [c]
  else if c = 32 then [43]
  else [37, hexdigits.getD ((c / 16) % 16).toNat 0,
        hexdigits.getD (c % 16).toNat 0]

/-- The length `new_len` that the first loop of `cgi_escape` computes. -/
def new_len (alnum : Int → Bool) : List Int → Nat
  | [] => 0
  | c :: rest =>
    (if alnum c ∨ c = 44 ∨ c = 45 ∨ c = 32 then 1 else 3) + new_len alnum rest

/-- The function `cgi_escape`: the characters stored by the second loop,
without the terminating NUL. -/
def cgi_escape (alnum : Int → Bool) (str : List Int) : List Int :=
  str.flatMap (escape_char alnum)

/-- The function `hex_to_int`. -/
def hex_to_int (c : Int) : Int :=
  if 48 ≤ c ∧ c ≤ 57 then c - 48
  else if 97 ≤ c ∧ c ≤ 102 then c - 97 + 10
  else if 65 ≤ c ∧ c ≤ 70 then c - 65 + 10
  else -1

/-- The function `cgi_unescape`: a `%` that has two characters after it
(`i+2 < len`), both hexadecimal digits, is replaced with them by the
character `a << 4 | b`; a `+` becomes a space; every other character, also
a `%` that is not followed by two hexadecimal digits, is copied. -/
def cgi_unescape : List Int → List Int
  | [] => []
  | c :: h1 :: h2 :: rest2 =>
    if c = 37 ∧ hex_to_int h1 ≥ 0 ∧ hex_to_int h2 ≥ 0 then
      to_char (Int.lor (hex_to_int h1 <<< (4 : Int)) (hex_to_int h2)) :: cgi_unescape rest2
    else (if c = 43 then 32 else c) :: cgi_unescape (h1 :: h2 :: rest2)
  | c :: rest => (if c = 43 then 32 else c) :: cgi_unescape rest

/-- The call `io_fread (t, 1, nmemb, io)`: it reads until `nmemb`
characters are read or the input ends; `input` is what the peer sends
before the end of input.  The result is the characters stored and the
input left. -/
def io_fread (nmemb : Nat) (input : List Int) : List Int × List Int :=
  (input.take nmemb, input.drop nmemb)

/-- An assignment `t[i] = c` to an array; `none` when `i` is outside the
array. -/
def store (t : List Int) (i : Nat) (c : Int) : Option (List Int) :=
  if i < t.length then some (t.set i c) else none

/-- The C string in an array: the characters before the first NUL. -/
def c_string (t : List Int) : List Int := t.takeWhile (fun c => c ≠ 0)

/-- How the reading loop of `new_cgi` ends. -/
inductive read_result where
  | content (s : List Int)
  | too_long
  | out_of_bounds
  | out_of_fuel
deriving DecidableEq, Repr

/-- The loop of `new_cgi` for a POST without `Content-Length`: `while ((r
= io_fread (t, 1, 1024, io)) > 0) { n += r; if (post_max >= 0 && n >
post_max) return 0; t[r] = 0; content = pstrcat (tmp, content, t); }`,
with `t` the array `char t[1024]`. -/
def read_post (post_max : Int) : Nat → List Int → List Int → Int → List Int → read_result
  | 0, _, _, _, _ => read_result.out_of_fuel
  | fuel + 1, t, input, n, content =>
    let chunk := (io_fread 1024 input).1
    let r := chunk.length
    if r > 0 then
      let t1 := chunk ++ t.drop r
      let n1 := n + r
      if post_max ≥ 0 ∧ n1 > post_max then read_result.too_long
      else
        match store t1 r 0 with
        | none => read_result.out_of_bounds
        | some t2 => read_post post_max fuel t2 (io_fread 1024 input).2 n1
                       (content ++ c_string t2)
    else read_result.content content

end pthr_cgi

namespace pthr_reactor

/-- A table used in the dispatch example: descriptors 3 and 4 are
registered for `POLLIN`, as handles 0 and 1, on zero-filled memory. -/
def race_table : handle_table :=
  (reactor_register
    (reactor_register (handle_table.init (fun _ => { fd := 0, events := 0, revents := 0 }))
      3 1 10 100).1
    4 1 11 101).1

/-- User code of the dispatch example: the callback of handle 0
unregisters handle 1 and registers descriptor 5 for `POLLIN` with callback
20; the other callbacks do nothing. -/
def race_cb (_ : handle_table) (d : dispatch) : List handle_call :=
  if d.handle = 0 then [.unregister 1, .register 5 1 20 200] else []

end pthr_reactor

namespace pthr_wait_queue

open pthr_reactor

/-- How `wq_sleep_on` ends once the pseudothread has been switched into
again: it returns to its caller, the pseudothread exits through
`pth_exit`, or the process is ended by `abort ()`. -/
inductive sleep_result where
  | returned (wq : wait_queue)
  | exited (wq : wait_queue)
  | aborted
deriving DecidableEq, Repr

/-- The loop `for (i = 0; i < vector_size (wq->sleepers); ++i)` of
`wq_sleep_on`: the first element equal to `current_pth` is erased; `none`
when the loop ends without finding one. -/
def erase_self : List pseudothread → pseudothread → Option (List pseudothread)
  | [], _ => none
  | p :: rest, current_pth =>
    if p = current_pth then some rest
    else (erase_self rest current_pth).map (fun l => p :: l)

/-- The part of `wq_sleep_on` after the context switch, which runs when
the pseudothread is switched into again; `alarm_received` is the result of
`_pth_alarm_received ()`.  With the flag set the pseudothread erases
itself from the sleepers and calls `pth_exit`, and `abort ()` is called
when it is not among the sleepers; with the flag clear the function
returns. -/
def wq_sleep_on_resumed (wq : wait_queue) (current_pth : pseudothread)
    (alarm_received : Bool) : sleep_result :=
  if alarm_received then
    match erase_self wq.sleepers current_pth with
    | some l => sleep_result.exited { sleepers := l }
    | none => sleep_result.aborted
  else sleep_result.returned wq

end pthr_wait_queue

namespace pthr_reactor

/-! ### `reactor_stop` -/

/-- What `reactor_stop` does that an observer sees: a warning written
with `syslog`, and the deletion of the pool of a handler or timer. -/
inductive stop_event where
  | prepoll_warning (addr : Nat) (fn : prepoll_fn)
  | prepoll_deleted (addr : Nat)
  | timer_warning (addr fn data : Nat)
  | timer_deleted (addr : Nat)
  | handle_warning (handle fn data : Nat)
deriving DecidableEq, Repr

/-- How `reactor_stop` ends: it returns, or it reads a field of the
object at `addr` after the pool holding the object was deleted (undefined
behaviour), or the step budget of the model is exhausted. -/
inductive stop_status where
  | stopped
  | use_after_free (addr : Nat)
  | out_of_fuel
deriving DecidableEq, Repr

/-- The loop `for (prepoll = head_prepoll; prepoll; prepoll =
prepoll_next)` of `reactor_stop`, with `prepoll` the cursor.  The body
reads `prepoll->fn` and `prepoll->data` for the warning, assigns
`prepoll_next = prepoll`, and deletes the pool of the handler, which
unlinks the handler (`remove_prepoll`) and releases its memory: a handler
is allocated exactly as long as it is in the list. -/
def stop_prepolls : Nat → Option Nat → reactor → List stop_event →
    stop_status × reactor × List stop_event
  | _, none, r, log => (stop_status.stopped, r, log)
  | 0, some _, r, log => (stop_status.out_of_fuel, r, log)
  | fuel + 1, some prepoll, r, log =>
    match r.head_prepoll.find? (fun p => p.addr = prepoll) with
    | none => (stop_status.use_after_free prepoll, r, log)
    | some p =>
      let prepoll_next := prepoll
      match remove_prepoll r prepoll with
      | none => (stop_status.use_after_free prepoll, r, log)
      | some r1 =>
        stop_prepolls fuel (some prepoll_next) r1
          (log ++ [stop_event.prepoll_warning prepoll p.fn, stop_event.prepoll_deleted prepoll])

/-- The address `p->next` of the successor of the timer at `addr`. -/
def timer_next (addr : Nat) : List reactor_timer → Option Nat
  | [] => none
  | p :: rest => if p.addr = addr then rest.head?.map (fun n => n.addr) else timer_next addr rest

/-- The loop `for (p = head_timer; p; p = p_next)` of `reactor_stop`: the
body writes the warning, reads `p_next = p->next`, and deletes the pool of
the timer, which unlinks it (`remove_timer`). -/
def stop_timers : Nat → Option Nat → List reactor_timer → List stop_event →
    stop_status × List reactor_timer × List stop_event
  | _, none, l, log => (stop_status.stopped, l, log)
  | 0, some _, l, log => (stop_status.out_of_fuel, l, log)
  | fuel + 1, some p, l, log =>
    match l.find? (fun x => x.addr = p) with
    | none => (stop_status.use_after_free p, l, log)
    | some x =>
      let p_next := timer_next p l
      stop_timers fuel p_next (remove_timer p l)
        (log ++ [stop_event.timer_warning p x.fn x.data, stop_event.timer_deleted p])

/-- The loop `for (i = 0; i < nr_handles_allocated; ++i)` of
`reactor_stop`: a warning for every handle whose offset is not
negative. -/
def stop_handles (handles : List reactor_handle) : List stop_event :=
  (List.range handles.length).filterMap (fun i =>
    match handles[i]? with
    | some hd =>
      if hd.offset ≥ 0 then some (stop_event.handle_warning i hd.fn hd.data) else none
    | none => none)

/-- The function `reactor_stop`: the three loops in order; the result is
how the function ends and what it has done until then. -/
def reactor_stop (fuel : Nat) (r : reactor) (ts : timers) (t : handle_table) :
    stop_status × List stop_event :=
  match stop_prepolls fuel (r.head_prepoll.head?.map (fun p => p.addr)) r [] with
  | (stop_status.stopped, _, log1) =>
    match stop_timers fuel (ts.head_timer.head?.map (fun p => p.addr)) ts.head_timer log1 with
    | (stop_status.stopped, _, log2) => (stop_status.stopped, log2 ++ stop_handles t.handles)
    | (st, _, log2) => (st, log2)
  | (st, _, log1) => (st, log1)

end pthr_reactor

namespace pthr_pseudothread

/-! ### `pth_wait_readable` and `pth_wait_writable` -/

/-- One call `poll (fds, 1, timeout)` made by a fiber on the single entry
`(fd, events)`: `blocked` is the number of milliseconds the call stays in
the kernel, during which no fiber of the process runs, and `r` is its
result. -/
structure kernel_wait where
  fd : Int
  events : Int
  timeout : Int
  blocked : Nat
  r : Int
deriving DecidableEq, Repr

/-- The system call `poll` on one entry, after `poll (2)`.  `ready` is
`some d` when the descriptor becomes ready `d` milliseconds after the call
is made, and `none` when the call fails.  A failing call returns `-1`; a
call with a negative timeout waits until the descriptor is ready and
returns `1`; a call with timeout `t ≥ 0` returns `1` when the descriptor
is ready within `t` milliseconds and `0` after `t` milliseconds
otherwise.  The result is the value returned and the time spent in the
call. -/
def sys_poll (ready : Option Nat) (timeout : Int) : Int × Nat :=
  match ready with
  | none => (-1, 0)
  | some d => if timeout < 0 ∨ (d : Int) ≤ timeout then (1, d) else (0, timeout.toNat)

/-- The common body of `pth_wait_readable` and `pth_wait_writable`:
`again: r = poll (fds, 1, -1); if (r == 0) { block (fd, operations); goto
again; } return r >= 0 ? 1 : -1;`, with a budget on the number of
attempts.  `ready k` describes the descriptor at the `k`-th poll of the
fiber; the calls of `poll` are logged next to the trace of the fiber. -/
def wait_again (e : env) (ready : Nat → Option Nat) (events operations fd : Int) :
    Nat → fiber → List kernel_wait → result Int × List kernel_wait
  | 0, s, log => (result.out_of_fuel s, log)
  | fuel + 1, s, log =>
    let r := (sys_poll (ready s.npoll) (-1)).1
    let log1 := log ++ [⟨fd, events, -1, (sys_poll (ready s.npoll) (-1)).2, r⟩]
    let s1 : fiber := { s with npoll := s.npoll + 1, trace := s.trace ++ [effect.poll r] }
    if r = 0 then
      match block e fd operations s1 with
      | result.returned _ s2 => wait_again e ready events operations fd fuel s2 log1
      | result.exited s2 => (result.exited s2, log1)
      | result.crashed s2 => (result.crashed s2, log1)
      | result.out_of_fuel s2 => (result.out_of_fuel s2, log1)
    else (result.returned (if r ≥ 0 then 1 else -1) s1, log1)

/-- The function `pth_wait_readable`. -/
def pth_wait_readable (e : env) (ready : Nat → Option Nat) (fd : Int) (fuel : Nat)
    (s : fiber) : result Int × List kernel_wait :=
  wait_again e ready POLLIN REACTOR_READ fd fuel s []

/-- The function `pth_wait_writable`. -/
def pth_wait_writable (e : env) (ready : Nat → Option Nat) (fd : Int) (fuel : Nat)
    (s : fiber) : result Int × List kernel_wait :=
  wait_again e ready POLLOUT REACTOR_WRITE fd fuel s []

end pthr_pseudothread

namespace pthr_stack

/-! ### `pthr_stack.c`: deferred release of stacks

A stack region is the pair of its base address and its size; the null
pointer is the address `0`. -/

/-- The statics `pending_stack_base` and `pending_stack_size`, the regions
given to `munmap` so far, oldest first, and the number of calls of
`alloc_stack`. -/
structure stack_state where
  pending_stack_base : Nat
  pending_stack_size : Int
  freed : List (Nat × Int)
  nalloc : Nat
deriving DecidableEq, Repr

/-- The statics at program start. -/
def stack_state.init : stack_state :=
  { pending_stack_base := 0, pending_stack_size := 0, freed := [], nalloc := 0 }

/-- The regions awaiting release: the pending region when
`pending_stack_base` is not null. -/
def stack_state.pending (s : stack_state) : List (Nat × Int) :=
  if s.pending_stack_base ≠ 0 then [(s.pending_stack_base, s.pending_stack_size)] else []

/-- The function `free_stack`: `munmap (base, size)`. -/
def free_stack (s : stack_state) (base : Nat) (size : Int) : stack_state :=
  { s with freed := s.freed ++ [(base, size)] }

/-- The statement `if (pending_stack_base) { free_stack (...);
pending_stack_base = 0; }` at the start of both functions. -/
def free_pending (s : stack_state) : stack_state :=
  if s.pending_stack_base ≠ 0 then
    { free_stack s s.pending_stack_base s.pending_stack_size with pending_stack_base := 0 }
  else s

/-- The function `alloc_stack`.  `kernel k` is what the kernel answers to
the `k`-th call: the address returned by `mmap`, `0` for `MAP_FAILED`, and
whether `mprotect` succeeds on the guard page.  The result is the state
and the value returned, or `none` when `abort ()` ends the process. -/
def alloc_stack (kernel : Nat → Nat × Bool) (s : stack_state) : stack_state × Option Nat :=
  let base := (kernel s.nalloc).1
  let s1 := { s with nalloc := s.nalloc + 1 }
  if base = 0 then (s1, some 0)
  else if (kernel s.nalloc).2 then (s1, some base)
  else (s1, none)

/-- The function `_pth_get_stack (size)`; the size matters to the kernel
only.  The result is the state reached and the value returned, or `none`
when `alloc_stack` aborts. -/
def _pth_get_stack (kernel : Nat → Nat × Bool) (_size : Int) (s : stack_state) :
    stack_state × Option Nat :=
  alloc_stack kernel (free_pending s)

/-- The function `_pth_return_stack (base, size)`. -/
def _pth_return_stack (base : Nat) (size : Int) (s : stack_state) : stack_state :=
  { free_pending s with pending_stack_base := base, pending_stack_size := size }

/-- A call of the interface of `pthr_stack.h`. -/
inductive stack_call where
  | get (size : Int)
  | ret (base : Nat) (size : Int)
deriving DecidableEq, Repr

/-- A sequence of calls, which ends early when `alloc_stack` aborts.  The
result is the state reached and the number of calls that returned. -/
def run_stack (kernel : Nat → Nat × Bool) : List stack_call → stack_state → stack_state × Nat
  | [], s => (s, 0)
  | stack_call.get size :: cs, s =>
    match _pth_get_stack kernel size s with
    | (s1, none) => (s1, 0)
    | (s1, some _) => ((run_stack kernel cs s1).1, (run_stack kernel cs s1).2 + 1)
  | stack_call.ret base size :: cs, s =>
    ((run_stack kernel cs (_pth_return_stack base size s)).1,
     (run_stack kernel cs (_pth_return_stack base size s)).2 + 1)

/-- The regions handed to `_pth_return_stack` by a sequence of calls, in
order; returning the null pointer returns no region. -/
def returned : List stack_call → List (Nat × Int)
  | [] => []
  | stack_call.get _ :: cs => returned cs
  | stack_call.ret base size :: cs =>
    if base ≠ 0 then (base, size) :: returned cs else returned cs

/-- A sequence of calls used in examples. -/
def example_stack_calls : List stack_call :=
  [stack_call.get 65536, stack_call.ret 4096 65536, stack_call.ret 8192 65536,
   stack_call.get 65536, stack_call.ret 12288 32768]

end pthr_stack

namespace pthr_pseudothread

/-! ### Exceptions: `pth_catch` and `pth_die`

A `jmp_buf` filled by `setjmp` is identified by a number; a message is a
string, and the null pointer is `none`. -/

/-- The fields of `struct pseudothread` used by the exception functions:
the vector `exception_jmp_vec` (null until the first `pth_catch`) and
`exception_msg`; `next_jb` numbers the calls of `setjmp`, and `stderr` is
what `_pth_die` has printed. -/
structure exc_state where
  exception_jmp_vec : Option (List Nat)
  exception_msg : Option String
  next_jb : Nat
  stderr : List String
deriving DecidableEq, Repr

/-- The exception frames of the fiber, innermost last. -/
def exc_state.frames (s : exc_state) : List Nat := s.exception_jmp_vec.getD []

/-- User code as far as exceptions go: it returns, or calls `pth_die
(msg)`, or calls `pth_exit ()`, or calls `pth_catch (fn, data)` and goes
on according to the value returned. -/
inductive code where
  | returns
  | call_die (msg : String)
  | call_exit
  | call_catch (fn : code) (k : Option String → code)

/-- How control leaves a piece of code: by a normal return, by a `longjmp`
to the `jmp_buf` numbered `jb`, by `pth_exit` (a `longjmp` to `exit_jmp`),
or by undefined behaviour. -/
inductive flow (α : Type) where
  | returned (a : α)
  | jumped (jb : Nat)
  | exited
  | crashed
deriving DecidableEq, Repr

/-- The function `_pth_die (msg, filename, lineno)`: with a frame on the
vector, the message is stored, the last frame is popped and jumped to;
otherwise the message is printed and the fiber exits. -/
def _pth_die (msg : String) (s : exc_state) : flow Unit × exc_state :=
  match s.exception_jmp_vec with
  | some vec =>
    if vec.length > 0 then
      (flow.jumped (vec.getLastD 0),
       { s with exception_msg := some msg, exception_jmp_vec := some vec.dropLast })
    else (flow.exited, { s with stderr := s.stderr ++ [msg] })
  | none => (flow.exited, { s with stderr := s.stderr ++ [msg] })

/-- The statement `vector_pop_back (current_pth->exception_jmp_vec, jb)` of
`pth_catch`; popping from an empty vector is undefined behaviour. -/
def pop_frame (s : exc_state) : Option exc_state :=
  match s.exception_jmp_vec with
  | some vec => if vec.length > 0 then some { s with exception_jmp_vec := some vec.dropLast }
                else none
  | none => none

/-- The first statements of `pth_catch` after `setjmp (jb)` has returned
`0`: the vector is created if it is null and `jb` is pushed. -/
def push_frame (s : exc_state) : exc_state :=
  { s with exception_jmp_vec := some (s.frames ++ [s.next_jb]), next_jb := s.next_jb + 1 }

/-- What `pth_catch` does once `fn (data)` has left: after a normal return
the frame is popped and null is returned; a `longjmp` to the `jmp_buf` of
this call makes its `setjmp` return `1`, and `exception_msg` is returned;
any other jump passes through. -/
def after_fn (jb : Nat) : flow Unit × exc_state → flow (Option String) × exc_state
  | (flow.returned _, s) =>
    match pop_frame s with
    | some s1 => (flow.returned none, s1)
    | none => (flow.crashed, s)
  | (flow.jumped target, s) =>
    if target = jb then (flow.returned s.exception_msg, s) else (flow.jumped target, s)
  | (flow.exited, s) => (flow.exited, s)
  | (flow.crashed, s) => (flow.crashed, s)

/-- Execution of user code in a fiber. -/
def run_code : code → exc_state → flow Unit × exc_state
  | code.returns, s => (flow.returned (), s)
  | code.call_die msg, s => _pth_die msg s
  | code.call_exit, s => (flow.exited, s)
  | code.call_catch fn k, s =>
    match after_fn s.next_jb (run_code fn (push_frame s)) with
    | (flow.returned r, s1) => run_code (k r) s1
    | (flow.jumped target, s1) => (flow.jumped target, s1)
    | (flow.exited, s1) => (flow.exited, s1)
    | (flow.crashed, s1) => (flow.crashed, s1)

/-- The function `pth_catch (fn, data)`. -/
def pth_catch (fn : code) (s : exc_state) : flow (Option String) × exc_state :=
  after_fn s.next_jb (run_code fn (push_frame s))

/-- How a piece of code ends according to the specification of
exceptions. -/
inductive ending where
  | normal
  | died (msg : String)
  | exit
deriving DecidableEq, Repr

/-- Modelled from the spec: how code ends when each `pth_die` is delivered
to the innermost enclosing `pth_catch`, which then returns the message,
and a `pth_catch` whose function returns normally returns null. -/
def catch_spec : code → ending
  | code.returns => ending.normal
  | code.call_die msg => ending.died msg
  | code.call_exit => ending.exit
  | code.call_catch fn k =>
    match catch_spec fn with
    | ending.normal => catch_spec (k none)
    | ending.died msg => catch_spec (k (some msg))
    | ending.exit => ending.exit

/-- The machine agrees with the specification on a piece of code in a
state: code that ends normally returns with the frames as they were; code
that dies jumps to the innermost frame, which is popped, with the message
stored, or, without a frame, prints the message and exits; code that exits
exits. -/
def run_ok (c : code) (s : exc_state) : Prop :=
  match catch_spec c with
  | ending.normal => ∃ s1, run_code c s = (flow.returned (), s1) ∧ s1.frames = s.frames
  | ending.died msg =>
    (∀ v j, s.frames = v ++ [j] →
      ∃ s1, run_code c s = (flow.jumped j, s1) ∧ s1.frames = v ∧
        s1.exception_msg = some msg) ∧
    (s.frames = [] → ∃ s1, run_code c s = (flow.exited, s1) ∧ msg ∈ s1.stderr)
  | ending.exit => ∃ s1, run_code c s = (flow.exited, s1)

/-- The function `do_test` of `test_except1.c`: it calls `pth_catch` on
`do_die`, which dies with a message, and then dies with `wrong` (the test
calls `abort`) unless that message was returned. -/
def example_code : code :=
  code.call_catch (code.call_die "this is the message")
    (fun r => if r = some "this is the message" then code.returns else code.call_die "wrong")

end pthr_pseudothread

namespace pthr_pseudothread

/-! ### `pth_start`, `thread_trampoline` and `current_pth` -/

/-- What the entry function of a fiber does, as far as the scheduling of
fibers goes: it returns; it calls `pth_exit ()`; it suspends through
`_pth_switch_thread_to_calling_context ()` and goes on when it is switched
into again; it reads `current_pth`; or it calls `pth_start (pth)` on a new
pseudothread `pth` with entry function `run`. -/
inductive fiber_code where
  | finish
  | call_exit
  | suspend (k : fiber_code)
  | observe (k : fiber_code)
  | start (pth : Nat) (run : fiber_code) (k : fiber_code)
deriving DecidableEq, Repr

/-- The global `current_pth` (a pointer, any number), the suspended fibers
with what each does when it is switched into again (its saved
`thread_ctx`), the reads of `current_pth` so far, each with the fiber that
made it, and whether a switch or `longjmp` made through `current_pth`
named another fiber than the one running. -/
structure sched where
  current_pth : Nat
  suspended : List (Nat × fiber_code)
  seen : List (Nat × Nat)
  wrong_context : Bool
deriving DecidableEq, Repr

/-- Execution of fiber `self` from the code it is at until control is
back in its calling context: at the end of `thread_trampoline`, which
restores the calling context after the entry function has returned or
`pth_exit` has jumped to `current_pth->exit_jmp`, or at a suspension, which
saves the context in `current_pth->thread_ctx` and switches to
`current_pth->calling_ctx`.  The case `start` is `pth_start`: `old_pth =
current_pth`, the switch into `thread_trampoline`, which assigns
`current_pth = pth` and calls the entry function, and `current_pth =
old_pth` once control is back. -/
def run_fiber : Nat → fiber_code → sched → sched
  | _, fiber_code.finish, s => s
  | self, fiber_code.call_exit, s =>
    if s.current_pth = self then s else { s with wrong_context := true }
  | self, fiber_code.suspend k, s =>
    if s.current_pth = self then { s with suspended := (s.current_pth, k) :: s.suspended }
    else { s with wrong_context := true }
  | self, fiber_code.observe k, s =>
    run_fiber self k { s with seen := s.seen ++ [(self, s.current_pth)] }
  | self, fiber_code.start pth run k, s =>
    let old_pth := s.current_pth
    let s1 := run_fiber pth run { s with current_pth := pth }
    run_fiber self k { s1 with current_pth := old_pth }

/-- The function `thread_trampoline (pth)` up to the moment control is
back in the calling context. -/
def thread_trampoline (pth : Nat) (run : fiber_code) (s : sched) : sched :=
  run_fiber pth run { s with current_pth := pth }

/-- The function `pth_start (pth)`, for a pseudothread with entry function
`run`. -/
def pth_start (pth : Nat) (run : fiber_code) (s : sched) : sched :=
  let old_pth := s.current_pth
  let s1 := thread_trampoline pth run s
  { s1 with current_pth := old_pth }

/-- The function `_pth_switch_calling_to_thread_context (pth)`, called by
the callbacks of the reactor: `current_pth = pth`, then the switch into
the saved context of the fiber.  Switching into a fiber that is not
suspended is undefined behaviour. -/
def _pth_switch_calling_to_thread_context (pth : Nat) (s : sched) : Option sched :=
  match s.suspended.lookup pth with
  | none => none
  | some k =>
    some (run_fiber pth k
      { s with current_pth := pth, suspended := s.suspended.eraseP (fun x => x.1 = pth) })

/-- What the main program does: it starts a pseudothread, or it runs the
reactor, a callback of which switches into a suspended fiber. -/
inductive main_op where
  | start (pth : Nat) (run : fiber_code)
  | resume (pth : Nat)
deriving DecidableEq, Repr

/-- Execution of the main program. -/
def run_main : List main_op → sched → Option sched
  | [], s => some s
  | main_op.start pth run :: ops, s => run_main ops (pth_start pth run s)
  | main_op.resume pth :: ops, s =>
    match _pth_switch_calling_to_thread_context pth s with
    | none => none
    | some s1 => run_main ops s1

/-- The reads of `current_pth` in `l` gave the fiber that made them. -/
def all_self (l : List (Nat × Nat)) : Prop := ∀ o ∈ l, o.1 = o.2

/-- The program of `test_pseudothread.c`, shortened: fiber 1 checks
`current_pth`, starts fiber 2, which checks it, sleeps and checks it
again, checks it after `pth_start` has returned, and sleeps. -/
def example_main : List main_op :=
  [main_op.start 1
     (fiber_code.observe (fiber_code.start 2
        (fiber_code.observe (fiber_code.suspend (fiber_code.observe fiber_code.call_exit)))
        (fiber_code.observe (fiber_code.suspend fiber_code.finish)))),
   main_op.resume 2, main_op.resume 1]

end pthr_pseudothread

/-! ## Part 2: theorems -/

section mutex_theorems

open pthr_reactor pthr_wait_queue pthr_mutex

/-- C1: `mutex_try_enter` returns true exactly when the mutex has no
holder; on true the holder becomes the current pseudothread, the wait
queue and the reactor are untouched, and the recorded subpool is a new
subpool of the pool of the current pseudothread whose only clean-up
function is the release callback; on false the whole state is unchanged.
Hence while some pseudothread holds the mutex, neither `mutex_try_enter`
nor a pass of `mutex_enter` by any pseudothread acquires it: the holder
stays, and the caller of `mutex_enter` is suspended at the back of the
queue. -/
theorem mutex_try_enter_exclusive (s : pthr_mutex.state) (f : pseudothread) :
    ((mutex_try_enter s f).1 = true ↔ s.m.pth = none) ∧
    (s.m.pth = none →
      (mutex_try_enter s f).2.m.pth = some f ∧
      (mutex_try_enter s f).2.m.pool = some s.subpools.next ∧
      (mutex_try_enter s f).2.m.wq = s.m.wq ∧
      (mutex_try_enter s f).2.r = s.r ∧
      pool_lookup (mutex_try_enter s f).2.subpools s.subpools.next =
        some { addr := s.subpools.next, parent := pth_get_pool f,
               cleanup_fns := [cleanup._do_release] } ∧
      ((∀ rec ∈ s.subpools.live, rec.addr < s.subpools.next) →
        pool_lookup s.subpools s.subpools.next = none ∧
        (mutex_try_enter s f).2.subpools.live =
          { addr := s.subpools.next, parent := pth_get_pool f,
            cleanup_fns := [cleanup._do_release] } :: s.subpools.live)) ∧
    (s.m.pth ≠ none → (mutex_try_enter s f).2 = s) ∧
    (∀ g, s.m.pth = some g →
      (mutex_try_enter s f).1 = false ∧
      (mutex_try_enter s f).2.m.pth = some g ∧
      (mutex_enter s f).1 = enter_result.suspended ∧
      (mutex_enter s f).2.m.pth = some g ∧
      (mutex_enter s f).2.m.pool = s.m.pool ∧
      (mutex_enter s f).2.m.wq.sleepers = s.m.wq.sleepers ++ [f]) := by
  refine ⟨?_, ?_, ?_, ?_⟩
  · by_cases h : s.m.pth = none <;> simp [mutex_try_enter, h, new_subpool]
  · intro h
    refine ⟨?_, ?_, ?_, ?_, ?_, ?_⟩
    · simp [mutex_try_enter, h, new_subpool]
    · simp [mutex_try_enter, h, new_subpool]
    · simp [mutex_try_enter, h, new_subpool]
    · simp [mutex_try_enter, h, new_subpool]
    · simp [mutex_try_enter, h, new_subpool, pool_register_cleanup_fn, pool_lookup]
    · intro hwf
      constructor
      · simp only [pool_lookup, List.find?_eq_none]
        intro rec hrec
        have hlt := hwf rec hrec
        simpa using Nat.ne_of_lt hlt
      · simp only [mutex_try_enter, h, new_subpool, pool_register_cleanup_fn]
        simp only [if_true, List.map_cons, List.cons.injEq, List.nil_append, true_and]
        conv_rhs => rw [← List.map_id s.subpools.live]
        apply List.map_congr_left
        intro rec hrec
        have hlt := hwf rec hrec
        simp [Nat.ne_of_lt hlt]
  · intro h
    simp [mutex_try_enter, h]
  · intro g hg
    simp [mutex_try_enter, mutex_enter, hg, wq_sleep_on]

/-- C1, witness: on a fresh mutex pseudothread 7 acquires the lock, after
which pseudothread 8 is refused and 7 is still the holder. -/
theorem mutex_try_enter_exclusive_witness :
    (mutex_try_enter (new_mutex ⟨[], 0⟩ ⟨[], 0, fun _ => 0⟩) 7).1 = true ∧
    (mutex_try_enter (mutex_try_enter (new_mutex ⟨[], 0⟩ ⟨[], 0, fun _ => 0⟩) 7).2 8).1
      = false ∧
    (mutex_try_enter (mutex_try_enter (new_mutex ⟨[], 0⟩ ⟨[], 0, fun _ => 0⟩) 7).2 8).2.m.pth
      = some 7 :=
  ⟨(mutex_try_enter_exclusive (new_mutex ⟨[], 0⟩ ⟨[], 0, fun _ => 0⟩) 7).1.2 rfl,
   ((mutex_try_enter_exclusive
      (mutex_try_enter (new_mutex ⟨[], 0⟩ ⟨[], 0, fun _ => 0⟩) 7).2 8).2.2.2 7 rfl).1,
   ((mutex_try_enter_exclusive
      (mutex_try_enter (new_mutex ⟨[], 0⟩ ⟨[], 0, fun _ => 0⟩) 7).2 8).2.2.2 7 rfl).2.1⟩

/-- Release of a mutex whose recorded subpool is live with the release
callback as its only clean-up function: `mutex_leave` succeeds; the
subpool is gone, the holder and the recorded subpool are cleared, and the
wake-up is scheduled from a state in which they are already cleared.
With an empty queue nothing is scheduled; with sleepers `f1 :: rest` the
queue becomes `rest` and exactly one prepoll handler, `do_wake_up` for the
single pseudothread `f1`, is added to the reactor. -/
theorem mutex_leave_of_live (s : pthr_mutex.state) (cur : pseudothread) (p : pool)
    (rec : pool_rec cleanup)
    (hheld : s.m.pth = some cur) (hpool : s.m.pool = some p)
    (hlive : pool_lookup s.subpools p = some rec)
    (hfns : rec.cleanup_fns = [cleanup._do_release]) :
    ∃ s1, mutex_leave s cur = some s1 ∧
      s1.m.pth = none ∧ s1.m.pool = none ∧
      pool_lookup s1.subpools p = none ∧
      (clear_holder { s with subpools := pool_remove s.subpools p }).m.pth = none ∧
      wake_waiter (clear_holder { s with subpools := pool_remove s.subpools p }) = some s1 ∧
      (s.m.wq.sleepers = [] →
        s1.m.wq.sleepers = [] ∧ s1.r.head_prepoll = s.r.head_prepoll ∧
        s1.r.next_addr = s.r.next_addr) ∧
      (∀ f1 rest, s.m.wq.sleepers = f1 :: rest →
        s1.m.wq.sleepers = rest ∧
        s1.r.head_prepoll =
          { addr := s.r.next_addr, fn := prepoll_fn.do_wake_up [f1],
            fired := s.r.uninit s.r.next_addr } :: s.r.head_prepoll) := by
  have hlookup : ∀ (t : pool_table cleanup), pool_lookup (pool_remove t p) p = none := by
    intro t
    simp [pool_lookup, pool_remove, List.find?_eq_none]
  cases hs : s.m.wq.sleepers with
  | nil =>
    refine ⟨clear_holder { s with subpools := pool_remove s.subpools p }, ?_, rfl, rfl,
      hlookup _, rfl, ?_, ?_, ?_⟩
    · simp [mutex_leave, hheld, hpool, delete_pool, hlive, hfns, run_cleanup, _do_release,
        wake_waiter, clear_holder, wq_nr_sleepers, hs]
    · simp [wake_waiter, clear_holder, wq_nr_sleepers, hs]
    · intro _
      simp [clear_holder, hs]
    · intro f1 rest h
      cases h
  | cons f1 rest =>
    refine ⟨{ m := { pth := none, wq := { sleepers := rest }, pool := none },
              subpools := pool_remove s.subpools p,
              r := (reactor_register_prepoll s.r (.do_wake_up [f1])).1 }, ?_, rfl, rfl,
      hlookup _, rfl, ?_, ?_, ?_⟩
    · simp [mutex_leave, hheld, hpool, delete_pool, hlive, hfns, run_cleanup, _do_release,
        wake_waiter, clear_holder, wq_nr_sleepers, hs, wq_wake_up_one, wake_up, pop_loop]
    · simp [wake_waiter, clear_holder, wq_nr_sleepers, hs, wq_wake_up_one, wake_up, pop_loop]
    · intro h
      cases h
    · intro g rest2 h
      cases h
      simp [reactor_register_prepoll]

/-- Waking a waiter leaves the holder, the recorded subpool and the pool
table alone. -/
theorem wake_waiter_frame (s s1 : pthr_mutex.state) (h : wake_waiter s = some s1) :
    s1.m.pth = s.m.pth ∧ s1.m.pool = s.m.pool ∧ s1.subpools = s.subpools := by
  unfold wake_waiter at h
  split at h
  · split at h
    · cases h
    · cases h; exact ⟨rfl, rfl, rfl⟩
  · cases h; exact ⟨rfl, rfl, rfl⟩

/-- Under the invariant, the deletion of the recorded subpool of a held
mutex succeeds and leaves a free mutex that satisfies the invariant. -/
theorem mutex_inv_delete (s : pthr_mutex.state) (f : pseudothread) (p : pool)
    (hheld : s.m.pth = some f) (hpool : s.m.pool = some p)
    (hlive : s.subpools.live =
      [{ addr := p, parent := pth_get_pool f, cleanup_fns := [cleanup._do_release] }]) :
    ∃ s1, pthr_mutex.delete_pool s p = some s1 ∧ mutex_inv s1 ∧ s1.m.pth = none := by
  have hlook : pool_lookup s.subpools p =
      some { addr := p, parent := pth_get_pool f, cleanup_fns := [cleanup._do_release] } := by
    simp [pool_lookup, hlive]
  obtain ⟨s1, hleave, hpth, hpl, _, _, hwake, _, _⟩ :=
    mutex_leave_of_live s f p _ hheld hpool hlook rfl
  have hdel : pthr_mutex.delete_pool s p = some s1 := by
    simpa [mutex_leave, hheld, hpool] using hleave
  obtain ⟨_, _, hsub⟩ := wake_waiter_frame _ _ hwake
  refine ⟨s1, hdel, ⟨?_, ?_⟩, hpth⟩
  · intro _
    refine ⟨hpl, ?_⟩
    rw [hsub]
    simp [clear_holder, pool_remove, hlive]
  · intro g hg
    rw [hpth] at hg
    cases hg

/-- The invariant is kept by every call on the mutex. -/
theorem mutex_inv_step (s s1 : pthr_mutex.state) (o : pthr_mutex.op) (hinv : mutex_inv s)
    (hstep : pthr_mutex.step s o = some s1) : mutex_inv s1 := by
  have htry : ∀ f, mutex_inv (mutex_try_enter s f).2 := by
    intro f
    cases hp : s.m.pth with
    | none =>
      obtain ⟨_, hl⟩ := hinv.free hp
      constructor
      · intro hfree
        simp [mutex_try_enter, hp] at hfree
      · intro g hg
        refine ⟨s.subpools.next, ?_, ?_⟩
        · simp [mutex_try_enter, hp, new_subpool]
        · have hgf : f = g := by
            simpa [mutex_try_enter, hp, new_subpool] using hg
          simp [mutex_try_enter, hp, new_subpool, pool_register_cleanup_fn, hl, hgf]
    | some g =>
      have hsame : (mutex_try_enter s f).2 = s := by simp [mutex_try_enter, hp]
      rw [hsame]; exact hinv
  cases o with
  | try_enter f =>
    simp only [pthr_mutex.step, Option.some.injEq] at hstep
    rw [← hstep]; exact htry f
  | enter f =>
    simp only [pthr_mutex.step, Option.some.injEq] at hstep
    rw [← hstep]
    have h := htry f
    unfold mutex_enter
    split
    · rename_i s2 heq
      rw [heq] at h; exact h
    · rename_i s2 heq
      rw [heq] at h
      exact ⟨h.free, h.held⟩
  | leave f =>
    simp only [pthr_mutex.step] at hstep
    unfold mutex_leave at hstep
    by_cases hheld : s.m.pth = some f
    · obtain ⟨p, hpool, hlive⟩ := hinv.held f hheld
      rw [if_pos hheld, hpool] at hstep
      obtain ⟨s2, hdel, hinv2, _⟩ := mutex_inv_delete s f p hheld hpool hlive
      simp only at hstep
      rw [hdel] at hstep
      cases hstep
      exact hinv2
    · rw [if_neg hheld] at hstep
      cases hstep
  | exit f =>
    simp only [pthr_mutex.step] at hstep
    unfold pthr_mutex.pth_exit_release at hstep
    cases hp : s.m.pth with
    | none =>
      obtain ⟨_, hl⟩ := hinv.free hp
      simp [hl] at hstep
      rw [← hstep]; exact hinv
    | some g =>
      obtain ⟨p, hpool, hlive⟩ := hinv.held g hp
      by_cases hgf : pth_get_pool g = pth_get_pool f
      · obtain ⟨s2, hdel, hinv2, _⟩ := mutex_inv_delete s g p hp hpool hlive
        simp [hlive, hgf, hdel] at hstep
        rw [← hstep]; exact hinv2
      · simp [hlive, hgf] at hstep
        rw [← hstep]; exact hinv

/-- The invariant is kept by every sequence of calls on the mutex. -/
theorem mutex_inv_run (ops : List pthr_mutex.op) :
    ∀ (s s1 : pthr_mutex.state), mutex_inv s → pthr_mutex.run s ops = some s1 →
      mutex_inv s1 := by
  induction ops with
  | nil =>
    intro s s1 hinv hrun
    simp only [pthr_mutex.run, Option.some.injEq] at hrun
    rw [← hrun]; exact hinv
  | cons o os ih =>
    intro s s1 hinv hrun
    simp only [pthr_mutex.run] at hrun
    cases hst : pthr_mutex.step s o with
    | none => rw [hst] at hrun; cases hrun
    | some s2 =>
      rw [hst] at hrun
      exact ih s2 s1 (mutex_inv_step s s2 o hinv hst) hrun

/-- C2: in every state that a sequence of `mutex_try_enter`,
`mutex_enter`, `mutex_leave` calls and exits of pseudothreads reaches
from a new mutex, if the current pseudothread holds the mutex then
`mutex_leave` succeeds: the holder and the recorded subpool are cleared
and no subpool of the mutex stays live; the wake-up is scheduled from a
state in which the holder is already cleared; with an empty queue nothing
is scheduled; with sleepers `f1 :: rest` the queue becomes `rest` and
exactly one prepoll handler, `do_wake_up` for the single pseudothread
`f1`, is added at the head of the prepoll list.  The pseudothread is
resumed only when the reactor later calls that handler. -/
theorem mutex_leave_wakes_head (k : Nat) (r0 : reactor) (ops : List pthr_mutex.op)
    (s : pthr_mutex.state) (cur : pseudothread)
    (hrun : pthr_mutex.run (new_mutex ⟨[], k⟩ r0) ops = some s)
    (hheld : s.m.pth = some cur) :
    ∃ s1, mutex_leave s cur = some s1 ∧
      s1.m.pth = none ∧ s1.m.pool = none ∧ s1.subpools.live = [] ∧
      (∃ mid, mid.m.pth = none ∧ mid.m.pool = none ∧ mid.m.wq = s.m.wq ∧ mid.r = s.r ∧
        wake_waiter mid = some s1) ∧
      (s.m.wq.sleepers = [] →
        s1.m.wq.sleepers = [] ∧ s1.r.head_prepoll = s.r.head_prepoll ∧
        s1.r.next_addr = s.r.next_addr) ∧
      (∀ f1 rest, s.m.wq.sleepers = f1 :: rest →
        s1.m.wq.sleepers = rest ∧
        s1.r.head_prepoll =
          { addr := s.r.next_addr, fn := prepoll_fn.do_wake_up [f1],
            fired := s.r.uninit s.r.next_addr } :: s.r.head_prepoll) := by
  have hinit : mutex_inv (new_mutex ⟨[], k⟩ r0) :=
    ⟨fun _ => ⟨rfl, rfl⟩, fun f hf => by cases hf⟩
  have hinv := mutex_inv_run ops _ s hinit hrun
  obtain ⟨p, hpool, hlive⟩ := hinv.held cur hheld
  have hlook : pool_lookup s.subpools p =
      some { addr := p, parent := pth_get_pool cur, cleanup_fns := [cleanup._do_release] } := by
    simp [pool_lookup, hlive]
  obtain ⟨s1, hleave, hpth, hpl, _, hmid, hwake, hempty, hcons⟩ :=
    mutex_leave_of_live s cur p _ hheld hpool hlook rfl
  obtain ⟨_, _, hsub⟩ := wake_waiter_frame _ _ hwake
  refine ⟨s1, hleave, hpth, hpl, ?_, ⟨_, hmid, rfl, rfl, rfl, hwake⟩, hempty, hcons⟩
  rw [hsub]
  simp [clear_holder, pool_remove, hlive]

/-- C2, witness: pseudothread 1 enters a new mutex, then 2 and 3 try to
enter and go to sleep; when 1 leaves, the holder is cleared, 3 stays on
the queue and one handler waking 2 is registered. -/
theorem mutex_leave_wakes_head_witness :
    ∃ s s1,
      pthr_mutex.run (new_mutex ⟨[], 0⟩ ⟨[], 0, fun _ => 0⟩)
        [pthr_mutex.op.enter 1, pthr_mutex.op.enter 2, pthr_mutex.op.enter 3] = some s ∧
      s.m.pth = some 1 ∧ s.m.wq.sleepers = [2, 3] ∧
      mutex_leave s 1 = some s1 ∧
      s1.m.pth = none ∧ s1.m.wq.sleepers = [3] ∧
      s1.r.head_prepoll = [{ addr := 0, fn := prepoll_fn.do_wake_up [2], fired := 0 }] := by
  obtain ⟨s1, h1, h2, _, _, _, _, h3⟩ := mutex_leave_wakes_head 0 ⟨[], 0, fun _ => 0⟩
    [pthr_mutex.op.enter 1, pthr_mutex.op.enter 2, pthr_mutex.op.enter 3] _ 1 rfl rfl
  exact ⟨_, s1, rfl, rfl, rfl, h1, h2, (h3 2 [3] rfl).1, (h3 2 [3] rfl).2⟩

end mutex_theorems

section rwlock_theorems

open pthr_reactor pthr_wait_queue pthr_rwlock

/-- C4: `rwlock_try_enter_read` returns true exactly when `n >= 0` and
the lock is in readers-have-priority mode or no writer sleeps on the
writers queue; on true `n` grows by exactly one and the current
pseudothread is recorded in the hash with its new subpool, the queues and
the mode being untouched; on false the state is unchanged.  In
writers-have-priority mode, which is the mode of a new lock, a reader
does not acquire the lock while a writer sleeps on the writers queue, by
`rwlock_try_enter_read` or by a pass of `rwlock_enter_read`. -/
theorem rwlock_try_enter_read_policy (s : pthr_rwlock.state) (f : pseudothread) :
    ((rwlock_try_enter_read s f).1 = true ↔
      (s.rw.n ≥ 0 ∧
        (s.rw.writers_have_priority = false ∨ s.rw.writers_wq.sleepers = []))) ∧
    ((rwlock_try_enter_read s f).1 = true →
      (rwlock_try_enter_read s f).2.rw.n = s.rw.n + 1 ∧
      hash_get (rwlock_try_enter_read s f).2.rw.pools f = some s.subpools.next ∧
      (rwlock_try_enter_read s f).2.rw.writers_wq = s.rw.writers_wq ∧
      (rwlock_try_enter_read s f).2.rw.readers_wq = s.rw.readers_wq ∧
      (rwlock_try_enter_read s f).2.rw.writers_have_priority = s.rw.writers_have_priority) ∧
    ((rwlock_try_enter_read s f).1 = false → (rwlock_try_enter_read s f).2 = s) ∧
    (s.rw.writers_have_priority = true → s.rw.writers_wq.sleepers ≠ [] →
      (rwlock_try_enter_read s f).1 = false ∧
      (rwlock_enter_read s f).1 = false ∧
      (rwlock_enter_read s f).2.rw.n = s.rw.n ∧
      (rwlock_enter_read s f).2.rw.pools = s.rw.pools) ∧
    (∀ t r, (new_rwlock t r).rw.writers_have_priority = true) := by
  have hlen : wq_nr_sleepers s.rw.writers_wq = 0 ↔ s.rw.writers_wq.sleepers = [] := by
    simp [wq_nr_sleepers]
  by_cases hc : s.rw.n ≥ 0 ∧
      (s.rw.writers_have_priority = false ∨ wq_nr_sleepers s.rw.writers_wq = 0)
  · have hc2 := hc
    rw [hlen] at hc2
    refine ⟨?_, ?_, ?_, ?_, ?_⟩
    · simp only [rwlock_try_enter_read, hc, and_self, if_true]
      simp [hc2]
    · intro _
      simp only [rwlock_try_enter_read, hc, and_self, if_true]
      simp [_do_enter, new_subpool, hash_insert, hash_get]
    · simp only [rwlock_try_enter_read, hc, and_self, if_true]
      simp
    · intro hp hq
      rcases hc2.2 with h | h
      · rw [hp] at h; cases h
      · exact absurd h hq
    · intro t r; rfl
  · have hc2 := hc
    rw [hlen] at hc2
    refine ⟨?_, ?_, ?_, ?_, ?_⟩
    · simp only [rwlock_try_enter_read, hc, if_false]
      constructor
      · intro h; cases h
      · intro h; exact absurd h hc2
    · simp only [rwlock_try_enter_read, hc, if_false]
      simp
    · intro _
      simp only [rwlock_try_enter_read, hc, if_false]
    · intro _ _
      simp only [rwlock_enter_read, rwlock_try_enter_read, hc, if_false]
      simp
    · intro t r; rfl

/-- C4, witness: in the mode of a new lock with one reader inside and
writer 9 asleep on the writers queue, reader 5 is refused; after the
switch to readers-have-priority it is admitted and `n` becomes 2. -/
theorem rwlock_try_enter_read_policy_witness :
    (rwlock_try_enter_read
      { rw := { n := 1, writers_wq := { sleepers := [9] }, readers_wq := { sleepers := [] },
                pools := [(4, 0)], writers_have_priority := true },
        subpools := { live := [], next := 1 },
        r := { head_prepoll := [], next_addr := 0, uninit := fun _ => 0 } } 5).1 = false ∧
    (rwlock_try_enter_read
      { rw := { n := 1, writers_wq := { sleepers := [9] }, readers_wq := { sleepers := [] },
                pools := [(4, 0)], writers_have_priority := false },
        subpools := { live := [], next := 1 },
        r := { head_prepoll := [], next_addr := 0, uninit := fun _ => 0 } } 5).2.rw.n = 2 :=
  ⟨((rwlock_try_enter_read_policy
      { rw := { n := 1, writers_wq := { sleepers := [9] }, readers_wq := { sleepers := [] },
                pools := [(4, 0)], writers_have_priority := true },
        subpools := { live := [], next := 1 },
        r := { head_prepoll := [], next_addr := 0, uninit := fun _ => 0 } } 5).2.2.2.1
      rfl (by decide)).1,
   ((rwlock_try_enter_read_policy
      { rw := { n := 1, writers_wq := { sleepers := [9] }, readers_wq := { sleepers := [] },
                pools := [(4, 0)], writers_have_priority := false },
        subpools := { live := [], next := 1 },
        r := { head_prepoll := [], next_addr := 0, uninit := fun _ => 0 } } 5).2.1
      (by decide)).1⟩

/-- The flag of `hash_erase` is true for a key of the hash. -/
theorem hash_erase_fst_of_mem (h : List (pseudothread × pool)) (k : pseudothread) (q : pool)
    (hk : (k, q) ∈ h) : (hash_erase h k).1 = true := by
  simp only [hash_erase, List.any_eq_true]
  exact ⟨(k, q), hk, by simp⟩

/-- C5: when the subpool of a holder is deleted, its only clean-up
function being the release callback for that holder, the holder is erased
from the hash and: for `n > 0`, `n` drops by one, and exactly one writer
(the head of the writers queue) is scheduled when `n` was 1 and a writer
waits, nobody otherwise; for `n = -1`, `n` becomes 0 and the head of the
writers queue is scheduled if a writer waits, otherwise the head of the
readers queue if a reader waits, otherwise nobody.  Scheduling one
pseudothread means removing it from its queue and registering one
`do_wake_up` handler for it alone.  `rwlock_leave` is this deletion for
the subpool found in the hash, and the exit of a pseudothread whose only
live subpool is this one is the same deletion. -/
theorem rwlock_release_wakes (s : pthr_rwlock.state) (p q : pool) (rec : pool_rec cleanup)
    (data : cleanup_data)
    (hlive : pool_lookup s.subpools p = some rec)
    (hfns : rec.cleanup_fns = [cleanup._do_release data])
    (hkey : (data.pth, q) ∈ s.rw.pools) :
    (0 < s.rw.n → ∃ s1, delete_pool s p = some s1 ∧
      s1.rw.n = s.rw.n - 1 ∧
      s1.rw.pools = s.rw.pools.filter (fun e => e.1 ≠ data.pth) ∧
      s1.rw.readers_wq = s.rw.readers_wq ∧
      (∀ w ws, s.rw.n = 1 → s.rw.writers_wq.sleepers = w :: ws →
        s1.rw.writers_wq.sleepers = ws ∧
        s1.r.head_prepoll =
          { addr := s.r.next_addr, fn := prepoll_fn.do_wake_up [w],
            fired := s.r.uninit s.r.next_addr } :: s.r.head_prepoll) ∧
      ((s.rw.n ≠ 1 ∨ s.rw.writers_wq.sleepers = []) →
        s1.rw.writers_wq = s.rw.writers_wq ∧ s1.r.head_prepoll = s.r.head_prepoll)) ∧
    (s.rw.n = -1 → ∃ s1, delete_pool s p = some s1 ∧
      s1.rw.n = 0 ∧
      s1.rw.pools = s.rw.pools.filter (fun e => e.1 ≠ data.pth) ∧
      (∀ w ws, s.rw.writers_wq.sleepers = w :: ws →
        s1.rw.writers_wq.sleepers = ws ∧ s1.rw.readers_wq = s.rw.readers_wq ∧
        s1.r.head_prepoll =
          { addr := s.r.next_addr, fn := prepoll_fn.do_wake_up [w],
            fired := s.r.uninit s.r.next_addr } :: s.r.head_prepoll) ∧
      (∀ rd rds, s.rw.writers_wq.sleepers = [] → s.rw.readers_wq.sleepers = rd :: rds →
        s1.rw.readers_wq.sleepers = rds ∧ s1.rw.writers_wq = s.rw.writers_wq ∧
        s1.r.head_prepoll =
          { addr := s.r.next_addr, fn := prepoll_fn.do_wake_up [rd],
            fired := s.r.uninit s.r.next_addr } :: s.r.head_prepoll) ∧
      (s.rw.writers_wq.sleepers = [] → s.rw.readers_wq.sleepers = [] →
        s1.rw.writers_wq = s.rw.writers_wq ∧ s1.rw.readers_wq = s.rw.readers_wq ∧
        s1.r.head_prepoll = s.r.head_prepoll)) ∧
    (∀ cur, hash_get s.rw.pools cur = some p → rwlock_leave s cur = delete_pool s p) ∧
    (∀ pth, s.subpools.live.filter (fun r => r.parent = pth_get_pool pth) = [rec] →
      pth_exit_release s pth = delete_pool s p) := by
  have hk := hash_erase_fst_of_mem _ _ _ hkey
  have herase : hash_erase s.rw.pools data.pth =
      (true, s.rw.pools.filter (fun e => e.1 ≠ data.pth)) := by
    rw [← hk]; rfl
  refine ⟨?_, ?_, ?_, ?_⟩
  · intro hn
    have hn0 : s.rw.n ≠ 0 := by omega
    by_cases h1 : s.rw.n = 1
    · cases hw : s.rw.writers_wq.sleepers with
      | nil =>
        simp [delete_pool, hlive, hfns, run_cleanup, _do_release, pool_remove, herase, h1,
          wq_nr_sleepers, hw]
      | cons w ws =>
        simp [delete_pool, hlive, hfns, run_cleanup, _do_release, pool_remove, herase, h1,
          wq_nr_sleepers, hw, wake_one_writer, wq_wake_up_one, wake_up, pop_loop,
          reactor_register_prepoll]
    · have h2 : s.rw.n - 1 ≠ 0 := by omega
      simp [delete_pool, hlive, hfns, run_cleanup, _do_release, pool_remove, herase, hn0, hn,
        h1, h2]
  · intro hn
    cases hw : s.rw.writers_wq.sleepers with
    | nil =>
      cases hr : s.rw.readers_wq.sleepers with
      | nil =>
        simp [delete_pool, hlive, hfns, run_cleanup, _do_release, pool_remove, herase, hn,
          wq_nr_sleepers, hw, hr]
      | cons rd rds =>
        simp [delete_pool, hlive, hfns, run_cleanup, _do_release, pool_remove, herase, hn,
          wq_nr_sleepers, hw, hr, wake_one_reader, wq_wake_up_one, wake_up, pop_loop,
          reactor_register_prepoll]
    | cons w ws =>
      simp [delete_pool, hlive, hfns, run_cleanup, _do_release, pool_remove, herase, hn,
        wq_nr_sleepers, hw, wake_one_writer, wq_wake_up_one, wake_up, pop_loop,
        reactor_register_prepoll]
  · intro cur hcur
    simp [rwlock_leave, hcur]
  · intro pth hfil
    have haddr : rec.addr = p := by
      have hfound := List.find?_some hlive
      simpa using hfound
    simp only [pth_exit_release, hfil, List.foldlM_cons, List.foldlM_nil, haddr]
    cases pthr_rwlock.delete_pool s p <;> rfl

/-- Filtering out an absent key changes nothing. -/
theorem filter_key_ne_of_not_mem {β : Type} (l : List (pseudothread × β)) (f : pseudothread)
    (h : f ∉ l.map Prod.fst) : l.filter (fun e => e.1 ≠ f) = l := by
  rw [List.filter_eq_self]
  intro e he
  have hne : e.1 ≠ f := fun hh => h (hh ▸ List.mem_map_of_mem Prod.fst he)
  simpa using hne

/-- Filtering out a key that occurs once shortens the list by one. -/
theorem length_filter_key_ne {β : Type} (l : List (pseudothread × β)) (f : pseudothread)
    (hnd : (l.map Prod.fst).Nodup) (hf : f ∈ l.map Prod.fst) :
    (l.filter (fun e => e.1 ≠ f)).length + 1 = l.length := by
  induction l with
  | nil => simp at hf
  | cons a l ih =>
    simp only [List.map_cons, List.nodup_cons] at hnd
    by_cases ha : a.1 = f
    · have hnot : f ∉ l.map Prod.fst := ha ▸ hnd.1
      rw [List.filter_cons_of_neg (by simp [ha]), filter_key_ne_of_not_mem l f hnot]
      rfl
    · have hf2 : f ∈ l.map Prod.fst := by
        simp only [List.map_cons, List.mem_cons] at hf
        rcases hf with h | h
        · exact absurd h.symm ha
        · exact h
      rw [List.filter_cons_of_pos (by simp [ha])]
      simp only [List.length_cons]
      rw [ih hnd.2 hf2]

/-- With distinct keys, erasing the first entry of a key is filtering the
key out. -/
theorem eraseP_key_eq_filter {β : Type} (l : List (pseudothread × β)) (f : pseudothread)
    (hnd : (l.map Prod.fst).Nodup) :
    l.eraseP (fun e => e.1 = f) = l.filter (fun e => e.1 ≠ f) := by
  induction l with
  | nil => rfl
  | cons a l ih =>
    simp only [List.map_cons, List.nodup_cons] at hnd
    by_cases ha : a.1 = f
    · have hnot : f ∉ l.map Prod.fst := ha ▸ hnd.1
      rw [List.eraseP_cons_of_pos (by simp [ha]), List.filter_cons_of_neg (by simp [ha]),
        filter_key_ne_of_not_mem l f hnot]
    · rw [List.eraseP_cons_of_neg (by simp [ha]), List.filter_cons_of_pos (by simp [ha]),
        ih hnd.2]

/-- Keys of a filtered association list. -/
theorem map_fst_filter_key_ne {β : Type} (l : List (pseudothread × β)) (f : pseudothread) :
    (l.filter (fun e => e.1 ≠ f)).map Prod.fst = (l.map Prod.fst).filter (fun k => k ≠ f) := by
  induction l with
  | nil => rfl
  | cons a l ih =>
    by_cases ha : a.1 = f
    · rw [List.filter_cons_of_neg (by simp [ha]), List.map_cons,
        List.filter_cons_of_neg (by simp [ha]), ih]
    · rw [List.filter_cons_of_pos (by simp [ha]), List.map_cons, List.map_cons,
        List.filter_cons_of_pos (by simp [ha]), ih]

/-- With distinct keys, the entries of a key that occurs are one entry. -/
theorem filter_key_eq_singleton {β : Type} (l : List (pseudothread × β)) (f : pseudothread)
    (b : β) (hnd : (l.map Prod.fst).Nodup) (hmem : (f, b) ∈ l) :
    l.filter (fun e => e.1 = f) = [(f, b)] := by
  induction l with
  | nil => cases hmem
  | cons a l ih =>
    simp only [List.map_cons, List.nodup_cons] at hnd
    by_cases ha : a.1 = f
    · have hnot : f ∉ l.map Prod.fst := ha ▸ hnd.1
      have hab : a = (f, b) := by
        rcases List.mem_cons.1 hmem with h | h
        · exact h.symm
        · exact absurd (List.mem_map_of_mem Prod.fst h) hnot
      rw [List.filter_cons_of_pos (by simp [ha]), hab]
      congr 1
      rw [List.filter_eq_nil_iff]
      intro e he hef
      have hef2 : e.1 = f := by simpa using hef
      exact hnot (hef2 ▸ List.mem_map_of_mem Prod.fst he)
    · have hmem2 : (f, b) ∈ l := by
        rcases List.mem_cons.1 hmem with h | h
        · exact absurd (by rw [← h]) ha
        · exact h
      rw [List.filter_cons_of_neg (by simp [ha]), ih hnd.2 hmem2]

/-- The pool table finds the record of an entry of the hash. -/
theorem pool_lookup_entry (t : pool_table cleanup) (h : List (pseudothread × pool))
    (f : pseudothread) (p : pool) (hlive : t.live = h.map entry_rec)
    (hnd : (h.map Prod.snd).Nodup) (hmem : (f, p) ∈ h) :
    pool_lookup t p = some (entry_rec (f, p)) := by
  unfold pool_lookup
  rw [hlive]
  clear hlive
  induction h with
  | nil => cases hmem
  | cons a h ih =>
    simp only [List.map_cons, List.nodup_cons] at hnd
    by_cases ha : a.2 = p
    · have hab : a = (f, p) := by
        rcases List.mem_cons.1 hmem with hm | hm
        · exact hm.symm
        · exact absurd (ha ▸ List.mem_map_of_mem Prod.snd hm) hnd.1
      rw [List.map_cons, List.find?_cons_of_pos _ (by simp [entry_rec, ha]), hab]
    · have hmem2 : (f, p) ∈ h := by
        rcases List.mem_cons.1 hmem with hm | hm
        · exact absurd (by rw [← hm]) ha
        · exact hm
      rw [List.map_cons, List.find?_cons_of_neg _ (by simp [entry_rec, ha])]
      exact ih hnd.2 hmem2

/-- Waking a writer leaves the count, the hash and the pool table alone. -/
theorem wake_one_writer_frame (s s1 : pthr_rwlock.state) (h : wake_one_writer s = some s1) :
    s1.rw.n = s.rw.n ∧ s1.rw.pools = s.rw.pools ∧ s1.subpools = s.subpools := by
  unfold wake_one_writer at h
  split at h
  · cases h
  · cases h; exact ⟨rfl, rfl, rfl⟩

/-- Waking a reader leaves the count, the hash and the pool table alone. -/
theorem wake_one_reader_frame (s s1 : pthr_rwlock.state) (h : wake_one_reader s = some s1) :
    s1.rw.n = s.rw.n ∧ s1.rw.pools = s.rw.pools ∧ s1.subpools = s.subpools := by
  unfold wake_one_reader at h
  split at h
  · cases h
  · cases h; exact ⟨rfl, rfl, rfl⟩

/-- What a successful run of the release callback does to the count, the
hash and the pool table. -/
theorem do_release_some (s s1 : pthr_rwlock.state) (data : cleanup_data)
    (h : pthr_rwlock._do_release s data = some s1) :
    s.rw.n ≠ 0 ∧
    s1.rw.n = (if 0 < s.rw.n then s.rw.n - 1 else 0) ∧
    s1.rw.pools = s.rw.pools.filter (fun e => e.1 ≠ data.pth) ∧
    s1.subpools = s.subpools := by
  unfold pthr_rwlock._do_release at h
  by_cases hn : s.rw.n = 0
  · simp [hn] at h
  · rw [if_neg hn] at h
    cases hb : (hash_erase s.rw.pools data.pth).1 with
    | false =>
      have he : hash_erase s.rw.pools data.pth =
          (false, s.rw.pools.filter (fun e => e.1 ≠ data.pth)) := by rw [← hb]; rfl
      rw [he] at h
      cases h
    | true =>
      have he : hash_erase s.rw.pools data.pth =
          (true, s.rw.pools.filter (fun e => e.1 ≠ data.pth)) := by rw [← hb]; rfl
      rw [he] at h
      simp only at h
      refine ⟨hn, ?_⟩
      by_cases hpos : 0 < s.rw.n
      · rw [if_pos hpos] at h
        rw [if_pos hpos]
        split at h
        · split at h
          · have hf := wake_one_writer_frame _ _ h
            exact ⟨hf.1, hf.2.1, hf.2.2⟩
          · cases h; exact ⟨rfl, rfl, rfl⟩
        · cases h; exact ⟨rfl, rfl, rfl⟩
      · rw [if_neg hpos] at h
        rw [if_neg hpos]
        split at h
        · have hf := wake_one_writer_frame _ _ h
          exact ⟨hf.1, hf.2.1, hf.2.2⟩
        · split at h
          · have hf := wake_one_reader_frame _ _ h
            exact ⟨hf.1, hf.2.1, hf.2.2⟩
          · cases h; exact ⟨rfl, rfl, rfl⟩

/-- Under the invariant, deleting the subpool of a holder runs the
release callback for that holder once. -/
theorem delete_pool_holder (s : pthr_rwlock.state) (inside : List (pseudothread × access))
    (f : pseudothread) (p : pool) (hinv : lock_inv s inside) (hmem : (f, p) ∈ s.rw.pools) :
    pthr_rwlock.delete_pool s p =
      pthr_rwlock._do_release { s with subpools := pool_remove s.subpools p } { pth := f } := by
  have hl := pool_lookup_entry s.subpools s.rw.pools f p hinv.live hinv.addrs hmem
  simp [pthr_rwlock.delete_pool, hl, entry_rec, pthr_rwlock.run_cleanup]

/-- The invariant after a successful acquisition by a pseudothread that
was not a holder. -/
theorem lock_inv_enter (s s1 : pthr_rwlock.state) (inside : List (pseudothread × access))
    (f : pseudothread) (a : access) (hinv : lock_inv s inside)
    (hf : f ∉ s.rw.pools.map Prod.fst)
    (hpools : s1.rw.pools = (_do_enter s f).rw.pools)
    (hsub : s1.subpools = (_do_enter s f).subpools)
    (hcount : (s1.rw.n = -1 ∧ ∃ g, (f, a) :: inside = [(g, access.writer)]) ∨
      (0 ≤ s1.rw.n ∧ (((f, a) :: inside).length : Int) = s1.rw.n ∧
        ∀ e ∈ (f, a) :: inside, e.2 = access.reader)) :
    lock_inv s1 ((f, a) :: inside) := by
  have hp : s1.rw.pools = (f, s.subpools.next) :: s.rw.pools := by
    rw [hpools]
    simp only [_do_enter, new_subpool, hash_insert]
    rw [filter_key_ne_of_not_mem _ _ hf]
  have hlive : s1.subpools.live = entry_rec (f, s.subpools.next) :: s.subpools.live := by
    rw [hsub]
    simp only [_do_enter, new_subpool, pool_register_cleanup_fn, List.map_cons, if_true,
      List.nil_append, entry_rec]
    congr 1
    conv_rhs => rw [← List.map_id s.subpools.live]
    apply List.map_congr_left
    intro rec hrec
    rw [hinv.live] at hrec
    obtain ⟨e, he, rfl⟩ := List.mem_map.1 hrec
    have hlt := hinv.fresh e he
    simp [entry_rec, Nat.ne_of_lt hlt]
  have hnext : s1.subpools.next = s.subpools.next + 1 := by
    rw [hsub]; rfl
  refine ⟨?_, ?_, ?_, ?_, ?_, hcount⟩
  · rw [hp, List.map_cons, List.map_cons, hinv.keys]
  · rw [List.map_cons, List.nodup_cons]
    exact ⟨by rw [← hinv.keys]; exact hf, hinv.nodup⟩
  · rw [hlive, hp, List.map_cons, hinv.live]
  · intro e he
    rw [hp] at he
    rw [hnext]
    rcases List.mem_cons.1 he with h | h
    · rw [h]; exact Nat.lt_succ_self _
    · exact Nat.lt_succ_of_lt (hinv.fresh e h)
  · rw [hp, List.map_cons, List.nodup_cons]
    refine ⟨?_, hinv.addrs⟩
    intro hmem
    obtain ⟨e, he, heq⟩ := List.mem_map.1 hmem
    have hlt := hinv.fresh e he
    rw [heq] at hlt
    exact Nat.lt_irrefl _ hlt

/-- The invariant after the subpool of a holder has been deleted. -/
theorem lock_inv_release (s s1 : pthr_rwlock.state) (inside : List (pseudothread × access))
    (f : pseudothread) (p : pool) (hinv : lock_inv s inside) (hmem : (f, p) ∈ s.rw.pools)
    (hdel : pthr_rwlock.delete_pool s p = some s1) :
    lock_inv s1 (inside.filter (fun e => e.1 ≠ f)) := by
  rw [delete_pool_holder s inside f p hinv hmem] at hdel
  obtain ⟨hn0, hn, hp, hsub⟩ := do_release_some _ _ _ hdel
  simp only at hn0 hn hp hsub
  have hkey : f ∈ inside.map Prod.fst := by
    rw [← hinv.keys]; exact List.mem_map_of_mem Prod.fst hmem
  have hnd : (s.rw.pools.map Prod.fst).Nodup := by rw [hinv.keys]; exact hinv.nodup
  refine ⟨?_, ?_, ?_, ?_, ?_, ?_⟩
  · rw [hp, map_fst_filter_key_ne, map_fst_filter_key_ne, hinv.keys]
  · rw [map_fst_filter_key_ne]; exact hinv.nodup.filter _
  · rw [hsub, hp]
    simp only [pool_remove]
    rw [hinv.live, List.filter_map]
    congr 1
    apply List.filter_congr
    intro e he
    simp only [Function.comp, entry_rec]
    have hiff : e.2 = p ↔ e.1 = f := by
      constructor
      · intro h2
        have := List.inj_on_of_nodup_map hinv.addrs he hmem h2
        rw [this]
      · intro h1
        have := List.inj_on_of_nodup_map hnd he hmem h1
        rw [this]
    simp [hiff]
  · intro e he
    rw [hp] at he
    rw [hsub]
    exact hinv.fresh e (List.mem_filter.1 he).1
  · rw [hp]
    exact hinv.addrs.sublist ((List.filter_sublist _).map _)
  · have hlen := length_filter_key_ne inside f hinv.nodup hkey
    rcases hinv.count with ⟨hneg, g, hg⟩ | ⟨hpos, hlen2, hall⟩
    · right
      have hfg : g = f := by
        rw [hg] at hkey
        have hfg2 : f = g := by simpa using hkey
        exact hfg2.symm
      rw [hn, hneg, hg, hfg]
      simp
    · right
      have hpos2 : 0 < s.rw.n := by omega
      rw [hn, if_pos hpos2]
      refine ⟨by omega, by omega, ?_⟩
      intro e he
      exact hall e (List.mem_filter.1 he).1

/-- The invariant only reads the count, the hash and the pool table. -/
theorem lock_inv_congr (s s1 : pthr_rwlock.state) (inside : List (pseudothread × access))
    (hn : s1.rw.n = s.rw.n) (hp : s1.rw.pools = s.rw.pools) (hsub : s1.subpools = s.subpools)
    (hinv : lock_inv s inside) : lock_inv s1 inside := by
  refine ⟨?_, hinv.nodup, ?_, ?_, ?_, ?_⟩
  · rw [hp]; exact hinv.keys
  · rw [hp, hsub]; exact hinv.live
  · rw [hp, hsub]; exact hinv.fresh
  · rw [hp]; exact hinv.addrs
  · rw [hn]; exact hinv.count

/-- Exit of a pseudothread under the invariant: nothing happens when it
is not a holder, and its one subpool is deleted when it is. -/
theorem pth_exit_release_holder (s : pthr_rwlock.state)
    (inside : List (pseudothread × access)) (f : pseudothread) (hinv : lock_inv s inside) :
    (f ∉ s.rw.pools.map Prod.fst → pth_exit_release s f = some s) ∧
    (∀ p, (f, p) ∈ s.rw.pools → pth_exit_release s f = pthr_rwlock.delete_pool s p) := by
  have hnd : (s.rw.pools.map Prod.fst).Nodup := by rw [hinv.keys]; exact hinv.nodup
  have hfilter : s.subpools.live.filter (fun rec => rec.parent = pth_get_pool f) =
      (s.rw.pools.filter (fun e => e.1 = f)).map entry_rec := by
    rw [hinv.live, List.filter_map]
    congr 1
  constructor
  · intro hf
    have hnil : s.rw.pools.filter (fun e => e.1 = f) = [] := by
      rw [List.filter_eq_nil_iff]
      intro e he hef
      have hef2 : e.1 = f := by simpa using hef
      exact hf (hef2 ▸ List.mem_map_of_mem Prod.fst he)
    simp [pth_exit_release, hfilter, hnil]
  · intro p hp
    have hone := filter_key_eq_singleton s.rw.pools f p hnd hp
    simp only [pth_exit_release, hfilter, hone, List.map_cons, List.map_nil, List.foldlM_cons,
      List.foldlM_nil, entry_rec]
    cases pthr_rwlock.delete_pool s p <;> rfl

/-- The invariant across `rwlock_try_enter_read`. -/
theorem lock_inv_try_enter_read (s : pthr_rwlock.state)
    (inside : List (pseudothread × access)) (f : pseudothread) (hinv : lock_inv s inside)
    (hf : f ∉ s.rw.pools.map Prod.fst) :
    lock_inv (rwlock_try_enter_read s f).2
      (if (rwlock_try_enter_read s f).1 then (f, access.reader) :: inside else inside) := by
  by_cases hc : s.rw.n ≥ 0 ∧
      (s.rw.writers_have_priority = false ∨ wq_nr_sleepers s.rw.writers_wq = 0)
  · simp only [rwlock_try_enter_read, if_pos hc, if_true]
    refine lock_inv_enter s _ inside f access.reader hinv hf ?_ ?_ ?_
    · rfl
    · rfl
    right
    have hn : (_do_enter s f).rw.n = s.rw.n := rfl
    simp only [hn]
    rcases hinv.count with ⟨hneg, _⟩ | ⟨hpos, hlen, hall⟩
    · omega
    · refine ⟨by omega, by simp only [List.length_cons]; push_cast; omega, ?_⟩
      intro e he
      rcases List.mem_cons.1 he with h | h
      · rw [h]
      · exact hall e h
  · simp only [rwlock_try_enter_read, if_neg hc]
    exact hinv

/-- The invariant across `rwlock_try_enter_write`. -/
theorem lock_inv_try_enter_write (s : pthr_rwlock.state)
    (inside : List (pseudothread × access)) (f : pseudothread) (hinv : lock_inv s inside)
    (hf : f ∉ s.rw.pools.map Prod.fst) :
    lock_inv (rwlock_try_enter_write s f).2
      (if (rwlock_try_enter_write s f).1 then (f, access.writer) :: inside else inside) := by
  by_cases hc : s.rw.n = 0
  · simp only [rwlock_try_enter_write, if_pos hc, if_true]
    refine lock_inv_enter s _ inside f access.writer hinv hf ?_ ?_ ?_
    · rfl
    · rfl
    left
    refine ⟨rfl, f, ?_⟩
    rcases hinv.count with ⟨hneg, _⟩ | ⟨_, hlen, _⟩
    · omega
    · have hnil : inside = [] := by
        apply List.eq_nil_of_length_eq_zero
        omega
      rw [hnil]
  · simp only [rwlock_try_enter_write, if_neg hc]
    exact hinv

/-- A pass of `rwlock_enter_read` differs from `rwlock_try_enter_read`
only in the readers queue. -/
theorem rwlock_enter_read_frame (s : pthr_rwlock.state) (f : pseudothread) :
    (rwlock_enter_read s f).1 = (rwlock_try_enter_read s f).1 ∧
    (rwlock_enter_read s f).2.rw.n = (rwlock_try_enter_read s f).2.rw.n ∧
    (rwlock_enter_read s f).2.rw.pools = (rwlock_try_enter_read s f).2.rw.pools ∧
    (rwlock_enter_read s f).2.subpools = (rwlock_try_enter_read s f).2.subpools := by
  unfold rwlock_enter_read
  split <;> rename_i h <;> simp [h]

/-- A pass of `rwlock_enter_write` differs from `rwlock_try_enter_write`
only in the writers queue. -/
theorem rwlock_enter_write_frame (s : pthr_rwlock.state) (f : pseudothread) :
    (rwlock_enter_write s f).1 = (rwlock_try_enter_write s f).1 ∧
    (rwlock_enter_write s f).2.rw.n = (rwlock_try_enter_write s f).2.rw.n ∧
    (rwlock_enter_write s f).2.rw.pools = (rwlock_try_enter_write s f).2.rw.pools ∧
    (rwlock_enter_write s f).2.subpools = (rwlock_try_enter_write s f).2.subpools := by
  unfold rwlock_enter_write
  split <;> rename_i h <;> simp [h]

/-- A pool found by `hash_get` is an entry of the hash. -/
theorem hash_get_mem (h : List (pseudothread × pool)) (k : pseudothread) (p : pool)
    (hg : hash_get h k = some p) : (k, p) ∈ h := by
  unfold hash_get at hg
  cases hfind : h.find? (fun e => e.1 = k) with
  | none => rw [hfind] at hg; cases hg
  | some e =>
    rw [hfind] at hg
    simp only [Option.map_some', Option.some.injEq] at hg
    have hmem := List.mem_of_find?_eq_some hfind
    have hk := List.find?_some hfind
    have hk2 : e.1 = k := by simpa using hk
    have he : e = (k, p) := by rw [← hk2, ← hg]
    rw [← he]; exact hmem

/-- A refused `rwlock_try_enter_read` changes nothing. -/
theorem try_enter_read_refused (s : pthr_rwlock.state) (f : pseudothread)
    (h : (rwlock_try_enter_read s f).1 = false) : (rwlock_try_enter_read s f).2 = s := by
  unfold rwlock_try_enter_read at h ⊢
  split_ifs at h ⊢ with hc
  rfl

/-- A refused `rwlock_try_enter_write` changes nothing. -/
theorem try_enter_write_refused (s : pthr_rwlock.state) (f : pseudothread)
    (h : (rwlock_try_enter_write s f).1 = false) : (rwlock_try_enter_write s f).2 = s := by
  unfold rwlock_try_enter_write at h ⊢
  split_ifs at h ⊢ with hc
  rfl

/-- The invariant is kept by every call that does not grant the lock to a
pseudothread already recorded as a holder. -/
theorem lock_inv_step (s s1 : pthr_rwlock.state) (inside inside1 : List (pseudothread × access))
    (o : op) (hinv : lock_inv s inside)
    (hre : ∀ f, o.acquirer = some f → f ∉ s.rw.pools.map Prod.fst ∨ o.granted s = false)
    (hstep : step s inside o = some (s1, inside1)) : lock_inv s1 inside1 := by
  cases o with
  | try_enter_read f =>
    simp only [step, Option.some.injEq, Prod.mk.injEq] at hstep
    obtain ⟨rfl, rfl⟩ := hstep
    rcases hre f rfl with h | h
    · exact lock_inv_try_enter_read s inside f hinv h
    · simp only [op.granted] at h
      rw [h, try_enter_read_refused s f h]
      exact hinv
  | try_enter_write f =>
    simp only [step, Option.some.injEq, Prod.mk.injEq] at hstep
    obtain ⟨rfl, rfl⟩ := hstep
    rcases hre f rfl with h | h
    · exact lock_inv_try_enter_write s inside f hinv h
    · simp only [op.granted] at h
      rw [h, try_enter_write_refused s f h]
      exact hinv
  | enter_read f =>
    simp only [step, Option.some.injEq, Prod.mk.injEq] at hstep
    obtain ⟨rfl, rfl⟩ := hstep
    have hfr := rwlock_enter_read_frame s f
    rw [hfr.1]
    rcases hre f rfl with h | h
    · exact lock_inv_congr _ _ _ hfr.2.1 hfr.2.2.1 hfr.2.2.2
        (lock_inv_try_enter_read s inside f hinv h)
    · simp only [op.granted, hfr.1] at h
      have hst := try_enter_read_refused s f h
      rw [hst] at hfr
      rw [h]
      exact lock_inv_congr _ _ _ hfr.2.1 hfr.2.2.1 hfr.2.2.2 hinv
  | enter_write f =>
    simp only [step, Option.some.injEq, Prod.mk.injEq] at hstep
    obtain ⟨rfl, rfl⟩ := hstep
    have hfr := rwlock_enter_write_frame s f
    rw [hfr.1]
    rcases hre f rfl with h | h
    · exact lock_inv_congr _ _ _ hfr.2.1 hfr.2.2.1 hfr.2.2.2
        (lock_inv_try_enter_write s inside f hinv h)
    · simp only [op.granted, hfr.1] at h
      have hst := try_enter_write_refused s f h
      rw [hst] at hfr
      rw [h]
      exact lock_inv_congr _ _ _ hfr.2.1 hfr.2.2.1 hfr.2.2.2 hinv
  | leave f =>
    simp only [step] at hstep
    cases hl : rwlock_leave s f with
    | none => rw [hl] at hstep; cases hstep
    | some s2 =>
      rw [hl] at hstep
      simp only [Option.some.injEq, Prod.mk.injEq] at hstep
      obtain ⟨rfl, rfl⟩ := hstep
      unfold rwlock_leave at hl
      cases hg : hash_get s.rw.pools f with
      | none => rw [hg] at hl; cases hl
      | some p =>
        rw [hg] at hl
        rw [eraseP_key_eq_filter inside f hinv.nodup]
        exact lock_inv_release s s2 inside f p hinv (hash_get_mem _ _ _ hg) hl
  | exit f =>
    simp only [step] at hstep
    cases hl : pth_exit_release s f with
    | none => rw [hl] at hstep; cases hstep
    | some s2 =>
      rw [hl] at hstep
      simp only [Option.some.injEq, Prod.mk.injEq] at hstep
      obtain ⟨rfl, rfl⟩ := hstep
      by_cases hf : f ∈ s.rw.pools.map Prod.fst
      · obtain ⟨e, he, hef⟩ := List.mem_map.1 hf
        have hmem : (f, e.2) ∈ s.rw.pools := by rw [← hef]; exact he
        rw [(pth_exit_release_holder s inside f hinv).2 e.2 hmem] at hl
        exact lock_inv_release s s2 inside f e.2 hinv hmem hl
      · rw [(pth_exit_release_holder s inside f hinv).1 hf] at hl
        cases hl
        rw [filter_key_ne_of_not_mem inside f (by rw [← hinv.keys]; exact hf)]
        exact hinv
  | writers_have_priority =>
    simp only [step, Option.some.injEq, Prod.mk.injEq] at hstep
    obtain ⟨rfl, rfl⟩ := hstep
    exact lock_inv_congr s _ inside rfl rfl rfl hinv
  | readers_have_priority =>
    simp only [step, Option.some.injEq, Prod.mk.injEq] at hstep
    obtain ⟨rfl, rfl⟩ := hstep
    exact lock_inv_congr s _ inside rfl rfl rfl hinv

/-- The invariant is kept by every sequence of calls without
re-entry. -/
theorem lock_inv_run (ops : List op) :
    ∀ (s s1 : pthr_rwlock.state) (inside inside1 : List (pseudothread × access)),
      lock_inv s inside → no_reentry s inside ops = true →
      run s inside ops = some (s1, inside1) → lock_inv s1 inside1 := by
  induction ops with
  | nil =>
    intro s s1 inside inside1 hinv _ hrun
    simp only [run, Option.some.injEq, Prod.mk.injEq] at hrun
    obtain ⟨rfl, rfl⟩ := hrun
    exact hinv
  | cons o os ih =>
    intro s s1 inside inside1 hinv hre hrun
    simp only [run] at hrun
    simp only [no_reentry, Bool.and_eq_true] at hre
    cases hst : step s inside o with
    | none => rw [hst] at hrun; cases hrun
    | some res =>
      obtain ⟨s2, inside2⟩ := res
      rw [hst] at hrun
      have hre2 := hre.2
      rw [hst] at hre2
      refine ih s2 s1 inside2 inside1 (lock_inv_step s s2 inside inside2 o hinv ?_ hst) hre2 hrun
      intro f hacq
      have hre1 := hre.1
      rw [hacq] at hre1
      simp only [Bool.or_eq_true, Bool.not_eq_true'] at hre1
      rcases hre1 with h | h
      · left
        intro hmem
        obtain ⟨e, he, hef⟩ := List.mem_map.1 hmem
        have hany : s.rw.pools.any (fun e => decide (e.1 = f)) = true :=
          List.any_eq_true.2 ⟨e, he, by simp [hef]⟩
        rw [hany] at h
        cases h
      · right
        exact h

/-- With distinct addresses, the pool table finds a live record by its
address. -/
theorem pool_lookup_live (t : pool_table cleanup) (rec : pool_rec cleanup)
    (hnd : (t.live.map (fun r => r.addr)).Nodup) (hmem : rec ∈ t.live) :
    pool_lookup t rec.addr = some rec := by
  unfold pool_lookup
  generalize t.live = l at hnd hmem
  induction l with
  | nil => cases hmem
  | cons a l ih =>
    simp only [List.map_cons, List.nodup_cons] at hnd
    by_cases ha : a.addr = rec.addr
    · have hab : a = rec := by
        rcases List.mem_cons.1 hmem with hm | hm
        · exact hm.symm
        · exact absurd (ha ▸ List.mem_map_of_mem (fun r => r.addr) hm) hnd.1
      rw [List.find?_cons_of_pos _ (by simp [ha]), hab]
    · have hmem2 : rec ∈ l := by
        rcases List.mem_cons.1 hmem with hm | hm
        · exact absurd (by rw [hm]) ha
        · exact hm
      rw [List.find?_cons_of_neg _ (by simp [ha])]
      exact ih hnd.2 hmem2

/-- Deleting a live subpool runs its release callback once: the count goes
down by one, or from -1 to 0, the entry of the pseudothread leaves the
hash and the subpool leaves the table. -/
theorem delete_pool_live (s s1 : pthr_rwlock.state) (rec : pool_rec cleanup)
    (hinv : pools_inv s) (hmem : rec ∈ s.subpools.live)
    (hdel : pthr_rwlock.delete_pool s rec.addr = some s1) :
    s.rw.n ≠ 0 ∧
    s1.rw.n = (if 0 < s.rw.n then s.rw.n - 1 else 0) ∧
    s1.rw.pools = s.rw.pools.filter (fun e => e.1 ≠ rec.parent) ∧
    s1.subpools = pool_remove s.subpools rec.addr := by
  have hl := pool_lookup_live s.subpools rec hinv.addrs hmem
  have hc := hinv.recs rec hmem
  unfold pthr_rwlock.delete_pool at hdel
  rw [hl] at hdel
  simp only [hc, List.foldlM_cons, List.foldlM_nil, pthr_rwlock.run_cleanup] at hdel
  have hdel2 : pthr_rwlock._do_release { s with subpools := pool_remove s.subpools rec.addr }
      { pth := rec.parent } = some s1 := by
    cases hr : pthr_rwlock._do_release { s with subpools := pool_remove s.subpools rec.addr }
        { pth := rec.parent } with
    | none => rw [hr] at hdel; cases hdel
    | some s2 => rw [hr] at hdel; simpa using hdel
  exact do_release_some _ s1 _ hdel2

/-- The table invariant after a live subpool has been deleted. -/
theorem pools_inv_delete (s s1 : pthr_rwlock.state) (rec : pool_rec cleanup)
    (hinv : pools_inv s) (hmem : rec ∈ s.subpools.live)
    (hdel : pthr_rwlock.delete_pool s rec.addr = some s1) : pools_inv s1 := by
  obtain ⟨_, _, hp, hs⟩ := delete_pool_live s s1 rec hinv hmem hdel
  have hlive : s1.subpools.live = s.subpools.live.filter (fun r => r.addr ≠ rec.addr) := by
    rw [hs]; rfl
  have hnext : s1.subpools.next = s.subpools.next := by rw [hs]; rfl
  refine ⟨?_, ?_, ?_, ?_⟩
  · intro r hr
    rw [hlive] at hr
    exact hinv.recs r (List.mem_filter.1 hr).1
  · intro r hr
    rw [hlive] at hr
    rw [hnext]
    exact hinv.fresh r (List.mem_filter.1 hr).1
  · rw [hlive]
    exact (List.Sublist.map _ (List.filter_sublist _)).nodup hinv.addrs
  · intro e he
    rw [hp] at he
    obtain ⟨he1, he2⟩ := List.mem_filter.1 he
    have hne : e.1 ≠ rec.parent := by simpa using he2
    have hl := hinv.hash_live e he1
    rw [hlive]
    refine List.mem_filter.2 ⟨hl, ?_⟩
    have hne2 : e.2 ≠ rec.addr := by
      intro heq
      have h1 := pool_lookup_live s.subpools (entry_rec e) hinv.addrs hl
      have h2 := pool_lookup_live s.subpools rec hinv.addrs hmem
      have h3 : (entry_rec e).addr = rec.addr := heq
      rw [h3, h2] at h1
      have h4 : rec = entry_rec e := by simpa using h1
      apply hne
      rw [h4]
      rfl
    simpa [entry_rec] using hne2

/-- The table invariant after `_do_enter`, and the new live subpools. -/
theorem pools_inv_enter (s s1 : pthr_rwlock.state) (f : pseudothread) (hinv : pools_inv s)
    (hpools : s1.rw.pools = (_do_enter s f).rw.pools)
    (hsub : s1.subpools = (_do_enter s f).subpools) :
    pools_inv s1 ∧
    s1.subpools.live = entry_rec (f, s.subpools.next) :: s.subpools.live := by
  have hp : s1.rw.pools =
      (f, s.subpools.next) :: s.rw.pools.filter (fun e => e.1 ≠ f) := by
    rw [hpools]; rfl
  have hlive : s1.subpools.live = entry_rec (f, s.subpools.next) :: s.subpools.live := by
    rw [hsub]
    simp only [_do_enter, new_subpool, pool_register_cleanup_fn, List.map_cons, if_true,
      List.nil_append, entry_rec]
    congr 1
    conv_rhs => rw [← List.map_id s.subpools.live]
    apply List.map_congr_left
    intro rec hrec
    have hlt := hinv.fresh rec hrec
    simp [Nat.ne_of_lt hlt]
  have hnext : s1.subpools.next = s.subpools.next + 1 := by
    rw [hsub]; rfl
  refine ⟨⟨?_, ?_, ?_, ?_⟩, hlive⟩
  · intro rec hrec
    rw [hlive] at hrec
    rcases List.mem_cons.1 hrec with h | h
    · rw [h]; rfl
    · exact hinv.recs rec h
  · intro rec hrec
    rw [hlive] at hrec
    rw [hnext]
    rcases List.mem_cons.1 hrec with h | h
    · rw [h]; exact Nat.lt_succ_self _
    · exact Nat.lt_succ_of_lt (hinv.fresh rec h)
  · rw [hlive, List.map_cons, List.nodup_cons]
    refine ⟨?_, hinv.addrs⟩
    intro hmem
    obtain ⟨rec, hrec, heq⟩ := List.mem_map.1 hmem
    have hlt := hinv.fresh rec hrec
    have heq2 : rec.addr = s.subpools.next := heq
    rw [heq2] at hlt
    exact Nat.lt_irrefl _ hlt
  · intro e he
    rw [hp] at he
    rw [hlive]
    rcases List.mem_cons.1 he with h | h
    · rw [h]; exact List.mem_cons_self _ _
    · exact List.mem_cons_of_mem _ (hinv.hash_live e (List.mem_filter.1 h).1)

/-- The general invariant after a granted acquisition. -/
theorem inside_inv_enter (s s1 : pthr_rwlock.state) (inside : List (pseudothread × access))
    (f : pseudothread) (a : access) (hinv : inside_inv s inside)
    (hpools : s1.rw.pools = (_do_enter s f).rw.pools)
    (hsub : s1.subpools = (_do_enter s f).subpools)
    (hcount : (s1.rw.n = -1 ∧ ∃ g, (f, a) :: inside = [(g, access.writer)]) ∨
      (0 ≤ s1.rw.n ∧ (((f, a) :: inside).length : Int) = s1.rw.n ∧
        ∀ e ∈ (f, a) :: inside, e.2 = access.reader)) :
    inside_inv s1 ((f, a) :: inside) := by
  obtain ⟨h1, h2⟩ := pools_inv_enter s s1 f hinv.pools hpools hsub
  refine ⟨h1, ?_, hcount⟩
  rw [h2, List.map_cons, List.map_cons]
  exact List.Perm.cons _ hinv.perm

/-- The general invariant only reads the count, the hash and the pool
table. -/
theorem inside_inv_congr (s s1 : pthr_rwlock.state) (inside : List (pseudothread × access))
    (hn : s1.rw.n = s.rw.n) (hp : s1.rw.pools = s.rw.pools) (hsub : s1.subpools = s.subpools)
    (hinv : inside_inv s inside) : inside_inv s1 inside := by
  refine ⟨⟨?_, ?_, ?_, ?_⟩, ?_, ?_⟩
  · rw [hsub]; exact hinv.pools.recs
  · rw [hsub]; exact hinv.pools.fresh
  · rw [hsub]; exact hinv.pools.addrs
  · rw [hp, hsub]; exact hinv.pools.hash_live
  · rw [hsub]; exact hinv.perm
  · rw [hn]; exact hinv.count

/-- The general invariant across `rwlock_try_enter_read`. -/
theorem inside_inv_try_enter_read (s : pthr_rwlock.state)
    (inside : List (pseudothread × access)) (f : pseudothread) (hinv : inside_inv s inside) :
    inside_inv (rwlock_try_enter_read s f).2
      (if (rwlock_try_enter_read s f).1 then (f, access.reader) :: inside else inside) := by
  by_cases hc : s.rw.n ≥ 0 ∧
      (s.rw.writers_have_priority = false ∨ wq_nr_sleepers s.rw.writers_wq = 0)
  · simp only [rwlock_try_enter_read, if_pos hc, if_true]
    refine inside_inv_enter s _ inside f access.reader hinv ?_ ?_ ?_
    · rfl
    · rfl
    right
    have hn : (_do_enter s f).rw.n = s.rw.n := rfl
    simp only [hn]
    rcases hinv.count with ⟨hneg, _⟩ | ⟨hpos, hlen, hall⟩
    · omega
    · refine ⟨by omega, by simp only [List.length_cons]; push_cast; omega, ?_⟩
      intro e he
      rcases List.mem_cons.1 he with h | h
      · rw [h]
      · exact hall e h
  · simp only [rwlock_try_enter_read, if_neg hc]
    exact hinv

/-- The general invariant across `rwlock_try_enter_write`. -/
theorem inside_inv_try_enter_write (s : pthr_rwlock.state)
    (inside : List (pseudothread × access)) (f : pseudothread) (hinv : inside_inv s inside) :
    inside_inv (rwlock_try_enter_write s f).2
      (if (rwlock_try_enter_write s f).1 then (f, access.writer) :: inside else inside) := by
  by_cases hc : s.rw.n = 0
  · simp only [rwlock_try_enter_write, if_pos hc, if_true]
    refine inside_inv_enter s _ inside f access.writer hinv ?_ ?_ ?_
    · rfl
    · rfl
    left
    refine ⟨rfl, f, ?_⟩
    rcases hinv.count with ⟨hneg, _⟩ | ⟨_, hlen, _⟩
    · omega
    · have hnil : inside = [] := by
        apply List.eq_nil_of_length_eq_zero
        omega
      rw [hnil]
  · simp only [rwlock_try_enter_write, if_neg hc]
    exact hinv

/-- Keys after the first entry of a key has been erased. -/
theorem map_fst_eraseP {β : Type} (l : List (pseudothread × β)) (f : pseudothread) :
    (l.eraseP (fun e => e.1 = f)).map Prod.fst = (l.map Prod.fst).erase f := by
  induction l with
  | nil => rfl
  | cons a l ih =>
    by_cases ha : a.1 = f
    · rw [List.eraseP_cons_of_pos (by simp [ha]), List.map_cons, ha, List.erase_cons_head]
    · rw [List.eraseP_cons_of_neg (by simp [ha]), List.map_cons, List.map_cons,
        List.erase_cons_tail (by simpa using ha), ih]

/-- With distinct addresses, a live record and the records at other
addresses make up the table. -/
theorem perm_cons_filter_addr (l : List (pool_rec cleanup)) (rec : pool_rec cleanup)
    (hnd : (l.map (fun r => r.addr)).Nodup) (hmem : rec ∈ l) :
    l.Perm (rec :: l.filter (fun r => r.addr ≠ rec.addr)) := by
  induction l with
  | nil => cases hmem
  | cons a l ih =>
    simp only [List.map_cons, List.nodup_cons] at hnd
    by_cases ha : a.addr = rec.addr
    · have hab : a = rec := by
        rcases List.mem_cons.1 hmem with hm | hm
        · exact hm.symm
        · exact absurd (ha ▸ List.mem_map_of_mem (fun r => r.addr) hm) hnd.1
      have hf : l.filter (fun r => decide (r.addr ≠ rec.addr)) = l := by
        rw [List.filter_eq_self]
        intro r hr
        have : r.addr ≠ rec.addr := by
          intro h
          exact hnd.1 (by rw [ha, ← h]; exact List.mem_map_of_mem (fun r => r.addr) hr)
        simpa using this
      rw [List.filter_cons_of_neg (by simp [ha]), hf, hab]
    · have hmem2 : rec ∈ l := by
        rcases List.mem_cons.1 hmem with hm | hm
        · exact absurd (by rw [hm]) ha
        · exact hm
      rw [List.filter_cons_of_pos (by simpa using ha)]
      exact (List.Perm.cons a (ih hnd.2 hmem2)).trans (List.Perm.swap _ _ _)

/-- The general invariant after `rwlock_leave` by a pseudothread recorded
in the hash. -/
theorem inside_inv_leave (s s1 : pthr_rwlock.state) (inside : List (pseudothread × access))
    (f : pseudothread) (p : pool) (hinv : inside_inv s inside) (hmem : (f, p) ∈ s.rw.pools)
    (hdel : pthr_rwlock.delete_pool s p = some s1) :
    inside_inv s1 (inside.eraseP (fun e => e.1 = f)) := by
  have hrec := hinv.pools.hash_live (f, p) hmem
  have hdel2 : pthr_rwlock.delete_pool s (entry_rec (f, p)).addr = some s1 := hdel
  obtain ⟨hn0, hn, _, hs⟩ := delete_pool_live s s1 _ hinv.pools hrec hdel2
  have hlive : s1.subpools.live = s.subpools.live.filter (fun r => r.addr ≠ p) := by
    rw [hs]; rfl
  have hperm1 := perm_cons_filter_addr s.subpools.live _ hinv.pools.addrs hrec
  have hperm2 : (s.subpools.live.map (fun r => r.parent)).Perm
      (f :: s1.subpools.live.map (fun r => r.parent)) := by
    have := List.Perm.map (fun r : pool_rec cleanup => r.parent) hperm1
    rw [hlive]
    exact this
  have hfin : f ∈ inside.map Prod.fst := by
    apply (List.Perm.mem_iff hinv.perm).2
    exact (List.Perm.mem_iff hperm2).2 (List.mem_cons_self _ _)
  obtain ⟨e0, he0, hef0⟩ := List.mem_map.1 hfin
  refine ⟨pools_inv_delete s s1 _ hinv.pools hrec hdel2, ?_, ?_⟩
  · rw [map_fst_eraseP]
    have := List.Perm.erase f (hinv.perm.trans hperm2)
    rw [List.erase_cons_head] at this
    exact this
  · rcases hinv.count with ⟨hneg, w, hw⟩ | ⟨hpos, hlen, hall⟩
    · right
      have hfw : f = w := by
        rw [hw] at hfin
        simpa using hfin
      rw [hw, hfw]
      refine ⟨by rw [hn]; simp [hneg], ?_, ?_⟩
      · rw [hn]; simp [hneg]
      · intro e he
        simp at he
    · right
      have hpos2 : 0 < s.rw.n := by omega
      have hl : (inside.eraseP (fun e => decide (e.1 = f))).length = inside.length - 1 :=
        List.length_eraseP_of_mem he0 (by simp [hef0])
      have hlen1 : 0 < inside.length := List.length_pos_of_mem he0
      refine ⟨by rw [hn, if_pos hpos2]; omega, ?_, ?_⟩
      · rw [hn, if_pos hpos2, hl]; omega
      · intro e he
        exact hall e (List.mem_of_mem_eraseP he)

/-- Deleting, one after the other, live subpools at distinct addresses:
they leave the table, and each deletion lowers a positive count by one,
while a writer's count of -1 allows a single deletion. -/
theorem delete_fold (L : List (pool_rec cleanup)) :
    ∀ (s s1 : pthr_rwlock.state), pools_inv s → (∀ rec ∈ L, rec ∈ s.subpools.live) →
      (L.map (fun r => r.addr)).Nodup →
      L.foldlM (fun s2 rec => pthr_rwlock.delete_pool s2 rec.addr) s = some s1 →
      pools_inv s1 ∧
      s1.subpools.live =
        s.subpools.live.filter (fun r => decide (r.addr ∉ L.map (fun r => r.addr))) ∧
      ((L = [] ∧ s1.rw.n = s.rw.n) ∨
       (0 < s.rw.n ∧ s1.rw.n = s.rw.n - L.length ∧ 0 ≤ s1.rw.n) ∨
       (s.rw.n < 0 ∧ L.length = 1 ∧ s1.rw.n = 0)) := by
  induction L with
  | nil =>
    intro s s1 hinv _ _ hf
    simp only [List.foldlM_nil] at hf
    have hs : s1 = s := by cases hf; rfl
    subst hs
    refine ⟨hinv, ?_, Or.inl ⟨rfl, rfl⟩⟩
    simp
  | cons rec L ih =>
    intro s s1 hinv hmem hnd hf
    simp only [List.map_cons, List.nodup_cons] at hnd
    simp only [List.foldlM_cons] at hf
    cases hd : pthr_rwlock.delete_pool s rec.addr with
    | none => rw [hd] at hf; cases hf
    | some s2 =>
      rw [hd] at hf
      simp only [Option.some_bind, Option.bind_eq_bind] at hf
      have hrec := hmem rec (List.mem_cons_self _ _)
      obtain ⟨hn0, hn, _, hs⟩ := delete_pool_live s s2 rec hinv hrec hd
      have hlive2 : s2.subpools.live = s.subpools.live.filter (fun r => r.addr ≠ rec.addr) := by
        rw [hs]; rfl
      have hinv2 := pools_inv_delete s s2 rec hinv hrec hd
      have hmem2 : ∀ r ∈ L, r ∈ s2.subpools.live := by
        intro r hr
        rw [hlive2]
        refine List.mem_filter.2 ⟨hmem r (List.mem_cons_of_mem _ hr), ?_⟩
        have : r.addr ≠ rec.addr := by
          intro h
          exact hnd.1 (by rw [← h]; exact List.mem_map_of_mem (fun r => r.addr) hr)
        simpa using this
      obtain ⟨h1, h2, h3⟩ := ih s2 s1 hinv2 hmem2 hnd.2 hf
      refine ⟨h1, ?_, ?_⟩
      · rw [h2, hlive2, List.filter_filter]
        apply List.filter_congr
        intro r _
        by_cases h1 : r.addr = rec.addr <;>
          by_cases h2 : r.addr ∈ List.map (fun r => r.addr) L <;>
          simp [h1, h2]
      · by_cases hpos : 0 < s.rw.n
        · rw [if_pos hpos] at hn
          right; left
          rcases h3 with ⟨hnil, hq⟩ | ⟨hq1, hq2, hq3⟩ | ⟨hq1, _, _⟩
          · rw [hnil, hq, hn]
            simp only [List.length_cons, List.length_nil]
            exact ⟨hpos, by push_cast; omega, by omega⟩
          · refine ⟨hpos, ?_, hq3⟩
            rw [hq2, hn]
            simp only [List.length_cons]
            push_cast
            omega
          · omega
        · rw [if_neg hpos] at hn
          right; right
          rcases h3 with ⟨hnil, hq⟩ | ⟨hq1, _, _⟩ | ⟨hq1, _, _⟩
          · rw [hnil, hq, hn]
            exact ⟨by omega, rfl, rfl⟩
          · omega
          · omega

/-- Splitting a list of keys by a key. -/
theorem length_filter_split (l : List pseudothread) (f : pseudothread) :
    (l.filter (fun k => k ≠ f)).length + (l.filter (fun k => k = f)).length = l.length := by
  induction l with
  | nil => rfl
  | cons a l ih =>
    by_cases ha : a = f
    · rw [List.filter_cons_of_neg (by simp [ha]), List.filter_cons_of_pos (by simp [ha])]
      simp only [List.length_cons]
      omega
    · rw [List.filter_cons_of_pos (by simp [ha]), List.filter_cons_of_neg (by simp [ha])]
      simp only [List.length_cons]
      omega

/-- The general invariant after the exit of a pseudothread. -/
theorem inside_inv_exit (s s1 : pthr_rwlock.state) (inside : List (pseudothread × access))
    (f : pseudothread) (hinv : inside_inv s inside)
    (hx : pthr_rwlock.pth_exit_release s f = some s1) :
    inside_inv s1 (inside.filter (fun e => e.1 ≠ f)) := by
  unfold pthr_rwlock.pth_exit_release at hx
  have hpar : ∀ r : pool_rec cleanup,
      decide (r.parent = pth_get_pool f) = decide (r.parent = f) := fun _ => rfl
  have hLmem : ∀ rec ∈ s.subpools.live.filter (fun rec => decide (rec.parent = pth_get_pool f)),
      rec ∈ s.subpools.live := fun rec h => (List.mem_filter.1 h).1
  have hLnd : ((s.subpools.live.filter
      (fun rec => decide (rec.parent = pth_get_pool f))).map (fun r => r.addr)).Nodup :=
    (List.Sublist.map _ (List.filter_sublist _)).nodup hinv.pools.addrs
  obtain ⟨h1, h2, h3⟩ := delete_fold _ s s1 hinv.pools hLmem hLnd hx
  have hlive : s1.subpools.live = s.subpools.live.filter (fun r => decide (r.parent ≠ f)) := by
    rw [h2]
    apply List.filter_congr
    intro r hr
    by_cases hp : r.parent = f
    · have hin : r.addr ∈ (s.subpools.live.filter
          (fun rec => decide (rec.parent = pth_get_pool f))).map (fun r => r.addr) :=
        List.mem_map_of_mem (fun r => r.addr) (List.mem_filter.2 ⟨hr, by rw [hpar]; simp [hp]⟩)
      simp [hin, hp]
    · have hnin : r.addr ∉ (s.subpools.live.filter
          (fun rec => decide (rec.parent = pth_get_pool f))).map (fun r => r.addr) := by
        intro hin
        obtain ⟨r2, hr2, heq⟩ := List.mem_map.1 hin
        obtain ⟨hr2l, hr2p⟩ := List.mem_filter.1 hr2
        have e1 := pool_lookup_live s.subpools r2 hinv.pools.addrs hr2l
        have e2 := pool_lookup_live s.subpools r hinv.pools.addrs hr
        have heq2 : r2.addr = r.addr := heq
        rw [heq2, e2] at e1
        have e3 : r = r2 := by simpa using e1
        rw [hpar] at hr2p
        rw [e3] at hp
        exact hp (by simpa using hr2p)
      simp [hnin, hp]
  have hpermf : ((inside.map Prod.fst).filter (fun k => decide (k ≠ f))).Perm
      ((s.subpools.live.map (fun r => r.parent)).filter (fun k => decide (k ≠ f))) :=
    List.Perm.filter _ hinv.perm
  have hperme : ((inside.map Prod.fst).filter (fun k => decide (k = f))).Perm
      ((s.subpools.live.map (fun r => r.parent)).filter (fun k => decide (k = f))) :=
    List.Perm.filter _ hinv.perm
  have hmapf : (s.subpools.live.filter (fun r => decide (r.parent ≠ f))).map (fun r => r.parent)
      = (s.subpools.live.map (fun r => r.parent)).filter (fun k => decide (k ≠ f)) := by
    rw [List.filter_map]; rfl
  have hmape : (s.subpools.live.filter
      (fun rec => decide (rec.parent = pth_get_pool f))).map (fun r => r.parent)
      = (s.subpools.live.map (fun r => r.parent)).filter (fun k => decide (k = f)) := by
    rw [List.filter_map]; rfl
  have hLlen : (s.subpools.live.filter
      (fun rec => decide (rec.parent = pth_get_pool f))).length =
      ((inside.map Prod.fst).filter (fun k => decide (k = f))).length := by
    rw [hperme.length_eq, ← hmape, List.length_map]
  have hsplit := length_filter_split (inside.map Prod.fst) f
  have hins : (inside.filter (fun e => decide (e.1 ≠ f))).length =
      ((inside.map Prod.fst).filter (fun k => decide (k ≠ f))).length := by
    rw [← map_fst_filter_key_ne, List.length_map]
  have hlenmap : (inside.map Prod.fst).length = inside.length := List.length_map _ _
  refine ⟨h1, ?_, ?_⟩
  · rw [map_fst_filter_key_ne, hlive, hmapf]
    exact hpermf
  · rcases h3 with ⟨hnil, hq⟩ | ⟨hq1, hq2, hq3⟩ | ⟨hq1, hq2, hq3⟩
    · have hz : ((inside.map Prod.fst).filter (fun k => decide (k = f))).length = 0 := by
        rw [← hLlen, hnil]; rfl
      have hnot : f ∉ inside.map Prod.fst := by
        intro hin
        have : f ∈ (inside.map Prod.fst).filter (fun k => decide (k = f)) :=
          List.mem_filter.2 ⟨hin, by simp⟩
        rw [List.eq_nil_of_length_eq_zero hz] at this
        cases this
      rw [filter_key_ne_of_not_mem inside f hnot, hq]
      exact hinv.count
    · right
      rcases hinv.count with ⟨hneg, _⟩ | ⟨_, hlen, hall⟩
      · omega
      · refine ⟨hq3, ?_, ?_⟩
        · rw [hq2, hins]
          omega
        · intro e he
          exact hall e (List.mem_filter.1 he).1
    · right
      rcases hinv.count with ⟨_, w, hw⟩ | ⟨hpos, _, _⟩
      · have hfw : f = w := by
          have hne : (inside.map Prod.fst).filter (fun k => decide (k = f)) ≠ [] := by
            intro h
            rw [h] at hLlen
            rw [hq2] at hLlen
            cases hLlen
          obtain ⟨k, hk⟩ := List.exists_mem_of_ne_nil _ hne
          obtain ⟨hk1, hk2⟩ := List.mem_filter.1 hk
          have hkf : k = f := by simpa using hk2
          rw [hw, hkf] at hk1
          simpa using hk1
        rw [hw, hfw, hq3]
        refine ⟨le_refl _, by simp, ?_⟩
        intro e he
        simp at he
      · omega

/-- The general invariant is kept by every call. -/
theorem inside_inv_step (s s1 : pthr_rwlock.state)
    (inside inside1 : List (pseudothread × access)) (o : op) (hinv : inside_inv s inside)
    (hstep : step s inside o = some (s1, inside1)) : inside_inv s1 inside1 := by
  cases o with
  | try_enter_read f =>
    simp only [step, Option.some.injEq, Prod.mk.injEq] at hstep
    obtain ⟨rfl, rfl⟩ := hstep
    exact inside_inv_try_enter_read s inside f hinv
  | try_enter_write f =>
    simp only [step, Option.some.injEq, Prod.mk.injEq] at hstep
    obtain ⟨rfl, rfl⟩ := hstep
    exact inside_inv_try_enter_write s inside f hinv
  | enter_read f =>
    simp only [step, Option.some.injEq, Prod.mk.injEq] at hstep
    obtain ⟨rfl, rfl⟩ := hstep
    have hfr := rwlock_enter_read_frame s f
    rw [hfr.1]
    exact inside_inv_congr _ _ _ hfr.2.1 hfr.2.2.1 hfr.2.2.2
      (inside_inv_try_enter_read s inside f hinv)
  | enter_write f =>
    simp only [step, Option.some.injEq, Prod.mk.injEq] at hstep
    obtain ⟨rfl, rfl⟩ := hstep
    have hfr := rwlock_enter_write_frame s f
    rw [hfr.1]
    exact inside_inv_congr _ _ _ hfr.2.1 hfr.2.2.1 hfr.2.2.2
      (inside_inv_try_enter_write s inside f hinv)
  | leave f =>
    simp only [step] at hstep
    cases hl : rwlock_leave s f with
    | none => rw [hl] at hstep; cases hstep
    | some s2 =>
      rw [hl] at hstep
      simp only [Option.some.injEq, Prod.mk.injEq] at hstep
      obtain ⟨rfl, rfl⟩ := hstep
      unfold rwlock_leave at hl
      cases hg : hash_get s.rw.pools f with
      | none => rw [hg] at hl; cases hl
      | some p =>
        rw [hg] at hl
        exact inside_inv_leave s s2 inside f p hinv (hash_get_mem _ _ _ hg) hl
  | exit f =>
    simp only [step] at hstep
    cases hl : pthr_rwlock.pth_exit_release s f with
    | none => rw [hl] at hstep; cases hstep
    | some s2 =>
      rw [hl] at hstep
      simp only [Option.some.injEq, Prod.mk.injEq] at hstep
      obtain ⟨rfl, rfl⟩ := hstep
      exact inside_inv_exit s s2 inside f hinv hl
  | writers_have_priority =>
    simp only [step, Option.some.injEq, Prod.mk.injEq] at hstep
    obtain ⟨rfl, rfl⟩ := hstep
    exact inside_inv_congr s _ inside rfl rfl rfl hinv
  | readers_have_priority =>
    simp only [step, Option.some.injEq, Prod.mk.injEq] at hstep
    obtain ⟨rfl, rfl⟩ := hstep
    exact inside_inv_congr s _ inside rfl rfl rfl hinv

/-- The general invariant is kept by every sequence of calls. -/
theorem inside_inv_run (ops : List op) :
    ∀ (s s1 : pthr_rwlock.state) (inside inside1 : List (pseudothread × access)),
      inside_inv s inside → run s inside ops = some (s1, inside1) →
      inside_inv s1 inside1 := by
  induction ops with
  | nil =>
    intro s s1 inside inside1 hinv hrun
    simp only [run, Option.some.injEq, Prod.mk.injEq] at hrun
    obtain ⟨rfl, rfl⟩ := hrun
    exact hinv
  | cons o os ih =>
    intro s s1 inside inside1 hinv hrun
    simp only [run] at hrun
    cases hst : step s inside o with
    | none => rw [hst] at hrun; cases hrun
    | some res =>
      obtain ⟨s2, inside2⟩ := res
      rw [hst] at hrun
      exact ih s2 s1 inside2 inside1 (inside_inv_step s s2 inside inside2 o hinv hst) hrun


/-- C3, as stated, fails: pseudothread 1 acquires a new lock for reading
twice in a row.  Both calls return true, `n` is 2, yet the hash holds a
single entry, because `hash_insert` replaced the entry of the first
acquisition. -/
theorem rwlock_reentry_counterexample :
    ∃ s inside,
      run (new_rwlock ⟨[], 0⟩ ⟨[], 0, fun _ => 0⟩) []
        [op.try_enter_read 1, op.try_enter_read 1] = some (s, inside) ∧
      s.rw.n = 2 ∧ s.rw.pools = [(1, 1)] ∧
      inside = [(1, access.reader), (1, access.reader)] ∧
      ¬ ((s.rw.pools.length : Int) = s.rw.n) :=
  ⟨_, _, rfl, rfl, rfl, rfl, by decide⟩

/-- C3, amended: after every sequence of calls on a new lock that does
not abort (so that `rwlock_leave` is only called by pseudothreads recorded
in the hash), `n` is at least -1; `n = -1` exactly with a single writer
inside, and otherwise `n` is the number of acquisitions inside, all for
reading; a writer inside is alone inside.  If, in addition, the lock was
never granted to a pseudothread recorded as a holder at that moment, the
keys of the hash are exactly the pseudothreads inside the critical
section, each once: `n` of them when `n > 0`, the single writer when `n =
-1`, none when `n = 0`. -/
theorem rwlock_holders_invariant (k : Nat) (r : reactor) (ops : List op)
    (s : pthr_rwlock.state) (inside : List (pseudothread × access))
    (hrun : run (new_rwlock ⟨[], k⟩ r) [] ops = some (s, inside)) :
    -1 ≤ s.rw.n ∧
    (s.rw.n = -1 → ∃ f, inside = [(f, access.writer)]) ∧
    (0 ≤ s.rw.n → (inside.length : Int) = s.rw.n ∧ ∀ e ∈ inside, e.2 = access.reader) ∧
    (∀ f, (f, access.writer) ∈ inside → inside = [(f, access.writer)]) ∧
    (no_reentry (new_rwlock ⟨[], k⟩ r) [] ops = true →
      s.rw.pools.map Prod.fst = inside.map Prod.fst ∧
      (inside.map Prod.fst).Nodup ∧
      (0 < s.rw.n → (s.rw.pools.length : Int) = s.rw.n) ∧
      (s.rw.n = -1 → ∃ f, s.rw.pools.map Prod.fst = [f]) ∧
      (s.rw.n = 0 → s.rw.pools = [])) := by
  have hinit2 : inside_inv (new_rwlock ⟨[], k⟩ r) [] := by
    refine ⟨⟨?_, ?_, List.nodup_nil, ?_⟩, List.Perm.refl _, ?_⟩
    · intro rec hrec; cases hrec
    · intro rec hrec; cases hrec
    · intro e he; cases he
    · right
      refine ⟨by simp [new_rwlock], by simp [new_rwlock], ?_⟩
      intro e he; cases he
  have hg := inside_inv_run ops _ s [] inside hinit2 hrun
  refine ⟨?_, ?_, ?_, ?_, ?_⟩
  · rcases hg.count with ⟨h, _⟩ | ⟨h, _, _⟩ <;> omega
  · intro hneg
    rcases hg.count with ⟨_, f, hf⟩ | ⟨h, _, _⟩
    · exact ⟨f, hf⟩
    · omega
  · intro hpos
    rcases hg.count with ⟨h, _⟩ | ⟨_, hl, hall⟩
    · omega
    · exact ⟨hl, hall⟩
  · intro f hf
    rcases hg.count with ⟨_, g, hg2⟩ | ⟨_, _, hall⟩
    · rw [hg2] at hf ⊢
      have hfg : f = g := by simpa using hf
      rw [hfg]
    · have := hall _ hf
      cases this
  · intro hre
    have hinit : lock_inv (new_rwlock ⟨[], k⟩ r) [] := by
      refine ⟨rfl, List.nodup_nil, rfl, ?_, List.nodup_nil, ?_⟩
      · intro e he; cases he
      · right
        refine ⟨by simp [new_rwlock], by simp [new_rwlock], ?_⟩
        intro e he; cases he
    have hinv := lock_inv_run ops _ s [] inside hinit hre hrun
    have hlen : s.rw.pools.length = inside.length := by
      have := congrArg List.length hinv.keys
      simpa using this
    refine ⟨hinv.keys, hinv.nodup, ?_, ?_, ?_⟩
    · intro hpos
      rcases hinv.count with ⟨h, _⟩ | ⟨_, hl, _⟩
      · omega
      · rw [hlen]; exact hl
    · intro hneg
      rcases hinv.count with ⟨_, f, hf⟩ | ⟨h, _, _⟩
      · refine ⟨f, ?_⟩
        rw [hinv.keys, hf]; rfl
      · omega
    · intro hz
      rcases hinv.count with ⟨h, _⟩ | ⟨_, hl, _⟩
      · omega
      · exact List.eq_nil_of_length_eq_zero (by omega)

/-- C3, witness: writer 1 enters, reader 2 has to sleep, 1 leaves, then
reader 2 enters twice and is refused as a writer, reader 3 enters and 2
leaves once; the run is defined, and at its end `n = 2` with two
acquisitions inside, while the hash holds reader 3 only. -/
theorem rwlock_holders_invariant_witness :
    ∃ s inside,
      run (new_rwlock ⟨[], 0⟩ ⟨[], 0, fun _ => 0⟩) []
        [op.enter_write 1, op.enter_read 2, op.leave 1, op.try_enter_read 2,
         op.try_enter_read 2, op.try_enter_write 2, op.try_enter_read 3, op.leave 2]
        = some (s, inside) ∧
      s.rw.n = 2 ∧ inside = [(3, access.reader), (2, access.reader)] ∧
      s.rw.pools = [(3, 3)] ∧
      (0 ≤ s.rw.n → (inside.length : Int) = s.rw.n ∧ ∀ e ∈ inside, e.2 = access.reader) := by
  cases hrun : run (new_rwlock ⟨[], 0⟩ ⟨[], 0, fun _ => 0⟩) []
        [op.enter_write 1, op.enter_read 2, op.leave 1, op.try_enter_read 2,
         op.try_enter_read 2, op.try_enter_write 2, op.try_enter_read 3, op.leave 2] with
  | none =>
    have hsome : (run (new_rwlock ⟨[], 0⟩ ⟨[], 0, fun _ => 0⟩) []
        [op.enter_write 1, op.enter_read 2, op.leave 1, op.try_enter_read 2,
         op.try_enter_read 2, op.try_enter_write 2, op.try_enter_read 3, op.leave 2]).isSome
        = true := rfl
    rw [hrun] at hsome
    cases hsome
  | some res =>
    have h := rwlock_holders_invariant 0 ⟨[], 0, fun _ => 0⟩
      [op.enter_write 1, op.enter_read 2, op.leave 1, op.try_enter_read 2,
       op.try_enter_read 2, op.try_enter_write 2, op.try_enter_read 3, op.leave 2]
      res.1 res.2 hrun
    have e1 : (run (new_rwlock ⟨[], 0⟩ ⟨[], 0, fun _ => 0⟩) []
        [op.enter_write 1, op.enter_read 2, op.leave 1, op.try_enter_read 2,
         op.try_enter_read 2, op.try_enter_write 2, op.try_enter_read 3, op.leave 2]).map
        (fun x => (x.1.rw.n, x.2, x.1.rw.pools)) =
        some (2, [(3, access.reader), (2, access.reader)], [(3, 3)]) := by decide
    rw [hrun] at e1
    simp only [Option.map_some', Option.some.injEq, Prod.mk.injEq] at e1
    exact ⟨res.1, res.2, rfl, e1.1, e1.2.1, e1.2.2, h.2.2.1⟩

/-- C5, witness: writer 1 leaves while writer 2 and reader 3 wait; `n`
becomes 0, writer 2 is taken off the writers queue and scheduled, reader
3 stays asleep. -/
theorem rwlock_release_wakes_witness :
    ∃ s1, rwlock_leave
        { rw := { n := -1, writers_wq := { sleepers := [2] },
                  readers_wq := { sleepers := [3] }, pools := [(1, 0)],
                  writers_have_priority := true },
          subpools := { live := [entry_rec (1, 0)], next := 1 },
          r := { head_prepoll := [], next_addr := 0, uninit := fun _ => 0 } } 1 = some s1 ∧
      s1.rw.n = 0 ∧ s1.rw.writers_wq.sleepers = [] ∧ s1.rw.readers_wq.sleepers = [3] ∧
      s1.r.head_prepoll = [{ addr := 0, fn := prepoll_fn.do_wake_up [2], fired := 0 }] := by
  obtain ⟨_, h2, h3, _⟩ := rwlock_release_wakes
    { rw := { n := -1, writers_wq := { sleepers := [2] },
              readers_wq := { sleepers := [3] }, pools := [(1, 0)],
              writers_have_priority := true },
      subpools := { live := [entry_rec (1, 0)], next := 1 },
      r := { head_prepoll := [], next_addr := 0, uninit := fun _ => 0 } } 0 0
    (entry_rec (1, 0)) { pth := 1 } rfl rfl (List.mem_singleton.2 rfl)
  obtain ⟨s1, hs1, hn, _, hw, _, _⟩ := h2 rfl
  refine ⟨s1, ?_, hn, (hw 2 [] rfl).1, ?_, (hw 2 [] rfl).2.2⟩
  · rw [h3 1 rfl]; exact hs1
  · rw [(hw 2 [] rfl).2.1]

end rwlock_theorems

section reactor_theorems

open pthr_reactor pthr_wait_queue

/-- A wake-up either leaves the reactor alone or registers one
`do_wake_up` handler. -/
theorem wake_up_reactor (wq wq1 : wait_queue) (n : Int) (r r1 : reactor)
    (h : wake_up wq n r = some (wq1, r1)) :
    r1 = r ∨ ∃ v, r1 = (reactor_register_prepoll r (prepoll_fn.do_wake_up v)).1 := by
  unfold wake_up at h
  split at h
  · simp only [Option.some.injEq, Prod.mk.injEq] at h
    exact Or.inl h.2.symm
  · split at h
    · simp only [Option.some.injEq, Prod.mk.injEq] at h
      exact Or.inr ⟨_, h.2.symm⟩
    · split at h
      · cases h
      · simp only [Option.some.injEq, Prod.mk.injEq] at h
        exact Or.inr ⟨_, h.2.symm⟩

/-- A stable property survives a wake-up made in a world. -/
theorem stable_wake (I : world → Prop) (hI : stable I) (w : world) (wq1 : wait_queue)
    (n : Int) (r1 : reactor) (hw : I w) (h : wake_up w.wq n w.r = some (wq1, r1)) :
    I { w with wq := wq1, r := r1 } := by
  rcases wake_up_reactor _ _ _ _ _ h with hr | ⟨v, hr⟩
  · rw [hr]
    exact hI.wq w wq1 hw
  · rw [hr]
    exact hI.wq _ wq1 (hI.register w _ hw)

/-- A stable property survives the calls of user code. -/
theorem stable_exec (I : world → Prop) (hI : stable I) (cur : Option pseudothread)
    (acts : List action) :
    ∀ (w w1 : world), I w → exec cur acts w = some w1 → I w1 := by
  induction acts with
  | nil =>
    intro w w1 hw h
    simp only [exec, Option.some.injEq] at h
    rw [← h]; exact hw
  | cons act rest ih =>
    intro w w1 hw h
    cases act with
    | register_prepoll fn data =>
      simp only [exec] at h
      exact ih _ w1 (hI.register w _ hw) h
    | unregister_prepoll b =>
      simp only [exec] at h
      cases hu : unregister_in w b with
      | none => rw [hu] at h; cases h
      | some w2 =>
        rw [hu] at h
        exact ih w2 w1 (hI.unregister w w2 b hw hu) h
    | wq_sleep_on =>
      simp only [exec] at h
      cases cur with
      | none => cases h
      | some pth =>
        simp only [Option.some.injEq] at h
        rw [← h]
        exact hI.wq w _ hw
    | wq_wake_up =>
      simp only [exec] at h
      cases hu : wq_wake_up w.wq w.r with
      | none => rw [hu] at h; cases h
      | some res =>
        obtain ⟨wq1, r1⟩ := res
        rw [hu] at h
        exact ih _ w1 (stable_wake I hI w wq1 (-1) r1 hw hu) h
    | wq_wake_up_one =>
      simp only [exec] at h
      cases hu : wq_wake_up_one w.wq w.r with
      | none => rw [hu] at h; cases h
      | some res =>
        obtain ⟨wq1, r1⟩ := res
        rw [hu] at h
        have hu2 : wake_up w.wq 1 w.r = some (wq1, r1) := by
          unfold wq_wake_up_one at hu
          split at hu
          · cases hu
          · exact hu
        exact ih _ w1 (stable_wake I hI w wq1 1 r1 hw hu2) h

/-- A stable property survives the loop of `do_wake_up`. -/
theorem stable_do_wake_up_loop (I : world → Prop) (hI : stable I) (prog : program)
    (sleepers : List pseudothread) :
    ∀ (w w1 : world), I w → do_wake_up_loop prog sleepers w = some w1 → I w1 := by
  induction sleepers with
  | nil =>
    intro w w1 hw h
    simp only [do_wake_up_loop, Option.some.injEq] at h
    rw [← h]; exact hw
  | cons pth rest ih =>
    intro w w1 hw h
    simp only [do_wake_up_loop] at h
    split at h
    · cases h
    · rename_i w2 hexec
      exact ih w2 w1 (stable_exec I hI _ _ _ w2 (hI.resumed w pth hw) hexec) h

/-- A stable property survives the call of a prepoll callback. -/
theorem stable_run_callback (I : world → Prop) (hI : stable I) (prog : program)
    (p : reactor_prepoll) (w w1 : world) (hw : I w) (h : run_callback prog p w = some w1) :
    I w1 := by
  unfold run_callback at h
  split at h
  · unfold do_wake_up at h
    split at h
    · cases h
    · rename_i w2 hloop
      exact hI.unregister w2 w1 _ (stable_do_wake_up_loop I hI prog _ w w2 hw hloop) h
  · exact stable_exec I hI none _ w w1 hw h

/-- The handler found by the search loop is in the list and unfired. -/
theorem first_unfired_some (l : List reactor_prepoll) (p : reactor_prepoll)
    (h : first_unfired l = some p) : p ∈ l ∧ p.fired = 0 := by
  unfold first_unfired at h
  exact ⟨List.mem_of_find?_eq_some h, by simpa using List.find?_some h⟩

/-- A stable property survives the loop of the prepoll step, and when the
loop ends every handler of the list has a non-zero flag. -/
theorem stable_prepoll_again (I : world → Prop) (hI : stable I) (prog : program)
    (fuel : Nat) :
    ∀ (w w1 : world), I w → prepoll_again prog fuel w = outcome.done w1 →
      I w1 ∧ ∀ p ∈ w1.r.head_prepoll, p.fired ≠ 0 := by
  induction fuel with
  | zero =>
    intro w w1 _ h
    simp only [prepoll_again] at h
    cases h
  | succ fuel ih =>
    intro w w1 hw h
    simp only [prepoll_again] at h
    cases hf : first_unfired w.r.head_prepoll with
    | none =>
      rw [hf] at h
      simp only [outcome.done.injEq] at h
      rw [← h]
      refine ⟨hw, ?_⟩
      intro p hp
      unfold first_unfired at hf
      have := List.find?_eq_none.1 hf p hp
      simpa using this
    | some p =>
      rw [hf] at h
      simp only at h
      obtain ⟨hmem, hfired⟩ := first_unfired_some _ _ hf
      split at h
      · cases h
      · rename_i w2 hcb
        exact ih w2 w1 (stable_run_callback I hI prog p _ w2 (hI.ran w p hw hmem hfired) hcb) h

/-- Ways of splitting a list that ends in `x` around an element `y`. -/
theorem split_snoc {α : Type} (t pre post : List α) (x y : α)
    (h : t ++ [x] = pre ++ y :: post) :
    post = [] ∨ ∃ post1, post = post1 ++ [x] ∧ t = pre ++ y :: post1 := by
  rcases List.eq_nil_or_concat post with hp | ⟨post1, z, hp⟩
  · exact Or.inl hp
  · right
    rw [hp, List.concat_eq_append] at h
    have h2 : t ++ [x] = (pre ++ y :: post1) ++ [z] := by
      rw [h]; simp
    obtain ⟨h3, h4⟩ := List.append_inj' h2 rfl
    have hxz : x = z := by simpa using h4
    exact ⟨post1, by rw [hp, List.concat_eq_append, hxz], h3⟩

/-- Marking a handler as fired keeps the addresses of the list. -/
theorem mark_fired_addrs (l : List reactor_prepoll) (a : Nat) :
    (mark_fired l a).map (fun p => p.addr) = l.map (fun p => p.addr) := by
  unfold mark_fired
  rw [List.map_map]
  apply List.map_congr_left
  intro p _
  simp only [Function.comp]
  split <;> rfl

/-- Every handler of a marked list comes from a handler of the list with
the same address, changed only if that address is the marked one. -/
theorem mem_mark_fired (l : List reactor_prepoll) (a : Nat) (q : reactor_prepoll)
    (h : q ∈ mark_fired l a) :
    ∃ q0 ∈ l, q0.addr = q.addr ∧ (q0.addr ≠ a → q = q0) ∧ (q0.addr = a → q.fired = 1) := by
  unfold mark_fired at h
  obtain ⟨q0, hq0, hq⟩ := List.mem_map.1 h
  refine ⟨q0, hq0, ?_, ?_, ?_⟩
  · rw [← hq]; split <;> rfl
  · intro hne; rw [← hq, if_neg hne]
  · intro heq; rw [← hq, if_pos heq]

/-- A successful unregistration removes the handlers of that address,
which was in the list, and records the event. -/
theorem unregister_in_some (w w1 : world) (b : Nat) (h : unregister_in w b = some w1) :
    (∃ p ∈ w.r.head_prepoll, p.addr = b) ∧
    w1.r.head_prepoll = w.r.head_prepoll.filter (fun p => p.addr ≠ b) ∧
    w1.r.next_addr = w.r.next_addr ∧
    w1.trace = w.trace ++ [event.unregistered b] ∧ w1.wq = w.wq := by
  unfold unregister_in reactor_unregister_prepoll remove_prepoll at h
  by_cases hany : w.r.head_prepoll.any (fun p => p.addr = b) = true
  · rw [if_pos hany] at h
    simp only [Option.some.injEq] at h
    rw [← h]
    refine ⟨?_, rfl, rfl, rfl, rfl⟩
    obtain ⟨p, hp, hpb⟩ := List.any_eq_true.1 hany
    exact ⟨p, hp, by simpa using hpb⟩
  · rw [if_neg hany] at h
    cases h

/-- The general facts about an address are stable. -/
theorem scan_inv_stable (a : Nat) : stable (scan_inv a) := by
  constructor
  · intro w fn hw
    refine ⟨⟨?_, ?_⟩, ?_, hw.after⟩
    · intro p hp
      simp only [reactor_register_prepoll] at hp ⊢
      rcases List.mem_cons.1 hp with h | h
      · rw [h]; exact Nat.lt_succ_self _
      · exact Nat.lt_succ_of_lt (hw.wf.lt p h)
    · simp only [reactor_register_prepoll, List.map_cons, List.nodup_cons]
      refine ⟨?_, hw.wf.nodup⟩
      intro hmem
      obtain ⟨p, hp, hpa⟩ := List.mem_map.1 hmem
      have hlt := hw.wf.lt p hp
      rw [hpa] at hlt
      exact Nat.lt_irrefl _ hlt
    · intro hun
      obtain ⟨hlt, hall⟩ := hw.gone hun
      refine ⟨Nat.lt_succ_of_lt hlt, ?_⟩
      intro p hp
      simp only [reactor_register_prepoll] at hp
      rcases List.mem_cons.1 hp with h | h
      · rw [h]; simp only; omega
      · exact hall p h
  · intro w w1 b hw hu
    obtain ⟨⟨pb, hpb, hpbb⟩, hlist, hnext, htrace, _⟩ := unregister_in_some w w1 b hu
    refine ⟨⟨?_, ?_⟩, ?_, ?_⟩
    · intro p hp
      rw [hlist] at hp
      rw [hnext]
      exact hw.wf.lt p (List.mem_filter.1 hp).1
    · rw [hlist]
      exact hw.wf.nodup.sublist ((List.filter_sublist _).map _)
    · intro hun
      rw [htrace] at hun
      rw [hnext, hlist]
      rcases List.mem_append.1 hun with h | h
      · obtain ⟨hlt, hall⟩ := hw.gone h
        exact ⟨hlt, fun p hp => hall p (List.mem_filter.1 hp).1⟩
      · have hab : a = b := by simpa using h
        refine ⟨?_, ?_⟩
        · rw [hab, ← hpbb]; exact hw.wf.lt pb hpb
        · intro p hp
          have := (List.mem_filter.1 hp).2
          rw [hab]
          simpa using this
    · intro pre post hsplit
      rw [htrace] at hsplit
      rcases split_snoc _ _ _ _ _ hsplit with hnil | ⟨post1, hpost, ht⟩
      · rw [hnil]; exact List.not_mem_nil _
      · rw [hpost]
        intro hmem
        rcases List.mem_append.1 hmem with h | h
        · exact hw.after pre post1 ht h
        · simp at h
  · intro w pth hw
    refine ⟨hw.wf, ?_, ?_⟩
    · intro hun
      refine hw.gone ?_
      rcases List.mem_append.1 hun with h | h
      · exact h
      · simp at h
    · intro pre post hsplit
      rcases split_snoc _ _ _ _ _ hsplit with hnil | ⟨post1, hpost, ht⟩
      · rw [hnil]; exact List.not_mem_nil _
      · rw [hpost]
        intro hmem
        rcases List.mem_append.1 hmem with h | h
        · exact hw.after pre post1 ht h
        · simp at h
  · intro w q hw
    exact ⟨hw.wf, hw.gone, hw.after⟩
  · intro w p hw hp _
    have hmemold : ∀ q ∈ mark_fired w.r.head_prepoll p.addr,
        ∃ q0 ∈ w.r.head_prepoll, q0.addr = q.addr := by
      intro q hq
      obtain ⟨q0, hq0, hqa, _, _⟩ := mem_mark_fired _ _ _ hq
      exact ⟨q0, hq0, hqa⟩
    refine ⟨⟨?_, ?_⟩, ?_, ?_⟩
    · intro q hq
      obtain ⟨q0, hq0, hqa⟩ := hmemold q hq
      rw [← hqa]; exact hw.wf.lt q0 hq0
    · simp only [mark_fired_addrs]
      exact hw.wf.nodup
    · intro hun
      have hun2 : event.unregistered a ∈ w.trace := by
        rcases List.mem_append.1 hun with h | h
        · exact h
        · simp at h
      obtain ⟨hlt, hall⟩ := hw.gone hun2
      refine ⟨hlt, ?_⟩
      intro q hq
      obtain ⟨q0, hq0, hqa⟩ := hmemold q hq
      rw [← hqa]; exact hall q0 hq0
    · intro pre post hsplit
      rcases split_snoc _ _ _ _ _ hsplit with hnil | ⟨post1, hpost, ht⟩
      · rw [hnil]; exact List.not_mem_nil _
      · rw [hpost]
        intro hmem
        rcases List.mem_append.1 hmem with h | h
        · exact hw.after pre post1 ht h
        · have hpa : a = p.addr := by simpa using h
          have hun2 : event.unregistered a ∈ w.trace := by
            rw [ht]; simp
          exact (hw.gone hun2).2 p hp hpa.symm

/-- Appending another event keeps the count of an event. -/
theorem count_snoc_ne (t : List event) (e x : event) (h : e ≠ x) :
    (t ++ [e]).count x = t.count x := by
  rw [List.count_append, List.count_cons_of_ne (Ne.symm h), List.count_nil, Nat.add_zero]

/-- Appending an event raises its count by one. -/
theorem count_snoc_self (t : List event) (x : event) :
    (t ++ [x]).count x = t.count x + 1 := by
  rw [List.count_append, List.count_cons_self, List.count_nil]

/-- The facts about a handler registered at the start are stable. -/
theorem handler_inv_stable (a : Nat) : stable (handler_inv a) := by
  constructor
  · intro w fn hw
    refine ⟨Nat.lt_succ_of_lt hw.lt, ?_, ?_, hw.once⟩
    · intro hall
      refine hw.here (fun p hp => hall p ?_)
      simp only [reactor_register_prepoll]
      exact List.mem_cons_of_mem _ hp
    · intro p hp hpa
      simp only [reactor_register_prepoll] at hp
      rcases List.mem_cons.1 hp with h | h
      · rw [h] at hpa
        simp only at hpa
        have hlt := hw.lt
        rw [← hpa] at hlt
        exact absurd hlt (Nat.lt_irrefl _)
      · exact hw.flag p h hpa
  · intro w w1 b hw hu
    obtain ⟨_, hlist, hnext, htrace, _⟩ := unregister_in_some w w1 b hu
    have hcount : w1.trace.count (event.ran a) = w.trace.count (event.ran a) := by
      rw [htrace]; exact count_snoc_ne _ _ _ (by simp)
    refine ⟨by rw [hnext]; exact hw.lt, ?_, ?_, by rw [hcount]; exact hw.once⟩
    · intro hall
      rw [htrace]
      by_cases hab : a = b
      · rw [hab]; simp
      · refine List.mem_append_left _ (hw.here ?_)
        intro p hp
        by_cases hpb : p.addr = b
        · rw [hpb]; exact fun h => hab h.symm
        · refine hall p ?_
          rw [hlist]
          exact List.mem_filter.2 ⟨hp, by simpa using hpb⟩
    · intro p hp hpa
      rw [hlist] at hp
      rw [hcount]
      exact hw.flag p (List.mem_filter.1 hp).1 hpa
  · intro w pth hw
    have hcount : (w.trace ++ [event.resumed pth]).count (event.ran a) =
        w.trace.count (event.ran a) := count_snoc_ne _ _ _ (by simp)
    refine ⟨hw.lt, ?_, ?_, ?_⟩
    · intro hall
      exact List.mem_append_left _ (hw.here hall)
    · intro p hp hpa
      simp only [hcount]
      exact hw.flag p hp hpa
    · simp only [hcount]
      exact hw.once
  · intro w q hw
    exact ⟨hw.lt, hw.here, hw.flag, hw.once⟩
  · intro w p hw hp hfired
    by_cases hpa : p.addr = a
    · have hzero : w.trace.count (event.ran a) = 0 := (hw.flag p hp hpa).1 hfired
      have hcount : (w.trace ++ [event.ran p.addr]).count (event.ran a) = 1 := by
        rw [hpa, count_snoc_self, hzero]
      refine ⟨hw.lt, ?_, ?_, ?_⟩
      · intro hall
        exfalso
        have hmem : p.addr ∈ (mark_fired w.r.head_prepoll p.addr).map (fun p => p.addr) := by
          rw [mark_fired_addrs]; exact List.mem_map_of_mem (fun p => p.addr) hp
        obtain ⟨q, hq, hqa⟩ := List.mem_map.1 hmem
        exact hall q hq (hqa.trans hpa)
      · intro q hq hqa
        obtain ⟨q0, _, hq0a, _, hone⟩ := mem_mark_fired _ _ _ hq
        have hf1 : q.fired = 1 := hone (by rw [hq0a, hqa, hpa])
        simp only [hcount, hf1]
        simp
      · simp only [hcount]
        exact Nat.le_refl 1
    · have hne : event.ran p.addr ≠ event.ran a := by
        intro h
        exact hpa (by simpa using h)
      have hcount : (w.trace ++ [event.ran p.addr]).count (event.ran a) =
          w.trace.count (event.ran a) := count_snoc_ne _ _ _ hne
      refine ⟨hw.lt, ?_, ?_, ?_⟩
      · intro hall
        refine List.mem_append_left _ (hw.here ?_)
        intro q0 hq0
        have hmem : q0.addr ∈ (mark_fired w.r.head_prepoll p.addr).map (fun p => p.addr) := by
          rw [mark_fired_addrs]; exact List.mem_map_of_mem (fun p => p.addr) hq0
        obtain ⟨q, hq, hqa⟩ := List.mem_map.1 hmem
        rw [← hqa]
        exact hall q hq
      · intro q hq hqa
        obtain ⟨q0, hq0, hq0a, hsame, _⟩ := mem_mark_fired _ _ _ hq
        have hq0ne : q0.addr ≠ p.addr := by
          rw [hq0a, hqa]; exact fun h => hpa h.symm
        have hqq : q = q0 := hsame hq0ne
        simp only [hcount]
        rw [hqq]
        exact hw.flag q0 hq0 (by rw [hq0a, hqa])
      · simp only [hcount]
        exact hw.once

/-- The facts about a handler unregistered earlier are stable. -/
theorem dead_inv_stable (a : Nat) : stable (dead_inv a) := by
  constructor
  · intro w fn hw
    refine ⟨Nat.lt_succ_of_lt hw.lt, ?_, hw.never⟩
    intro p hp
    simp only [reactor_register_prepoll] at hp
    rcases List.mem_cons.1 hp with h | h
    · rw [h]
      exact Nat.ne_of_gt hw.lt
    · exact hw.out p h
  · intro w w1 b hw hu
    obtain ⟨_, hlist, hnext, htrace, _⟩ := unregister_in_some w w1 b hu
    refine ⟨by rw [hnext]; exact hw.lt, ?_, ?_⟩
    · intro p hp
      rw [hlist] at hp
      exact hw.out p (List.mem_filter.1 hp).1
    · rw [htrace]
      intro hmem
      rcases List.mem_append.1 hmem with h | h
      · exact hw.never h
      · simp at h
  · intro w pth hw
    refine ⟨hw.lt, hw.out, ?_⟩
    intro hmem
    rcases List.mem_append.1 hmem with h | h
    · exact hw.never h
    · simp at h
  · intro w q hw
    exact ⟨hw.lt, hw.out, hw.never⟩
  · intro w p hw hp _
    refine ⟨hw.lt, ?_, ?_⟩
    · intro q hq
      obtain ⟨q0, hq0, hqa, _, _⟩ := mem_mark_fired _ _ _ hq
      rw [← hqa]; exact hw.out q0 hq0
    · intro hmem
      rcases List.mem_append.1 hmem with h | h
      · exact hw.never h
      · have hpa : a = p.addr := by simpa using h
        exact hw.out p hp hpa.symm

/-- Clearing the flags keeps the addresses of the list. -/
theorem clear_fired_addrs (l : List reactor_prepoll) :
    (clear_fired l).map (fun p => p.addr) = l.map (fun p => p.addr) := by
  unfold clear_fired
  rw [List.map_map]
  rfl

/-- Calls that are all unregistrations can only shorten the list. -/
theorem exec_only_unregister (cur : Option pseudothread) (acts : List action) :
    ∀ (w w1 : world), (∀ act ∈ acts, ∃ h, act = action.unregister_prepoll h) →
      exec cur acts w = some w1 → w1.r.head_prepoll.Sublist w.r.head_prepoll := by
  induction acts with
  | nil =>
    intro w w1 _ h
    simp only [exec, Option.some.injEq] at h
    rw [← h]
  | cons act rest ih =>
    intro w w1 hall h
    obtain ⟨b, hb⟩ := hall act (List.mem_cons_self _ _)
    rw [hb] at h
    simp only [exec] at h
    cases hu : unregister_in w b with
    | none => rw [hu] at h; cases h
    | some w2 =>
      rw [hu] at h
      have hsub := ih w2 w1 (fun a ha => hall a (List.mem_cons_of_mem _ ha)) h
      obtain ⟨_, hlist, _, _, _⟩ := unregister_in_some w w2 b hu
      refine hsub.trans ?_
      rw [hlist]
      exact List.filter_sublist _

/-- Marking never raises the number of unfired handlers. -/
theorem unfired_count_mark_le (l : List reactor_prepoll) (a : Nat) :
    unfired_count (mark_fired l a) ≤ unfired_count l := by
  induction l with
  | nil => exact Nat.le_refl _
  | cons q l ih =>
    unfold unfired_count mark_fired at ih ⊢
    simp only [List.map_cons]
    by_cases hqa : q.addr = a
    · rw [if_pos hqa, List.filter_cons_of_neg (by simp)]
      by_cases hq : q.fired = 0
      · rw [List.filter_cons_of_pos (by simp [hq]), List.length_cons]
        omega
      · rw [List.filter_cons_of_neg (by simp [hq])]
        exact ih
    · rw [if_neg hqa]
      by_cases hq : q.fired = 0
      · rw [List.filter_cons_of_pos (by simp [hq]), List.filter_cons_of_pos (by simp [hq]),
          List.length_cons, List.length_cons]
        omega
      · rw [List.filter_cons_of_neg (by simp [hq]), List.filter_cons_of_neg (by simp [hq])]
        exact ih

/-- Marking an unfired handler of the list lowers the number of unfired
handlers. -/
theorem unfired_count_mark_lt (l : List reactor_prepoll) (p : reactor_prepoll)
    (hp : p ∈ l) (hfired : p.fired = 0) :
    unfired_count (mark_fired l p.addr) < unfired_count l := by
  induction l with
  | nil => cases hp
  | cons q l ih =>
    have hle := unfired_count_mark_le l p.addr
    unfold unfired_count mark_fired at ih hle ⊢
    simp only [List.map_cons]
    rcases List.mem_cons.1 hp with hpq | hpl
    · rw [← hpq, if_pos rfl, List.filter_cons_of_neg (by simp),
        List.filter_cons_of_pos (by simp [hfired]), List.length_cons]
      omega
    · have ih2 := ih hpl
      by_cases hqa : q.addr = p.addr
      · rw [if_pos hqa, List.filter_cons_of_neg (by simp)]
        by_cases hq : q.fired = 0
        · rw [List.filter_cons_of_pos (by simp [hq]), List.length_cons]
          omega
        · rw [List.filter_cons_of_neg (by simp [hq])]
          exact ih2
      · rw [if_neg hqa]
        by_cases hq : q.fired = 0
        · rw [List.filter_cons_of_pos (by simp [hq]), List.filter_cons_of_pos (by simp [hq]),
            List.length_cons, List.length_cons]
          omega
        · rw [List.filter_cons_of_neg (by simp [hq]), List.filter_cons_of_neg (by simp [hq])]
          exact ih2

/-- Marking keeps the callbacks of the list. -/
theorem all_user_mark (l : List reactor_prepoll) (a : Nat) (h : all_user l) :
    all_user (mark_fired l a) := by
  intro q hq
  unfold mark_fired at hq
  obtain ⟨q0, hq0, hqq⟩ := List.mem_map.1 hq
  obtain ⟨fn, data, hfn⟩ := h q0 hq0
  refine ⟨fn, data, ?_⟩
  rw [← hqq]
  split
  · exact hfn
  · exact hfn

/-- When callbacks only unregister and all handlers are user callbacks,
the loop of the prepoll step ends within as many callbacks as there are
unfired handlers. -/
theorem prepoll_again_ends (prog : program) (hprog : only_unregisters prog) (fuel : Nat) :
    ∀ (w : world), all_user w.r.head_prepoll → unfired_count w.r.head_prepoll < fuel →
      prepoll_again prog fuel w ≠ outcome.out_of_fuel := by
  induction fuel with
  | zero =>
    intro w _ hlt _
    exact Nat.not_lt_zero _ hlt
  | succ fuel ih =>
    intro w huser hlt hout
    simp only [prepoll_again] at hout
    cases hf : first_unfired w.r.head_prepoll with
    | none => rw [hf] at hout; cases hout
    | some p =>
      rw [hf] at hout
      simp only at hout
      obtain ⟨hmem, hfired⟩ := first_unfired_some _ _ hf
      obtain ⟨fn, data, hfn⟩ := huser p hmem
      have hdec := unfired_count_mark_lt _ p hmem hfired
      split at hout
      · cases hout
      · rename_i w2 hcb
        unfold run_callback at hcb
        rw [hfn] at hcb
        simp only at hcb
        have hsub := exec_only_unregister none _ _ w2 (hprog fn data _) hcb
        simp only at hsub
        refine ih w2 ?_ ?_ hout
        · intro q hq
          exact all_user_mark _ p.addr huser q (hsub.subset hq)
        · have hle : unfired_count w2.r.head_prepoll ≤
              unfired_count (mark_fired w.r.head_prepoll p.addr) := by
            unfold unfired_count
            exact (hsub.filter _).length_le
          omega

/-- A stable property holds at every moment of the loop of the prepoll
step, whether the loop ends or not. -/
theorem stable_prepoll_upto (I : world → Prop) (hI : stable I) (prog : program) (k : Nat) :
    ∀ (w : world), I w → I (prepoll_upto prog k w) := by
  induction k with
  | zero => intro w hw; exact hw
  | succ k ih =>
    intro w hw
    simp only [prepoll_upto]
    cases hf : first_unfired w.r.head_prepoll with
    | none => exact hw
    | some p =>
      simp only
      obtain ⟨hmem, hfired⟩ := first_unfired_some _ _ hf
      have h1 := hI.ran w p hw hmem hfired
      cases hc : run_callback prog p
          { w with r := { w.r with head_prepoll := mark_fired w.r.head_prepoll p.addr },
                   trace := w.trace ++ [event.ran p.addr] } with
      | none => exact h1
      | some w2 => exact ih w2 (stable_run_callback I hI prog p _ w2 h1 hc)

/-- A loop that ends has reached its final world after as many calls as
its budget, at the latest. -/
theorem prepoll_upto_done (prog : program) (fuel : Nat) :
    ∀ (k : Nat) (w w1 : world), fuel ≤ k → prepoll_again prog fuel w = outcome.done w1 →
      prepoll_upto prog k w = w1 := by
  induction fuel with
  | zero => intro k w w1 _ h; simp only [prepoll_again] at h; cases h
  | succ fuel ih =>
    intro k w w1 hk h
    obtain ⟨k1, rfl⟩ : ∃ k1, k = k1 + 1 := ⟨k - 1, by omega⟩
    simp only [prepoll_again] at h
    simp only [prepoll_upto]
    cases hf : first_unfired w.r.head_prepoll with
    | none =>
      rw [hf] at h
      simp only [outcome.done.injEq] at h
      exact h
    | some p =>
      rw [hf] at h
      simp only at h ⊢
      cases hc : run_callback prog p
          { w with r := { w.r with head_prepoll := mark_fired w.r.head_prepoll p.addr },
                   trace := w.trace ++ [event.ran p.addr] } with
      | none => rw [hc] at h; cases h
      | some w2 =>
        rw [hc] at h
        exact ih k1 w2 w1 (by omega) h

/-- The number of unfired handlers after a registration. -/
theorem unfired_count_register (r : reactor) (fn : prepoll_fn) :
    unfired_count (reactor_register_prepoll r fn).1.head_prepoll ≤
      unfired_count r.head_prepoll + 1 := by
  unfold unfired_count reactor_register_prepoll
  simp only
  by_cases h : r.uninit r.next_addr = 0
  · rw [List.filter_cons_of_pos (by simp [h]), List.length_cons]
  · rw [List.filter_cons_of_neg (by simp [h])]
    omega

/-- The bound on the calls to come is stable. -/
theorem room_stable (d : Nat) : stable (room d) := by
  refine ⟨?_, ?_, ?_, ?_, ?_⟩
  · intro w fn hw
    unfold room at hw ⊢
    have h1 := unfired_count_register w.r fn
    have h2 : (reactor_register_prepoll w.r fn).1.next_addr = w.r.next_addr + 1 := rfl
    simp only [h2]
    omega
  · intro w w1 b hw hu
    obtain ⟨_, hl, hn, _, _⟩ := unregister_in_some w w1 b hu
    unfold room at hw ⊢
    rw [hl, hn]
    have h1 : unfired_count (w.r.head_prepoll.filter (fun p => decide (p.addr ≠ b))) ≤
        unfired_count w.r.head_prepoll := by
      unfold unfired_count
      exact ((List.filter_sublist _).filter _).length_le
    omega
  · intro w pth hw; exact hw
  · intro w q hw; exact hw
  · intro w p hw _ _
    unfold room at hw ⊢
    have h1 := unfired_count_mark_le w.r.head_prepoll p.addr
    simp only
    omega

/-- The loop of the prepoll step ends as soon as the allocator counter
stays below a bound: each call of a callback uses up one unit of the room
between the counter and the bound. -/
theorem prepoll_again_bounded (prog : program) (B : Nat) (fuel : Nat) :
    ∀ (w : world) (d : Nat), room d w →
      (∀ k, (prepoll_upto prog k w).r.next_addr ≤ B) → B < fuel + d →
      prepoll_again prog fuel w ≠ outcome.out_of_fuel := by
  induction fuel with
  | zero =>
    intro w d hr hb hlt _
    have h0 := hb 0
    simp only [prepoll_upto] at h0
    unfold room at hr
    omega
  | succ fuel ih =>
    intro w d hr hb hlt hout
    simp only [prepoll_again] at hout
    cases hf : first_unfired w.r.head_prepoll with
    | none => rw [hf] at hout; cases hout
    | some p =>
      rw [hf] at hout
      simp only at hout
      obtain ⟨hmem, hfired⟩ := first_unfired_some _ _ hf
      have hdec := unfired_count_mark_lt _ p hmem hfired
      have hr1 : room (d + 1)
          { w with r := { w.r with head_prepoll := mark_fired w.r.head_prepoll p.addr },
                   trace := w.trace ++ [event.ran p.addr] } := by
        unfold room at hr ⊢
        simp only
        omega
      cases hc : run_callback prog p
          { w with r := { w.r with head_prepoll := mark_fired w.r.head_prepoll p.addr },
                   trace := w.trace ++ [event.ran p.addr] } with
      | none => rw [hc] at hout; cases hout
      | some w2 =>
        rw [hc] at hout
        simp only at hout
        have hr2 := stable_run_callback _ (room_stable (d + 1)) prog p _ w2 hr1 hc
        refine ih w2 (d + 1) hr2 ?_ (by omega) hout
        intro k
        have hk := hb (k + 1)
        simp only [prepoll_upto, hf, hc] at hk
        exact hk

/-- A list of distinct addresses below the allocator counter is not longer
than the counter. -/
theorem length_le_next (r : reactor) (hwf : wf_reactor r) :
    r.head_prepoll.length ≤ r.next_addr := by
  have h1 : (r.head_prepoll.map (fun p => p.addr)).toFinset ⊆ Finset.range r.next_addr := by
    intro a ha
    rw [List.mem_toFinset] at ha
    obtain ⟨p, hp, hpa⟩ := List.mem_map.1 ha
    rw [Finset.mem_range, ← hpa]
    exact hwf.lt p hp
  have h2 := Finset.card_le_card h1
  rw [List.toFinset_card_of_nodup hwf.nodup, Finset.card_range, List.length_map] at h2
  exact h2

/-- One round of the scan in a run of `prog_spawn`: the handler at the
head is called and registers its like. -/
theorem spawning_step (w : world) (hs : spawning w) :
    ∃ p w2, first_unfired w.r.head_prepoll = some p ∧
      run_callback prog_spawn p
        { w with r := { w.r with head_prepoll := mark_fired w.r.head_prepoll p.addr },
                 trace := w.trace ++ [event.ran p.addr] } = some w2 ∧
      spawning w2 := by
  obtain ⟨⟨h, rest, hl, hfn, hfired, hne⟩, hun, hpos, hran, hunr⟩ := hs
  have hfirst : first_unfired w.r.head_prepoll = some h := by
    rw [hl]
    unfold first_unfired
    rw [List.find?_cons_of_pos _ (by simp [hfired])]
  refine ⟨h,
    { wq := w.wq,
      r := (reactor_register_prepoll
              { w.r with head_prepoll := mark_fired w.r.head_prepoll h.addr }
              (prepoll_fn.user 1 0)).1,
      trace := w.trace ++ [event.ran h.addr] }, hfirst, ?_, ?_⟩
  · unfold run_callback
    simp only [hfn, prog_spawn, if_true, exec]
  · refine ⟨⟨_, _, rfl, rfl, ?_, ?_⟩, ?_, ?_, ?_, ?_⟩
    · simp only [reactor_register_prepoll, hun]
    · simp only [reactor_register_prepoll]
      exact Nat.ne_of_gt hpos
    · exact hun
    · simp only [reactor_register_prepoll]
      omega
    · simp only [List.mem_append, List.mem_singleton, event.ran.injEq, not_or]
      exact ⟨hran, fun e => hne e.symm⟩
    · simp only [List.mem_append, List.mem_singleton, not_or]
      exact ⟨hunr, by simp⟩

/-- In a run of `prog_spawn` the scan does not end. -/
theorem spawning_forever (fuel : Nat) :
    ∀ (w : world), spawning w → prepoll_again prog_spawn fuel w = outcome.out_of_fuel := by
  induction fuel with
  | zero => intro w _; rfl
  | succ fuel ih =>
    intro w hs
    obtain ⟨p, w2, h1, h2, h3⟩ := spawning_step w hs
    simp only [prepoll_again, h1, h2]
    exact ih w2 h3

/-- In a run of `prog_spawn` the scan keeps its shape. -/
theorem spawning_upto (k : Nat) :
    ∀ (w : world), spawning w → spawning (prepoll_upto prog_spawn k w) := by
  induction k with
  | zero => intro w hs; exact hs
  | succ k ih =>
    intro w hs
    obtain ⟨p, w2, h1, h2, h3⟩ := spawning_step w hs
    simp only [prepoll_upto, h1, h2]
    exact ih w2 h3


/-- C8, as stated, fails: with user code in which a callback registers a
handler whose callback does the same, the scan of `reactor_invoke` never
ends: every handler it calls puts a new unfired handler at the head of the
list.  Handler A, at address 0, is registered when the tick starts and is
never unregistered, and its callback is not called at any moment of the
scan. -/
theorem prepoll_spawn_counterexample :
    (world_S5 0 (fun _ => 0)).r.head_prepoll.map (fun p => p.addr) = [1, 0] ∧
    (∀ fuel, reactor_invoke_prepolls prog_spawn fuel (world_S5 0 (fun _ => 0)) =
      outcome.out_of_fuel) ∧
    (∀ k, event.ran 0 ∉
        (prepoll_upto prog_spawn k (cleared (world_S5 0 (fun _ => 0)))).trace ∧
      event.unregistered 0 ∉
        (prepoll_upto prog_spawn k (cleared (world_S5 0 (fun _ => 0)))).trace) ∧
    (prepoll_upto prog_spawn 3 (cleared (world_S5 0 (fun _ => 0)))).trace =
      [event.ran 1, event.ran 2, event.ran 3] := by
  have hs : spawning (cleared (world_S5 0 (fun _ => 0))) := by
    refine ⟨⟨{ addr := 1, fn := prepoll_fn.user 1 0, fired := 0 },
      [{ addr := 0, fn := prepoll_fn.user 0 0, fired := 0 }], rfl, rfl, rfl, by decide⟩,
      rfl, by decide, ?_, ?_⟩
    · intro h; cases h
    · intro h; cases h
  refine ⟨rfl, ?_, ?_, rfl⟩
  · intro fuel
    exact spawning_forever fuel _ hs
  · intro k
    have := spawning_upto k _ hs
    exact ⟨this.2.2.2.1, this.2.2.2.2⟩

/-- C8, amended: take a world at the start of the prepoll step of
`reactor_invoke`, with a well-formed prepoll list and the events observed
from that moment, and a handler `p` registered at that moment.  At every
moment of the scan, whether it ends or not, `p` has been called at most
once and no call of a handler follows its unregistration.  The scan ends
without using up a budget of more callbacks than there were handlers plus
`N` whenever at most `N` handlers are registered during it (the allocator
counter rises by at most `N`), in particular when the handlers are user
callbacks that only unregister.  Whenever the scan completes, whatever
the callbacks and the resumed pseudothreads register or unregister
meanwhile: if `p` was not unregistered its callback was called exactly
once; `p` is still in the list exactly when it was not unregistered; and a
handler that had left the list before the step started is not called. -/
theorem prepoll_runs_once (prog : program) (fuel : Nat) (w : world) (p : reactor_prepoll)
    (hwf : wf_reactor w.r) (htrace : w.trace = []) (hp : p ∈ w.r.head_prepoll) :
    (∀ w1, reactor_invoke_prepolls prog fuel w = outcome.done w1 →
      (event.unregistered p.addr ∉ w1.trace → w1.trace.count (event.ran p.addr) = 1) ∧
      w1.trace.count (event.ran p.addr) ≤ 1 ∧
      (event.unregistered p.addr ∉ w1.trace ↔ ∃ q ∈ w1.r.head_prepoll, q.addr = p.addr) ∧
      (∀ a pre post, w1.trace = pre ++ event.unregistered a :: post →
        event.ran a ∉ post) ∧
      (∀ a, a < w.r.next_addr → (∀ q ∈ w.r.head_prepoll, q.addr ≠ a) →
        event.ran a ∉ w1.trace) ∧
      (∀ k, fuel ≤ k → prepoll_upto prog k (cleared w) = w1)) ∧
    (∀ k, (prepoll_upto prog k (cleared w)).trace.count (event.ran p.addr) ≤ 1 ∧
      ∀ a pre post,
        (prepoll_upto prog k (cleared w)).trace = pre ++ event.unregistered a :: post →
        event.ran a ∉ post) ∧
    (∀ N, (∀ k, (prepoll_upto prog k (cleared w)).r.next_addr ≤ w.r.next_addr + N) →
      w.r.head_prepoll.length + N < fuel →
      reactor_invoke_prepolls prog fuel w ≠ outcome.out_of_fuel) ∧
    (only_unregisters prog → all_user w.r.head_prepoll → w.r.head_prepoll.length < fuel →
      reactor_invoke_prepolls prog fuel w ≠ outcome.out_of_fuel) := by
  have hscan : ∀ a, scan_inv a (cleared w) := by
    intro a
    refine ⟨⟨?_, ?_⟩, ?_, ?_⟩
    · intro q hq
      simp only [cleared, clear_fired] at hq
      obtain ⟨q0, hq0, hqq⟩ := List.mem_map.1 hq
      rw [← hqq]
      exact hwf.lt q0 hq0
    · simp only [cleared, clear_fired_addrs]
      exact hwf.nodup
    · intro hun
      simp only [cleared, htrace] at hun
      cases hun
    · intro pre post hsplit
      simp only [cleared, htrace] at hsplit
      cases pre <;> cases hsplit
  have hhandler : handler_inv p.addr (cleared w) := by
    refine ⟨hwf.lt p hp, ?_, ?_, ?_⟩
    · intro hall
      exfalso
      have hmem : p.addr ∈ (clear_fired w.r.head_prepoll).map (fun p => p.addr) := by
        rw [clear_fired_addrs]; exact List.mem_map_of_mem (fun p => p.addr) hp
      obtain ⟨q, hq, hqa⟩ := List.mem_map.1 hmem
      exact hall q hq hqa
    · intro q hq _
      simp only [cleared, clear_fired] at hq
      obtain ⟨q0, _, hqq⟩ := List.mem_map.1 hq
      simp only [cleared, htrace, List.count_nil, iff_true]
      rw [← hqq]
    · simp only [cleared, htrace, List.count_nil]
      exact Nat.zero_le 1
  have hule : unfired_count (clear_fired w.r.head_prepoll) ≤ w.r.head_prepoll.length := by
    unfold unfired_count clear_fired
    have := List.length_filter_le
      (fun p : reactor_prepoll => decide (p.fired = 0))
      (List.map (fun p : reactor_prepoll => { p with fired := 0 }) w.r.head_prepoll)
    simpa using this
  refine ⟨?_, ?_, ?_, ?_⟩
  · intro w1 hdone
    have hdone2 : prepoll_again prog fuel (cleared w) = outcome.done w1 := hdone
    obtain ⟨hh, hfired⟩ :=
      stable_prepoll_again _ (handler_inv_stable p.addr) prog fuel _ w1 hhandler hdone2
    have hs : ∀ a, scan_inv a w1 := fun a =>
      (stable_prepoll_again _ (scan_inv_stable a) prog fuel _ w1 (hscan a) hdone2).1
    have hstill : event.unregistered p.addr ∉ w1.trace →
        ∃ q ∈ w1.r.head_prepoll, q.addr = p.addr := by
      intro hun
      by_contra hnone
      exact hun (hh.here (fun q hq hqa => hnone ⟨q, hq, hqa⟩))
    refine ⟨?_, hh.once, ⟨hstill, ?_⟩, fun a => (hs a).after, ?_, ?_⟩
    · intro hun
      obtain ⟨q, hq, hqa⟩ := hstill hun
      have hne : w1.trace.count (event.ran p.addr) ≠ 0 := by
        intro hz
        exact hfired q hq ((hh.flag q hq hqa).2 hz)
      have hle := hh.once
      omega
    · intro hex hun
      obtain ⟨q, hq, hqa⟩ := hex
      exact ((hs p.addr).gone hun).2 q hq hqa
    · intro a halt hout
      have hdead : dead_inv a (cleared w) := by
        refine ⟨halt, ?_, ?_⟩
        · intro q hq
          simp only [cleared, clear_fired] at hq
          obtain ⟨q0, hq0, hqq⟩ := List.mem_map.1 hq
          rw [← hqq]
          exact hout q0 hq0
        · simp only [cleared, htrace]
          exact List.not_mem_nil _
      exact (stable_prepoll_again _ (dead_inv_stable a) prog fuel _ w1 hdead hdone2).1.never
    · intro k hk
      exact prepoll_upto_done prog fuel k _ w1 hk hdone2
  · intro k
    have h1 := stable_prepoll_upto _ (handler_inv_stable p.addr) prog k _ hhandler
    refine ⟨h1.once, ?_⟩
    intro a
    exact (stable_prepoll_upto _ (scan_inv_stable a) prog k _ (hscan a)).after
  · intro N hb hlen
    have hnext := length_le_next w.r hwf
    have hroom : room (w.r.next_addr - unfired_count (clear_fired w.r.head_prepoll))
        (cleared w) := by
      unfold room
      simp only [cleared]
      omega
    exact prepoll_again_bounded prog (w.r.next_addr + N) fuel (cleared w) _ hroom hb
      (by omega)
  · intro hprog huser hlen
    unfold reactor_invoke_prepolls
    refine prepoll_again_ends prog hprog fuel _ ?_ ?_
    · intro q hq
      simp only [clear_fired] at hq
      obtain ⟨q0, hq0, hqq⟩ := List.mem_map.1 hq
      obtain ⟨fn, data, hfn⟩ := huser q0 hq0
      exact ⟨fn, data, by rw [← hqq]; exact hfn⟩
    · exact Nat.lt_of_le_of_lt hule hlen

/-- C8, witness: in scenario S5 handler A (address 0) is registered at
the start and never unregistered, and its callback registers one handler;
the scan ends within the budget of three callbacks plus one, and A is
called exactly once. -/
theorem prepoll_runs_once_witness :
    reactor_invoke_prepolls (prog_S5 1) 4 (world_S5 0 (fun _ => 0)) =
      outcome.done
        { wq := { sleepers := [] },
          r := { head_prepoll := [{ addr := 2, fn := prepoll_fn.user 2 0, fired := 1 },
                                  { addr := 0, fn := prepoll_fn.user 0 0, fired := 1 }],
                 next_addr := 3, uninit := fun _ => 0 },
          trace := [event.ran 1, event.ran 0, event.unregistered 1, event.ran 2] } ∧
    [event.ran 1, event.ran 0, event.unregistered 1, event.ran 2].count (event.ran 0) = 1 ∧
    reactor_invoke_prepolls (prog_S5 1) 4 (world_S5 0 (fun _ => 0)) ≠ outcome.out_of_fuel :=
  ⟨rfl,
   ((prepoll_runs_once (prog_S5 1) 4 (world_S5 0 (fun _ => 0))
      { addr := 0, fn := prepoll_fn.user 0 0, fired := 0 }
      ⟨by decide, by decide⟩ rfl (by decide)).1 _ rfl).1 (by decide),
   (prepoll_runs_once (prog_S5 1) 4 (world_S5 0 (fun _ => 0))
      { addr := 0, fn := prepoll_fn.user 0 0, fired := 0 }
      ⟨by decide, by decide⟩ rfl (by decide)).2.2.1 1
      (fun k => by
        by_cases hk : 4 ≤ k
        · rw [prepoll_upto_done (prog_S5 1) 4 k (cleared (world_S5 0 (fun _ => 0)))
            { wq := { sleepers := [] },
              r := { head_prepoll := [{ addr := 2, fn := prepoll_fn.user 2 0, fired := 1 },
                                      { addr := 0, fn := prepoll_fn.user 0 0, fired := 1 }],
                     next_addr := 3, uninit := fun _ => 0 },
              trace := [event.ran 1, event.ran 0, event.unregistered 1, event.ran 2] } hk rfl]
          decide
        · have hk4 : k = 0 ∨ k = 1 ∨ k = 2 ∨ k = 3 := by omega
          rcases hk4 with h | h | h | h <;> subst h <;> decide)
      (by decide)⟩

/-- C9, as stated, fails: in scenario S5 (A registered, then B, A
unregisters B and registers C) handler B, at address 1, is at the head of
the list and is called before A unregisters it. -/
theorem prepoll_S5_counterexample :
    ∃ w1, reactor_invoke_prepolls (prog_S5 1) 4 (world_S5 0 (fun _ => 0)) = outcome.done w1 ∧
      (world_S5 0 (fun _ => 0)).r.head_prepoll =
        [{ addr := 1, fn := prepoll_fn.user 1 0, fired := 0 },
         { addr := 0, fn := prepoll_fn.user 0 0, fired := 0 }] ∧
      w1.trace = [event.ran 1, event.ran 0, event.unregistered 1, event.ran 2] ∧
      w1.trace.count (event.ran 1) = 1 ∧
      ¬ (w1.trace.count (event.ran 0) = 1 ∧ w1.trace.count (event.ran 1) = 0 ∧
          w1.trace.count (event.ran 2) = 1) :=
  ⟨_, rfl, rfl, rfl, by decide, by decide⟩

/-- C9, amended: in scenario S5 (A registered, then B, on a reactor
without other handlers; A unregisters B and registers C) the prepoll step
calls B once, first, because the list is scanned from the handler
registered last; then it calls A once, which unregisters B and registers
C; and it calls C once when the `fired` field of C reads zero at its
registration. -/
theorem prepoll_S5_amended (a0 : Nat) (uninit : Nat → Int) (hzero : uninit (a0 + 2) = 0) :
    reactor_invoke_prepolls (prog_S5 (a0 + 1)) 4 (world_S5 a0 uninit) =
      outcome.done
        { wq := { sleepers := [] },
          r := { head_prepoll := [{ addr := a0 + 2, fn := prepoll_fn.user 2 0, fired := 1 },
                                  { addr := a0, fn := prepoll_fn.user 0 0, fired := 1 }],
                 next_addr := a0 + 3, uninit := uninit },
          trace := [event.ran (a0 + 1), event.ran a0, event.unregistered (a0 + 1),
                    event.ran (a0 + 2)] } := by
  simp [reactor_invoke_prepolls, prepoll_again, world_S5, prog_S5, reactor_register_prepoll,
    clear_fired, first_unfired, mark_fired, run_callback, exec, unregister_in,
    reactor_unregister_prepoll, remove_prepoll, hzero]

/-- C9, witness: the amended scenario with addresses from 5 and a heap
whose content is zero only where C is allocated. -/
theorem prepoll_S5_amended_witness :
    reactor_invoke_prepolls (prog_S5 6) 4 (world_S5 5 (fun a => if a = 7 then 0 else 9)) =
      outcome.done
        { wq := { sleepers := [] },
          r := { head_prepoll := [{ addr := 7, fn := prepoll_fn.user 2 0, fired := 1 },
                                  { addr := 5, fn := prepoll_fn.user 0 0, fired := 1 }],
                 next_addr := 8, uninit := fun a => if a = 7 then 0 else 9 },
          trace := [event.ran 6, event.ran 5, event.unregistered 6, event.ran 7] } :=
  prepoll_S5_amended 5 (fun a => if a = 7 then 0 else 9) rfl

/-- Pseudothreads switched into, over two stretches of events. -/
theorem resumed_of_append (e1 e2 : List event) :
    resumed_of (e1 ++ e2) = resumed_of e1 ++ resumed_of e2 := by
  induction e1 with
  | nil => rfl
  | cons e rest ih =>
    cases e <;> simp [resumed_of, ih]

/-- The calls of user code switch into no pseudothread. -/
theorem exec_trace (cur : Option pseudothread) (acts : List action) :
    ∀ (w w1 : world), exec cur acts w = some w1 →
      ∃ evs, w1.trace = w.trace ++ evs ∧ resumed_of evs = [] := by
  induction acts with
  | nil =>
    intro w w1 h
    simp only [exec, Option.some.injEq] at h
    exact ⟨[], by rw [← h]; simp, rfl⟩
  | cons act rest ih =>
    intro w w1 h
    cases act with
    | register_prepoll fn data =>
      simp only [exec] at h
      obtain ⟨evs, htr, hres⟩ := ih _ w1 h
      exact ⟨evs, htr, hres⟩
    | unregister_prepoll b =>
      simp only [exec] at h
      cases hu : unregister_in w b with
      | none => rw [hu] at h; cases h
      | some w2 =>
        rw [hu] at h
        obtain ⟨evs, htr, hres⟩ := ih w2 w1 h
        obtain ⟨_, _, _, htrace, _⟩ := unregister_in_some w w2 b hu
        refine ⟨event.unregistered b :: evs, ?_, ?_⟩
        · rw [htr, htrace]; simp
        · simp only [resumed_of]; exact hres
    | wq_sleep_on =>
      simp only [exec] at h
      cases cur with
      | none => cases h
      | some pth =>
        simp only [Option.some.injEq] at h
        exact ⟨[], by rw [← h]; simp, rfl⟩
    | wq_wake_up =>
      simp only [exec] at h
      cases hu : wq_wake_up w.wq w.r with
      | none => rw [hu] at h; cases h
      | some res =>
        obtain ⟨wq1, r1⟩ := res
        rw [hu] at h
        obtain ⟨evs, htr, hres⟩ := ih _ w1 h
        exact ⟨evs, htr, hres⟩
    | wq_wake_up_one =>
      simp only [exec] at h
      cases hu : wq_wake_up_one w.wq w.r with
      | none => rw [hu] at h; cases h
      | some res =>
        obtain ⟨wq1, r1⟩ := res
        rw [hu] at h
        obtain ⟨evs, htr, hres⟩ := ih _ w1 h
        exact ⟨evs, htr, hres⟩

/-- The loop of `do_wake_up` switches into the pseudothreads of its own
vector, once each and in order, whatever they do. -/
theorem do_wake_up_loop_trace (prog : program) (sleepers : List pseudothread) :
    ∀ (w w1 : world), do_wake_up_loop prog sleepers w = some w1 →
      ∃ evs, w1.trace = w.trace ++ evs ∧ resumed_of evs = sleepers := by
  induction sleepers with
  | nil =>
    intro w w1 h
    simp only [do_wake_up_loop, Option.some.injEq] at h
    exact ⟨[], by rw [← h]; simp, rfl⟩
  | cons pth rest ih =>
    intro w w1 h
    simp only [do_wake_up_loop] at h
    split at h
    · cases h
    · rename_i w2 hexec
      obtain ⟨e1, ht1, hr1⟩ := exec_trace _ _ _ w2 hexec
      obtain ⟨e2, ht2, hr2⟩ := ih w2 w1 h
      refine ⟨event.resumed pth :: (e1 ++ e2), ?_, ?_⟩
      · rw [ht2, ht1]; simp
      · simp only [resumed_of, resumed_of_append, hr1, hr2, List.nil_append]

/-- The handler `do_wake_up`, when it runs, switches into the
pseudothreads of its private vector, once each and in order, and then
unregisters itself. -/
theorem do_wake_up_trace (prog : program) (sleepers : List pseudothread) (handler : Nat)
    (w w1 : world) (h : do_wake_up prog sleepers handler w = some w1) :
    ∃ evs, w1.trace = w.trace ++ evs ++ [event.unregistered handler] ∧
      resumed_of evs = sleepers ∧ ∀ q ∈ w1.r.head_prepoll, q.addr ≠ handler := by
  unfold do_wake_up at h
  split at h
  · cases h
  · rename_i w2 hloop
    obtain ⟨evs, htr, hres⟩ := do_wake_up_loop_trace prog sleepers w w2 hloop
    obtain ⟨_, hlist, _, htrace, _⟩ := unregister_in_some w2 w1 handler h
    refine ⟨evs, by rw [htrace, htr], hres, ?_⟩
    intro q hq
    rw [hlist] at hq
    simpa using (List.mem_filter.1 hq).2

/-- Pseudothreads that go to sleep one after the other are queued in that
order. -/
theorem sleepers_in_order (l : List pseudothread) :
    ∀ (wq : wait_queue), (l.foldl wq_sleep_on wq).sleepers = wq.sleepers ++ l := by
  induction l with
  | nil => intro wq; simp
  | cons f rest ih =>
    intro wq
    rw [List.foldl_cons, ih]
    simp [wq_sleep_on]

/-- C6, as stated, fails on the empty queue: `wq_wake_up` returns at once
and registers no prepoll handler. -/
theorem wq_wake_up_empty_counterexample :
    ∃ wq r, wq_wake_up { sleepers := [] }
        { head_prepoll := [], next_addr := 0, uninit := fun _ => 0 } = some (wq, r) ∧
      r.head_prepoll = [] ∧ r.next_addr = 0 :=
  ⟨_, _, rfl, rfl, rfl⟩

/-- C6, amended: pseudothreads that call `wq_sleep_on` one after the
other are queued in that order.  On a non-empty queue `f1 :: rest`,
`wq_wake_up` returns with the queue empty and exactly one new prepoll
handler, `do_wake_up` with the private vector `f1 :: rest`, at the head of
the prepoll list.  When the reactor calls that handler, in any later
world and whatever the resumed pseudothreads do (going back to sleep on
the queue included), it switches into `f1 :: rest`, each once and in that
order, into no other pseudothread, and then unregisters itself.  On an
empty queue `wq_wake_up` does nothing. -/
theorem wq_wake_up_resumes_each_once (f1 : pseudothread) (rest : List pseudothread)
    (r : reactor) :
    ((f1 :: rest).foldl wq_sleep_on new_wait_queue).sleepers = f1 :: rest ∧
    wq_wake_up { sleepers := f1 :: rest } r =
      some ({ sleepers := [] },
        { r with
            head_prepoll :=
              { addr := r.next_addr, fn := prepoll_fn.do_wake_up (f1 :: rest),
                fired := r.uninit r.next_addr } :: r.head_prepoll,
            next_addr := r.next_addr + 1 }) ∧
    (∀ (prog : program) (p : reactor_prepoll) (w w1 : world),
      p.fn = prepoll_fn.do_wake_up (f1 :: rest) → run_callback prog p w = some w1 →
      ∃ evs, w1.trace = w.trace ++ evs ++ [event.unregistered p.addr] ∧
        resumed_of evs = f1 :: rest ∧ ∀ q ∈ w1.r.head_prepoll, q.addr ≠ p.addr) ∧
    wq_wake_up { sleepers := [] } r = some ({ sleepers := [] }, r) := by
  refine ⟨?_, ?_, ?_, ?_⟩
  · rw [sleepers_in_order]; rfl
  · simp [wq_wake_up, wake_up, reactor_register_prepoll]
  · intro prog p w w1 hfn hrun
    unfold run_callback at hrun
    rw [hfn] at hrun
    exact do_wake_up_trace prog _ _ w w1 hrun
  · simp [wq_wake_up, wake_up]

/-- C6, witness: pseudothreads 1 and 2 sleep, the queue is woken, and
when the handler runs pseudothread 1 goes back to sleep at once; it is
switched into once, then 2, then the handler unregisters itself, and 1
stays on the queue. -/
theorem wq_wake_up_resumes_each_once_witness :
    ∃ w1, run_callback prog_sleeper
        { addr := 0, fn := prepoll_fn.do_wake_up [1, 2], fired := 0 }
        { wq := { sleepers := [] },
          r := { head_prepoll := [{ addr := 0, fn := prepoll_fn.do_wake_up [1, 2], fired := 0 }],
                 next_addr := 1, uninit := fun _ => 0 },
          trace := [] } = some w1 ∧
      w1.wq.sleepers = [1] ∧
      w1.trace = [event.resumed 1, event.resumed 2, event.unregistered 0] ∧
      ∃ evs, w1.trace = [] ++ evs ++ [event.unregistered 0] ∧ resumed_of evs = [1, 2] := by
  refine ⟨_, rfl, rfl, rfl, ?_⟩
  obtain ⟨evs, h1, h2, _⟩ := (wq_wake_up_resumes_each_once 1 [2]
    { head_prepoll := [], next_addr := 0, uninit := fun _ => 0 }).2.2.1 prog_sleeper
    { addr := 0, fn := prepoll_fn.do_wake_up [1, 2], fired := 0 }
    { wq := { sleepers := [] },
      r := { head_prepoll := [{ addr := 0, fn := prepoll_fn.do_wake_up [1, 2], fired := 0 }],
             next_addr := 1, uninit := fun _ => 0 },
      trace := [] } _ rfl rfl
  exact ⟨evs, h1, h2⟩

/-- C7: on a non-empty queue `f1 :: rest`, `wq_wake_up_one` removes only
the head `f1`, leaves `rest` in its order, and registers exactly one
prepoll handler, `do_wake_up` for `f1` alone, which switches into `f1`
once and into nobody else when it runs; a later `wq_wake_up_one` on the
remaining queue picks its head in the same way.  As `wq_sleep_on` queues
at the back, the head is the pseudothread that has slept longest. -/
theorem wq_wake_up_one_fifo (f1 : pseudothread) (rest : List pseudothread) (r : reactor) :
    wq_wake_up_one { sleepers := f1 :: rest } r =
      some ({ sleepers := rest },
        { r with
            head_prepoll :=
              { addr := r.next_addr, fn := prepoll_fn.do_wake_up [f1],
                fired := r.uninit r.next_addr } :: r.head_prepoll,
            next_addr := r.next_addr + 1 }) ∧
    (∀ (prog : program) (p : reactor_prepoll) (w w1 : world),
      p.fn = prepoll_fn.do_wake_up [f1] → run_callback prog p w = some w1 →
      ∃ evs, w1.trace = w.trace ++ evs ++ [event.unregistered p.addr] ∧
        resumed_of evs = [f1]) ∧
    (∀ (f2 : pseudothread) (rest2 : List pseudothread) (r1 : reactor), rest = f2 :: rest2 →
      wq_wake_up_one { sleepers := rest } r1 =
        some ({ sleepers := rest2 },
          { r1 with
              head_prepoll :=
                { addr := r1.next_addr, fn := prepoll_fn.do_wake_up [f2],
                  fired := r1.uninit r1.next_addr } :: r1.head_prepoll,
              next_addr := r1.next_addr + 1 })) ∧
    (∀ (l : List pseudothread) (wq : wait_queue),
      (l.foldl wq_sleep_on wq).sleepers = wq.sleepers ++ l) := by
  refine ⟨?_, ?_, ?_, fun l wq => sleepers_in_order l wq⟩
  · simp [wq_wake_up_one, wake_up, pop_loop, reactor_register_prepoll]
  · intro prog p w w1 hfn hrun
    unfold run_callback at hrun
    rw [hfn] at hrun
    obtain ⟨evs, h1, h2, _⟩ := do_wake_up_trace prog _ _ w w1 hrun
    exact ⟨evs, h1, h2⟩
  · intro f2 rest2 r1 hrest
    rw [hrest]
    simp [wq_wake_up_one, wake_up, pop_loop, reactor_register_prepoll]

/-- C7, witness: with 4, 5 and 6 asleep in that order, two calls of
`wq_wake_up_one` schedule 4 and then 5, and 6 stays on the queue. -/
theorem wq_wake_up_one_fifo_witness :
    wq_wake_up_one { sleepers := [4, 5, 6] }
        { head_prepoll := [], next_addr := 0, uninit := fun _ => 0 } =
      some ({ sleepers := [5, 6] },
        { head_prepoll := [{ addr := 0, fn := prepoll_fn.do_wake_up [4], fired := 0 }],
          next_addr := 1, uninit := fun _ => 0 }) ∧
    wq_wake_up_one { sleepers := [5, 6] }
        { head_prepoll := [{ addr := 0, fn := prepoll_fn.do_wake_up [4], fired := 0 }],
          next_addr := 1, uninit := fun _ => 0 } =
      some ({ sleepers := [6] },
        { head_prepoll := [{ addr := 1, fn := prepoll_fn.do_wake_up [5], fired := 0 },
                           { addr := 0, fn := prepoll_fn.do_wake_up [4], fired := 0 }],
          next_addr := 2, uninit := fun _ => 0 }) :=
  ⟨(wq_wake_up_one_fifo 4 [5, 6]
      { head_prepoll := [], next_addr := 0, uninit := fun _ => 0 }).1,
   (wq_wake_up_one_fifo 4 [5, 6]
      { head_prepoll := [], next_addr := 0, uninit := fun _ => 0 }).2.2.1 5 [6]
      { head_prepoll := [{ addr := 0, fn := prepoll_fn.do_wake_up [4], fired := 0 }],
        next_addr := 1, uninit := fun _ => 0 } rfl⟩

end reactor_theorems

section timer_theorems

open pthr_reactor

/-- The modulus is positive. -/
theorem ULL_pos : 0 < ULL := by
  unfold ULL; exact Nat.pow_pos (by decide)

/-- A trigger time is an `unsigned long long` value. -/
theorem trigger_time_lt (now : Nat) (timeout : Int) : trigger_time now timeout < ULL := by
  unfold trigger_time
  have hpos : (0 : Int) < (ULL : Int) := by exact_mod_cast ULL_pos
  have h1 := Int.emod_nonneg ((now : Int) + timeout) (ne_of_gt hpos)
  have h2 := Int.emod_lt_of_pos ((now : Int) + timeout) hpos
  omega

/-- Without wrap-around the trigger time is the plain sum. -/
theorem trigger_time_eq (now : Nat) (timeout : Int) (h0 : 0 ≤ (now : Int) + timeout)
    (h1 : (now : Int) + timeout < (ULL : Int)) :
    (trigger_time now timeout : Int) = (now : Int) + timeout := by
  unfold trigger_time
  rw [Int.emod_eq_of_lt h0 h1]
  exact Int.toNat_of_nonneg h0

/-- Every expiry of a history is an `unsigned long long` value. -/
theorem expiry_of_lt (log : List timer_event) (a : Nat) : expiry_of log a < ULL := by
  induction log with
  | nil => exact ULL_pos
  | cons e rest ih =>
    cases e with
    | set b now timeout =>
      simp only [expiry_of]
      split
      · exact trigger_time_lt now timeout
      · exact ih
    | fired b => simpa only [expiry_of] using ih
    | cancelled b => simpa only [expiry_of] using ih

/-- Unsigned subtraction without borrow. -/
theorem usub_eq (a b : Nat) (hba : b ≤ a) (ha : a < ULL) : usub a b = a - b := by
  unfold usub
  have h : a + ULL - b = (a - b) + ULL := by omega
  rw [h, Nat.add_mod_right, Nat.mod_eq_of_lt (by omega)]

/-- Unsigned addition without carry. -/
theorem uadd_eq (a b : Nat) (h : a + b < ULL) : uadd a b = a + b :=
  Nat.mod_eq_of_lt h

/-- A delta chain only reads the expiries of its own timers. -/
theorem delta_chain_congr (exp exp1 : Nat → Nat) (l : List reactor_timer) :
    ∀ prev, (∀ p ∈ l, exp p.addr = exp1 p.addr) → delta_chain exp prev l →
      delta_chain exp1 prev l := by
  induction l with
  | nil => intro _ _ _; trivial
  | cons p rest ih =>
    intro prev hagree hchain
    have hp := hagree p (List.mem_cons_self _ _)
    simp only [delta_chain] at hchain ⊢
    rw [← hp]
    exact ⟨hchain.1, hchain.2.1, ih _ (fun q hq => hagree q (List.mem_cons_of_mem _ hq)) hchain.2.2⟩

/-- The running sums of a delta chain are the expiries of its timers. -/
theorem abs_expiries_of_chain (exp : Nat → Nat) (l : List reactor_timer) :
    ∀ prev, delta_chain exp prev l → abs_expiries prev l = l.map (fun p => exp p.addr) := by
  induction l with
  | nil => intro _ _; rfl
  | cons p rest ih =>
    intro prev hchain
    simp only [delta_chain] at hchain
    have hsum : prev + p.delta = exp p.addr := by
      rw [hchain.2.1]; omega
    simp only [abs_expiries, List.map_cons, hsum]
    rw [ih _ hchain.2.2]

/-- The search loop of `reactor_set_timer` keeps a delta chain, with the
new timer at its trigger time. -/
theorem delta_chain_insert (exp : Nat → Nat) (timer : reactor_timer) (trigger : Nat)
    (htrig : exp timer.addr = trigger) (hlt : trigger < ULL) (l : List reactor_timer) :
    ∀ prev, prev ≤ trigger → (∀ p ∈ l, exp p.addr < ULL) → delta_chain exp prev l →
      delta_chain exp prev (insert_loop timer trigger prev l) := by
  induction l with
  | nil =>
    intro prev hprev _ _
    simp only [insert_loop, delta_chain, htrig, and_true]
    exact ⟨hprev, usub_eq _ _ hprev hlt⟩
  | cons p rest ih =>
    intro prev hprev hbound hchain
    simp only [delta_chain] at hchain
    obtain ⟨hle, hdelta, hrest⟩ := hchain
    have hpb := hbound p (List.mem_cons_self _ _)
    have hsum : uadd prev p.delta = exp p.addr := by
      rw [uadd_eq _ _ (by rw [hdelta]; omega), hdelta]; omega
    simp only [insert_loop, hsum]
    by_cases hge : exp p.addr ≥ trigger
    · rw [if_pos hge]
      have hback : usub (exp p.addr) p.delta = prev := by
        rw [usub_eq _ _ (by rw [hdelta]; omega) hpb, hdelta]; omega
      simp only [delta_chain, htrig, hback]
      refine ⟨hprev, usub_eq _ _ hprev hlt, hge, usub_eq _ _ hge hpb, hrest⟩
    · rw [if_neg hge]
      simp only [delta_chain]
      refine ⟨hle, hdelta, ih _ (by omega) (fun q hq => hbound q (List.mem_cons_of_mem _ hq)) hrest⟩

/-- Unlinking a timer keeps a delta chain. -/
theorem delta_chain_remove (exp : Nat → Nat) (a : Nat) (l : List reactor_timer) :
    ∀ prev, (∀ p ∈ l, exp p.addr < ULL) → delta_chain exp prev l →
      delta_chain exp prev (remove_timer a l) := by
  induction l with
  | nil => intro _ _ _; trivial
  | cons p rest ih =>
    intro prev hbound hchain
    simp only [delta_chain] at hchain
    obtain ⟨hle, hdelta, hrest⟩ := hchain
    simp only [remove_timer]
    by_cases hpa : p.addr = a
    · rw [if_pos hpa]
      cases rest with
      | nil => trivial
      | cons n rest1 =>
        simp only [delta_chain] at hrest ⊢
        obtain ⟨hle2, hdelta2, hrest2⟩ := hrest
        have hnb := hbound n (List.mem_cons_of_mem _ (List.mem_cons_self _ _))
        refine ⟨by omega, ?_, hrest2⟩
        rw [uadd_eq _ _ (by rw [hdelta, hdelta2]; omega), hdelta, hdelta2]
        omega
    · rw [if_neg hpa]
      simp only [delta_chain]
      exact ⟨hle, hdelta, ih _ (fun q hq => hbound q (List.mem_cons_of_mem _ hq)) hrest⟩

/-- Addresses of the queue after the search loop of `reactor_set_timer`. -/
theorem insert_loop_addrs (timer : reactor_timer) (trigger : Nat) (l : List reactor_timer) :
    ∀ prev, ((insert_loop timer trigger prev l).map (fun p => p.addr)).Perm
      (timer.addr :: l.map (fun p => p.addr)) := by
  induction l with
  | nil => intro prev; exact List.Perm.refl _
  | cons p rest ih =>
    intro prev
    simp only [insert_loop]
    split
    · exact List.Perm.refl _
    · simp only [List.map_cons]
      exact ((ih _).cons p.addr).trans (List.Perm.swap _ _ _)

/-- Addresses of the queue after unlinking a timer. -/
theorem remove_timer_addrs (a : Nat) (l : List reactor_timer) :
    (remove_timer a l).map (fun p => p.addr) = (l.map (fun p => p.addr)).erase a := by
  induction l with
  | nil => rfl
  | cons p rest ih =>
    simp only [remove_timer, List.map_cons]
    by_cases hpa : p.addr = a
    · rw [if_pos hpa, hpa, List.erase_cons_head]
      cases rest with
      | nil => rfl
      | cons n rest1 => rfl
    · rw [if_neg hpa, List.map_cons, ih, List.erase_cons_tail (by simpa using hpa)]

/-- The queue after `reactor_set_timer` is the result of the search loop,
also when the queue was empty. -/
theorem set_timer_queue (t : timers) (timeout : Int) (fn data : Nat) :
    (reactor_set_timer t timeout fn data).1.head_timer =
      insert_loop { addr := t.next_addr, delta := 0, fn := fn, data := data }
        (trigger_time t.reactor_time timeout) 0 t.head_timer ∧
    (reactor_set_timer t timeout fn data).1.next_addr = t.next_addr + 1 ∧
    (reactor_set_timer t timeout fn data).1.reactor_time = t.reactor_time := by
  unfold reactor_set_timer
  by_cases hnil : t.head_timer = []
  · simp only [hnil, if_true, insert_loop, true_and, and_true, List.cons.injEq, and_true]
    rw [usub_eq _ 0 (Nat.zero_le _) (trigger_time_lt _ _)]
    rfl
  · simp only [hnil, if_false, true_and, and_true]

/-- A timer set in an extended history. -/
theorem was_set_cons (ev : timer_event) (log : List timer_event) (a : Nat) :
    was_set (ev :: log) a ↔ (∃ now timeout, ev = timer_event.set a now timeout) ∨ was_set log a := by
  unfold was_set
  constructor
  · rintro ⟨now, timeout, h⟩
    rcases List.mem_cons.1 h with h1 | h1
    · exact Or.inl ⟨now, timeout, h1.symm⟩
    · exact Or.inr ⟨now, timeout, h1⟩
  · rintro (⟨now, timeout, h⟩ | ⟨now, timeout, h⟩)
    · exact ⟨now, timeout, by rw [h]; exact List.mem_cons_self _ _⟩
    · exact ⟨now, timeout, List.mem_cons_of_mem _ h⟩

/-- The invariant after setting a timer. -/
theorem timer_inv_set (t : timers) (log : List timer_event) (timeout : Int) (fn data : Nat)
    (hinv : timer_inv t log) :
    timer_inv (reactor_set_timer t timeout fn data).1
      (timer_event.set t.next_addr t.reactor_time timeout :: log) := by
  obtain ⟨hq, hnext, _⟩ := set_timer_queue t timeout fn data
  have hperm := insert_loop_addrs { addr := t.next_addr, delta := 0, fn := fn, data := data }
    (trigger_time t.reactor_time timeout) t.head_timer 0
  rw [← hq] at hperm
  have hfresh : t.next_addr ∉ t.head_timer.map (fun p => p.addr) := by
    intro hmem
    obtain ⟨p, hp, hpa⟩ := List.mem_map.1 hmem
    have hlt := hinv.lt p hp
    rw [hpa] at hlt
    exact Nat.lt_irrefl _ hlt
  refine ⟨?_, ?_, ?_, ?_, ?_, ?_⟩
  · intro p hp
    rw [hnext]
    have hmem := hperm.mem_iff.1 (List.mem_map_of_mem (fun p => p.addr) hp)
    rcases List.mem_cons.1 hmem with h | h
    · rw [h]; exact Nat.lt_succ_self _
    · obtain ⟨q, hq2, hqa⟩ := List.mem_map.1 h
      rw [← hqa]; exact Nat.lt_succ_of_lt (hinv.lt q hq2)
  · intro a ha
    rw [hnext]
    rcases ha with h | h | h
    · rcases (was_set_cons _ _ _).1 h with ⟨now, tmo, h1⟩ | h1
      · cases h1; exact Nat.lt_succ_self _
      · exact Nat.lt_succ_of_lt (hinv.log_lt a (Or.inl h1))
    · rcases List.mem_cons.1 h with h1 | h1
      · cases h1
      · exact Nat.lt_succ_of_lt (hinv.log_lt a (Or.inr (Or.inl h1)))
    · rcases List.mem_cons.1 h with h1 | h1
      · cases h1
      · exact Nat.lt_succ_of_lt (hinv.log_lt a (Or.inr (Or.inr h1)))
  · rw [hperm.nodup_iff, List.nodup_cons]
    exact ⟨hfresh, hinv.nodup⟩
  · intro a
    rw [hperm.mem_iff, List.mem_cons, was_set_cons, hinv.mem a]
    constructor
    · rintro (h | ⟨h1, h2, h3⟩)
      · refine ⟨Or.inl ⟨_, _, by rw [h]⟩, ?_, ?_⟩
        · intro hf
          rcases List.mem_cons.1 hf with h1 | h1
          · cases h1
          · have := hinv.log_lt a (Or.inr (Or.inl h1))
            rw [h] at this
            exact Nat.lt_irrefl _ this
        · intro hf
          rcases List.mem_cons.1 hf with h1 | h1
          · cases h1
          · have := hinv.log_lt a (Or.inr (Or.inr h1))
            rw [h] at this
            exact Nat.lt_irrefl _ this
      · refine ⟨Or.inr h1, ?_, ?_⟩
        · intro hf
          rcases List.mem_cons.1 hf with h4 | h4
          · cases h4
          · exact h2 h4
        · intro hf
          rcases List.mem_cons.1 hf with h4 | h4
          · cases h4
          · exact h3 h4
    · rintro ⟨h1, h2, h3⟩
      rcases h1 with ⟨now, tmo, h1⟩ | h1
      · left
        cases h1
        rfl
      · right
        exact ⟨h1, fun hf => h2 (List.mem_cons_of_mem _ hf),
          fun hf => h3 (List.mem_cons_of_mem _ hf)⟩
  · rw [hq]
    apply delta_chain_insert
    · simp [expiry_of]
    · exact trigger_time_lt _ _
    · exact Nat.zero_le _
    · intro p _
      exact expiry_of_lt _ _
    · apply delta_chain_congr (expiry_of log) _ _ 0 _ hinv.chain
      intro p hp
      have hne : t.next_addr ≠ p.addr := Nat.ne_of_gt (hinv.lt p hp)
      simp [expiry_of, hne]
  · intro a pre post hsplit
    rcases List.cons_eq_append_iff.1 hsplit with ⟨_, h2⟩ | ⟨pre1, hpre, hlog⟩
    · cases h2
    · rw [hpre]
      intro hf
      rcases List.mem_cons.1 hf with h | h
      · cases h
      · exact hinv.never a pre1 post hlog h

/-- The invariant after a queued timer has been unlinked, by a
cancellation or by its firing. -/
theorem timer_inv_remove (t : timers) (log : List timer_event) (c : Nat) (ev : timer_event)
    (hinv : timer_inv t log) (hc : c ∈ t.head_timer.map (fun p => p.addr))
    (hev : ev = timer_event.cancelled c ∨ ev = timer_event.fired c) :
    timer_inv { t with head_timer := remove_timer c t.head_timer } (ev :: log) := by
  have hclt : c < t.next_addr := by
    obtain ⟨p, hp, hpa⟩ := List.mem_map.1 hc
    rw [← hpa]; exact hinv.lt p hp
  have hexp : ∀ a, expiry_of (ev :: log) a = expiry_of log a := by
    intro a
    rcases hev with h | h <;> rw [h] <;> rfl
  have hset : ∀ a, was_set (ev :: log) a ↔ was_set log a := by
    intro a
    rw [was_set_cons]
    constructor
    · rintro (⟨now, tmo, h⟩ | h)
      · rcases hev with h1 | h1 <;> rw [h1] at h <;> cases h
      · exact h
    · exact Or.inr
  refine ⟨?_, ?_, ?_, ?_, ?_, ?_⟩
  · intro p hp
    have hmem : p.addr ∈ (t.head_timer.map (fun p => p.addr)).erase c := by
      rw [← remove_timer_addrs]; exact List.mem_map_of_mem (fun p => p.addr) hp
    obtain ⟨q, hq, hqa⟩ := List.mem_map.1 (List.mem_of_mem_erase hmem)
    rw [← hqa]; exact hinv.lt q hq
  · intro a ha
    rcases ha with h | h | h
    · exact hinv.log_lt a (Or.inl ((hset a).1 h))
    · rcases List.mem_cons.1 h with h1 | h1
      · rcases hev with h2 | h2
        · rw [h2] at h1; cases h1
        · rw [h2] at h1; cases h1; exact hclt
      · exact hinv.log_lt a (Or.inr (Or.inl h1))
    · rcases List.mem_cons.1 h with h1 | h1
      · rcases hev with h2 | h2
        · rw [h2] at h1; cases h1; exact hclt
        · rw [h2] at h1; cases h1
      · exact hinv.log_lt a (Or.inr (Or.inr h1))
  · simp only [remove_timer_addrs]
    exact hinv.nodup.erase c
  · intro a
    simp only [remove_timer_addrs]
    rw [hinv.nodup.mem_erase_iff, hinv.mem a, hset a]
    constructor
    · rintro ⟨hne, h1, h2, h3⟩
      refine ⟨h1, ?_, ?_⟩
      · intro hf
        rcases List.mem_cons.1 hf with h4 | h4
        · rcases hev with h5 | h5
          · rw [h5] at h4; cases h4
          · rw [h5] at h4; cases h4; exact hne rfl
        · exact h2 h4
      · intro hf
        rcases List.mem_cons.1 hf with h4 | h4
        · rcases hev with h5 | h5
          · rw [h5] at h4; cases h4; exact hne rfl
          · rw [h5] at h4; cases h4
        · exact h3 h4
    · rintro ⟨h1, h2, h3⟩
      refine ⟨?_, h1, fun hf => h2 (List.mem_cons_of_mem _ hf),
        fun hf => h3 (List.mem_cons_of_mem _ hf)⟩
      intro hac
      rcases hev with h5 | h5
      · exact h3 (by rw [h5, hac]; exact List.mem_cons_self _ _)
      · exact h2 (by rw [h5, hac]; exact List.mem_cons_self _ _)
  · apply delta_chain_congr (expiry_of log) _ _ 0 (fun p _ => (hexp p.addr).symm)
    exact delta_chain_remove _ c _ 0 (fun p _ => expiry_of_lt _ _) hinv.chain
  · intro a pre post hsplit
    rcases List.cons_eq_append_iff.1 hsplit with ⟨hpre, _⟩ | ⟨pre1, hpre, hlog⟩
    · rw [hpre]; exact List.not_mem_nil _
    · rw [hpre]
      intro hf
      rcases List.mem_cons.1 hf with h | h
      · rcases hev with h5 | h5
        · rw [h5] at h; cases h
        · rw [h5] at h
          cases h
          have hcan : timer_event.cancelled c ∈ log := by rw [hlog]; simp
          exact ((hinv.mem c).1 hc).2.2 hcan
      · exact hinv.never a pre1 post hlog h

/-- A successful cancellation unlinks a queued timer. -/
theorem unset_timer_some (t t1 : timers) (c : Nat)
    (h : reactor_unset_timer_early t c = some t1) :
    c ∈ t.head_timer.map (fun p => p.addr) ∧
    t1 = { t with head_timer := remove_timer c t.head_timer } := by
  unfold reactor_unset_timer_early at h
  by_cases hany : t.head_timer.any (fun p => p.addr = c) = true
  · rw [if_pos hany] at h
    simp only [Option.some.injEq] at h
    obtain ⟨p, hp, hpc⟩ := List.any_eq_true.1 hany
    have hpc2 : p.addr = c := by simpa using hpc
    exact ⟨hpc2 ▸ List.mem_map_of_mem (fun p => p.addr) hp, h.symm⟩
  · rw [if_neg hany] at h
    cases h

/-- The invariant is kept by every call on the timer queue. -/
theorem timer_inv_step (t t1 : timers) (log log1 : List timer_event) (o : timer_op)
    (hinv : timer_inv t log) (hstep : timer_step t log o = some (t1, log1)) :
    timer_inv t1 log1 := by
  cases o with
  | set timeout fn data =>
    simp only [timer_step, Option.some.injEq, Prod.mk.injEq] at hstep
    obtain ⟨rfl, rfl⟩ := hstep
    exact timer_inv_set t log timeout fn data hinv
  | cancel c =>
    simp only [timer_step] at hstep
    cases hu : reactor_unset_timer_early t c with
    | none => rw [hu] at hstep; cases hstep
    | some t2 =>
      rw [hu] at hstep
      simp only [Option.some.injEq, Prod.mk.injEq] at hstep
      obtain ⟨rfl, rfl⟩ := hstep
      obtain ⟨hc, ht2⟩ := unset_timer_some t t2 c hu
      rw [ht2]
      exact timer_inv_remove t log c _ hinv hc (Or.inl rfl)
  | fire =>
    simp only [timer_step] at hstep
    cases hf : fire_head t with
    | none => rw [hf] at hstep; cases hstep
    | some res =>
      obtain ⟨t2, timer⟩ := res
      rw [hf] at hstep
      simp only [Option.some.injEq, Prod.mk.injEq] at hstep
      obtain ⟨rfl, rfl⟩ := hstep
      unfold fire_head at hf
      split at hf
      · cases hf
      · rename_i timer0 rest hlist
        cases hu : reactor_unset_timer_early t timer0.addr with
        | none => rw [hu] at hf; cases hf
        | some t3 =>
          rw [hu] at hf
          simp only [Option.some.injEq, Prod.mk.injEq] at hf
          obtain ⟨rfl, rfl⟩ := hf
          obtain ⟨hc, ht3⟩ := unset_timer_some t t3 timer0.addr hu
          rw [ht3]
          exact timer_inv_remove t log timer0.addr _ hinv hc (Or.inr rfl)
  | clock now =>
    simp only [timer_step, Option.some.injEq, Prod.mk.injEq] at hstep
    obtain ⟨rfl, rfl⟩ := hstep
    exact ⟨hinv.lt, hinv.log_lt, hinv.nodup, hinv.mem, hinv.chain, hinv.never⟩

/-- The invariant is kept by every sequence of calls on the timer
queue. -/
theorem timer_inv_run (ops : List timer_op) :
    ∀ (t t1 : timers) (log log1 : List timer_event), timer_inv t log →
      run_timers t log ops = some (t1, log1) → timer_inv t1 log1 := by
  induction ops with
  | nil =>
    intro t t1 log log1 hinv hrun
    simp only [run_timers, Option.some.injEq, Prod.mk.injEq] at hrun
    obtain ⟨rfl, rfl⟩ := hrun
    exact hinv
  | cons o os ih =>
    intro t t1 log log1 hinv hrun
    simp only [run_timers] at hrun
    cases hst : timer_step t log o with
    | none => rw [hst] at hrun; cases hrun
    | some res =>
      obtain ⟨t2, log2⟩ := res
      rw [hst] at hrun
      exact ih t2 t1 log2 log1 (timer_inv_step t t2 log log2 o hinv hst) hrun

/-- Expiries do not decrease along a delta chain. -/
theorem delta_chain_sorted (exp : Nat → Nat) (l : List reactor_timer) :
    ∀ prev, delta_chain exp prev l → List.Chain (fun x y => x ≤ y) prev (l.map (fun p => exp p.addr)) := by
  induction l with
  | nil => intro _ _; exact List.Chain.nil
  | cons p rest ih =>
    intro prev hchain
    simp only [delta_chain] at hchain
    exact List.Chain.cons hchain.1 (ih _ hchain.2.2)

/-- C10: after any sequence of `reactor_set_timer` calls, cancellations
(`reactor_unset_timer_early` or deletion of the pool of a timer), firings
of the head timer and clock refreshes, starting from an empty queue: the
queue holds exactly the timers that were set and neither fired nor
cancelled, each once; it is a delta queue for the expiries of the
history, where the expiry of a timer is the clock at its registration
plus its timeout in `unsigned long long` arithmetic (the plain sum when
that does not wrap): the delta of the head is its expiry, every other
delta is the expiry of the timer minus that of its predecessor, and
expiries do not decrease along the queue; the absolute expiries read off
the deltas are those of the registrations, so they are not changed by
cancelling or firing other timers; and no timer fired after its
cancellation (the history is most recent first). -/
theorem timer_queue_invariant (now0 next0 : Nat) (ops : List timer_op) (t : timers)
    (log : List timer_event)
    (hrun : run_timers { head_timer := [], reactor_time := now0, next_addr := next0 } [] ops =
      some (t, log)) :
    (∀ a, a ∈ t.head_timer.map (fun p => p.addr) ↔
      (was_set log a ∧ timer_event.fired a ∉ log ∧ timer_event.cancelled a ∉ log)) ∧
    (t.head_timer.map (fun p => p.addr)).Nodup ∧
    delta_chain (expiry_of log) 0 t.head_timer ∧
    abs_expiries 0 t.head_timer = t.head_timer.map (fun p => expiry_of log p.addr) ∧
    (t.head_timer.map (fun p => expiry_of log p.addr)).Pairwise (fun x y => x ≤ y) ∧
    (∀ a pre post, log = pre ++ timer_event.cancelled a :: post →
      timer_event.fired a ∉ pre) ∧
    (∀ (now : Nat) (timeout : Int), 0 ≤ (now : Int) + timeout →
      (now : Int) + timeout < (ULL : Int) →
      (trigger_time now timeout : Int) = (now : Int) + timeout) := by
  have hinit : timer_inv { head_timer := [], reactor_time := now0, next_addr := next0 } [] := by
    refine ⟨?_, ?_, List.nodup_nil, ?_, trivial, ?_⟩
    · intro p hp; cases hp
    · intro a ha
      rcases ha with ⟨_, _, h⟩ | h | h <;> cases h
    · intro a
      constructor
      · intro h; cases h
      · rintro ⟨⟨_, _, h⟩, _, _⟩; cases h
    · intro a pre post hsplit
      cases pre <;> cases hsplit
  have hinv := timer_inv_run ops _ t [] log hinit hrun
  refine ⟨hinv.mem, hinv.nodup, hinv.chain, abs_expiries_of_chain _ _ 0 hinv.chain, ?_,
    hinv.never, trigger_time_eq⟩
  have hchain := delta_chain_sorted _ _ 0 hinv.chain
  exact (List.pairwise_cons.1 (List.chain_iff_pairwise.1 hchain)).2

/-- C10, witness: at clock 1000 timers are set with timeouts 50, 20 and
70; the second is cancelled, the clock moves to 1100 and the head fires.
The run is defined, the timer with timeout 70 is alone in the queue with
its expiry 1070 as delta, and the invariant holds. -/
theorem timer_queue_invariant_witness :
    run_timers { head_timer := [], reactor_time := 1000, next_addr := 0 } []
        [timer_op.set 50 0 0, timer_op.set 20 1 1, timer_op.set 70 2 2, timer_op.cancel 1,
         timer_op.clock 1100, timer_op.fire] =
      some ({ head_timer := [{ addr := 2, delta := 1070, fn := 2, data := 2 }],
              reactor_time := 1100, next_addr := 3 },
            [timer_event.fired 0, timer_event.cancelled 1, timer_event.set 2 1000 70,
             timer_event.set 1 1000 20, timer_event.set 0 1000 50]) ∧
    abs_expiries 0 [{ addr := 2, delta := 1070, fn := 2, data := 2 }] =
      List.map
        (fun p : reactor_timer => expiry_of [timer_event.fired 0, timer_event.cancelled 1,
          timer_event.set 2 1000 70, timer_event.set 1 1000 20, timer_event.set 0 1000 50]
          p.addr)
        [{ addr := 2, delta := 1070, fn := 2, data := 2 }] :=
  ⟨rfl,
   (timer_queue_invariant 1000 0
      [timer_op.set 50 0 0, timer_op.set 20 1 1, timer_op.set 70 2 2, timer_op.cancel 1,
       timer_op.clock 1100, timer_op.fire]
      { head_timer := [{ addr := 2, delta := 1070, fn := 2, data := 2 }],
        reactor_time := 1100, next_addr := 3 }
      [timer_event.fired 0, timer_event.cancelled 1, timer_event.set 2 1000 70,
       timer_event.set 1 1000 20, timer_event.set 0 1000 50] rfl).2.2.2.1⟩

end timer_theorems

section handle_theorems
open pthr_reactor
theorem take_succ_set {α : Type} (x : α) : ∀ (l : List α) (n : Nat), n < l.length →
    (l.set n x).take (n + 1) = l.take n ++ [x]
  | [], n, h => by simp at h
  | a :: l, 0, _ => by simp
  | a :: l, n + 1, h => by
    have := take_succ_set x l n (by simpa using h)
    simp [List.set, List.take, this]

theorem mem_set_of_ne {α : Type} (l : List α) (i j : Nat) (x y : α)
    (h : l[i]? = some y) (hij : i ≠ j) : y ∈ l.set j x := by
  have : (l.set j x)[i]? = some y := by
    rw [List.getElem?_set_ne (Ne.symm hij)]; exact h
  exact List.getElem?_mem this

theorem find_handle_lt (hs : List reactor_handle) :
    (find_handle hs).2 < (find_handle hs).1.length := by
  unfold find_handle
  cases h : hs.findIdx? (fun x => x.offset == -1) with
  | some i =>
    simp only
    have := List.findIdx?_eq_some_iff_getElem.1 h
    exact this.1
  | none => simp

theorem find_handle_unused (hs : List reactor_handle) :
    ∃ hd, (find_handle hs).1[(find_handle hs).2]? = some hd ∧ hd.offset = -1 := by
  unfold find_handle
  cases h : hs.findIdx? (fun x => x.offset == -1) with
  | some i =>
    simp only
    obtain ⟨hi, hp, _⟩ := List.findIdx?_eq_some_iff_getElem.1 h
    exact ⟨hs[i], by simp [hi], by simpa using hp⟩
  | none =>
    simp only
    refine ⟨{ offset := -1, fn := 0, data := 0 }, ?_, rfl⟩
    rw [List.getElem?_append_right (Nat.le_refl _)]
    simp

theorem find_handle_old (hs : List reactor_handle) (i : Nat) (hi : i < hs.length) :
    (find_handle hs).1[i]? = hs[i]? := by
  unfold find_handle
  cases h : hs.findIdx? (fun x => x.offset == -1) with
  | some j => rfl
  | none => simp only; exact List.getElem?_append_left hi

theorem find_handle_mem (hs : List reactor_handle) (x : reactor_handle)
    (hx : x ∈ (find_handle hs).1) : x ∈ hs ∨ x.offset = -1 := by
  unfold find_handle at hx
  cases h : hs.findIdx? (fun x => x.offset == -1) with
  | some j => rw [h] at hx; exact Or.inl hx
  | none =>
    rw [h] at hx
    simp only [List.mem_append, List.mem_replicate] at hx
    rcases hx with hx | ⟨_, hx⟩
    · exact Or.inl hx
    · right; rw [hx]

theorem find_handle_fresh (hs : List reactor_handle) (i : Nat) (hd : reactor_handle)
    (hi : hs.length ≤ i) (h : (find_handle hs).1[i]? = some hd) : hd.offset = -1 := by
  rcases find_handle_mem hs hd (List.getElem?_mem h) with hm | hm
  · unfold find_handle at h
    cases hf : hs.findIdx? (fun x => x.offset == -1) with
    | some j =>
      rw [hf] at h; simp only at h
      have := (List.getElem?_eq_some_iff.1 h).1
      omega
    | none =>
      rw [hf] at h; simp only at h
      rw [List.getElem?_append_right hi] at h
      have := List.getElem?_mem h
      simp only [List.mem_replicate] at this
      rw [this.2]
  · exact hm

theorem find_poll_some (t : handle_table) (s o : Int) (a : Nat)
    (h : find_poll_descriptor t s o = some a) :
    a < t.nr_array_used ∧ ∃ p, t.used[a]? = some p ∧ p.fd = s ∧ p.events = o := by
  unfold find_poll_descriptor at h
  obtain ⟨hi, hp, _⟩ := List.findIdx?_eq_some_iff_getElem.1 h
  refine ⟨?_, t.used[a], by simp [hi], ?_⟩
  · have : t.used.length ≤ t.nr_array_used := by
      unfold handle_table.used; simp
    omega
  · simpa using hp

theorem find_poll_first (t : handle_table) (s o : Int) (a : Nat)
    (h : find_poll_descriptor t s o = some a) :
    ∀ j p, j < a → t.used[j]? = some p → ¬ (p.fd = s ∧ p.events = o) := by
  unfold find_poll_descriptor at h
  obtain ⟨hi, _, hlt⟩ := List.findIdx?_eq_some_iff_getElem.1 h
  intro j p hj hp
  have hj2 : j < t.used.length := by omega
  have := hlt j hj
  rw [List.getElem?_eq_getElem hj2] at hp
  cases hp
  simpa using this

theorem find_poll_none (t : handle_table) (s o : Int)
    (h : find_poll_descriptor t s o = none) :
    ∀ p ∈ t.used, ¬ (p.fd = s ∧ p.events = o) := by
  unfold find_poll_descriptor at h
  intro p hp
  have := List.findIdx?_eq_none_iff.1 h p hp
  simpa using this

theorem register_shared (t : handle_table) (s o : Int) (fn d a : Nat)
    (h : find_poll_descriptor t s o = some a) :
    reactor_register t s o fn d =
      ({ t with handles := (find_handle t.handles).1.set (find_handle t.handles).2
                            { offset := a, fn := fn, data := d } },
       (find_handle t.handles).2) := by
  simp [reactor_register, h]

theorem register_new (t : handle_table) (s o : Int) (fn d : Nat)
    (h : find_poll_descriptor t s o = none) :
    reactor_register t s o fn d =
      ({ handles := (find_handle t.handles).1.set (find_handle t.handles).2
                      { offset := t.nr_array_used, fn := fn, data := d },
         poll_array := set_poll_descriptor (grow_poll_array t) t.nr_array_used s o,
         nr_array_used := t.nr_array_used + 1,
         uninit := t.uninit },
       (find_handle t.handles).2) := by
  simp [reactor_register, h]

theorem grow_poll_array_spec (t : handle_table) (h : t.nr_array_used ≤ t.poll_array.length) :
    t.nr_array_used < (grow_poll_array t).length ∧
    (grow_poll_array t).take t.nr_array_used = t.used := by
  unfold grow_poll_array handle_table.used
  by_cases hc : t.nr_array_used ≥ t.poll_array.length
  · rw [if_pos hc]
    refine ⟨by simp; omega, ?_⟩
    rw [List.take_append_of_le_length h]
  · rw [if_neg hc]
    exact ⟨by omega, rfl⟩

theorem set_poll_descriptor_used (t : handle_table) (s o : Int)
    (h : t.nr_array_used ≤ t.poll_array.length) :
    t.nr_array_used + 1 ≤ (set_poll_descriptor (grow_poll_array t) t.nr_array_used s o).length ∧
    ∃ r, (set_poll_descriptor (grow_poll_array t) t.nr_array_used s o).take (t.nr_array_used + 1)
      = t.used ++ [{ fd := s, events := to_short o, revents := r }] := by
  obtain ⟨hlt, htake⟩ := grow_poll_array_spec t h
  unfold set_poll_descriptor
  rw [List.getElem?_eq_getElem hlt]
  simp only
  refine ⟨by simp; omega, (grow_poll_array t)[t.nr_array_used].revents, ?_⟩
  rw [take_succ_set _ _ _ hlt, htake]

theorem register_used_shared (t : handle_table) (s o : Int) (fn d a : Nat)
    (h : find_poll_descriptor t s o = some a) :
    (reactor_register t s o fn d).1.nr_array_used = t.nr_array_used ∧
    (reactor_register t s o fn d).1.poll_array = t.poll_array := by
  rw [register_shared t s o fn d a h]; exact ⟨rfl, rfl⟩

theorem register_used_new (t : handle_table) (s o : Int) (fn d : Nat)
    (hle : t.nr_array_used ≤ t.poll_array.length)
    (h : find_poll_descriptor t s o = none) :
    (reactor_register t s o fn d).1.nr_array_used = t.nr_array_used + 1 ∧
    ∃ r, (reactor_register t s o fn d).1.used
      = t.used ++ [{ fd := s, events := to_short o, revents := r }] := by
  rw [register_new t s o fn d h]
  obtain ⟨_, r, hr⟩ := set_poll_descriptor_used t s o hle
  exact ⟨rfl, r, hr⟩

theorem register_handles (t : handle_table) (s o : Int) (fn d : Nat) :
    ∃ a : Nat, (reactor_register t s o fn d).1.handles
        = (find_handle t.handles).1.set (find_handle t.handles).2
            { offset := a, fn := fn, data := d } ∧
      (reactor_register t s o fn d).2 = (find_handle t.handles).2 ∧
      (find_poll_descriptor t s o = some a ∨
       (find_poll_descriptor t s o = none ∧ a = t.nr_array_used)) := by
  cases h : find_poll_descriptor t s o with
  | some a => rw [register_shared t s o fn d a h]; exact ⟨a, rfl, rfl, Or.inl rfl⟩
  | none => rw [register_new t s o fn d h]; exact ⟨_, rfl, rfl, Or.inr ⟨rfl, rfl⟩⟩

/-- The handle table invariant is kept by a registration. -/
theorem handles_inv_register (t : handle_table) (s o : Int) (fn d : Nat)
    (hinv : handles_inv t) :
    handles_inv (reactor_register t s o fn d).1 := by
  obtain ⟨hd0, hget0, hoff0⟩ := find_handle_unused t.handles
  have hold : ∀ x ∈ t.handles, x.offset ≠ -1 → ∀ y,
      x ∈ (find_handle t.handles).1.set (find_handle t.handles).2 y := by
    intro x hx hne y
    obtain ⟨i, hi⟩ := List.mem_iff_getElem?.1 hx
    have hil : i < t.handles.length := (List.getElem?_eq_some_iff.1 hi).1
    have h1 : (find_handle t.handles).1[i]? = some x := by
      rw [find_handle_old _ _ hil]; exact hi
    refine mem_set_of_ne _ i _ y x h1 ?_
    intro he
    rw [he, hget0] at h1
    cases h1
    exact hne hoff0
  cases h : find_poll_descriptor t s o with
  | some a =>
    obtain ⟨ha, p, hp, hfd, hev⟩ := find_poll_some t s o a h
    rw [register_shared t s o fn d a h]
    refine ⟨hinv.used_le, ?_, ?_⟩
    · intro x hx
      rcases List.mem_or_eq_of_mem_set hx with hx | hx
      · rcases find_handle_mem _ _ hx with hx | hx
        · exact hinv.offset x hx
        · exact Or.inl hx
      · right; rw [hx]; simp only; omega
    · intro a' ha'
      obtain ⟨x, hx, hxo⟩ := hinv.referenced a' ha'
      exact ⟨x, hold x hx (by omega) _, hxo⟩
  | none =>
    rw [register_new t s o fn d h]
    obtain ⟨hlen, r, hr⟩ := set_poll_descriptor_used t s o hinv.used_le
    refine ⟨hlen, ?_, ?_⟩
    · intro x hx
      simp only at hx ⊢
      rcases List.mem_or_eq_of_mem_set hx with hx | hx
      · rcases find_handle_mem _ _ hx with hx | hx
        · rcases hinv.offset x hx with h1 | h1
          · exact Or.inl h1
          · right; omega
        · exact Or.inl hx
      · right; rw [hx]; simp only; omega
    · intro a' ha'
      simp only at ha' ⊢
      by_cases hc : a' = t.nr_array_used
      · refine ⟨_, List.mem_set _ _ (find_handle_lt _) _, ?_⟩
        simp [hc]
      · obtain ⟨x, hx, hxo⟩ := hinv.referenced a' (by omega)
        exact ⟨x, hold x hx (by omega) _, hxo⟩

/-- Distinctness of the used entries is kept by a registration whose
`operations` fit the `events` field. -/
theorem distinct_register (t : handle_table) (s o : Int) (fn d : Nat)
    (hinv : handles_inv t) (hdis : distinct_entries t) (ho : to_short o = o) :
    distinct_entries (reactor_register t s o fn d).1 := by
  unfold distinct_entries at hdis ⊢
  cases h : find_poll_descriptor t s o with
  | some a =>
    obtain ⟨h1, h2⟩ := register_used_shared t s o fn d a h
    unfold handle_table.used
    rw [h1, h2]
    exact hdis
  | none =>
    obtain ⟨_, r, hr⟩ := register_used_new t s o fn d hinv.used_le h
    rw [hr, List.map_append, List.nodup_append]
    refine ⟨hdis, by simp, ?_⟩
    intro k hk1 hk2
    simp only [List.map_cons, List.map_nil, List.mem_singleton] at hk2
    obtain ⟨p, hp, hpk⟩ := List.mem_map.1 hk1
    apply find_poll_none t s o h p hp
    rw [hk2] at hpk
    simp only [pollfd.key, Prod.mk.injEq] at hpk
    rw [ho] at hpk
    exact hpk

theorem copied_used (arr : List pollfd) (a used : Nat) (ha : a < used)
    (hu : used ≤ arr.length) :
    (copied arr a (a + 1) (used - a - 1)).length = arr.length ∧
    (copied arr a (a + 1) (used - a - 1)).take (used - 1) = (arr.take used).eraseIdx a := by
  unfold copied
  constructor
  · simp only [List.length_append, List.length_take, List.length_drop]
    omega
  · have hl : (List.take a arr ++ List.take (used - a - 1) (List.drop (a + 1) arr)).length
        = used - 1 := by
      simp only [List.length_append, List.length_take, List.length_drop]
      omega
    rw [List.take_left' hl, List.eraseIdx_eq_take_drop_succ, List.take_take, List.drop_take]
    have : min a used = a := by omega
    rw [this]
    have : used - (a + 1) = used - a - 1 := by omega
    rw [this]

/-- The `memcpy` of `reactor_unregister` is defined when it moves at most
one entry, and undefined when it moves two or more: the ranges overlap. -/
theorem memcpy_one_down (arr : List pollfd) (a k : Nat) (hlen : a + 1 + k ≤ arr.length) :
    memcpy arr a (a + 1) k = if k ≤ 1 then some (copied arr a (a + 1) k) else none := by
  unfold memcpy
  by_cases h0 : k = 0
  · subst h0
    simp [copied]
  · rw [if_neg h0]
    by_cases h1 : k ≤ 1
    · rw [if_pos h1, if_pos]
      omega
    · rw [if_neg h1, if_neg]
      omega

theorem unregister_shared (t : handle_table) (h : Nat) (hd : reactor_handle)
    (hget : t.handles[h]? = some hd)
    (hsh : ∃ x ∈ t.handles.set h { hd with offset := -1 }, x.offset = hd.offset) :
    reactor_unregister t h = some { t with handles := t.handles.set h { hd with offset := -1 } } := by
  unfold reactor_unregister
  rw [hget]
  simp only
  rw [if_pos]
  rw [List.any_eq_true]
  obtain ⟨x, hx, hxo⟩ := hsh
  exact ⟨x, hx, by simpa using hxo⟩

theorem unregister_unshared (t : handle_table) (h : Nat) (hd : reactor_handle)
    (hget : t.handles[h]? = some hd)
    (hsh : ∀ x ∈ t.handles.set h { hd with offset := -1 }, x.offset ≠ hd.offset)
    (h0 : 0 ≤ hd.offset) (h1 : hd.offset.toNat < t.nr_array_used)
    (h2 : t.nr_array_used ≤ t.poll_array.length)
    (hk : t.nr_array_used - hd.offset.toNat - 1 ≤ 1) :
    reactor_unregister t h = some
      { handles := (t.handles.set h { hd with offset := -1 }).map (fun x =>
                     if x.offset > hd.offset then { x with offset := x.offset - 1 } else x),
        poll_array := copied t.poll_array hd.offset.toNat (hd.offset.toNat + 1)
                        (t.nr_array_used - hd.offset.toNat - 1),
        nr_array_used := t.nr_array_used - 1,
        uninit := t.uninit } := by
  unfold reactor_unregister
  rw [hget]
  simp only
  rw [if_neg, if_pos ⟨h0, h1, h2⟩, memcpy_one_down _ _ _ (by omega), if_pos hk]
  rw [List.any_eq_true]
  rintro ⟨x, hx, hxo⟩
  exact hsh x hx (by simpa using hxo)

/-- Unregistering a handle whose unshared entry has two or more used
entries above it is undefined behaviour: `memcpy` is called on overlapping
ranges. -/
theorem unregister_overlap (t : handle_table) (h : Nat) (hd : reactor_handle)
    (hget : t.handles[h]? = some hd)
    (hsh : ∀ x ∈ t.handles.set h { hd with offset := -1 }, x.offset ≠ hd.offset)
    (h0 : 0 ≤ hd.offset) (h2 : t.nr_array_used ≤ t.poll_array.length)
    (hk : 2 ≤ t.nr_array_used - hd.offset.toNat - 1) :
    reactor_unregister t h = none := by
  unfold reactor_unregister
  rw [hget]
  simp only
  rw [if_neg, if_pos ⟨h0, by omega, h2⟩, memcpy_one_down _ _ _ (by omega), if_neg (by omega)]
  rw [List.any_eq_true]
  rintro ⟨x, hx, hxo⟩
  exact hsh x hx (by simpa using hxo)

/-- Whether another handle than `h` has the offset of `h`. -/
theorem shared_iff (t : handle_table) (h : Nat) (hd : reactor_handle)
    (hget : t.handles[h]? = some hd) (hne : hd.offset ≠ -1) :
    (∃ x ∈ t.handles.set h { hd with offset := -1 }, x.offset = hd.offset) ↔
    (∃ i x, i ≠ h ∧ t.handles[i]? = some x ∧ x.offset = hd.offset) := by
  constructor
  · rintro ⟨x, hx, hxo⟩
    obtain ⟨i, hi⟩ := List.mem_iff_getElem?.1 hx
    by_cases hih : i = h
    · subst hih
      have hl : i < t.handles.length := (List.getElem?_eq_some_iff.1 hget).1
      rw [List.getElem?_set_self hl] at hi
      cases hi
      exact absurd hxo.symm hne
    · rw [List.getElem?_set_ne (Ne.symm hih)] at hi
      exact ⟨i, x, hih, hi, hxo⟩
  · rintro ⟨i, x, hih, hi, hxo⟩
    exact ⟨x, mem_set_of_ne _ i h _ x hi hih, hxo⟩

/-- The handle table invariant is kept by every defined call of
`reactor_unregister`; the used entries after it are those before it, or
those with one of them erased. -/
theorem handles_inv_unregister (t t1 : handle_table) (h : Nat) (hinv : handles_inv t)
    (hlt : h < t.handles.length) (hu : reactor_unregister t h = some t1) :
    handles_inv t1 ∧ (t1.used = t.used ∨ ∃ a, t1.used = t.used.eraseIdx a) := by
  have hget : t.handles[h]? = some t.handles[h] := List.getElem?_eq_getElem hlt
  generalize t.handles[h] = hd at hget
  have hmem : hd ∈ t.handles := List.getElem?_mem hget
  by_cases hsh : ∃ x ∈ t.handles.set h { hd with offset := -1 }, x.offset = hd.offset
  · rw [unregister_shared t h hd hget hsh] at hu
    cases hu
    refine ⟨⟨hinv.used_le, ?_, ?_⟩, Or.inl rfl⟩
    · intro x hx
      rcases List.mem_or_eq_of_mem_set hx with hx | hx
      · exact hinv.offset x hx
      · left; rw [hx]
    · intro a ha
      simp only
      by_cases hc : (a : Int) = hd.offset
      · obtain ⟨x, hx, hxo⟩ := hsh
        exact ⟨x, hx, by rw [hxo, hc]⟩
      · obtain ⟨x, hx, hxo⟩ := hinv.referenced a ha
        obtain ⟨i, hi⟩ := List.mem_iff_getElem?.1 hx
        have hih : i ≠ h := by
          intro he; rw [he, hget] at hi; cases hi; exact hc hxo.symm
        exact ⟨x, mem_set_of_ne _ i h _ x hi hih, hxo⟩
  · have hsh2 : ∀ x ∈ t.handles.set h { hd with offset := -1 }, x.offset ≠ hd.offset :=
      fun x hx hxo => hsh ⟨x, hx, hxo⟩
    have hne : hd.offset ≠ -1 := by
      intro he
      exact hsh2 _ (List.mem_set _ _ hlt _) (by simp [he])
    have hr := hinv.offset hd hmem
    have h0 : 0 ≤ hd.offset := by omega
    have h1 : hd.offset.toNat < t.nr_array_used := by omega
    obtain ⟨hlen, htake⟩ := copied_used t.poll_array hd.offset.toNat t.nr_array_used h1
      hinv.used_le
    have hk : t.nr_array_used - hd.offset.toNat - 1 ≤ 1 := by
      by_contra hk
      rw [unregister_overlap t h hd hget hsh2 h0 hinv.used_le (by omega)] at hu
      cases hu
    rw [unregister_unshared t h hd hget hsh2 h0 h1 hinv.used_le hk] at hu
    cases hu
    refine ⟨⟨?_, ?_, ?_⟩, Or.inr ⟨_, htake⟩⟩
    · simp only; rw [hlen]; have := hinv.used_le; omega
    · intro x hx
      simp only at hx ⊢
      obtain ⟨y, hy, hyx⟩ := List.mem_map.1 hx
      have hyo : y.offset = -1 ∨ (0 ≤ y.offset ∧ y.offset < t.nr_array_used) := by
        rcases List.mem_or_eq_of_mem_set hy with hy | hy
        · exact hinv.offset y hy
        · left; rw [hy]
      have hyne := hsh2 y hy
      by_cases hc : y.offset > hd.offset
      · rw [if_pos hc] at hyx
        rw [← hyx]; simp only
        right; omega
      · rw [if_neg hc] at hyx
        rw [← hyx]
        rcases hyo with hyo | hyo
        · exact Or.inl hyo
        · right; omega
    · intro a ha
      simp only at ha ⊢
      by_cases hc : (a : Int) < hd.offset
      · obtain ⟨x, hx, hxo⟩ := hinv.referenced a (by omega)
        obtain ⟨i, hi⟩ := List.mem_iff_getElem?.1 hx
        have hih : i ≠ h := by
          intro he; rw [he, hget] at hi; cases hi; omega
        refine ⟨_, List.mem_map.2 ⟨x, mem_set_of_ne _ i h _ x hi hih, rfl⟩, ?_⟩
        rw [if_neg (by omega)]; exact hxo
      · obtain ⟨x, hx, hxo⟩ := hinv.referenced (a + 1) (by omega)
        obtain ⟨i, hi⟩ := List.mem_iff_getElem?.1 hx
        have hih : i ≠ h := by
          intro he; rw [he, hget] at hi; cases hi; push_cast at hxo; omega
        refine ⟨_, List.mem_map.2 ⟨x, mem_set_of_ne _ i h _ x hi hih, rfl⟩, ?_⟩
        rw [if_pos (by push_cast at hxo; omega)]
        simp only; push_cast at hxo; omega

theorem handles_inv_init (u : Nat → pollfd) : handles_inv (handle_table.init u) :=
  ⟨by simp [handle_table.init], by simp [handle_table.init],
   by intro a ha; simp [handle_table.init] at ha⟩

theorem unregister_lt (t t2 : handle_table) (h : Nat)
    (hu : reactor_unregister t h = some t2) : h < t.handles.length := by
  unfold reactor_unregister at hu
  cases hg : t.handles[h]? with
  | none => rw [hg] at hu; simp at hu
  | some hd => exact (List.getElem?_eq_some_iff.1 hg).1

/-- Every defined run of calls keeps the invariant. -/
theorem handles_inv_run : ∀ (cs : List handle_call) (t t1 : handle_table),
    handles_inv t → run_handles t cs = some t1 → handles_inv t1
  | [], t, t1, hinv, hrun => by
    simp only [run_handles, Option.some.injEq] at hrun
    rw [← hrun]; exact hinv
  | .register s o fn d :: cs, t, t1, hinv, hrun => by
    simp only [run_handles, handle_step, Option.some_bind] at hrun
    exact handles_inv_run cs _ t1 (handles_inv_register t s o fn d hinv) hrun
  | .unregister h :: cs, t, t1, hinv, hrun => by
    simp only [run_handles, handle_step] at hrun
    cases hu : reactor_unregister t h with
    | none => rw [hu] at hrun; simp at hrun
    | some t2 =>
      rw [hu] at hrun
      simp only [Option.some_bind] at hrun
      obtain ⟨hinv3, _⟩ := handles_inv_unregister t t2 h hinv (unregister_lt t t2 h hu) hu
      exact handles_inv_run cs _ t1 hinv3 hrun

/-- Every defined run of calls whose `operations` fit the `events` field
keeps the used entries distinct. -/
theorem distinct_run : ∀ (cs : List handle_call) (t t1 : handle_table),
    handles_inv t → distinct_entries t → events_fit cs → run_handles t cs = some t1 →
      distinct_entries t1
  | [], t, t1, _, hdis, _, hrun => by
    simp only [run_handles, Option.some.injEq] at hrun
    rw [← hrun]; exact hdis
  | .register s o fn d :: cs, t, t1, hinv, hdis, hfit, hrun => by
    simp only [run_handles, handle_step, Option.some_bind] at hrun
    exact distinct_run cs _ t1 (handles_inv_register t s o fn d hinv)
      (distinct_register t s o fn d hinv hdis hfit.1) hfit.2 hrun
  | .unregister h :: cs, t, t1, hinv, hdis, hfit, hrun => by
    simp only [run_handles, handle_step] at hrun
    cases hu : reactor_unregister t h with
    | none => rw [hu] at hrun; simp at hrun
    | some t2 =>
      rw [hu] at hrun
      simp only [Option.some_bind] at hrun
      obtain ⟨hinv3, hused⟩ :=
        handles_inv_unregister t t2 h hinv (unregister_lt t t2 h hu) hu
      refine distinct_run cs _ t1 hinv3 ?_ hfit hrun
      unfold distinct_entries at hdis ⊢
      rcases hused with he | ⟨a, he⟩
      · rw [he]; exact hdis
      · rw [he]; exact hdis.sublist ((List.eraseIdx_sublist _ _).map _)

theorem reachable_inv (t : handle_table) (hr : t.reachable) : handles_inv t := by
  obtain ⟨u, cs, hrun⟩ := hr
  exact handles_inv_run cs _ t (handles_inv_init u) hrun

theorem example_table_reachable : example_table.reachable :=
  ⟨_, example_calls, rfl⟩

theorem used_length (t : handle_table) (hinv : handles_inv t) :
    t.used.length = t.nr_array_used := by
  unfold handle_table.used
  simp only [List.length_take]
  have := hinv.used_le
  omega

theorem register_entry (t : handle_table) (s o : Int) (fn d : Nat)
    (hinv : handles_inv t) (ho : to_short o = o) :
    ∃ p, (reactor_register t s o fn d).1.entry (reactor_register t s o fn d).2 = some p ∧
      p.key = (s, o) := by
  have hlt := find_handle_lt t.handles
  cases h : find_poll_descriptor t s o with
  | some a =>
    obtain ⟨ha, p, hp, hfd, hev⟩ := find_poll_some t s o a h
    rw [register_shared t s o fn d a h]
    refine ⟨p, ?_, by simp [pollfd.key, hfd, hev]⟩
    unfold handle_table.entry
    simp only [List.getElem?_set_self hlt]
    rw [if_pos (by omega)]
    simpa [handle_table.used] using hp
  | none =>
    obtain ⟨_, r, hr⟩ := set_poll_descriptor_used t s o hinv.used_le
    rw [register_new t s o fn d h]
    refine ⟨{ fd := s, events := to_short o, revents := r }, ?_, by simp [pollfd.key, ho]⟩
    unfold handle_table.entry
    simp only [List.getElem?_set_self hlt]
    rw [if_pos (by omega)]
    unfold handle_table.used
    simp only [Int.toNat_ofNat]
    rw [hr, List.getElem?_append_right (by rw [used_length t hinv])]
    simp [used_length t hinv]

/-- In a state that satisfies the invariant, `reactor_unregister` of a
registered handle is undefined exactly when the entry of the handle is
shared with no other handle and two or more used entries lie above it: the
ranges of the `memcpy` then overlap. -/
theorem unregister_none_iff (t : handle_table) (h : Nat) (hd : reactor_handle)
    (hinv : handles_inv t) (hget : t.handles[h]? = some hd) (hreg : hd.offset ≠ -1) :
    reactor_unregister t h = none ↔
      ((¬ ∃ (i : Nat) (hi : reactor_handle), i ≠ h ∧ t.handles[i]? = some hi ∧
          hi.offset = hd.offset) ∧
        hd.offset.toNat + 3 ≤ t.nr_array_used) := by
  have hrange := hinv.offset hd (List.getElem?_mem hget)
  have h0 : 0 ≤ hd.offset := by omega
  have h1 : hd.offset.toNat < t.nr_array_used := by omega
  constructor
  · intro hnone
    by_cases hsh : ∃ (i : Nat) (hi : reactor_handle), i ≠ h ∧ t.handles[i]? = some hi ∧
        hi.offset = hd.offset
    · rw [unregister_shared t h hd hget ((shared_iff t h hd hget hreg).2 hsh)] at hnone
      cases hnone
    · refine ⟨hsh, ?_⟩
      by_contra hk
      have hsh2 : ∀ x ∈ t.handles.set h { hd with offset := -1 }, x.offset ≠ hd.offset := by
        intro x hx hxo
        exact hsh ((shared_iff t h hd hget hreg).1 ⟨x, hx, hxo⟩)
      rw [unregister_unshared t h hd hget hsh2 h0 h1 hinv.used_le (by omega)] at hnone
      cases hnone
  · rintro ⟨hsh, hk⟩
    have hsh2 : ∀ x ∈ t.handles.set h { hd with offset := -1 }, x.offset ≠ hd.offset := by
      intro x hx hxo
      exact hsh ((shared_iff t h hd hget hreg).1 ⟨x, hx, hxo⟩)
    exact unregister_overlap t h hd hget hsh2 h0 hinv.used_le (by omega)

/-- C14: in every state reached from the initial statics by defined calls
of `reactor_register` and `reactor_unregister`, the offset of every
registered handle lies in `[0, nr_array_used)` and every used poll entry
is referenced by a registered handle; the used part of the poll array has
pairwise distinct (descriptor, events) pairs when the `operations` of the
registrations are values of the `short` field `events` they are stored
in; and `reactor_register (fd, events, ..)` with such a value appends a
poll entry exactly when no used entry has the same (descriptor, events)
and otherwise leaves the used part as it is, and in both cases the new
handle refers to an entry with that pair.  A call of `reactor_register`
is always defined; a call of `reactor_unregister` on a registered handle
is undefined exactly when its `memcpy` is given overlapping ranges, that
is, when the entry of the handle is shared with no other handle and two
or more used entries lie above it. -/
theorem handle_table_invariant (u : Nat → pollfd) (cs : List handle_call) (t : handle_table)
    (hrun : run_handles (handle_table.init u) cs = some t) :
    (events_fit cs → (t.used.map pollfd.key).Nodup) ∧
    t.used.length = t.nr_array_used ∧
    (∀ (h : Nat) (hd : reactor_handle), t.handles[h]? = some hd → hd.offset ≠ -1 →
      0 ≤ hd.offset ∧ hd.offset < t.nr_array_used) ∧
    (∀ a, a < t.nr_array_used →
      ∃ (h : Nat) (hd : reactor_handle), t.handles[h]? = some hd ∧ hd.offset ≠ -1 ∧ hd.offset = (a : Int)) ∧
    (∀ (s o : Int) (fn d : Nat), to_short o = o →
      (∃ p, (reactor_register t s o fn d).1.entry (reactor_register t s o fn d).2 = some p ∧
        p.key = (s, o)) ∧
      ((∃ p ∈ t.used, p.key = (s, o)) →
        (reactor_register t s o fn d).1.nr_array_used = t.nr_array_used ∧
        (reactor_register t s o fn d).1.used = t.used) ∧
      ((¬ ∃ p ∈ t.used, p.key = (s, o)) →
        (reactor_register t s o fn d).1.nr_array_used = t.nr_array_used + 1 ∧
        ∃ r, (reactor_register t s o fn d).1.used
          = t.used ++ [{ fd := s, events := o, revents := r }])) ∧
    (∀ (h : Nat) (hd : reactor_handle), t.handles[h]? = some hd → hd.offset ≠ -1 →
      (reactor_unregister t h = none ↔
        ((¬ ∃ (i : Nat) (hi : reactor_handle), i ≠ h ∧ t.handles[i]? = some hi ∧
            hi.offset = hd.offset) ∧
          hd.offset.toNat + 3 ≤ t.nr_array_used))) := by
  have hinv := handles_inv_run cs _ t (handles_inv_init u) hrun
  have hdis : events_fit cs → distinct_entries t := fun hfit =>
    distinct_run cs _ t (handles_inv_init u)
      (by simp [distinct_entries, handle_table.init, handle_table.used]) hfit hrun
  refine ⟨hdis, used_length t hinv, ?_, ?_, ?_,
    fun h hd hget hreg => unregister_none_iff t h hd hinv hget hreg⟩
  · intro h hd hget hne
    have := hinv.offset hd (List.getElem?_mem hget)
    omega
  · intro a ha
    obtain ⟨x, hx, hxo⟩ := hinv.referenced a ha
    obtain ⟨i, hi⟩ := List.mem_iff_getElem?.1 hx
    exact ⟨i, x, hi, by omega, hxo⟩
  · intro s o fn d ho
    refine ⟨register_entry t s o fn d hinv ho, ?_, ?_⟩
    · rintro ⟨p, hp, hk⟩
      cases h : find_poll_descriptor t s o with
      | some a =>
        obtain ⟨h1, h2⟩ := register_used_shared t s o fn d a h
        refine ⟨h1, ?_⟩
        unfold handle_table.used
        rw [h1, h2]
      | none =>
        exfalso
        apply find_poll_none t s o h p hp
        simpa [pollfd.key] using hk
    · intro hno
      cases h : find_poll_descriptor t s o with
      | some a =>
        exfalso
        obtain ⟨_, p, hp, hfd, hev⟩ := find_poll_some t s o a h
        exact hno ⟨p, List.getElem?_mem hp, by simp [pollfd.key, hfd, hev]⟩
      | none =>
        obtain ⟨h1, r, h2⟩ := register_used_new t s o fn d hinv.used_le h
        refine ⟨h1, r, ?_⟩
        rw [h2, ho]

theorem handle_table_invariant_witness :
    run_handles (handle_table.init (fun _ => { fd := -7, events := -7, revents := 99 }))
        example_calls = some example_table ∧
    events_fit example_calls ∧
    (example_table.used.map pollfd.key).Nodup ∧
    example_table.used.length = example_table.nr_array_used :=
  ⟨rfl, by simp [example_calls, events_fit, to_short],
   (handle_table_invariant _ example_calls example_table rfl).1
      (by simp [example_calls, events_fit, to_short]),
   (handle_table_invariant _ example_calls example_table rfl).2.1⟩

theorem entry_eq (t : handle_table) (i : Nat) (hi : reactor_handle)
    (hget : t.handles[i]? = some hi) (h0 : 0 ≤ hi.offset) :
    t.entry i = t.used[hi.offset.toNat]? := by
  unfold handle_table.entry
  rw [hget]
  simp only
  rw [if_pos h0]

/-- C15 fails in the code: in a reachable state, `reactor_unregister (h)`
of a registered handle `h` whose poll entry is shared with no other handle
and has two or more used entries above it calls `memcpy` on overlapping
ranges, which is undefined behaviour (`memmove` is the function for
overlapping ranges), so nothing is guaranteed about the entries of the
other handles.  When the entry is shared, or at most one used entry lies
above it, the call is defined and unregisters `h`; every other registered
handle stays registered, keeps its callback and data and refers to the
same poll entry as before; a shared entry stays, with `nr_array_used` and
the used part of the poll array unchanged, and an unshared entry is
erased, `nr_array_used` decreasing by one and the others keeping their
order. -/
theorem unregister_overlapping_memcpy (t : handle_table) (h : Nat) (hd : reactor_handle)
    (hr : t.reachable) (hget : t.handles[h]? = some hd) (hreg : hd.offset ≠ -1) :
    ((¬ ∃ (i : Nat) (hi : reactor_handle), i ≠ h ∧ t.handles[i]? = some hi ∧
        hi.offset = hd.offset) →
      hd.offset.toNat + 3 ≤ t.nr_array_used → reactor_unregister t h = none) ∧
    (((∃ (i : Nat) (hi : reactor_handle), i ≠ h ∧ t.handles[i]? = some hi ∧
        hi.offset = hd.offset) ∨ t.nr_array_used ≤ hd.offset.toNat + 2) →
    ∃ t1, reactor_unregister t h = some t1 ∧
      ¬ t1.registered h ∧
      (∀ (i : Nat) (hi : reactor_handle), i ≠ h → t.handles[i]? = some hi → hi.offset ≠ -1 →
        ∃ hi1, t1.handles[i]? = some hi1 ∧ hi1.offset ≠ -1 ∧
          hi1.fn = hi.fn ∧ hi1.data = hi.data ∧
          (t.entry i).isSome ∧ t1.entry i = t.entry i) ∧
      ((∃ (i : Nat) (hi : reactor_handle), i ≠ h ∧ t.handles[i]? = some hi ∧
          hi.offset = hd.offset) →
        t1.nr_array_used = t.nr_array_used ∧ t1.used = t.used) ∧
      ((¬ ∃ (i : Nat) (hi : reactor_handle), i ≠ h ∧ t.handles[i]? = some hi ∧
          hi.offset = hd.offset) →
        t1.nr_array_used + 1 = t.nr_array_used ∧
        t1.used = t.used.eraseIdx hd.offset.toNat)) := by
  have hinv := reachable_inv t hr
  have hlt : h < t.handles.length := (List.getElem?_eq_some_iff.1 hget).1
  have hrange := hinv.offset hd (List.getElem?_mem hget)
  have hul := used_length t hinv
  refine ⟨?_, ?_⟩
  · intro hsh hk
    have hsh2 : ∀ x ∈ t.handles.set h { hd with offset := -1 }, x.offset ≠ hd.offset := by
      intro x hx hxo
      exact hsh ((shared_iff t h hd hget hreg).1 ⟨x, hx, hxo⟩)
    exact unregister_overlap t h hd hget hsh2 (by omega) hinv.used_le (by omega)
  intro hcase
  have hsome : ∀ (i : Nat) (hi : reactor_handle), t.handles[i]? = some hi → hi.offset ≠ -1 →
      0 ≤ hi.offset ∧ hi.offset.toNat < t.used.length := by
    intro i hi hgi hne
    have := hinv.offset hi (List.getElem?_mem hgi)
    omega
  by_cases hsh : ∃ (i : Nat) (hi : reactor_handle), i ≠ h ∧ t.handles[i]? = some hi ∧
      hi.offset = hd.offset
  · have heq := unregister_shared t h hd hget ((shared_iff t h hd hget hreg).2 hsh)
    refine ⟨_, heq, ?_, ?_, fun _ => ⟨rfl, rfl⟩, fun hno => absurd hsh hno⟩
    · rintro ⟨x, hx, hxo⟩
      simp only [List.getElem?_set_self hlt, Option.some.injEq] at hx
      rw [← hx] at hxo
      exact hxo rfl
    · intro i hi hih hgi hne
      have hgi1 : (t.handles.set h { hd with offset := -1 })[i]? = some hi := by
        rw [List.getElem?_set_ne (Ne.symm hih)]; exact hgi
      obtain ⟨h0, h1⟩ := hsome i hi hgi hne
      refine ⟨hi, hgi1, hne, rfl, rfl, ?_, ?_⟩
      · rw [entry_eq t i hi hgi h0, List.getElem?_eq_getElem h1]; rfl
      · rw [entry_eq t i hi hgi h0, entry_eq _ i hi hgi1 h0]; rfl
  · have hsh2 : ∀ x ∈ t.handles.set h { hd with offset := -1 }, x.offset ≠ hd.offset := by
      intro x hx hxo
      exact hsh ((shared_iff t h hd hget hreg).1 ⟨x, hx, hxo⟩)
    have h0 : 0 ≤ hd.offset := by omega
    have h1 : hd.offset.toNat < t.nr_array_used := by clear hcase; omega
    obtain ⟨hlen, htake⟩ := copied_used t.poll_array hd.offset.toNat t.nr_array_used h1
      hinv.used_le
    have hk : t.nr_array_used - hd.offset.toNat - 1 ≤ 1 := by
      rcases hcase with hc | hc
      · exact absurd hc hsh
      · omega
    have heq := unregister_unshared t h hd hget hsh2 h0 h1 hinv.used_le hk
    refine ⟨_, heq, ?_, ?_, fun hyes => absurd hyes hsh, fun _ => ⟨?_, htake⟩⟩
    · rintro ⟨x, hx, hxo⟩
      simp only [List.getElem?_map, List.getElem?_set_self hlt, Option.map_some',
        Option.some.injEq] at hx
      rw [if_neg (by show ¬ ((-1 : Int) > hd.offset); omega)] at hx
      rw [← hx] at hxo
      exact hxo rfl
    · intro i hi hih hgi hne
      obtain ⟨hi0, hi1⟩ := hsome i hi hgi hne
      have hio : hi.offset ≠ hd.offset := fun he => hsh ⟨i, hi, hih, hgi, he⟩
      have hgi1 : ((t.handles.set h { hd with offset := -1 }).map (fun x =>
          if x.offset > hd.offset then { x with offset := x.offset - 1 } else x))[i]?
          = some (if hi.offset > hd.offset then { hi with offset := hi.offset - 1 } else hi) := by
        rw [List.getElem?_map, List.getElem?_set_ne (Ne.symm hih), hgi]; rfl
      have hent : (t.entry i).isSome := by
        rw [entry_eq t i hi hgi hi0, List.getElem?_eq_getElem hi1]; rfl
      by_cases hc : hi.offset > hd.offset
      · rw [if_pos hc] at hgi1
        refine ⟨_, hgi1, by simp only; omega, rfl, rfl, hent, ?_⟩
        rw [entry_eq t i hi hgi hi0, entry_eq _ i _ hgi1 (by simp only; omega)]
        show (List.take (t.nr_array_used - 1) _)[_]? = _
        rw [htake]
        simp only
        have e1 : (hi.offset - 1).toNat + 1 = hi.offset.toNat := by omega
        rw [List.getElem?_eraseIdx_of_ge _ _ _ (by omega), e1]
        rfl
      · rw [if_neg hc] at hgi1
        refine ⟨_, hgi1, hne, rfl, rfl, hent, ?_⟩
        rw [entry_eq t i hi hgi hi0, entry_eq _ i _ hgi1 hi0]
        show (List.take (t.nr_array_used - 1) _)[_]? = _
        rw [htake, List.getElem?_eraseIdx_of_lt _ _ _ (by omega)]
        rfl
    · show t.nr_array_used - 1 + 1 = t.nr_array_used
      omega

theorem example_three_reachable : example_three.reachable :=
  ⟨_, [.register 3 1 10 100, .register 4 1 11 101, .register 5 1 12 102], rfl⟩

theorem unregister_overlapping_memcpy_witness :
    example_three.used.map pollfd.key = [(3, 1), (4, 1), (5, 1)] ∧
    reactor_unregister example_three 0 = none ∧
    (reactor_unregister example_three 1).map (fun t1 => t1.used.map pollfd.key)
      = some [(3, 1), (5, 1)] := by
  have hv : ∀ j : Fin 8, ∀ k : Fin 2, (j : Nat) ≠ k → ∀ x,
      example_three.handles[(j : Nat)]? = some x → x.offset ≠ (k : Nat) := by decide
  refine ⟨by decide, ?_, ?_⟩
  · refine (unregister_overlapping_memcpy example_three 0 { offset := 0, fn := 10, data := 100 }
      example_three_reachable rfl (by decide)).1 ?_ (by decide)
    rintro ⟨i, hi, hne, hget, ho⟩
    have hlt : i < 8 := (List.getElem?_eq_some_iff.1 hget).1
    exact hv ⟨i, hlt⟩ 0 hne hi hget ho
  · decide

/-- C16: in a reachable state, `reactor_register` followed at once by
`reactor_unregister` of the handle it returned is defined and restores
`nr_array_used`, the used part of the poll array, and the offset, callback
and data of every handle that was registered before. -/
theorem register_unregister_restores (t : handle_table) (s o : Int) (fn d : Nat)
    (hr : t.reachable) :
    ∃ t2, reactor_unregister (reactor_register t s o fn d).1 (reactor_register t s o fn d).2
        = some t2 ∧
      t2.nr_array_used = t.nr_array_used ∧
      t2.used = t.used ∧
      (∀ (i : Nat) (hi : reactor_handle), t.handles[i]? = some hi → hi.offset ≠ -1 →
        t2.handles[i]? = some hi) := by
  have hinv := reachable_inv t hr
  have hlt := find_handle_lt t.handles
  obtain ⟨hd0, hget0, hoff0⟩ := find_handle_unused t.handles
  have hul := used_length t hinv
  have hold : ∀ (i : Nat) (hi : reactor_handle), t.handles[i]? = some hi → hi.offset ≠ -1 →
      i ≠ (find_handle t.handles).2 ∧ (find_handle t.handles).1[i]? = some hi := by
    intro i hi hgi hne
    have hil : i < t.handles.length := (List.getElem?_eq_some_iff.1 hgi).1
    have h1 : (find_handle t.handles).1[i]? = some hi := by
      rw [find_handle_old _ _ hil]; exact hgi
    refine ⟨?_, h1⟩
    intro he
    rw [he, hget0] at h1
    cases h1
    exact hne hoff0
  cases h : find_poll_descriptor t s o with
  | some a =>
    obtain ⟨ha, _⟩ := find_poll_some t s o a h
    rw [register_shared t s o fn d a h]
    obtain ⟨x, hx, hxo⟩ := hinv.referenced a ha
    obtain ⟨i, hgi⟩ := List.mem_iff_getElem?.1 hx
    obtain ⟨hih, hgi1⟩ := hold i x hgi (by omega)
    have hget1 : ((find_handle t.handles).1.set (find_handle t.handles).2
        { offset := (a : Int), fn := fn, data := d })[(find_handle t.handles).2]?
        = some { offset := (a : Int), fn := fn, data := d } := List.getElem?_set_self hlt
    have heq := unregister_shared
      { t with handles := (find_handle t.handles).1.set (find_handle t.handles).2
                            { offset := (a : Int), fn := fn, data := d } }
      (find_handle t.handles).2 _ hget1
      ⟨x, mem_set_of_ne _ i _ _ x (by
          show ((find_handle t.handles).1.set _ _)[i]? = some x
          rw [List.getElem?_set_ne (Ne.symm hih)]; exact hgi1) hih, hxo⟩
    refine ⟨_, heq, rfl, rfl, ?_⟩
    intro j hj hgj hne
    obtain ⟨hjh, hgj1⟩ := hold j hj hgj hne
    show (List.set (List.set _ _ _) _ _)[j]? = some hj
    rw [List.getElem?_set_ne (Ne.symm hjh), List.getElem?_set_ne (Ne.symm hjh)]
    exact hgj1
  | none =>
    rw [register_new t s o fn d h]
    obtain ⟨hlen, r, hr2⟩ := set_poll_descriptor_used t s o hinv.used_le
    have hget1 : ((find_handle t.handles).1.set (find_handle t.handles).2
        { offset := (t.nr_array_used : Int), fn := fn, data := d })[(find_handle t.handles).2]?
        = some { offset := (t.nr_array_used : Int), fn := fn, data := d } :=
      List.getElem?_set_self hlt
    have hss : ((find_handle t.handles).1.set (find_handle t.handles).2
        { offset := (t.nr_array_used : Int), fn := fn, data := d }).set
        (find_handle t.handles).2 { offset := -1, fn := fn, data := d }
        = (find_handle t.handles).1.set (find_handle t.handles).2
            { offset := -1, fn := fn, data := d } := List.set_set _ _ _ _
    have hoffs : ∀ x ∈ (find_handle t.handles).1.set (find_handle t.handles).2
        { offset := -1, fn := fn, data := d },
        x.offset = -1 ∨ (0 ≤ x.offset ∧ x.offset < t.nr_array_used) := by
      intro x hx
      rcases List.mem_or_eq_of_mem_set hx with hx | hx
      · rcases find_handle_mem _ _ hx with hx | hx
        · exact hinv.offset x hx
        · exact Or.inl hx
      · left; rw [hx]
    have heq := unregister_unshared
      { handles := (find_handle t.handles).1.set (find_handle t.handles).2
                      { offset := (t.nr_array_used : Int), fn := fn, data := d },
        poll_array := set_poll_descriptor (grow_poll_array t) t.nr_array_used s o,
        nr_array_used := t.nr_array_used + 1,
        uninit := t.uninit }
      (find_handle t.handles).2 _ hget1
      (by
        intro x hx
        have hx2 : x ∈ (find_handle t.handles).1.set (find_handle t.handles).2
            { offset := -1, fn := fn, data := d } := by rw [← hss]; exact hx
        have := hoffs x hx2
        show x.offset ≠ (t.nr_array_used : Int)
        omega)
      (by show (0 : Int) ≤ (t.nr_array_used : Int); omega)
      (by show (t.nr_array_used : Int).toNat < t.nr_array_used + 1; simp)
      hlen
      (by show t.nr_array_used + 1 - (t.nr_array_used : Int).toNat - 1 ≤ 1; simp)
    refine ⟨_, heq, rfl, ?_, ?_⟩
    · obtain ⟨_, htake⟩ := copied_used
        (set_poll_descriptor (grow_poll_array t) t.nr_array_used s o) t.nr_array_used
        (t.nr_array_used + 1) (by omega) hlen
      show List.take (t.nr_array_used + 1 - 1) (copied _ (t.nr_array_used : Int).toNat
        ((t.nr_array_used : Int).toNat + 1)
        (t.nr_array_used + 1 - (t.nr_array_used : Int).toNat - 1)) = _
      simp only [Int.toNat_ofNat]
      rw [htake, hr2, List.eraseIdx_append_of_length_le (by omega)]
      simp [hul]
    · intro j hj hgj hne
      obtain ⟨hjh, hgj1⟩ := hold j hj hgj hne
      have hjr := hinv.offset hj (List.getElem?_mem hgj)
      show (List.map _ (List.set (List.set _ _ _) _ _))[j]? = some hj
      rw [List.getElem?_map, List.getElem?_set_ne (Ne.symm hjh),
        List.getElem?_set_ne (Ne.symm hjh), hgj1]
      simp only [Option.map_some', Option.some.injEq]
      rw [if_neg (by omega)]

theorem register_unregister_restores_witness :
    ∃ t2, reactor_unregister (reactor_register example_table 6 1 14 104).1
        (reactor_register example_table 6 1 14 104).2 = some t2 ∧
      t2.used = example_table.used := by
  obtain ⟨t2, h1, _, h3, _⟩ :=
    register_unregister_restores example_table 6 1 14 104 example_table_reachable
  exact ⟨t2, h1, h3⟩

theorem dispatch_loop_inert (cb : handle_table → dispatch → List handle_call)
    (hcb : ∀ t d, cb t d = []) (t : handle_table)
    (hin : ∀ hd ∈ t.handles, 0 ≤ hd.offset → hd.offset.toNat < t.poll_array.length) :
    ∀ (k i : Nat) (log : List dispatch), i + k = t.handles.length →
      dispatch_loop cb (k + 1) i t log
        = outcome.done (t, log ++ (List.range' i k).filterMap (ready_call t))
  | 0, i, log, h => by
    have : t.handles[i]? = none := List.getElem?_eq_none (by omega)
    simp [dispatch_loop, this]
  | k + 1, i, log, h => by
    have hi : i < t.handles.length := by omega
    have hget : t.handles[i]? = some t.handles[i] := List.getElem?_eq_getElem hi
    have ih := dispatch_loop_inert cb hcb t hin k (i + 1)
    have hmem : t.handles[i] ∈ t.handles := List.getElem_mem hi
    generalize t.handles[i] = hd at hget hmem
    rw [dispatch_loop, hget]
    simp only
    rw [List.range'_succ, List.filterMap_cons]
    by_cases h0 : 0 ≤ hd.offset
    · obtain ⟨p, hp⟩ : ∃ p, t.poll_array[hd.offset.toNat]? = some p :=
        ⟨_, List.getElem?_eq_getElem (hin hd hmem h0)⟩
      rw [if_pos h0, hp]
      simp only
      by_cases hrev : p.revents ≠ 0
      · have hrc : ready_call t i = some ⟨i, hd.fn, hd.data, p.fd, p.revents⟩ := by
          unfold ready_call
          rw [hget]; simp only
          rw [if_pos h0, hp]; simp only
          rw [if_pos hrev]
        rw [if_pos hrev, hcb, hrc]
        simp only [run_handles]
        rw [ih _ (by omega)]
        simp
      · have hrc : ready_call t i = none := by
          unfold ready_call
          rw [hget]; simp only
          rw [if_pos h0, hp]; simp only
          rw [if_neg hrev]
        rw [if_neg hrev, hrc]
        simp only
        exact ih _ (by omega)
    · have hrc : ready_call t i = none := by
        unfold ready_call
        rw [hget]; simp only
        rw [if_neg h0]
      rw [if_neg h0, hrc]
      simp only
      exact ih _ (by omega)

theorem filterMap_handles_sublist (t : handle_table) :
    ∀ l : List Nat, ((l.filterMap (ready_call t)).map dispatch.handle).Sublist l
  | [] => by simp
  | i :: l => by
    rw [List.filterMap_cons]
    cases h : ready_call t i with
    | none => simp only; exact (filterMap_handles_sublist t l).cons _
    | some c =>
      simp only [List.map_cons]
      have : c.handle = i := by
        unfold ready_call at h
        split at h
        · cases h
        · split at h
          · split at h
            · cases h
            · split at h
              · cases h; rfl
              · cases h
          · cases h
      rw [this]
      exact (filterMap_handles_sublist t l).cons₂ _

theorem kernel_poll_entry (t : handle_table) (rev : Nat → Int) (a : Nat) (p : pollfd)
    (ha : a < t.nr_array_used) (hp : t.poll_array[a]? = some p) :
    (kernel_poll t rev).poll_array[a]? = some { p with revents := rev a } := by
  unfold kernel_poll
  simp only [List.getElem?_mapIdx, hp, Option.map_some', if_pos ha]

theorem ready_call_kernel_poll (t : handle_table) (rev : Nat → Int) (i : Nat)
    (hd : reactor_handle) (p : pollfd) (hinv : handles_inv t)
    (hget : t.handles[i]? = some hd) (hne : hd.offset ≠ -1) (hent : t.entry i = some p) :
    ready_call (kernel_poll t rev) i
      = if rev hd.offset.toNat ≠ 0 then
          some ⟨i, hd.fn, hd.data, p.fd, rev hd.offset.toNat⟩
        else none := by
  have hr := hinv.offset hd (List.getElem?_mem hget)
  have h0 : 0 ≤ hd.offset := by omega
  have ha : hd.offset.toNat < t.nr_array_used := by omega
  rw [entry_eq t i hd hget h0] at hent
  have hp : t.poll_array[hd.offset.toNat]? = some p := by
    unfold handle_table.used at hent
    rw [List.getElem?_take] at hent
    rw [if_pos ha] at hent
    exact hent
  unfold ready_call
  have hg2 : (kernel_poll t rev).handles[i]? = some hd := hget
  rw [hg2]
  simp only
  rw [if_pos h0, kernel_poll_entry t rev _ p ha hp]

theorem ready_call_registered (t : handle_table) (rev : Nat → Int) (i : Nat) (c : dispatch)
    (hinv : handles_inv t) (h : ready_call (kernel_poll t rev) i = some c) :
    ∃ hd p, t.handles[i]? = some hd ∧ hd.offset ≠ -1 ∧ t.entry i = some p := by
  have hh : (kernel_poll t rev).handles = t.handles := rfl
  unfold ready_call at h
  rw [hh] at h
  cases hget : t.handles[i]? with
  | none => rw [hget] at h; cases h
  | some hd =>
    rw [hget] at h
    simp only at h
    by_cases h0 : 0 ≤ hd.offset
    · have hr := hinv.offset hd (List.getElem?_mem hget)
      have hul := used_length t hinv
      have ha : hd.offset.toNat < t.used.length := by omega
      exact ⟨hd, t.used[hd.offset.toNat], rfl, by omega, by
        rw [entry_eq t i hd hget h0, List.getElem?_eq_getElem ha]⟩
    · rw [if_neg h0] at h; cases h

/-- C13: when `poll` has returned `r > 0` in a reachable state and the
callbacks register and unregister nothing, the dispatch loop of
`reactor_invoke` ends; the handles it calls have strictly increasing
handle-table indices (so no handle is called twice); a registered handle
is called if and only if the kernel wrote a non-zero `revents` to the poll
entry the handle refers to, whether or not other handles share the entry;
and each call passes the callback the descriptor of that entry, the
`revents` written to it, and the `data` of the handle. -/
theorem dispatch_ready_handles (cb : handle_table → dispatch → List handle_call)
    (t : handle_table) (rev : Nat → Int) (r : Int)
    (hr : t.reachable) (hcb : ∀ t1 d, cb t1 d = []) (hpos : 0 < r) :
    ∃ calls, poll_dispatch cb (t.handles.length + 1) t rev r
        = outcome.done (kernel_poll t rev, calls) ∧
      (calls.map dispatch.handle).Pairwise (fun i j => i < j) ∧
      (∀ (i : Nat) (hd : reactor_handle), t.handles[i]? = some hd → hd.offset ≠ -1 →
        ((∃ c ∈ calls, c.handle = i) ↔ rev hd.offset.toNat ≠ 0)) ∧
      (∀ c ∈ calls, ∃ (hd : reactor_handle) (p : pollfd),
        t.handles[c.handle]? = some hd ∧ hd.offset ≠ -1 ∧ t.entry c.handle = some p ∧
        c.fn = hd.fn ∧ c.data = hd.data ∧ c.socket = p.fd ∧
        c.events = rev hd.offset.toNat ∧ c.events ≠ 0) := by
  have hinv := reachable_inv t hr
  have hin : ∀ hd ∈ (kernel_poll t rev).handles, 0 ≤ hd.offset →
      hd.offset.toNat < (kernel_poll t rev).poll_array.length := by
    intro hd hm h0
    have h1 := hinv.offset hd hm
    have h2 := hinv.used_le
    simp only [kernel_poll, List.length_mapIdx]
    omega
  have hloop := dispatch_loop_inert cb hcb (kernel_poll t rev) hin t.handles.length 0 []
    (by simp [kernel_poll])
  have hmemc : ∀ c, c ∈ (List.range' 0 t.handles.length).filterMap
      (ready_call (kernel_poll t rev)) ↔
      ∃ i, i < t.handles.length ∧ ready_call (kernel_poll t rev) i = some c := by
    intro c
    simp [List.mem_filterMap, List.mem_range']
  have hhandle : ∀ i c, ready_call (kernel_poll t rev) i = some c →
      ∃ (hd : reactor_handle) (p : pollfd), t.handles[i]? = some hd ∧ hd.offset ≠ -1 ∧
        t.entry i = some p ∧ rev hd.offset.toNat ≠ 0 ∧
        c = ⟨i, hd.fn, hd.data, p.fd, rev hd.offset.toNat⟩ := by
    intro i c hc
    obtain ⟨hd, p, hget, hne, hent⟩ := ready_call_registered t rev i c hinv hc
    rw [ready_call_kernel_poll t rev i hd p hinv hget hne hent] at hc
    by_cases hz : rev hd.offset.toNat ≠ 0
    · rw [if_pos hz] at hc
      cases hc
      exact ⟨hd, p, hget, hne, hent, hz, rfl⟩
    · rw [if_neg hz] at hc; cases hc
  refine ⟨(List.range' 0 t.handles.length).filterMap (ready_call (kernel_poll t rev)),
    ?_, ?_, ?_, ?_⟩
  · unfold poll_dispatch
    rw [if_pos hpos, hloop, List.nil_append]
  · have hs := filterMap_handles_sublist (kernel_poll t rev) (List.range' 0 t.handles.length)
    exact List.Pairwise.sublist hs (List.pairwise_lt_range' _ _)
  · intro i hd hget hne
    have hil : i < t.handles.length := (List.getElem?_eq_some_iff.1 hget).1
    constructor
    · rintro ⟨c, hc, hci⟩
      obtain ⟨j, _, hj⟩ := (hmemc c).1 hc
      obtain ⟨hd2, p, hget2, _, _, hz, hceq⟩ := hhandle j c hj
      rw [hceq] at hci
      simp only at hci
      rw [hci, hget] at hget2
      cases hget2
      exact hz
    · intro hz
      have hul := used_length t hinv
      have hrange := hinv.offset hd (List.getElem?_mem hget)
      have ha : hd.offset.toNat < t.used.length := by omega
      have hent : t.entry i = some t.used[hd.offset.toNat] := by
        rw [entry_eq t i hd hget (by omega), List.getElem?_eq_getElem ha]
      refine ⟨⟨i, hd.fn, hd.data, (t.used[hd.offset.toNat]).fd, rev hd.offset.toNat⟩,
        (hmemc _).2 ⟨i, hil, ?_⟩, rfl⟩
      rw [ready_call_kernel_poll t rev i hd _ hinv hget hne hent, if_pos hz]
  · intro c hc
    obtain ⟨j, _, hj⟩ := (hmemc c).1 hc
    obtain ⟨hd, p, hget, hne, hent, hz, hceq⟩ := hhandle j c hj
    rw [hceq]
    exact ⟨hd, p, hget, hne, hent, rfl, rfl, rfl, rfl, hz⟩

theorem dispatch_ready_handles_witness :
    ∃ calls, poll_dispatch (fun _ _ => []) 9 example_table
        (fun a => if a = 0 then 1 else 0) 1
        = outcome.done (kernel_poll example_table (fun a => if a = 0 then 1 else 0), calls) ∧
      (calls.map dispatch.handle).Pairwise (fun i j => i < j) := by
  obtain ⟨calls, h1, h2, _⟩ :=
    dispatch_ready_handles (fun _ _ => []) example_table (fun a => if a = 0 then 1 else 0) 1
      example_table_reachable (fun _ _ => rfl) (by decide)
  exact ⟨calls, h1, h2⟩

end handle_theorems

section tick_theorems
open pthr_reactor

end tick_theorems

section due_theorems
open pthr_reactor

end due_theorems

section wrapper_theorems
open pthr_pseudothread pthr_reactor

theorem run_alarm_false (cb : callback) (f : pth_flags) (h0 : f.alarm_received = false)
    (hcb : cb ≠ callback.return_from_alarm) : (cb.run f).alarm_received = false := by
  cases cb <;> simp_all [callback.run]

theorem run_alarm_true (cb : callback) (f : pth_flags) (h0 : f.alarm_received = false)
    (h1 : (cb.run f).alarm_received = true) : cb = callback.return_from_alarm := by
  cases cb <;> simp_all [callback.run]

theorem block_returns (e : env) (sock operations : Int) (s : fiber)
    (h0 : s.flags.alarm_received = false)
    (hcb : e.wake s.nsusp ≠ callback.return_from_alarm) :
    block e sock operations s = result.returned ()
      { s with flags := (e.wake s.nsusp).run s.flags, nreg := s.nreg + 1, nsusp := s.nsusp + 1,
               trace := s.trace ++
                 [effect.register sock operations callback.return_from_block (e.handle s.nreg),
                  effect.suspend (e.wake s.nsusp), effect.unregister (e.handle s.nreg)] ++
                 [effect.restore_env] } := by
  unfold block
  simp only
  rw [if_neg]
  rw [run_alarm_false _ _ h0 hcb]
  simp

theorem again_retries (e : env) (name : syscall) (operations sock : Int) :
    ∀ (k fuel : Nat) (s : fiber),
      (∀ i, i < k → (e.sys (s.nsys + i)).1 = -1 ∧ (e.sys (s.nsys + i)).2 = EWOULDBLOCK) →
      ¬ ((e.sys (s.nsys + k)).1 = -1 ∧ (e.sys (s.nsys + k)).2 = EWOULDBLOCK) →
      s.flags.alarm_received = false →
      (∀ i, i < k → e.wake (s.nsusp + i) ≠ callback.return_from_alarm) →
      k < fuel →
      ∃ s1, again e name operations sock fuel s
          = result.returned (e.sys (s.nsys + k)).1 s1 ∧
        s1.nsusp = s.nsusp + k ∧ s1.nsys = s.nsys + k + 1 ∧
        s1.trace = s.trace ++ blocked_rounds e name operations sock k s.nreg s.nsusp ++
          [effect.sys name (e.sys (s.nsys + k)).1 (e.sys (s.nsys + k)).2]
  | 0, 0, s, _, _, _, _, hf => by omega
  | 0, fuel + 1, s, _, hlast, _, _, _ => by
    unfold again
    simp only [Nat.add_zero] at hlast ⊢
    rw [if_neg hlast]
    exact ⟨_, rfl, rfl, rfl, by simp [blocked_rounds]⟩
  | k + 1, 0, s, _, _, _, _, hf => by omega
  | k + 1, fuel + 1, s, hblock, hlast, h0, hwake, hf => by
    have hb0 := hblock 0 (by omega)
    have hw0 := hwake 0 (by omega)
    simp only [Nat.add_zero] at hb0 hw0
    unfold again
    simp only
    rw [if_pos hb0]
    have hbl := block_returns e sock operations
      { s with nsys := s.nsys + 1,
               trace := s.trace ++ [effect.sys name (e.sys s.nsys).1 (e.sys s.nsys).2] }
      h0 hw0
    rw [hbl]
    simp only
    obtain ⟨s1, h1, h2, h3, h4⟩ := again_retries e name operations sock k fuel
      { flags := (e.wake s.nsusp).run s.flags, nsys := s.nsys + 1, npoll := s.npoll,
        nsusp := s.nsusp + 1, nreg := s.nreg + 1, ntimer := s.ntimer,
        trace := s.trace ++ [effect.sys name (e.sys s.nsys).1 (e.sys s.nsys).2] ++
          [effect.register sock operations callback.return_from_block (e.handle s.nreg),
           effect.suspend (e.wake s.nsusp), effect.unregister (e.handle s.nreg)] ++
          [effect.restore_env] }
      (by
        intro i hi
        have := hblock (i + 1) (by omega)
        simp only at this ⊢
        rw [show s.nsys + 1 + i = s.nsys + (i + 1) by omega]
        exact this)
      (by
        simp only
        rw [show s.nsys + 1 + k = s.nsys + (k + 1) by omega]
        exact hlast)
      (run_alarm_false _ _ h0 hw0)
      (by
        intro i hi
        have := hwake (i + 1) (by omega)
        simp only
        rw [show s.nsusp + 1 + i = s.nsusp + (i + 1) by omega]
        exact this)
      (by omega)
    simp only at h1 h2 h3 h4
    rw [show s.nsys + 1 + k = s.nsys + (k + 1) by omega] at h1 h4
    refine ⟨s1, h1, by omega, by omega, ?_⟩
    rw [h4, hb0.1, hb0.2]
    simp [blocked_rounds]

theorem wrapper_eq (name : syscall) :
    (wrapper name).1 = fun e sock => again e name (wrapper name).2 sock := by
  cases name <;> rfl

/-- C17 (amended): for each of `pth_read`, `pth_write`, `pth_send`,
`pth_sendto`, `pth_sendmsg`, `pth_recv`, `pth_recvfrom` and `pth_recvmsg`
and every sequence of results of the system call, if the first `k`
attempts fail with `EWOULDBLOCK`, attempt `k + 1` does not, and none of the
`k` suspensions is ended by the alarm (the alarm flag being clear at the
call), then the wrapper returns the result of attempt `k + 1`, whether a
value or another error; it has suspended `k` times and made `k + 1`
attempts; and its trace is `k` rounds of attempt, registration of the
descriptor for the operation of the wrapper, suspension, unregistration of
the handle and restoring of the environment, followed by the last
attempt. -/
theorem wrapper_retries (name : syscall) (e : env) (sock : Int) (s : fiber) (k fuel : Nat)
    (hblock : ∀ i, i < k → (e.sys (s.nsys + i)).1 = -1 ∧ (e.sys (s.nsys + i)).2 = EWOULDBLOCK)
    (hlast : ¬ ((e.sys (s.nsys + k)).1 = -1 ∧ (e.sys (s.nsys + k)).2 = EWOULDBLOCK))
    (halarm : s.flags.alarm_received = false)
    (hwake : ∀ i, i < k → e.wake (s.nsusp + i) ≠ callback.return_from_alarm)
    (hfuel : k < fuel) :
    ∃ s1, (wrapper name).1 e sock fuel s = result.returned (e.sys (s.nsys + k)).1 s1 ∧
      s1.nsusp = s.nsusp + k ∧ s1.nsys = s.nsys + k + 1 ∧
      s1.trace = s.trace ++ blocked_rounds e name (wrapper name).2 sock k s.nreg s.nsusp ++
        [effect.sys name (e.sys (s.nsys + k)).1 (e.sys (s.nsys + k)).2] := by
  rw [wrapper_eq name]
  exact again_retries e name (wrapper name).2 sock k fuel s hblock hlast halarm hwake hfuel

theorem wrapper_retries_witness :
    ∃ s1, pth_read example_quiet 7 3 fiber.init = result.returned 5 s1 ∧ s1.nsusp = 2 := by
  obtain ⟨s1, h1, h2, _⟩ := wrapper_retries syscall.read example_quiet 7 fiber.init 2 3
    (by decide) (by decide) rfl (by decide) (by decide)
  exact ⟨s1, h1, h2⟩

/-- C17, as stated, fails: the first `read` fails
with `EWOULDBLOCK`, the second would return 5, and the suspension is ended
by the alarm; `pth_read` makes one attempt, does not retry and does not
return: the fiber exits. -/
theorem wrapper_alarm_counterexample :
    (example_alarm.sys 0 = (-1, EWOULDBLOCK)) ∧ (example_alarm.sys 1 = (5, 0)) ∧
    (pth_read example_alarm 7 5 fiber.init).value = none ∧
    (pth_read example_alarm 7 5 fiber.init).state.nsys = 1 ∧
    (pth_read example_alarm 7 5 fiber.init).state.trace =
      [effect.sys syscall.read (-1) EWOULDBLOCK,
       effect.register 7 REACTOR_READ callback.return_from_block 0,
       effect.suspend callback.return_from_alarm,
       effect.unregister 0,
       effect.exit] := by
  decide

theorem new_trace_append (s s1 : fiber) (x : List effect) (h : s1.trace = s.trace ++ x) :
    new_trace s s1 = x := by
  unfold new_trace
  rw [h, List.drop_left]

theorem handles_registered_zip (k : Nat) :
    ∀ (fds : List pollfd) (hs : List Nat), hs.length = fds.length →
      handles_registered (List.zipWith (fun (p : pollfd) h =>
        effect.register p.fd p.events callback.return_from_poll h) fds hs) = hs ∧
      handles_unregistered (List.zipWith (fun (p : pollfd) h =>
        effect.register p.fd p.events callback.return_from_poll h) fds hs) = [] ∧
      timers_set (List.zipWith (fun (p : pollfd) h =>
        effect.register p.fd p.events callback.return_from_poll h) fds hs) = [] ∧
      timers_unset (List.zipWith (fun (p : pollfd) h =>
        effect.register p.fd p.events callback.return_from_poll h) fds hs) = []
  | [], [], _ => ⟨rfl, rfl, rfl, rfl⟩
  | [], _ :: _, h => by simp at h
  | _ :: _, [], h => by simp at h
  | p :: fds, a :: hs, h => by
    obtain ⟨h1, h2, h3, h4⟩ := handles_registered_zip k fds hs (by simpa using h)
    unfold handles_registered handles_unregistered timers_set timers_unset at *
    simp only [List.zipWith_cons_cons, List.filterMap_cons]
    exact ⟨by rw [h1], h2, h3, h4⟩

theorem handles_unregistered_map (hs : List Nat) :
    handles_unregistered (hs.map effect.unregister) = hs ∧
    handles_registered (hs.map effect.unregister) = [] ∧
    timers_set (hs.map effect.unregister) = [] ∧
    timers_unset (hs.map effect.unregister) = [] := by
  unfold handles_registered handles_unregistered timers_set timers_unset
  induction hs with
  | nil => exact ⟨rfl, rfl, rfl, rfl⟩
  | cons a hs ih =>
    obtain ⟨h1, h2, h3, h4⟩ := ih
    simp only [List.map_cons, List.filterMap_cons]
    exact ⟨by rw [h1], h2, h3, h4⟩

theorem register_all_ledger (e : env) (k : Nat) (fds : List pollfd) :
    handles_registered (register_all e k fds) = poll_handles e k fds.length ∧
    handles_unregistered (register_all e k fds) = [] ∧
    timers_set (register_all e k fds) = [] ∧
    timers_unset (register_all e k fds) = [] := by
  unfold register_all
  exact handles_registered_zip k fds _ (by simp [poll_handles])

theorem run_poll_flags (cb : callback) (f : pth_flags) :
    (cb.run { f with poll_timeout := false }).alarm_received = (cb.run f).alarm_received ∧
    (cb.run { f with poll_timeout := false }).poll_timeout =
      decide (cb = callback.return_from_poll_timeout) := by
  cases cb <;> simp [callback.run]

theorem poll_exits (e : env) (fds : List pollfd) (timeout : Int) (s : fiber)
    (h1 : ((e.wake s.nsusp).run s.flags).alarm_received = true) :
    ∃ s1, _poll e fds timeout s = result.exited s1 ∧
      s1.npoll = s.npoll ∧
      s1.trace = s.trace ++ (register_all e s.nreg fds ++
        (if 0 ≤ timeout then
          [effect.set_timer timeout callback.return_from_poll_timeout (e.timer s.ntimer)]
         else []) ++
        [effect.suspend (e.wake s.nsusp)] ++
        (poll_handles e s.nreg fds.length).map effect.unregister ++
        (if 0 ≤ timeout ∧ e.wake s.nsusp ≠ callback.return_from_poll_timeout then
          [effect.unset_timer (e.timer s.ntimer)] else []) ++
        [effect.exit]) := by
  obtain ⟨ha, hp⟩ := run_poll_flags (e.wake s.nsusp) s.flags
  rw [h1] at ha
  unfold _poll
  simp only [ha, hp, if_true]
  by_cases ht : 0 ≤ timeout
  · have ht2 : timeout ≥ 0 := ht
    by_cases hc : e.wake s.nsusp = callback.return_from_poll_timeout
    · simp only [ht, ht2, hc, if_true]
      exact ⟨_, rfl, rfl, by simp⟩
    · simp only [ht, ht2, hc, if_true]
      exact ⟨_, rfl, rfl, by simp [hc]⟩
  · have ht2 : ¬ timeout ≥ 0 := ht
    simp only [ht, ht2, if_false]
    exact ⟨_, rfl, rfl, by simp⟩

theorem ledger_append (a b : List effect) :
    handles_registered (a ++ b) = handles_registered a ++ handles_registered b ∧
    handles_unregistered (a ++ b) = handles_unregistered a ++ handles_unregistered b ∧
    timers_set (a ++ b) = timers_set a ++ timers_set b ∧
    timers_unset (a ++ b) = timers_unset a ++ timers_unset b := by
  unfold handles_registered handles_unregistered timers_set timers_unset
  exact ⟨List.filterMap_append _ _ _, List.filterMap_append _ _ _,
    List.filterMap_append _ _ _, List.filterMap_append _ _ _⟩

/-- C18 fails in the code for `_sleep`.  Let the alarm flag of a fiber be
set when the fiber is switched into again inside a blocking wrapper.
Then `block` unregisters its handle and exits; `_poll` unregisters every
handle it registered, cancels its timer if it armed one and the timer has
not fired, and exits; a wrapper of a system call whose attempt failed with
`EWOULDBLOCK` exits without another attempt, and `pth_poll` exits without
another `poll`; `_sleep` cancels its timer and exits when another callback
than that of its own timer has switched into the fiber.  But when its own
timer has fired, which happens when the flag was set before the call,
`_sleep` still calls `reactor_unset_timer_early` on the timer, which the
reactor has deleted: `_poll` tests `poll_timeout` before it cancels,
`_sleep` has no such test. -/
theorem alarm_exits (e : env) (s : fiber)
    (h1 : ((e.wake s.nsusp).run s.flags).alarm_received = true) :
    (∀ sock operations, ∃ s1, block e sock operations s = result.exited s1 ∧
      new_trace s s1 =
        [effect.register sock operations callback.return_from_block (e.handle s.nreg),
         effect.suspend (e.wake s.nsusp), effect.unregister (e.handle s.nreg),
         effect.exit]) ∧
    (∀ timeout, e.wake s.nsusp ≠ callback.return_from_sleep →
      ∃ s1, _sleep e timeout s = result.exited s1 ∧
        new_trace s s1 =
          [effect.set_timer timeout callback.return_from_sleep (e.timer s.ntimer),
           effect.suspend (e.wake s.nsusp), effect.unset_timer (e.timer s.ntimer),
           effect.exit]) ∧
    (∀ timeout, e.wake s.nsusp = callback.return_from_sleep →
      s.flags.alarm_received = true ∧
      ∃ s1, _sleep e timeout s = result.crashed s1 ∧
        new_trace s s1 =
          [effect.set_timer timeout callback.return_from_sleep (e.timer s.ntimer),
           effect.suspend callback.return_from_sleep]) ∧
    (∀ fds timeout, ∃ s1, _poll e fds timeout s = result.exited s1 ∧
      new_trace s s1 = register_all e s.nreg fds ++
        (if 0 ≤ timeout then
          [effect.set_timer timeout callback.return_from_poll_timeout (e.timer s.ntimer)]
         else []) ++
        [effect.suspend (e.wake s.nsusp)] ++
        (poll_handles e s.nreg fds.length).map effect.unregister ++
        (if 0 ≤ timeout ∧ e.wake s.nsusp ≠ callback.return_from_poll_timeout then
          [effect.unset_timer (e.timer s.ntimer)] else []) ++
        [effect.exit] ∧
      handles_registered (new_trace s s1) = handles_unregistered (new_trace s s1) ∧
      timers_unset (new_trace s s1) =
        (if e.wake s.nsusp = callback.return_from_poll_timeout then []
         else timers_set (new_trace s s1))) ∧
    (∀ name sock fuel, (e.sys s.nsys).1 = -1 ∧ (e.sys s.nsys).2 = EWOULDBLOCK →
      ∃ s1, (wrapper name).1 e sock (fuel + 1) s = result.exited s1 ∧
        s1.nsys = s.nsys + 1 ∧
        new_trace s s1 =
          [effect.sys name (-1) EWOULDBLOCK,
           effect.register sock (wrapper name).2 callback.return_from_block (e.handle s.nreg),
           effect.suspend (e.wake s.nsusp), effect.unregister (e.handle s.nreg),
           effect.exit]) ∧
    (∀ fds timeout fuel, (e.poll s.npoll).1 = 0 →
      ∃ s1, pth_poll e timeout (fuel + 1) fds s = result.exited s1 ∧
        s1.npoll = s.npoll + 1) := by
  refine ⟨?_, ?_, ?_, ?_, ?_, ?_⟩
  · intro sock operations
    unfold block
    simp only [h1, if_true]
    exact ⟨_, rfl, new_trace_append _ _ _ (by simp)⟩
  · intro timeout hne
    unfold _sleep
    simp only [h1, if_true, if_neg hne]
    exact ⟨_, rfl, new_trace_append _ _ _ (by simp)⟩
  · intro timeout hcb
    have hf : s.flags.alarm_received = true := by
      rw [hcb] at h1
      exact h1
    refine ⟨hf, ?_⟩
    rw [hcb] at h1
    unfold _sleep
    simp only [hcb, h1, if_true]
    exact ⟨_, rfl, new_trace_append _ _ _ (by simp)⟩
  · intro fds timeout
    obtain ⟨s1, h2, _, h3⟩ := poll_exits e fds timeout s h1
    have hnt := new_trace_append s s1 _ h3
    refine ⟨s1, h2, hnt, ?_, ?_⟩
    · rw [hnt]
      obtain ⟨r1, r2, _, _⟩ := register_all_ledger e s.nreg fds
      obtain ⟨u1, u2, _, _⟩ := handles_unregistered_map (poll_handles e s.nreg fds.length)
      simp only [(ledger_append _ _).1, (ledger_append _ _).2.1, r1, r2, u1, u2]
      by_cases ht : 0 ≤ timeout <;>
        by_cases hc : e.wake s.nsusp = callback.return_from_poll_timeout <;>
        simp [ht, hc, handles_registered, handles_unregistered]
    · rw [hnt]
      obtain ⟨_, _, r3, r4⟩ := register_all_ledger e s.nreg fds
      obtain ⟨_, _, u3, u4⟩ := handles_unregistered_map (poll_handles e s.nreg fds.length)
      simp only [(ledger_append _ _).2.2.1, (ledger_append _ _).2.2.2, r3, r4, u3, u4]
      by_cases ht : 0 ≤ timeout <;>
        by_cases hc : e.wake s.nsusp = callback.return_from_poll_timeout <;>
        simp [ht, hc, timers_set, timers_unset]
  · intro name sock fuel hwb
    rw [wrapper_eq name]
    simp only
    unfold again
    simp only
    rw [if_pos hwb]
    unfold block
    simp only [h1, if_true]
    refine ⟨_, rfl, rfl, new_trace_append _ _ _ ?_⟩
    simp [hwb.1, hwb.2]
  · intro fds timeout fuel hz
    unfold pth_poll
    simp only
    rw [if_pos hz]
    obtain ⟨s1, h2, h3, _⟩ := poll_exits e (write_revents fds (e.poll s.npoll).2) timeout
      { s with npoll := s.npoll + 1, trace := s.trace ++ [effect.poll (e.poll s.npoll).1] }
      h1
    rw [h2]
    exact ⟨s1, rfl, h3⟩

theorem alarm_exits_witness :
    ∃ s1, _sleep example_timer 1000 fiber.alarmed = result.crashed s1 ∧
      new_trace fiber.alarmed s1 =
        [effect.set_timer 1000 callback.return_from_sleep 100,
         effect.suspend callback.return_from_sleep] :=
  ((alarm_exits example_timer fiber.alarmed rfl).2.2.1 1000 rfl).2

theorem poll_trace (e : env) (fds : List pollfd) (timeout : Int) (s : fiber) :
    (s.trace ++ register_all e s.nreg fds ++
      (if 0 ≤ timeout then
        [effect.set_timer timeout callback.return_from_poll_timeout (e.timer s.ntimer)]
       else []) ++
      [effect.suspend (e.wake s.nsusp)]) <+: (_poll e fds timeout s).state.trace ∧
    (_poll e fds timeout s).state.nsusp = s.nsusp + 1 := by
  unfold _poll
  simp only
  by_cases ht : 0 ≤ timeout
  · have ht2 : timeout ≥ 0 := ht
    simp only [ht, ht2, if_true]
    split
    · simp only [result.state]
      exact ⟨⟨_, by simp only [List.append_assoc]; rfl⟩, trivial⟩
    · simp only [result.state]
      exact ⟨⟨_, by simp only [List.append_assoc]; rfl⟩, trivial⟩
  · have ht2 : ¬ timeout ≥ 0 := ht
    simp only [ht, ht2, if_false]
    split
    · simp only [result.state]
      exact ⟨⟨_, by simp only [List.append_assoc]; rfl⟩, trivial⟩
    · simp only [result.state]
      exact ⟨⟨_, by simp only [List.append_assoc]; rfl⟩, trivial⟩

theorem pth_poll_grows (e : env) (timeout : Int) :
    ∀ (fuel : Nat) (fds : List pollfd) (s : fiber),
      s.trace <+: (pth_poll e timeout fuel fds s).state.trace ∧
      s.nsusp ≤ (pth_poll e timeout fuel fds s).state.nsusp
  | 0, fds, s => ⟨List.prefix_refl _, Nat.le_refl _⟩
  | fuel + 1, fds, s => by
    unfold pth_poll
    simp only
    by_cases hz : (e.poll s.npoll).1 = 0
    · rw [if_pos hz]
      obtain ⟨h1, h2⟩ := poll_trace e (write_revents fds (e.poll s.npoll).2) timeout
        { s with npoll := s.npoll + 1, trace := s.trace ++ [effect.poll (e.poll s.npoll).1] }
      have hpre : s.trace <+: (_poll e (write_revents fds (e.poll s.npoll).2) timeout
          { s with npoll := s.npoll + 1,
                   trace := s.trace ++ [effect.poll (e.poll s.npoll).1] }).state.trace := by
        refine List.IsPrefix.trans ?_ h1
        simp only [List.append_assoc]
        exact List.prefix_append _ _
      cases hp : _poll e (write_revents fds (e.poll s.npoll).2) timeout
          { s with npoll := s.npoll + 1, trace := s.trace ++ [effect.poll (e.poll s.npoll).1] } with
      | returned u s2 =>
        rw [hp] at hpre h2
        simp only [result.state] at hpre h2
        simp only
        by_cases hpt : s2.flags.poll_timeout = true
        · rw [if_pos hpt]
          exact ⟨hpre, by simp only [result.state]; omega⟩
        · rw [if_neg hpt]
          obtain ⟨g1, g2⟩ := pth_poll_grows e timeout fuel
            (write_revents fds (e.poll s.npoll).2) s2
          exact ⟨hpre.trans g1, by omega⟩
      | exited s2 =>
        rw [hp] at hpre h2
        exact ⟨hpre, by simp only [result.state] at h2 ⊢; omega⟩
      | crashed s2 =>
        rw [hp] at hpre h2
        exact ⟨hpre, by simp only [result.state] at h2 ⊢; omega⟩
      | out_of_fuel s2 =>
        rw [hp] at hpre h2
        exact ⟨hpre, by simp only [result.state] at h2 ⊢; omega⟩
    · rw [if_neg hz]
      exact ⟨List.prefix_append _ _, Nat.le_refl _⟩

/-- C19 (amended): `pth_poll (fds, n, timeout)` first calls `poll` with
timeout zero.  A result other than 0 is returned at once, without
suspending.  When the result is 0 the fiber registers every descriptor,
arms a timer exactly when `timeout >= 0` (also for `timeout` 0) and
suspends, whatever the timeout.  When the suspension is ended by the timer
(the alarm flag being clear), `pth_poll` returns 0 after that one
suspension, having unregistered its handles and not cancelled the
timer. -/
theorem pth_poll_suspends (e : env) (timeout : Int) (fds : List pollfd) (s : fiber)
    (fuel : Nat) :
    ((e.poll s.npoll).1 ≠ 0 →
      pth_poll e timeout (fuel + 1) fds s =
        result.returned ((e.poll s.npoll).1, write_revents fds (e.poll s.npoll).2)
          { s with npoll := s.npoll + 1,
                   trace := s.trace ++ [effect.poll (e.poll s.npoll).1] }) ∧
    ((e.poll s.npoll).1 = 0 →
      (s.trace ++ [effect.poll 0] ++
        register_all e s.nreg (write_revents fds (e.poll s.npoll).2) ++
        (if 0 ≤ timeout then
          [effect.set_timer timeout callback.return_from_poll_timeout (e.timer s.ntimer)]
         else []) ++
        [effect.suspend (e.wake s.nsusp)]) <+:
          (pth_poll e timeout (fuel + 1) fds s).state.trace ∧
      s.nsusp + 1 ≤ (pth_poll e timeout (fuel + 1) fds s).state.nsusp) ∧
    ((e.poll s.npoll).1 = 0 → e.wake s.nsusp = callback.return_from_poll_timeout →
      s.flags.alarm_received = false →
      ∃ s1, pth_poll e timeout (fuel + 1) fds s =
          result.returned (0, write_revents fds (e.poll s.npoll).2) s1 ∧
        s1.nsusp = s.nsusp + 1 ∧
        new_trace s s1 = [effect.poll 0] ++
          register_all e s.nreg (write_revents fds (e.poll s.npoll).2) ++
          (if 0 ≤ timeout then
            [effect.set_timer timeout callback.return_from_poll_timeout (e.timer s.ntimer)]
           else []) ++
          [effect.suspend callback.return_from_poll_timeout] ++
          (poll_handles e s.nreg fds.length).map effect.unregister ++
          [effect.restore_env]) := by
  refine ⟨?_, ?_, ?_⟩
  · intro hnz
    unfold pth_poll
    simp only
    rw [if_neg hnz]
  · intro hz
    obtain ⟨h1, h2⟩ := poll_trace e (write_revents fds (e.poll s.npoll).2) timeout
      { s with npoll := s.npoll + 1, trace := s.trace ++ [effect.poll (e.poll s.npoll).1] }
    simp only [hz] at h1 h2
    unfold pth_poll
    simp only
    rw [if_pos hz]
    simp only [hz]
    cases hp : _poll e (write_revents fds (e.poll s.npoll).2) timeout
        { s with npoll := s.npoll + 1, trace := s.trace ++ [effect.poll 0] } with
    | returned u s2 =>
      rw [hp] at h1 h2
      simp only [result.state] at h1 h2
      simp only
      by_cases hpt : s2.flags.poll_timeout = true
      · rw [if_pos hpt]
        exact ⟨h1, by simp only [result.state]; omega⟩
      · rw [if_neg hpt]
        obtain ⟨g1, g2⟩ := pth_poll_grows e timeout fuel
          (write_revents fds (e.poll s.npoll).2) s2
        exact ⟨h1.trans g1, by omega⟩
    | exited s2 =>
      rw [hp] at h1 h2
      exact ⟨h1, by simp only [result.state] at h2 ⊢; omega⟩
    | crashed s2 =>
      rw [hp] at h1 h2
      exact ⟨h1, by simp only [result.state] at h2 ⊢; omega⟩
    | out_of_fuel s2 =>
      rw [hp] at h1 h2
      exact ⟨h1, by simp only [result.state] at h2 ⊢; omega⟩
  · intro hz hw h0
    have hlen : (write_revents fds (e.poll s.npoll).2).length = fds.length := by
      simp [write_revents]
    unfold pth_poll
    simp only
    rw [if_pos hz]
    unfold _poll
    simp only [hw, callback.run, h0, hlen]
    by_cases ht : 0 ≤ timeout
    · have ht2 : timeout ≥ 0 := ht
      simp only [ht, ht2, if_true]
      refine ⟨_, rfl, rfl, new_trace_append _ _ _ ?_⟩
      simp [hz]
    · have ht2 : ¬ timeout ≥ 0 := ht
      simp only [ht, ht2, if_false]
      refine ⟨_, rfl, rfl, new_trace_append _ _ _ ?_⟩
      simp [hz]

theorem pth_poll_suspends_witness :
    ∃ s1, pth_poll example_quiet 50 3 [⟨3, 1, 0⟩] fiber.init =
        result.returned (0, write_revents [⟨3, 1, 0⟩] (example_quiet.poll 0).2) s1 ∧
      s1.nsusp = 1 := by
  obtain ⟨s1, h1, h2, _⟩ :=
    (pth_poll_suspends example_quiet 50 [⟨3, 1, 0⟩] fiber.init 2).2.2 rfl rfl rfl
  exact ⟨s1, h1, h2⟩

/-- C19, as stated, fails: `pth_poll` is called
with timeout 0 and `poll` reports nothing; the fiber registers the
descriptor, arms a timer with timeout 0 and suspends; it returns 0 only
after the timer has switched back into it. -/
theorem pth_poll_zero_timeout_counterexample :
    (pth_poll example_quiet 0 3 [⟨3, 1, 0⟩] fiber.init).value = some (0, [⟨3, 1, 0⟩]) ∧
    (pth_poll example_quiet 0 3 [⟨3, 1, 0⟩] fiber.init).state.nsusp = 1 ∧
    (pth_poll example_quiet 0 3 [⟨3, 1, 0⟩] fiber.init).state.trace =
      [effect.poll 0,
       effect.register 3 1 callback.return_from_poll 0,
       effect.set_timer 0 callback.return_from_poll_timeout 100,
       effect.suspend callback.return_from_poll_timeout,
       effect.unregister 0,
       effect.restore_env] := by
  decide

/-- C20: `pth_select` at inputs where it leaves `select`.  Descriptor 3
is asked for reading only.  When `poll` reports `POLLHUP` for it,
`pth_select` returns 1 and leaves all sets empty.  When `poll` reports
`POLLIN | POLLERR` and `exceptfds` is an empty set, descriptor 3 is put
into `exceptfds`, where it was not asked for, and the value returned is 1
although two descriptors are set.  When `exceptfds` is null, `FD_SET` is
called on a null pointer. -/
theorem pth_select_not_select :
    pth_select example_alarm 3 4 { readfds := some {3}, writefds := none, exceptfds := none }
        none fiber.init =
      result.returned (1, { readfds := some ∅, writefds := none, exceptfds := none })
        { fiber.init with npoll := 1, trace := [effect.poll 1] } ∧
    pth_select example_error 3 4 { readfds := some {3}, writefds := none, exceptfds := some ∅ }
        none fiber.init =
      result.returned (1, { readfds := some {3}, writefds := none, exceptfds := some {3} })
        { fiber.init with npoll := 1, trace := [effect.poll 1] } ∧
    pth_select example_error 3 4 { readfds := some {3}, writefds := none, exceptfds := none }
        none fiber.init =
      result.crashed { fiber.init with npoll := 1, trace := [effect.poll 1] } := by
  decide

end wrapper_theorems

section cgi_theorems
open pthr_cgi

theorem unescape_plain (c : Int) (x : List Int) (h1 : c ≠ 37) (h2 : c ≠ 43) :
    cgi_unescape (c :: x) = c :: cgi_unescape x := by
  match x with
  | [] => simp [cgi_unescape, h2]
  | [a] => simp [cgi_unescape, h2]
  | a :: b :: y => simp [cgi_unescape, h1, h2]

theorem unescape_plus (x : List Int) :
    cgi_unescape (43 :: x) = 32 :: cgi_unescape x := by
  match x with
  | [] => simp [cgi_unescape]
  | [a] => simp [cgi_unescape]
  | a :: b :: y => simp [cgi_unescape]

theorem unescape_hex (a b : Int) (x : List Int) (ha : hex_to_int a ≥ 0)
    (hb : hex_to_int b ≥ 0) :
    cgi_unescape (37 :: a :: b :: x) =
      to_char (Int.lor (hex_to_int a <<< (4 : Int)) (hex_to_int b)) :: cgi_unescape x := by
  simp [cgi_unescape, ha, hb]

set_option maxRecDepth 100000 in
theorem nibbles_fin : ∀ k : Fin 256,
    hex_to_int (hexdigits.getD ((((k.val : Int) - 128) / 16) % 16).toNat 0) ≥ 0 ∧
    hex_to_int (hexdigits.getD (((k.val : Int) - 128) % 16).toNat 0) ≥ 0 ∧
    to_char (Int.lor
      (hex_to_int (hexdigits.getD ((((k.val : Int) - 128) / 16) % 16).toNat 0)
        <<< (4 : Int))
      (hex_to_int (hexdigits.getD (((k.val : Int) - 128) % 16).toNat 0)))
      = (k.val : Int) - 128 := by
  decide

theorem nibbles (c : Int) (h1 : -128 ≤ c) (h2 : c ≤ 127) :
    hex_to_int (hexdigits.getD ((c / 16) % 16).toNat 0) ≥ 0 ∧
    hex_to_int (hexdigits.getD (c % 16).toNat 0) ≥ 0 ∧
    to_char (Int.lor
      (hex_to_int (hexdigits.getD ((c / 16) % 16).toNat 0) <<< (4 : Int))
      (hex_to_int (hexdigits.getD (c % 16).toNat 0))) = c := by
  have hk : (c + 128).toNat < 256 := by omega
  have := nibbles_fin ⟨(c + 128).toNat, hk⟩
  have hc : (((c + 128).toNat : Nat) : Int) - 128 = c := by omega
  simp only [hc] at this
  exact this

theorem unescape_escape_char (alnum : Int → Bool) (c : Int) (x : List Int)
    (h37 : alnum 37 = false) (h43 : alnum 43 = false)
    (h1 : -128 ≤ c) (h2 : c ≤ 127) :
    cgi_unescape (escape_char alnum c ++ x) = c :: cgi_unescape x := by
  unfold escape_char
  by_cases ha : alnum c = true ∨ c = 44 ∨ c = 45
  · rw [if_pos ha]
    have n37 : c ≠ 37 := by
      rintro rfl
      rcases ha with ha | ha | ha
      · rw [h37] at ha; cases ha
      · omega
      · omega
    have n43 : c ≠ 43 := by
      rintro rfl
      rcases ha with ha | ha | ha
      · rw [h43] at ha; cases ha
      · omega
      · omega
    exact unescape_plain c x n37 n43
  · rw [if_neg ha]
    by_cases hs : c = 32
    · rw [if_pos hs, hs]
      exact unescape_plus x
    · rw [if_neg hs]
      obtain ⟨ea, eb, ec⟩ := nibbles c h1 h2
      show cgi_unescape (37 :: _ :: _ :: x) = _
      rw [unescape_hex _ _ x ea eb, ec]

/-- Claim C24: un-escaping an escaped string gives the string back.  For
every locale whose `isalnum` rejects `%` and `+`, and every string of
characters (signed bytes), `cgi_unescape (cgi_escape s) = s`. -/
theorem cgi_unescape_escape (alnum : Int → Bool) (s : List Int)
    (h37 : alnum 37 = false) (h43 : alnum 43 = false)
    (hs : ∀ c ∈ s, -128 ≤ c ∧ c ≤ 127) :
    cgi_unescape (cgi_escape alnum s) = s := by
  induction s with
  | nil => simp [cgi_escape, cgi_unescape]
  | cons c t ih =>
    have hc := hs c (List.mem_cons_self _ _)
    have ht : ∀ d ∈ t, -128 ≤ d ∧ d ≤ 127 := fun d hd => hs d (List.mem_cons_of_mem _ hd)
    have e : cgi_escape alnum (c :: t) = escape_char alnum c ++ cgi_escape alnum t := by
      simp [cgi_escape]
    rw [e, unescape_escape_char alnum c _ h37 h43 hc.1 hc.2, ih ht]

theorem cgi_unescape_escape_witness :
    cgi_unescape (cgi_escape isalnum_C [97, 32, 43, 37, -23, 10, 44, -128, 127, -1])
      = [97, 32, 43, 37, -23, 10, 44, -128, 127, -1] :=
  cgi_unescape_escape isalnum_C [97, 32, 43, 37, -23, 10, 44, -128, 127, -1]
    (by decide) (by decide) (by decide)

end cgi_theorems

section new_cgi_theorems
open pthr_cgi

/-- Claim C30 fails in the code: when `io_fread` fills the whole chunk
buffer (`r = 1024`, which happens as soon as the body has 1024 bytes or
more), the statement `t[r] = 0` of `new_cgi` stores at index 1024 of the
array `char t[1024]`, one past its end; for a shorter chunk the store is
inside the array. -/
theorem new_cgi_terminator_out_of_bounds (fuel : Nat) (t input : List Int)
    (ht : t.length = 1024) :
    ((io_fread 1024 input).1.length ≤ 1024) ∧
    (1024 ≤ input.length →
      (io_fread 1024 input).1.length = 1024 ∧
      read_post (-1) (fuel + 1) t input 0 [] = read_result.out_of_bounds) ∧
    (0 < input.length → input.length < 1024 →
      store ((io_fread 1024 input).1 ++ t.drop (io_fread 1024 input).1.length)
        (io_fread 1024 input).1.length 0 ≠ none) := by
  refine ⟨?_, ?_, ?_⟩
  · simp [io_fread]
  · intro hin
    have hl : (io_fread 1024 input).1.length = 1024 := by
      simp [io_fread]; omega
    refine ⟨hl, ?_⟩
    unfold read_post
    simp only [hl]
    have hs : store (List.take 1024 input ++ List.drop 1024 t) 1024 0 = none := by
      unfold store
      rw [if_neg]
      simp [ht]
    simp [io_fread, hs]
  · intro h0 hin
    have hl : (io_fread 1024 input).1.length = input.length := by
      simp [io_fread]; omega
    rw [hl]
    unfold store
    rw [if_pos]
    · simp
    · simp [io_fread, ht]; omega

theorem new_cgi_terminator_out_of_bounds_witness :
    (io_fread 1024 (List.replicate 1024 97)).1.length = 1024 ∧
    read_post (-1) 1 (List.replicate 1024 0) (List.replicate 1024 97) 0 []
      = read_result.out_of_bounds :=
  (new_cgi_terminator_out_of_bounds 0 (List.replicate 1024 0) (List.replicate 1024 97)
    (List.length_replicate 1024 0)).2.1 (le_of_eq (List.length_replicate 1024 97).symm)

end new_cgi_theorems
section prepoll_mid_scan_theorems
open pthr_reactor pthr_wait_queue

/-- Claim C25 fails in the code: `reactor_register_prepoll` never assigns
the field `fired` of the handler it allocates, so a handler registered
during the prepoll scan starts with whatever the allocation holds.  In
scenario S5 (A registered, then B; A unregisters B and registers C), when
that memory is not zero, C is in the list with a non-zero `fired` flag at
the end of the step and its callback has not been called in this tick,
although C was never unregistered. -/
theorem prepoll_registered_mid_scan_skipped (a0 : Nat) (uninit : Nat → Int)
    (hne : uninit (a0 + 2) ≠ 0) :
    reactor_invoke_prepolls (prog_S5 (a0 + 1)) 4 (world_S5 a0 uninit) =
      outcome.done
        { wq := { sleepers := [] },
          r := { head_prepoll :=
                   [{ addr := a0 + 2, fn := prepoll_fn.user 2 0, fired := uninit (a0 + 2) },
                    { addr := a0, fn := prepoll_fn.user 0 0, fired := 1 }],
                 next_addr := a0 + 3, uninit := uninit },
          trace := [event.ran (a0 + 1), event.ran a0, event.unregistered (a0 + 1)] } ∧
    event.ran (a0 + 2) ∉
      [event.ran (a0 + 1), event.ran a0, event.unregistered (a0 + 1)] ∧
    event.unregistered (a0 + 2) ∉
      [event.ran (a0 + 1), event.ran a0, event.unregistered (a0 + 1)] := by
  refine ⟨?_, ?_, ?_⟩
  · simp [reactor_invoke_prepolls, prepoll_again, world_S5, prog_S5, reactor_register_prepoll,
      clear_fired, first_unfired, mark_fired, run_callback, exec, unregister_in,
      reactor_unregister_prepoll, remove_prepoll, hne]
  · simp
  · simp

theorem prepoll_registered_mid_scan_skipped_witness :
    reactor_invoke_prepolls (prog_S5 1) 4 (world_S5 0 (fun _ => 7)) =
      outcome.done
        { wq := { sleepers := [] },
          r := { head_prepoll :=
                   [{ addr := 2, fn := prepoll_fn.user 2 0, fired := 7 },
                    { addr := 0, fn := prepoll_fn.user 0 0, fired := 1 }],
                 next_addr := 3, uninit := fun _ => 7 },
          trace := [event.ran 1, event.ran 0, event.unregistered 1] } :=
  (prepoll_registered_mid_scan_skipped 0 (fun _ => 7) (by decide)).1

end prepoll_mid_scan_theorems

section dispatch_race_theorems
open pthr_reactor

/-- Claim C26 fails in the code: in a tick where the kernel polls the
descriptors 3 and 4 only and reports both readable, the callback of handle
0 unregisters handle 1 and registers descriptor 5; the new registration
takes handle 1 and poll entry 1, whose `revents` still holds what the
kernel wrote for descriptor 4, and the loop, reaching index 1, calls the
new callback for descriptor 5, which the poll of this tick never
examined. -/
theorem dispatch_calls_unpolled_handle :
    (race_table.used.map (fun p => p.fd) = [3, 4]) ∧
    ∃ t1, poll_dispatch race_cb 9 race_table (fun _ => 1) 2 =
        outcome.done (t1, [⟨0, 10, 100, 3, 1⟩, ⟨1, 20, 200, 5, 1⟩]) ∧
      t1.handles.take 2 = [⟨0, 10, 100⟩, ⟨1, 20, 200⟩] ∧
      t1.used = [⟨3, 1, 1⟩, ⟨5, 1, 1⟩] :=
  ⟨by decide, _, rfl, by decide, by decide⟩

end dispatch_race_theorems

section sleep_alarm_theorems
open pthr_reactor pthr_wait_queue

theorem erase_self_eq (l : List pseudothread) (c : pseudothread) :
    erase_self l c = if c ∈ l then some (l.erase c) else none := by
  induction l with
  | nil => simp [erase_self]
  | cons p rest ih =>
    unfold erase_self
    by_cases h : p = c
    · subst h; simp
    · have h2 : ¬ c = p := fun e => h e.symm
      rw [if_neg h, ih]
      by_cases hm : c ∈ rest
      · simp [hm, h, List.erase_cons_tail]
      · simp [hm, h2]

/-- Claim C27 fails in the code.  A pseudothread that is switched into
with its alarm flag set while it is still among the sleepers erases itself
and exits.  But once `wq_wake_up` or `wq_wake_up_one` has moved it to the
private vector of the `do_wake_up` handler, the search of `wq_sleep_on`
does not find it and the process is ended by `abort ()`; the timers of
`reactor_invoke` fire before the prepoll handlers run, so the alarm can
come first. -/
theorem wq_sleep_on_alarm_after_wake_aborts (wq : wait_queue) (pth : pseudothread)
    (r : reactor) :
    wq_sleep_on_resumed (wq_sleep_on wq pth) pth true =
      sleep_result.exited { sleepers := (wq.sleepers ++ [pth]).erase pth } ∧
    (∃ r1, wq_wake_up (wq_sleep_on wq pth) r = some ({ sleepers := [] }, r1) ∧
      r1.head_prepoll.map (fun p => p.fn) =
        prepoll_fn.do_wake_up (wq.sleepers ++ [pth]) :: r.head_prepoll.map (fun p => p.fn) ∧
      wq_sleep_on_resumed { sleepers := [] } pth true = sleep_result.aborted) ∧
    (∃ r1, wq_wake_up_one (wq_sleep_on new_wait_queue pth) r = some ({ sleepers := [] }, r1) ∧
      r1.head_prepoll.map (fun p => p.fn) =
        prepoll_fn.do_wake_up [pth] :: r.head_prepoll.map (fun p => p.fn) ∧
      wq_sleep_on_resumed { sleepers := [] } pth true = sleep_result.aborted) := by
  refine ⟨?_, ?_, ?_⟩
  · simp [wq_sleep_on_resumed, wq_sleep_on, erase_self_eq]
  · refine ⟨(reactor_register_prepoll r (.do_wake_up (wq.sleepers ++ [pth]))).1, ?_, ?_, ?_⟩
    · simp [wq_wake_up, wake_up, wq_sleep_on]
    · simp [reactor_register_prepoll]
    · simp [wq_sleep_on_resumed, erase_self]
  · refine ⟨(reactor_register_prepoll r (.do_wake_up [pth])).1, ?_, ?_, ?_⟩
    · simp [wq_wake_up_one, wake_up, wq_sleep_on, new_wait_queue, pop_loop]
    · simp [reactor_register_prepoll]
    · simp [wq_sleep_on_resumed, erase_self]

end sleep_alarm_theorems

section reactor_stop_theorems
open pthr_reactor

/-- Claim C28 fails in the code: the prepoll loop of `reactor_stop`
continues with `prepoll_next = prepoll` where the timer loop next to it
reads `p_next = p->next`.  With any prepoll handler `p` left, the loop
warns about `p`, deletes its pool, and in the second iteration reads the
fields of `p` again, after its pool was deleted: the function does not
return, the other prepoll handlers are not visited, and no timer or
handle is diagnosed.  Without prepoll handlers, the timers and the
handles left are diagnosed once each. -/
theorem reactor_stop_revisits_deleted_prepoll (fuel : Nat) (p : reactor_prepoll)
    (rest : List reactor_prepoll) (next_addr : Nat) (uninit : Nat → Int) (ts : timers)
    (t : handle_table) :
    reactor_stop (fuel + 2)
        { head_prepoll := p :: rest, next_addr := next_addr, uninit := uninit } ts t =
      (stop_status.use_after_free p.addr,
       [stop_event.prepoll_warning p.addr p.fn, stop_event.prepoll_deleted p.addr]) ∧
    reactor_stop 3 { head_prepoll := [], next_addr := 0, uninit := fun _ => 0 }
        { head_timer := [⟨0, 5, 10, 100⟩, ⟨1, 2, 11, 101⟩], reactor_time := 0, next_addr := 2 }
        race_table =
      (stop_status.stopped,
       [stop_event.timer_warning 0 10 100, stop_event.timer_deleted 0,
        stop_event.timer_warning 1 11 101, stop_event.timer_deleted 1,
        stop_event.handle_warning 0 10 100, stop_event.handle_warning 1 11 101]) := by
  constructor
  · have h1 : remove_prepoll
          { head_prepoll := p :: rest, next_addr := next_addr, uninit := uninit } p.addr =
        some { head_prepoll := rest.filter (fun q => q.addr ≠ p.addr),
               next_addr := next_addr, uninit := uninit } := by
      simp [remove_prepoll]
    have h2 : (rest.filter (fun q => q.addr ≠ p.addr)).find? (fun q => q.addr = p.addr)
        = none := by
      rw [List.find?_eq_none]
      intro q hq
      have := (List.mem_filter.mp hq).2
      simpa using this
    unfold reactor_stop
    simp only [List.head?_cons, Option.map_some']
    rw [stop_prepolls]
    simp only [List.find?_cons, decide_True, h1]
    rw [stop_prepolls]
    simp only [h2, List.nil_append]
  · decide

end reactor_stop_theorems

section wait_readable_theorems
open pthr_pseudothread

theorem wait_again_once (e : env) (ready : Nat → Option Nat) (events operations fd : Int)
    (fuel : Nat) (s : fiber) (d : Nat) (h : ready s.npoll = some d) :
    wait_again e ready events operations fd (fuel + 1) s [] =
      (result.returned 1
         { s with npoll := s.npoll + 1, trace := s.trace ++ [effect.poll 1] },
       [⟨fd, events, -1, d, 1⟩]) := by
  simp [wait_again, sys_poll, h]

/-- Claim C29 fails in the code: `pth_wait_readable` and
`pth_wait_writable` call `poll (fds, 1, -1)`, with an infinite timeout
where the pattern of the other wrappers needs a zero timeout.  For a
descriptor that becomes ready only `d` milliseconds later the one call of
`poll` keeps the whole process in the kernel for `d` milliseconds; it
never returns `0`, so the fiber neither registers with the reactor nor
suspends, and the function returns `1`, where the header promises `0`. -/
theorem pth_wait_blocks_in_poll (e : env) (ready : Nat → Option Nat) (fd : Int)
    (fuel : Nat) (s : fiber) (d : Nat) (h : ready s.npoll = some d) :
    pth_wait_readable e ready fd (fuel + 1) s =
      (result.returned 1
         { s with npoll := s.npoll + 1, trace := s.trace ++ [effect.poll 1] },
       [⟨fd, POLLIN, -1, d, 1⟩]) ∧
    pth_wait_writable e ready fd (fuel + 1) s =
      (result.returned 1
         { s with npoll := s.npoll + 1, trace := s.trace ++ [effect.poll 1] },
       [⟨fd, POLLOUT, -1, d, 1⟩]) :=
  ⟨wait_again_once e ready POLLIN REACTOR_READ fd fuel s d h,
   wait_again_once e ready POLLOUT REACTOR_WRITE fd fuel s d h⟩

theorem pth_wait_blocks_in_poll_witness :
    pth_wait_readable example_quiet (fun _ => some 5000) 3 1 fiber.init =
      (result.returned 1
         { fiber.init with npoll := 1, trace := [effect.poll 1] },
       [⟨3, 1, -1, 5000, 1⟩]) :=
  (pth_wait_blocks_in_poll example_quiet (fun _ => some 5000) 3 0 fiber.init 5000 rfl).1

end wait_readable_theorems

section stack_theorems
open pthr_stack

theorem free_pending_freed (s : stack_state) :
    (free_pending s).freed = s.freed ++ s.pending ∧ (free_pending s).pending = [] ∧
    (free_pending s).pending_stack_base = 0 := by
  unfold free_pending stack_state.pending free_stack
  by_cases h : s.pending_stack_base = 0 <;> simp [h]

theorem return_stack_freed (base : Nat) (size : Int) (s : stack_state) :
    (_pth_return_stack base size s).freed = s.freed ++ s.pending ∧
    (_pth_return_stack base size s).pending_stack_base = base ∧
    (_pth_return_stack base size s).pending_stack_size = size ∧
    (_pth_return_stack base size s).pending = if base ≠ 0 then [(base, size)] else [] := by
  refine ⟨?_, rfl, rfl, ?_⟩
  · exact (free_pending_freed s).1
  · simp [_pth_return_stack, stack_state.pending]

theorem get_stack_freed (kernel : Nat → Nat × Bool) (size : Int) (s : stack_state) :
    (_pth_get_stack kernel size s).1.freed = s.freed ++ s.pending ∧
    (_pth_get_stack kernel size s).1.pending = [] ∧
    (_pth_get_stack kernel size s).1.pending_stack_base = 0 := by
  have hf := free_pending_freed s
  have h1 : (_pth_get_stack kernel size s).1 =
      { free_pending s with nalloc := (free_pending s).nalloc + 1 } := by
    unfold _pth_get_stack alloc_stack
    simp only
    split_ifs <;> rfl
  rw [h1]
  exact ⟨hf.1, by simpa [stack_state.pending] using hf.2.2, hf.2.2⟩

theorem get_stack_value (kernel : Nat → Nat × Bool) (size : Int) (s : stack_state)
    (hk : ∀ k, (kernel k).1 = 0 ∨ (kernel k).2 = true) :
    (_pth_get_stack kernel size s).2 ≠ none := by
  unfold _pth_get_stack alloc_stack
  simp only
  rcases hk (free_pending s).nalloc with h | h
  · rw [if_pos h]; simp
  · split_ifs <;> simp

theorem run_stack_inv (kernel : Nat → Nat × Bool) (cs : List stack_call) :
    ∀ (s : stack_state),
      (run_stack kernel cs s).1.freed ++ (run_stack kernel cs s).1.pending =
        s.freed ++ s.pending ++ returned (cs.take (run_stack kernel cs s).2) ∧
      (run_stack kernel cs s).2 ≤ cs.length := by
  induction cs with
  | nil => intro s; simp [run_stack, returned]
  | cons c cs ih =>
    intro s
    cases c with
    | get size =>
      have h3 := get_stack_freed kernel size s
      rw [run_stack]
      rcases hg : _pth_get_stack kernel size s with ⟨s2, v⟩
      rw [hg] at h3
      simp only at h3
      cases v with
      | none => simp [returned, h3.1, h3.2.1]
      | some b =>
        have h2 := ih s2
        simp only [List.take_succ_cons, returned, List.length_cons]
        rw [h2.1, h3.1, h3.2.1]
        exact ⟨by simp, by omega⟩
    | ret base size =>
      have h2 := ih (_pth_return_stack base size s)
      have h3 := return_stack_freed base size s
      rw [run_stack]
      simp only [List.take_succ_cons, List.length_cons]
      rw [h2.1, h3.1, h3.2.2.2]
      refine ⟨?_, by omega⟩
      by_cases hb : base = 0 <;> simp [returned, hb]

theorem run_stack_all (kernel : Nat → Nat × Bool)
    (hk : ∀ k, (kernel k).1 = 0 ∨ (kernel k).2 = true) (cs : List stack_call) :
    ∀ (s : stack_state), (run_stack kernel cs s).2 = cs.length := by
  induction cs with
  | nil => intro s; rfl
  | cons c cs ih =>
    intro s
    cases c with
    | get size =>
      have hv := get_stack_value kernel size s hk
      rw [run_stack]
      rcases hg : _pth_get_stack kernel size s with ⟨s2, v⟩
      rw [hg] at hv
      cases v with
      | none => exact absurd rfl hv
      | some b => simp [ih s2]
    | ret base size =>
      rw [run_stack]
      simp [ih]

theorem returned_take_count (cs : List stack_call) (n : Nat) (x : Nat × Int) :
    (returned (cs.take n)).count x ≤ (returned cs).count x := by
  induction cs generalizing n with
  | nil => simp
  | cons c cs ih =>
    cases n with
    | zero => simp [returned]
    | succ n =>
      cases c with
      | get size => simpa [returned] using ih n
      | ret base size =>
        simp only [List.take_succ_cons, returned]
        by_cases hb : base = 0
        · simpa [hb] using ih n
        · simp only [ne_eq, hb, not_false_eq_true, if_true, List.count_cons]
          have := ih n
          omega

/-- Claim C23: release of a stack is deferred.  In every state, a call of
`_pth_return_stack (base, size)` gives to `munmap` the region that was
pending, if any, and nothing else, and leaves `(base, size)` as the
pending region; a call of `_pth_get_stack` gives the pending region to
`munmap` and leaves none pending, also when `alloc_stack` then aborts.
After every sequence of calls from program start, the regions returned by
the calls made are, in order, the regions given to `munmap` followed by
the pending ones, of which there is at most one, so no region is given to
`munmap` more often than it was returned; and every call of the sequence
is made unless `mprotect` fails. -/
theorem stack_release_deferred (kernel : Nat → Nat × Bool) (cs : List stack_call) :
    (∀ (s : stack_state) (base : Nat) (size : Int),
      (_pth_return_stack base size s).freed = s.freed ++ s.pending ∧
      (_pth_return_stack base size s).pending_stack_base = base ∧
      (_pth_return_stack base size s).pending_stack_size = size) ∧
    (∀ (s : stack_state) (size : Int),
      (_pth_get_stack kernel size s).1.freed = s.freed ++ s.pending ∧
      (_pth_get_stack kernel size s).1.pending = []) ∧
    returned (cs.take (run_stack kernel cs stack_state.init).2) =
      (run_stack kernel cs stack_state.init).1.freed ++
        (run_stack kernel cs stack_state.init).1.pending ∧
    (run_stack kernel cs stack_state.init).1.pending.length ≤ 1 ∧
    (∀ x, (run_stack kernel cs stack_state.init).1.freed.count x ≤ (returned cs).count x) ∧
    ((∀ k, (kernel k).1 = 0 ∨ (kernel k).2 = true) →
      (run_stack kernel cs stack_state.init).2 = cs.length) := by
  have hinv := (run_stack_inv kernel cs stack_state.init).1
  have hinv2 : returned (cs.take (run_stack kernel cs stack_state.init).2) =
      (run_stack kernel cs stack_state.init).1.freed ++
        (run_stack kernel cs stack_state.init).1.pending := by
    rw [hinv]; simp [stack_state.init, stack_state.pending]
  refine ⟨?_, ?_, hinv2, ?_, ?_, ?_⟩
  · intro s base size
    have := return_stack_freed base size s
    exact ⟨this.1, this.2.1, this.2.2.1⟩
  · intro s size
    have := get_stack_freed kernel size s
    exact ⟨this.1, this.2.1⟩
  · unfold stack_state.pending
    split_ifs <;> simp
  · intro x
    have h1 := returned_take_count cs (run_stack kernel cs stack_state.init).2 x
    rw [hinv2, List.count_append] at h1
    omega
  · intro hk
    exact run_stack_all kernel hk cs stack_state.init

theorem stack_release_deferred_witness :
    run_stack (fun k => (4096 * (k + 1), true)) example_stack_calls stack_state.init =
      ({ pending_stack_base := 12288, pending_stack_size := 32768,
         freed := [(4096, 65536), (8192, 65536)], nalloc := 2 }, 5) ∧
    (run_stack (fun k => (4096 * (k + 1), true)) example_stack_calls stack_state.init).2 =
      example_stack_calls.length ∧
    run_stack (fun k => (4096 * (k + 1), decide (k = 0))) example_stack_calls
        stack_state.init =
      ({ pending_stack_base := 0, pending_stack_size := 65536,
         freed := [(4096, 65536), (8192, 65536)], nalloc := 2 }, 3) :=
  ⟨by decide,
   (stack_release_deferred (fun k => (4096 * (k + 1), true)) example_stack_calls).2.2.2.2.2
     (fun _ => Or.inr rfl),
   by decide⟩

end stack_theorems

section exception_theorems
open pthr_pseudothread

theorem frames_push (s : exc_state) :
    (push_frame s).frames = s.frames ++ [s.next_jb] := rfl

theorem frames_some (s : exc_state) (v : List Nat) (j : Nat) (h : s.frames = v ++ [j]) :
    s.exception_jmp_vec = some (v ++ [j]) := by
  unfold exc_state.frames at h
  cases hv : s.exception_jmp_vec with
  | none => rw [hv] at h; simp at h
  | some vec => rw [hv] at h; simp only [Option.getD_some] at h; rw [h]

theorem die_framed (msg : String) (s : exc_state) (v : List Nat) (j : Nat)
    (h : s.frames = v ++ [j]) :
    ∃ s1, _pth_die msg s = (flow.jumped j, s1) ∧ s1.frames = v ∧
      s1.exception_msg = some msg := by
  have hv := frames_some s v j h
  refine ⟨{ s with exception_msg := some msg, exception_jmp_vec := some v }, ?_, rfl, rfl⟩
  unfold _pth_die
  rw [hv]
  simp

theorem die_unframed (msg : String) (s : exc_state) (h : s.frames = []) :
    ∃ s1, _pth_die msg s = (flow.exited, s1) ∧ msg ∈ s1.stderr := by
  refine ⟨{ s with stderr := s.stderr ++ [msg] }, ?_, by simp⟩
  unfold exc_state.frames at h
  cases hv : s.exception_jmp_vec with
  | none => unfold _pth_die; rw [hv]
  | some vec =>
    rw [hv] at h
    simp only [Option.getD_some] at h
    subst h
    unfold _pth_die; rw [hv]; simp

theorem pop_pushed (s : exc_state) (v : List Nat) (j : Nat) (h : s.frames = v ++ [j]) :
    ∃ s1, pop_frame s = some s1 ∧ s1.frames = v := by
  have hv := frames_some s v j h
  refine ⟨{ s with exception_jmp_vec := some v }, ?_, rfl⟩
  unfold pop_frame
  rw [hv]
  simp

theorem run_code_refines (c : code) : ∀ s : exc_state, run_ok c s := by
  induction c with
  | returns => intro s; exact ⟨s, rfl, rfl⟩
  | call_die msg =>
    intro s
    exact ⟨fun v j h => die_framed msg s v j h, fun h => die_unframed msg s h⟩
  | call_exit => intro s; exact ⟨s, rfl⟩
  | call_catch fn k ihf ihk =>
    intro s
    have hf := ihf (push_frame s)
    unfold run_ok at hf ⊢
    simp only [catch_spec, run_code]
    cases hc : catch_spec fn with
    | normal =>
      rw [hc] at hf
      obtain ⟨s1, h1, h2⟩ := hf
      rw [frames_push] at h2
      obtain ⟨s2, h3, h4⟩ := pop_pushed s1 _ _ h2
      have hk := ihk none s2
      unfold run_ok at hk
      simp only [h1, after_fn, h3]
      rw [h4] at hk
      exact hk
    | died msg =>
      rw [hc] at hf
      obtain ⟨s1, h1, h2, h3⟩ := hf.1 _ _ (frames_push s)
      have hk := ihk (some msg) s1
      unfold run_ok at hk
      simp only [h1, after_fn, if_true, h3]
      rw [h2] at hk
      exact hk
    | exit =>
      rw [hc] at hf
      obtain ⟨s1, h1⟩ := hf
      simp only [h1, after_fn]
      exact ⟨s1, rfl⟩

/-- Claim C21: `pth_catch` against the specification of exceptions.  For
every function `fn`, whatever catches are nested in it, and every state of
the fiber: when `fn` ends by a `pth_die` that no `pth_catch` inside `fn`
has caught, `pth_catch (fn, data)` returns the message of that `pth_die`;
when `fn` returns normally it returns null; in both cases the exception
frames of the fiber are the same after the call as before; and when `fn`
calls `pth_exit` the fiber exits.  The specification `catch_spec` delivers
each `pth_die` to the innermost enclosing `pth_catch`.  In the example, a
`pth_catch` around `do_test` of `test_except1.c`, the inner `pth_catch`
receives the message and the outer one returns null. -/
theorem pth_catch_delivers (fn : code) (s : exc_state) :
    (match catch_spec fn with
     | ending.normal =>
       ∃ s1, pth_catch fn s = (flow.returned none, s1) ∧ s1.frames = s.frames
     | ending.died msg =>
       ∃ s1, pth_catch fn s = (flow.returned (some msg), s1) ∧ s1.frames = s.frames
     | ending.exit => ∃ s1, pth_catch fn s = (flow.exited, s1)) ∧
    pth_catch example_code
        { exception_jmp_vec := none, exception_msg := none, next_jb := 0, stderr := [] } =
      (flow.returned none,
       { exception_jmp_vec := some [], exception_msg := some "this is the message",
         next_jb := 2, stderr := [] }) := by
  constructor
  · have hf := run_code_refines fn (push_frame s)
    unfold run_ok at hf
    unfold pth_catch
    cases hc : catch_spec fn with
    | normal =>
      rw [hc] at hf
      obtain ⟨s1, h1, h2⟩ := hf
      rw [frames_push] at h2
      obtain ⟨s2, h3, h4⟩ := pop_pushed s1 _ _ h2
      exact ⟨s2, by simp only [h1, after_fn, h3], h4⟩
    | died msg =>
      rw [hc] at hf
      obtain ⟨s1, h1, h2, h3⟩ := hf.1 _ _ (frames_push s)
      exact ⟨s1, by simp only [h1, after_fn, if_true, h3], h2⟩
    | exit =>
      rw [hc] at hf
      obtain ⟨s1, h1⟩ := hf
      exact ⟨s1, by simp only [h1, after_fn]⟩
  · decide

end exception_theorems

section start_theorems
open pthr_pseudothread

theorem run_fiber_inv (c : fiber_code) : ∀ (self : Nat) (s : sched), s.current_pth = self →
    ∃ new, (run_fiber self c s).seen = s.seen ++ new ∧ all_self new ∧
      (run_fiber self c s).wrong_context = s.wrong_context := by
  induction c with
  | finish => intro self s _; exact ⟨[], by simp [run_fiber], by simp [all_self], rfl⟩
  | call_exit =>
    intro self s h
    exact ⟨[], by simp [run_fiber, h], by simp [all_self], by simp [run_fiber, h]⟩
  | suspend k _ =>
    intro self s h
    exact ⟨[], by simp [run_fiber, h], by simp [all_self], by simp [run_fiber, h]⟩
  | observe k ih =>
    intro self s h
    obtain ⟨new, h1, h2, h3⟩ := ih self { s with seen := s.seen ++ [(self, s.current_pth)] } h
    refine ⟨(self, s.current_pth) :: new, ?_, ?_, ?_⟩
    · rw [run_fiber, h1]; simp
    · intro o ho
      rcases List.mem_cons.mp ho with ho | ho
      · rw [ho]; exact h.symm
      · exact h2 o ho
    · rw [run_fiber, h3]
  | start pth run k ihr ihk =>
    intro self s h
    obtain ⟨n1, h1, h2, h3⟩ := ihr pth { s with current_pth := pth } rfl
    obtain ⟨n2, h4, h5, h6⟩ := ihk self
      { run_fiber pth run { s with current_pth := pth } with current_pth := s.current_pth } h
    refine ⟨n1 ++ n2, ?_, ?_, ?_⟩
    · rw [run_fiber, h4, h1]; simp
    · intro o ho
      rcases List.mem_append.mp ho with ho | ho
      · exact h2 o ho
      · exact h5 o ho
    · rw [run_fiber, h6, h3]

theorem pth_start_inv (pth : Nat) (run : fiber_code) (s : sched) :
    (pth_start pth run s).current_pth = s.current_pth ∧
    (pth_start pth run s).wrong_context = s.wrong_context ∧
    ∃ new, (pth_start pth run s).seen = s.seen ++ new ∧ all_self new := by
  obtain ⟨n1, h1, h2, h3⟩ := run_fiber_inv run pth { s with current_pth := pth } rfl
  exact ⟨rfl, h3, n1, h1, h2⟩

theorem run_main_inv (ops : List main_op) : ∀ (s s1 : sched), run_main ops s = some s1 →
    s1.wrong_context = s.wrong_context ∧ ∃ new, s1.seen = s.seen ++ new ∧ all_self new := by
  induction ops with
  | nil =>
    intro s s1 h
    simp [run_main] at h
    subst h
    exact ⟨rfl, [], by simp, by simp [all_self]⟩
  | cons op ops ih =>
    intro s s1 h
    cases op with
    | start pth run =>
      simp only [run_main] at h
      obtain ⟨a1, n1, a2, a3⟩ := ih _ s1 h
      obtain ⟨_, b1, n0, b2, b3⟩ := pth_start_inv pth run s
      refine ⟨a1.trans b1, n0 ++ n1, by rw [a2, b2]; simp, ?_⟩
      intro o ho
      rcases List.mem_append.mp ho with ho | ho
      · exact b3 o ho
      · exact a3 o ho
    | resume pth =>
      simp only [run_main, _pth_switch_calling_to_thread_context] at h
      cases hl : s.suspended.lookup pth with
      | none => rw [hl] at h; cases h
      | some k =>
        rw [hl] at h
        simp only at h
        obtain ⟨a1, n1, a2, a3⟩ := ih _ s1 h
        obtain ⟨n0, b1, b2, b3⟩ := run_fiber_inv k pth
          { s with current_pth := pth, suspended := s.suspended.eraseP (fun x => x.1 = pth) } rfl
        refine ⟨a1.trans b3, n0 ++ n1, by rw [a2, b1]; simp, ?_⟩
        intro o ho
        rcases List.mem_append.mp ho with ho | ho
        · exact b2 o ho
        · exact a3 o ho

/-- Claim C22: `pth_start` restores `current_pth`.  Whatever the value of
`current_pth` at the call and whatever the started fiber does (it returns,
exits, suspends, starts further fibers), `current_pth` has the same value
when `pth_start` returns, and no switch is made through a `current_pth`
that names another fiber.  Every read of `current_pth` made by a fiber
while its entry function runs, after the start as well as after later
switches into the fiber by the reactor, gives that fiber. -/
theorem pth_start_restores_current_pth (pth : Nat) (run : fiber_code) (s : sched)
    (ops : List main_op) (s1 : sched) (h : run_main ops s = some s1) :
    (pth_start pth run s).current_pth = s.current_pth ∧
    (pth_start pth run s).wrong_context = s.wrong_context ∧
    (∃ new, (pth_start pth run s).seen = s.seen ++ new ∧ all_self new) ∧
    s1.wrong_context = s.wrong_context ∧
    (∃ new, s1.seen = s.seen ++ new ∧ all_self new) := by
  obtain ⟨a, b, c⟩ := pth_start_inv pth run s
  obtain ⟨d, e⟩ := run_main_inv ops s s1 h
  exact ⟨a, b, c, d, e⟩

theorem pth_start_restores_current_pth_witness :
    (pth_start 1 (fiber_code.observe (fiber_code.suspend fiber_code.finish))
        { current_pth := 4660, suspended := [], seen := [], wrong_context := false }).current_pth
      = 4660 ∧
    run_main example_main
        { current_pth := 4660, suspended := [], seen := [], wrong_context := false } =
      some { current_pth := 1, suspended := [], seen := [(1, 1), (2, 2), (1, 1), (2, 2)],
             wrong_context := false } :=
  ⟨(pth_start_restores_current_pth 1 (fiber_code.observe (fiber_code.suspend fiber_code.finish))
      { current_pth := 4660, suspended := [], seen := [], wrong_context := false }
      example_main
      { current_pth := 1, suspended := [], seen := [(1, 1), (2, 2), (1, 1), (2, 2)],
        wrong_context := false } (by decide)).1, by decide⟩

end start_theorems
